import Mathlib

/-!
Simd: integer descriptor codec (`SimdAvx2DescrInt.cpp`, `SimdDescrIntCommon.h`)

A shallow embedding of the AVX2 descriptor codec.

* A SIMD register (`__m128i`, `__m256i`) and a byte buffer are both modelled as a function
  from byte index to byte value (`Vec`); wider lanes are read with `u16`/`u32` (little endian)
  and written with `ofU16`/`ofU32`.
* A float register (`__m128`, `__m256`) and a float buffer are functions from lane index to a
  rational number (`FVec`): floating point arithmetic is taken exactly. The float code whose
  rounding, overflow or NaN matters is repeated over the binary32 format (`F32`, namespace
  `Ieee`), where every operation rounds to the nearest binary32 number.
* Every intrinsic is a definition that follows the Intel pseudo code lane by lane.
* A `for` loop is `forLoop`, which runs the body while the condition holds, bounded by a fuel
  that the callers set to a bound of the trip count: `size`, or `main = size - 8` (a `size_t`,
  so it wraps for `size = 0`) for the loops of the 5, 6 and 7-bit encoders that run up to
  `main16` and `main`.
-/

namespace Simd

/-! ## Lanes and machine integers -/

/-- A register or a byte buffer: byte index to byte value. -/
abbrev Vec := Nat → Nat

/-- A float register or a float buffer: lane index to value (exact arithmetic). -/
abbrev FVec := Nat → ℚ

/-- The unsigned 16-bit lane `i` of a register. -/
def u16 (v : Vec) (i : Nat) : Nat := v (2 * i) + 256 * v (2 * i + 1)

/-- The unsigned 32-bit lane `i` of a register. -/
def u32 (v : Vec) (i : Nat) : Nat :=
  v (4 * i) + 256 * v (4 * i + 1) + 65536 * v (4 * i + 2) + 16777216 * v (4 * i + 3)

/-- The register whose 16-bit lanes are the values `f i` (taken modulo `2^16`). -/
def ofU16 (f : Nat → Nat) : Vec := fun j => f (j / 2) / 256 ^ (j % 2) % 256

/-- The register whose 32-bit lanes are the values `f i` (taken modulo `2^32`). -/
def ofU32 (f : Nat → Nat) : Vec := fun j => f (j / 4) / 256 ^ (j % 4) % 256

/-- Two's complement reading of a byte. -/
def toS8 (x : Nat) : Int := if x < 128 then (x : Int) else (x : Int) - 256

/-- Two's complement reading of a 16-bit lane. -/
def toS16 (x : Nat) : Int := if x < 32768 then (x : Int) else (x : Int) - 65536

/-- Two's complement reading of a 32-bit lane. -/
def toS32 (x : Nat) : Int := if x < 2147483648 then (x : Int) else (x : Int) - 4294967296

/-- The 16-bit pattern of an integer (wrapping). -/
def ofS16 (z : Int) : Nat := (z % 65536).toNat

/-- The 32-bit pattern of an integer (wrapping). -/
def ofS32 (z : Int) : Nat := (z % 4294967296).toNat

/-- Saturation to `uint8_t`. -/
def satU8 (z : Int) : Nat := if z < 0 then 0 else if 255 < z then 255 else z.toNat

/-- Saturation to `uint16_t`. -/
def satU16 (z : Int) : Nat := if z < 0 then 0 else if 65535 < z then 65535 else z.toNat

/-- Saturation to `int16_t`. -/
def satS16 (z : Int) : Int := if z < -32768 then -32768 else if 32767 < z then 32767 else z

/-- Round to nearest, ties to even (the default MXCSR rounding mode), on exact values. -/
def roundNearestEven (x : ℚ) : Int :=
  let f := ⌊x⌋
  if x - f < 1 / 2 then f
  else if 1 / 2 < x - f then f + 1
  else if f % 2 = 0 then f else f + 1

/-- One lane of `cvtps_epi32`: round to nearest even; a result outside `int32_t` gives the
integer indefinite value `0x80000000`. -/
def cvtps_lane (x : ℚ) : Int :=
  let r := roundNearestEven x
  if -2147483648 ≤ r ∧ r < 2147483648 then r else -2147483648

/-! ## Loops -/

/-- `for (; cond; ) body`, cut off after `fuel` iterations. -/
def forLoop {σ : Type} (fuel : Nat) (cond : σ → Bool) (body : σ → σ) (s : σ) : σ :=
  match fuel with
  | 0 => s
  | n + 1 => if cond s then forLoop n cond body (body s) else s

/-- The subtraction `a - b` on `size_t` (64 bits, wrapping). -/
def subSizeT (a b : Nat) : Nat := (a + 18446744073709551616 - b) % 18446744073709551616

/-- Modelled from the spec: `AlignLo` of `SimdMemory.h` (absent here), which rounds `size` down
to a multiple of the power of two `align` (`size & ~(align - 1)`). -/
def AlignLo (size align : Nat) : Nat := size / align * align

/-- Modelled from the spec: `AlignLoAny` of `SimdMemory.h` (absent here), which rounds `size`
down to a multiple of `align`. -/
def AlignLoAny (size align : Nat) : Nat := size / align * align

/-! ## Intrinsics -/

def _mm_setr_epi8 (l : List Int) : Vec := fun j => ((l.getD j 0) % 256).toNat
def _mm_setr_epi16 (l : List Nat) : Vec := ofU16 (fun i => l.getD i 0)
def _mm256_setzero_si256 : Vec := fun _ => 0
def _mm256_set1_ps (x : ℚ) : FVec := fun _ => x
def _mm_set1_ps (x : ℚ) : FVec := fun _ => x

def _mm_loadu_si128 (m : Vec) (p : Nat) : Vec := fun j => m (p + j)
def _mm256_loadu_si256 (m : Vec) (p : Nat) : Vec := fun j => m (p + j)
def _mm_loadl_epi64 (m : Vec) (p : Nat) : Vec := fun j => if j < 8 then m (p + j) else 0
def _mm256_loadu_ps (m : FVec) (p : Nat) : FVec := fun j => m (p + j)

def _mm_storeu_si128 (m : Vec) (p : Nat) (v : Vec) : Vec :=
  fun a => if p ≤ a ∧ a < p + 16 then v (a - p) else m a
def _mm256_storeu_si256 (m : Vec) (p : Nat) (v : Vec) : Vec :=
  fun a => if p ≤ a ∧ a < p + 32 then v (a - p) else m a
def _mm_storel_epi64 (m : Vec) (p : Nat) (v : Vec) : Vec :=
  fun a => if p ≤ a ∧ a < p + 8 then v (a - p) else m a
def _mm256_storeu_ps (m : FVec) (p : Nat) (v : FVec) : FVec :=
  fun a => if p ≤ a ∧ a < p + 8 then v (a - p) else m a
def _mm_storeu_ps (m : FVec) (p : Nat) (v : FVec) : FVec :=
  fun a => if p ≤ a ∧ a < p + 4 then v (a - p) else m a

/-- The store `*(uint32_t*)(m + p) = x` (little endian). -/
def store_u32 (m : Vec) (p : Nat) (x : Nat) : Vec :=
  fun a => if p ≤ a ∧ a < p + 4 then x / 256 ^ (a - p) % 256 else m a
/-- The store `*(uint16_t*)(m + p) = x` (little endian). -/
def store_u16 (m : Vec) (p : Nat) (x : Nat) : Vec :=
  fun a => if p ≤ a ∧ a < p + 2 then x / 256 ^ (a - p) % 256 else m a
/-- The store `*(uint8_t*)(m + p) = x`. -/
def store_u8 (m : Vec) (p : Nat) (x : Nat) : Vec :=
  fun a => if a = p then x % 256 else m a

def _mm_extract_epi32 (a : Vec) (i : Nat) : Nat := u32 a i
def _mm_extract_epi16 (a : Vec) (i : Nat) : Nat := u16 a i
def _mm_extract_epi8 (a : Vec) (i : Nat) : Nat := a i

def _mm256_castsi256_si128 (a : Vec) : Vec := a
/-- The upper 128 bits of the result are modelled as zero (zero extension). -/
def _mm256_castsi128_si256 (a : Vec) : Vec := fun j => if j < 16 then a j else 0
def _mm256_extracti128_si256 (a : Vec) (i : Nat) : Vec := fun j => a (16 * i + j)
def _mm256_broadcastsi128_si256 (a : Vec) : Vec := fun j => a (j % 16)

def _mm_mullo_epi16 (a b : Vec) : Vec := ofU16 (fun i => u16 a i * u16 b i % 65536)
def _mm256_mullo_epi16 (a b : Vec) : Vec := ofU16 (fun i => u16 a i * u16 b i % 65536)
def _mm_srli_epi16 (a : Vec) (n : Nat) : Vec := ofU16 (fun i => u16 a i / 2 ^ n)
def _mm256_srli_epi16 (a : Vec) (n : Nat) : Vec := ofU16 (fun i => u16 a i / 2 ^ n)
def _mm_srli_epi32 (a : Vec) (n : Nat) : Vec := ofU32 (fun i => u32 a i / 2 ^ n)
def _mm256_srli_epi32 (a : Vec) (n : Nat) : Vec := ofU32 (fun i => u32 a i / 2 ^ n)
def _mm_srli_si128 (a : Vec) (n : Nat) : Vec := fun j => if j + n < 16 then a (j + n) else 0

def _mm_shuffle_epi8 (a b : Vec) : Vec := fun j => if 128 ≤ b j then 0 else a (b j % 16)
def _mm256_shuffle_epi8 (a b : Vec) : Vec :=
  fun j => if 128 ≤ b j then 0 else a (16 * (j / 16) + b j % 16)

def _mm_or_si128 (a b : Vec) : Vec := fun j => a j ||| b j
def _mm256_or_si256 (a b : Vec) : Vec := fun j => a j ||| b j
def _mm256_and_si256 (a b : Vec) : Vec := fun j => a j &&& b j

def _mm_packus_epi32 (a b : Vec) : Vec :=
  ofU16 (fun i => if i < 4 then satU16 (toS32 (u32 a i)) else satU16 (toS32 (u32 b (i - 4))))
def _mm_packus_epi16 (a b : Vec) : Vec :=
  fun j => if j < 8 then satU8 (toS16 (u16 a j)) else satU8 (toS16 (u16 b (j - 8)))

def _mm256_add_epi16 (a b : Vec) : Vec := ofU16 (fun i => (u16 a i + u16 b i) % 65536)
def _mm256_add_epi32 (a b : Vec) : Vec := ofU32 (fun i => (u32 a i + u32 b i) % 4294967296)
def _mm256_madd_epi16 (a b : Vec) : Vec :=
  ofU32 (fun i => ofS32 (toS16 (u16 a (2 * i)) * toS16 (u16 b (2 * i))
    + toS16 (u16 a (2 * i + 1)) * toS16 (u16 b (2 * i + 1))))
def _mm256_maddubs_epi16 (a b : Vec) : Vec :=
  ofU16 (fun i => ofS16 (satS16 ((a (2 * i) : Int) * toS8 (b (2 * i))
    + (a (2 * i + 1) : Int) * toS8 (b (2 * i + 1)))))

def _mm256_cvtepu8_epi16 (a : Vec) : Vec := ofU16 (fun i => a i)
def _mm256_cvtepu8_epi32 (a : Vec) : Vec := ofU32 (fun i => a i)
def _mm256_cvtepu16_epi32 (a : Vec) : Vec := ofU32 (fun i => u16 a i)
def _mm256_cvtepi32_ps (a : Vec) : FVec := fun i => (toS32 (u32 a i) : ℚ)
def _mm_cvtepi32_ps (a : Vec) : FVec := fun i => (toS32 (u32 a i) : ℚ)
def _mm256_cvtps_epi32 (a : FVec) : Vec := ofU32 (fun i => ofS32 (cvtps_lane (a i)))

def _mm256_sub_ps (a b : FVec) : FVec := fun i => a i - b i
def _mm256_mul_ps (a b : FVec) : FVec := fun i => a i * b i
def _mm256_fmadd_ps (a b c : FVec) : FVec := fun i => a i * b i + c i

/-! ## Helpers of the library that are declared outside the translated files -/

/-- Modelled from the spec: `PackU32ToI16` of `SimdStore.h` (absent here): the sixteen 16-bit
lanes are the unsigned saturations of the eight 32-bit lanes of `lo` followed by those of `hi`
(`_mm256_packus_epi32` with the lane order restored). -/
def PackU32ToI16 (lo hi : Vec) : Vec :=
  ofU16 (fun i => if i < 8 then satU16 (toS32 (u32 lo i)) else satU16 (toS32 (u32 hi (i - 8))))

/-- Modelled from the spec: `PackI32ToI16` of `SimdStore.h` (absent here): the sixteen 16-bit
lanes are the signed saturations of the eight 32-bit lanes of `lo` followed by those of `hi`. -/
def PackI32ToI16 (lo hi : Vec) : Vec :=
  ofU16 (fun i => if i < 8 then ofS16 (satS16 (toS32 (u32 lo i)))
    else ofS16 (satS16 (toS32 (u32 hi (i - 8)))))

/-- Modelled from the spec: `PackI16ToU8` of `SimdStore.h` (absent here): the 32 bytes are the
unsigned saturations of the sixteen signed 16-bit lanes of `lo` followed by those of `hi`. -/
def PackI16ToU8 (lo hi : Vec) : Vec :=
  fun j => if j < 16 then satU8 (toS16 (u16 lo j)) else satU8 (toS16 (u16 hi (j - 16)))

/-- Modelled from the spec: `ExtractSum<uint32_t>` of `SimdExtract.h` (absent here): the sum of
the eight 32-bit lanes, as a `uint32_t`. -/
def ExtractSum (a : Vec) : Nat :=
  (u32 a 0 + u32 a 1 + u32 a 2 + u32 a 3 + u32 a 4 + u32 a 5 + u32 a 6 + u32 a 7) % 4294967296

/-- Modelled from the spec: `Extract4Sums` of `SimdExtract.h` (absent here): lane `k` of the
result is the sum of the eight 32-bit lanes of the `k`-th argument. -/
def Extract4Sums (a0 a1 a2 a3 : Vec) : Vec :=
  ofU32 (fun k => match k with
    | 0 => ExtractSum a0
    | 1 => ExtractSum a1
    | 2 => ExtractSum a2
    | _ => ExtractSum a3)

/-- Modelled from the spec: the constant `K8_0F` of `SimdConst.h` (absent here), every byte
`0x0F`. -/
def K8_0F : Vec := fun _ => 15

/-- Modelled from the spec: the constant `K16_0001` of `SimdConst.h` (absent here), every 16-bit
lane `1`. -/
def K16_0001 : Vec := ofU16 (fun _ => 1)

/-- Modelled from the spec: `A`, the byte size of a `__m256i` (`SimdConst.h`, absent here). -/
def A : Nat := 32

/-- Modelled from the spec: `F`, the number of floats in a `__m256` (`SimdConst.h`, absent
here). -/
def F : Nat := 8

namespace Sse41

/-- Modelled from the spec: the constant `Sse41::K_ZERO` of `SimdConst.h` (absent here). -/
def K_ZERO : Vec := fun _ => 0

def E4_MULLO : Vec := _mm_setr_epi16 [4096, 1, 4096, 1, 4096, 1, 4096, 1]

def E5_MULLO : Vec := _mm_setr_epi16 [256, 32, 4, 128, 16, 2, 64, 8]
def E5_SHFL0 : Vec := _mm_setr_epi8 [0x1, 0x3, 0x7, 0x9, 0xD, -1, -1, -1, -1, -1, -1, -1, -1, -1, -1, -1]
def E5_SHFL1 : Vec := _mm_setr_epi8 [0x2, 0x4, 0x8, 0xA, 0xE, -1, -1, -1, -1, -1, -1, -1, -1, -1, -1, -1]
def E5_SHFL2 : Vec := _mm_setr_epi8 [ -1, 0x6,  -1, 0xC,  -1, -1, -1, -1, -1, -1, -1, -1, -1, -1, -1, -1]

def E6_MULLO : Vec := _mm_setr_epi16 [256, 64, 16, 4, 256, 64, 16, 4]
def E6_SHFL0 : Vec := _mm_setr_epi8 [0x1, 0x3, 0x5, 0x9, 0xB, 0xD, -1, -1, -1, -1, -1, -1, -1, -1, -1, -1]
def E6_SHFL1 : Vec := _mm_setr_epi8 [0x2, 0x4, 0x6, 0xA, 0xC, 0xE, -1, -1, -1, -1, -1, -1, -1, -1, -1, -1]

def E7_MULLO : Vec := _mm_setr_epi16 [256, 128, 64, 32, 16, 8, 4, 2]
def E7_SHFL0 : Vec := _mm_setr_epi8 [0x1, 0x3, 0x5, 0x7, 0x9, 0xB, 0xD, -1, -1, -1, -1, -1, -1, -1, -1, -1]
def E7_SHFL1 : Vec := _mm_setr_epi8 [0x2, 0x4, 0x6, 0x8, 0xA, 0xC, 0xE, -1, -1, -1, -1, -1, -1, -1, -1, -1]

def C4_MULLO : Vec := _mm_setr_epi16 [4096, 256, 4096, 256, 4096, 256, 4096, 256]
def C4_SHFL0 : Vec := _mm_setr_epi8 [0x0, 0x0, 0x0, 0x0, 0x1, 0x1, 0x1, 0x1, 0x2, 0x2, 0x2, 0x2, 0x3, 0x3, 0x3, 0x3]

def C5_SHFL0 : Vec := _mm_setr_epi8 [0x0, 0x0, 0x0, 0x1, 0x1, 0x1, 0x1, 0x2, 0x2, 0x3, 0x3, 0x3, 0x3, 0x4, 0x4, 0x4]
def C5_SHFL1 : Vec := _mm_setr_epi8 [0x5, 0x5, 0x5, 0x6, 0x6, 0x6, 0x6, 0x7, 0x7, 0x8, 0x8, 0x8, 0x8, 0x9, 0x9, 0x9]
def C5_MULLO : Vec := _mm_setr_epi16 [8, 64, 2, 16, 128, 4, 32, 256]

def C6_SHFL0 : Vec := _mm_setr_epi8 [0x0, 0x0, 0x0, 0x1, 0x1, 0x2, 0x2, 0x2, 0x3, 0x3, 0x3, 0x4, 0x4, 0x5, 0x5, 0x5]
def C6_SHFL1 : Vec := _mm_setr_epi8 [0x6, 0x6, 0x6, 0x7, 0x7, 0x8, 0x8, 0x8, 0x9, 0x9, 0x9, 0xA, 0xA, 0xB, 0xB, 0xB]
def C6_MULLO : Vec := _mm_setr_epi16 [4, 16, 64, 256, 4, 16, 64, 256]

def C7_SHFL0 : Vec := _mm_setr_epi8 [0x0, 0x0, 0x0, 0x1, 0x1, 0x2, 0x2, 0x3, 0x3, 0x4, 0x4, 0x5, 0x5, 0x6, 0x6, 0x6]
def C7_SHFL1 : Vec := _mm_setr_epi8 [0x7, 0x7, 0x7, 0x8, 0x8, 0x9, 0x9, 0xA, 0xA, 0xB, 0xB, 0xC, 0xC, 0xD, 0xD, 0xD]
def C7_MULLO : Vec := _mm_setr_epi16 [2, 4, 8, 16, 32, 64, 128, 256]

end Sse41

namespace Avx2

def E4_MULLO : Vec := _mm_setr_epi16 [4096, 1, 4096, 1, 4096, 1, 4096, 1, 4096, 1, 4096, 1, 4096, 1, 4096, 1]

def E5_MULLO : Vec := _mm_setr_epi16 [256, 32, 4, 128, 16, 2, 64, 8, 256, 32, 4, 128, 16, 2, 64, 8]
def E5_SHFL0 : Vec := _mm_setr_epi8 [
  0x1, 0x3, 0x7, 0x9, 0xD, -1, -1, -1, -1, -1, -1, -1, -1, -1, -1, -1,
  -1, -1, -1, -1, -1, 0x1, 0x3, 0x7, 0x9, 0xD, -1, -1, -1, -1, -1, -1]
def E5_SHFL1 : Vec := _mm_setr_epi8 [
  0x2, 0x4, 0x8, 0xA, 0xE, -1, -1, -1, -1, -1, -1, -1, -1, -1, -1, -1,
  -1, -1, -1, -1, -1, 0x2, 0x4, 0x8, 0xA, 0xE, -1, -1, -1, -1, -1, -1]
def E5_SHFL2 : Vec := _mm_setr_epi8 [
  -1, 0x6, -1, 0xC, -1, -1, -1, -1, -1, -1, -1, -1, -1, -1, -1, -1,
  -1, -1, -1, -1, -1, -1, 0x6, -1, 0xC, -1, -1, -1, -1, -1, -1, -1]

def E6_MULLO : Vec := _mm_setr_epi16 [256, 64, 16, 4, 256, 64, 16, 4, 256, 64, 16, 4, 256, 64, 16, 4]
def E6_SHFL0 : Vec := _mm_setr_epi8 [
  0x1, 0x3, 0x5, 0x9, 0xB, 0xD, -1, -1, -1, -1, -1, -1, -1, -1, -1, -1,
  -1, -1, -1, -1, -1, -1, 0x1, 0x3, 0x5, 0x9, 0xB, 0xD, -1, -1, -1, -1]
def E6_SHFL1 : Vec := _mm_setr_epi8 [
  0x2, 0x4, 0x6, 0xA, 0xC, 0xE, -1, -1, -1, -1, -1, -1, -1, -1, -1, -1,
  -1, -1, -1, -1, -1, -1, 0x2, 0x4, 0x6, 0xA, 0xC, 0xE, -1, -1, -1, -1]

def E7_MULLO : Vec := _mm_setr_epi16 [256, 128, 64, 32, 16, 8, 4, 2, 256, 128, 64, 32, 16, 8, 4, 2]
def E7_SHFL0 : Vec := _mm_setr_epi8 [
  0x1, 0x3, 0x5, 0x7, 0x9, 0xB, 0xD, -1, -1, -1, -1, -1, -1, -1, -1, -1,
  -1, -1, -1, -1, -1, -1, -1, 0x1, 0x3, 0x5, 0x7, 0x9, 0xB, 0xD, -1, -1]
def E7_SHFL1 : Vec := _mm_setr_epi8 [
  0x2, 0x4, 0x6, 0x8, 0xA, 0xC, 0xE, -1, -1, -1, -1, -1, -1, -1, -1, -1,
  -1, -1, -1, -1, -1, -1, -1, 0x2, 0x4, 0x6, 0x8, 0xA, 0xC, 0xE, -1, -1]

def C4_SHFL : Vec := _mm_setr_epi8 [
  0x0, 0x0, 0x0, 0x0, 0x1, 0x1, 0x1, 0x1, 0x2, 0x2, 0x2, 0x2, 0x3, 0x3, 0x3, 0x3,
  0x4, 0x4, 0x4, 0x4, 0x5, 0x5, 0x5, 0x5, 0x6, 0x6, 0x6, 0x6, 0x7, 0x7, 0x7, 0x7]
def C4_MULLO : Vec := _mm_setr_epi16 [4096, 256, 4096, 256, 4096, 256, 4096, 256, 4096, 256, 4096, 256, 4096, 256, 4096, 256]

def C5_SHFL : Vec := _mm_setr_epi8 [
  0x0, 0x0, 0x0, 0x1, 0x1, 0x1, 0x1, 0x2, 0x2, 0x3, 0x3, 0x3, 0x3, 0x4, 0x4, 0x4,
  0x5, 0x5, 0x5, 0x6, 0x6, 0x6, 0x6, 0x7, 0x7, 0x8, 0x8, 0x8, 0x8, 0x9, 0x9, 0x9]
def C5_MULLO : Vec := _mm_setr_epi16 [8, 64, 2, 16, 128, 4, 32, 256, 8, 64, 2, 16, 128, 4, 32, 256]

def C6_SHFL : Vec := _mm_setr_epi8 [
  0x0, 0x0, 0x0, 0x1, 0x1, 0x2, 0x2, 0x2, 0x3, 0x3, 0x3, 0x4, 0x4, 0x5, 0x5, 0x5,
  0x6, 0x6, 0x6, 0x7, 0x7, 0x8, 0x8, 0x8, 0x9, 0x9, 0x9, 0xA, 0xA, 0xB, 0xB, 0xB]
def C6_MULLO : Vec := _mm_setr_epi16 [4, 16, 64, 256, 4, 16, 64, 256, 4, 16, 64, 256, 4, 16, 64, 256]

def C7_SHFL : Vec := _mm_setr_epi8 [
  0x0, 0x0, 0x0, 0x1, 0x1, 0x2, 0x2, 0x3, 0x3, 0x4, 0x4, 0x5, 0x5, 0x6, 0x6, 0x6,
  0x7, 0x7, 0x7, 0x8, 0x8, 0x9, 0x9, 0xA, 0xA, 0xB, 0xB, 0xC, 0xC, 0xD, 0xD, 0xD]
def C7_MULLO : Vec := _mm_setr_epi16 [2, 4, 8, 16, 32, 64, 128, 256, 2, 4, 8, 16, 32, 64, 128, 256]

end Avx2

/-! ## Encoders (`Encode32f4` .. `Encode32f8`, `Encode16f4` .. `Encode16f8`) -/

/-- Loop state of an encoder: the index `i`, the pointers `src` and `dst` (as offsets from the
arguments), the vector accumulators `_sum` and `_sqsum`, and the destination buffer. -/
structure EncState where
  i : Nat
  src : Nat
  dst : Nat
  sum : Vec
  sqsum : Vec
  mem : Vec

/-- One loop of an encoder, `for (; i < bound; i += n, src += n, dst += bytes) store(dst, x(src))`
where `x` quantises and packs `n` elements and updates the accumulators. -/
def encLoop (x : FVec → Nat → FVec → FVec → Vec → Vec → Vec × Vec × Vec)
    (store : Vec → Nat → Vec → Vec) (n bytes bound : Nat)
    (src : FVec) (scale min : FVec) (fuel : Nat) (s : EncState) : EncState :=
  forLoop fuel (fun s => decide (s.i < bound))
    (fun s =>
      let e := x src s.src scale min s.sum s.sqsum
      ⟨s.i + n, s.src + n, s.dst + bytes, e.2.1, e.2.2, store s.mem s.dst e.1⟩) s

namespace Avx2

/-- The quantiser `Encode32f(__m256 src, ...)`: returns `value` and the updated `sum`, `sqsum`. -/
def Encode32f (src scale min : FVec) (sum sqsum : Vec) : Vec × Vec × Vec :=
  let value := _mm256_cvtps_epi32 (_mm256_mul_ps (_mm256_sub_ps src min) scale)
  (value, _mm256_add_epi32 value sum, _mm256_add_epi32 (_mm256_madd_epi16 value value) sqsum)

def Encode32f4x8 (src : FVec) (p : Nat) (scale min : FVec) (sum sqsum : Vec) : Vec × Vec × Vec :=
  let i0 := Encode32f (_mm256_loadu_ps src (p + 0 * 8)) scale min sum sqsum
  let s0 := _mm_srli_epi32 (_mm_mullo_epi16
    (_mm256_castsi256_si128 (PackU32ToI16 i0.1 _mm256_setzero_si256)) Sse41.E4_MULLO) 12
  (_mm_packus_epi16 (_mm_packus_epi32 s0 Sse41.K_ZERO) Sse41.K_ZERO, i0.2.1, i0.2.2)

def Encode32f4x32 (src : FVec) (p : Nat) (scale min : FVec) (sum sqsum : Vec) : Vec × Vec × Vec :=
  let i0 := Encode32f (_mm256_loadu_ps src (p + 0 * 8)) scale min sum sqsum
  let i1 := Encode32f (_mm256_loadu_ps src (p + 1 * 8)) scale min i0.2.1 i0.2.2
  let s0 := _mm256_srli_epi32 (_mm256_mullo_epi16 (PackU32ToI16 i0.1 i1.1) E4_MULLO) 12
  let i2 := Encode32f (_mm256_loadu_ps src (p + 2 * 8)) scale min i1.2.1 i1.2.2
  let i3 := Encode32f (_mm256_loadu_ps src (p + 3 * 8)) scale min i2.2.1 i2.2.2
  let s1 := _mm256_srli_epi32 (_mm256_mullo_epi16 (PackU32ToI16 i2.1 i3.1) E4_MULLO) 12
  (_mm_packus_epi16
      (_mm_packus_epi32 (_mm256_castsi256_si128 s0) (_mm256_extracti128_si256 s0 1))
      (_mm_packus_epi32 (_mm256_castsi256_si128 s1) (_mm256_extracti128_si256 s1 1)),
    i3.2.1, i3.2.2)

/-- The tail store of `Encode32f4`: `*(uint32_t*)(dst) = _mm_extract_epi32(d0, 0)`. -/
def store4 (m : Vec) (p : Nat) (d0 : Vec) : Vec := store_u32 m p (_mm_extract_epi32 d0 0)

def Encode32f4 (src : FVec) (scale min : ℚ) (size : Nat) (dst : Vec) : Int × Int × Vec :=
  let size32 := AlignLo size 32
  let _scale := _mm256_set1_ps scale
  let _min := _mm256_set1_ps min
  let s0 : EncState := ⟨0, 0, 0, _mm256_setzero_si256, _mm256_setzero_si256, dst⟩
  let s1 := encLoop Encode32f4x32 _mm_storeu_si128 32 16 size32 src _scale _min size s0
  let s2 := encLoop Encode32f4x8 store4 8 4 size src _scale _min size s1
  (toS32 (ExtractSum s2.sum), toS32 (ExtractSum s2.sqsum), s2.mem)

def Encode32f5x1 (src : FVec) (p : Nat) (scale min : FVec) (sum sqsum : Vec) : Vec × Vec × Vec :=
  let i0 := Encode32f (_mm256_loadu_ps src (p + 0)) scale min sum sqsum
  let s0 := _mm_mullo_epi16
    (_mm256_castsi256_si128 (PackU32ToI16 i0.1 _mm256_setzero_si256)) Sse41.E5_MULLO
  (_mm_or_si128 (_mm_or_si128 (_mm_shuffle_epi8 s0 Sse41.E5_SHFL0)
      (_mm_shuffle_epi8 s0 Sse41.E5_SHFL1)) (_mm_shuffle_epi8 s0 Sse41.E5_SHFL2),
    i0.2.1, i0.2.2)

def Encode32f5x2 (src : FVec) (p : Nat) (scale min : FVec) (sum sqsum : Vec) : Vec × Vec × Vec :=
  let i0 := Encode32f (_mm256_loadu_ps src (p + 0)) scale min sum sqsum
  let i8 := Encode32f (_mm256_loadu_ps src (p + 8)) scale min i0.2.1 i0.2.2
  let s0 := _mm256_mullo_epi16 (PackU32ToI16 i0.1 i8.1) E5_MULLO
  let e0 := _mm256_or_si256 (_mm256_or_si256 (_mm256_shuffle_epi8 s0 E5_SHFL0)
      (_mm256_shuffle_epi8 s0 E5_SHFL1)) (_mm256_shuffle_epi8 s0 E5_SHFL2)
  (_mm_or_si128 (_mm256_castsi256_si128 e0) (_mm256_extracti128_si256 e0 1), i8.2.1, i8.2.2)

/-- The last-group store of `Encode32f5`: a 32-bit store of lane 0 and a byte store of byte 4. -/
def store5 (m : Vec) (p : Nat) (d0 : Vec) : Vec :=
  store_u8 (store_u32 m (p + 0) (_mm_extract_epi32 d0 0)) (p + 4) (_mm_extract_epi8 d0 4)

def Encode32f5 (src : FVec) (scale min : ℚ) (size : Nat) (dst : Vec) : Int × Int × Vec :=
  let main := subSizeT size 8
  let main16 := AlignLo main 16
  let _scale := _mm256_set1_ps scale
  let _min := _mm256_set1_ps min
  let s0 : EncState := ⟨0, 0, 0, _mm256_setzero_si256, _mm256_setzero_si256, dst⟩
  let s1 := encLoop Encode32f5x2 _mm_storeu_si128 16 10 main16 src _scale _min main s0
  let s2 := encLoop Encode32f5x1 _mm_storel_epi64 8 5 main src _scale _min main s1
  let s3 := encLoop Encode32f5x1 store5 8 5 size src _scale _min size s2
  (toS32 (ExtractSum s3.sum), toS32 (ExtractSum s3.sqsum), s3.mem)

def Encode32f6x1 (src : FVec) (p : Nat) (scale min : FVec) (sum sqsum : Vec) : Vec × Vec × Vec :=
  let i0 := Encode32f (_mm256_loadu_ps src (p + 0)) scale min sum sqsum
  let s0 := _mm_mullo_epi16
    (_mm256_castsi256_si128 (PackU32ToI16 i0.1 _mm256_setzero_si256)) Sse41.E6_MULLO
  (_mm_or_si128 (_mm_shuffle_epi8 s0 Sse41.E6_SHFL0) (_mm_shuffle_epi8 s0 Sse41.E6_SHFL1),
    i0.2.1, i0.2.2)

def Encode32f6x2 (src : FVec) (p : Nat) (scale min : FVec) (sum sqsum : Vec) : Vec × Vec × Vec :=
  let i0 := Encode32f (_mm256_loadu_ps src (p + 0)) scale min sum sqsum
  let i8 := Encode32f (_mm256_loadu_ps src (p + 8)) scale min i0.2.1 i0.2.2
  let s0 := _mm256_mullo_epi16 (PackU32ToI16 i0.1 i8.1) E6_MULLO
  let e0 := _mm256_or_si256 (_mm256_shuffle_epi8 s0 E6_SHFL0) (_mm256_shuffle_epi8 s0 E6_SHFL1)
  (_mm_or_si128 (_mm256_castsi256_si128 e0) (_mm256_extracti128_si256 e0 1), i8.2.1, i8.2.2)

/-- The last-group store of `Encode32f6`: a 32-bit store of lane 0 and a 16-bit store of 16-bit
lane 2. -/
def store6 (m : Vec) (p : Nat) (d0 : Vec) : Vec :=
  store_u16 (store_u32 m (p + 0) (_mm_extract_epi32 d0 0)) (p + 4) (_mm_extract_epi16 d0 2)

def Encode32f6 (src : FVec) (scale min : ℚ) (size : Nat) (dst : Vec) : Int × Int × Vec :=
  let main := subSizeT size 8
  let main16 := AlignLo main 16
  let _scale := _mm256_set1_ps scale
  let _min := _mm256_set1_ps min
  let s0 : EncState := ⟨0, 0, 0, _mm256_setzero_si256, _mm256_setzero_si256, dst⟩
  let s1 := encLoop Encode32f6x2 _mm_storeu_si128 16 12 main16 src _scale _min main s0
  let s2 := encLoop Encode32f6x1 _mm_storel_epi64 8 6 main src _scale _min main s1
  let s3 := encLoop Encode32f6x1 store6 8 6 size src _scale _min size s2
  (toS32 (ExtractSum s3.sum), toS32 (ExtractSum s3.sqsum), s3.mem)

def Encode32f7x1 (src : FVec) (p : Nat) (scale min : FVec) (sum sqsum : Vec) : Vec × Vec × Vec :=
  let i0 := Encode32f (_mm256_loadu_ps src (p + 0)) scale min sum sqsum
  let s0 := _mm_mullo_epi16
    (_mm256_castsi256_si128 (PackU32ToI16 i0.1 _mm256_setzero_si256)) Sse41.E7_MULLO
  (_mm_or_si128 (_mm_shuffle_epi8 s0 Sse41.E7_SHFL0) (_mm_shuffle_epi8 s0 Sse41.E7_SHFL1),
    i0.2.1, i0.2.2)

def Encode32f7x2 (src : FVec) (p : Nat) (scale min : FVec) (sum sqsum : Vec) : Vec × Vec × Vec :=
  let i0 := Encode32f (_mm256_loadu_ps src (p + 0)) scale min sum sqsum
  let i8 := Encode32f (_mm256_loadu_ps src (p + 8)) scale min i0.2.1 i0.2.2
  let s0 := _mm256_mullo_epi16 (PackU32ToI16 i0.1 i8.1) E7_MULLO
  let e0 := _mm256_or_si256 (_mm256_shuffle_epi8 s0 E7_SHFL0) (_mm256_shuffle_epi8 s0 E7_SHFL1)
  (_mm_or_si128 (_mm256_castsi256_si128 e0) (_mm256_extracti128_si256 e0 1), i8.2.1, i8.2.2)

/-- The last-group store of `Encode32f7`: a 32-bit store of lane 0, a 16-bit store of 16-bit
lane 2 and a byte store of byte 6. -/
def store7 (m : Vec) (p : Nat) (d0 : Vec) : Vec :=
  store_u8 (store_u16 (store_u32 m (p + 0) (_mm_extract_epi32 d0 0)) (p + 4)
    (_mm_extract_epi16 d0 2)) (p + 6) (_mm_extract_epi8 d0 6)

def Encode32f7 (src : FVec) (scale min : ℚ) (size : Nat) (dst : Vec) : Int × Int × Vec :=
  let main := subSizeT size 8
  let main16 := AlignLo main 16
  let _scale := _mm256_set1_ps scale
  let _min := _mm256_set1_ps min
  let s0 : EncState := ⟨0, 0, 0, _mm256_setzero_si256, _mm256_setzero_si256, dst⟩
  let s1 := encLoop Encode32f7x2 _mm_storeu_si128 16 14 main16 src _scale _min main s0
  let s2 := encLoop Encode32f7x1 _mm_storel_epi64 8 7 main src _scale _min main s1
  let s3 := encLoop Encode32f7x1 store7 8 7 size src _scale _min size s2
  (toS32 (ExtractSum s3.sum), toS32 (ExtractSum s3.sqsum), s3.mem)

/-- The body of the main loop of `Encode32f8`: four quantised registers packed to 32 bytes. -/
def Encode32f8x32 (src : FVec) (p : Nat) (scale min : FVec) (sum sqsum : Vec) : Vec × Vec × Vec :=
  let d0 := Encode32f (_mm256_loadu_ps src (p + 0 * F)) scale min sum sqsum
  let d1 := Encode32f (_mm256_loadu_ps src (p + 1 * F)) scale min d0.2.1 d0.2.2
  let d2 := Encode32f (_mm256_loadu_ps src (p + 2 * F)) scale min d1.2.1 d1.2.2
  let d3 := Encode32f (_mm256_loadu_ps src (p + 3 * F)) scale min d2.2.1 d2.2.2
  (PackI16ToU8 (PackI32ToI16 d0.1 d1.1) (PackI32ToI16 d2.1 d3.1), d3.2.1, d3.2.2)

/-- The body of the tail loop of `Encode32f8`: one quantised register packed to 8 bytes. -/
def Encode32f8x8 (src : FVec) (p : Nat) (scale min : FVec) (sum sqsum : Vec) : Vec × Vec × Vec :=
  let d0 := Encode32f (_mm256_loadu_ps src p) scale min sum sqsum
  (_mm256_castsi256_si128 (PackI16ToU8 (PackI32ToI16 d0.1 _mm256_setzero_si256)
    _mm256_setzero_si256), d0.2.1, d0.2.2)

/-- In `Encode32f8` the source and destination are addressed as `src + i` and `dst + i`; the
offsets carried by the loop state coincide with `i`. -/
def Encode32f8 (src : FVec) (scale min : ℚ) (size : Nat) (dst : Vec) : Int × Int × Vec :=
  let sizeA := AlignLo size A
  let _scale := _mm256_set1_ps scale
  let _min := _mm256_set1_ps min
  let s0 : EncState := ⟨0, 0, 0, _mm256_setzero_si256, _mm256_setzero_si256, dst⟩
  let s1 := encLoop Encode32f8x32 _mm256_storeu_si256 A A sizeA src _scale _min size s0
  let s2 := encLoop Encode32f8x8 _mm_storel_epi64 F F size src _scale _min size s1
  (toS32 (ExtractSum s2.sum), toS32 (ExtractSum s2.sqsum), s2.mem)

/-- The encoder `Encode32f<bits>` that the constructor of the engine binds for `depth = bits`;
no encoder is bound for another depth. -/
def Encode32fN (bits : Nat) (src : FVec) (scale min : ℚ) (size : Nat) (dst : Vec) :
    Int × Int × Vec :=
  match bits with
  | 4 => Encode32f4 src scale min size dst
  | 5 => Encode32f5 src scale min size dst
  | 6 => Encode32f6 src scale min size dst
  | 7 => Encode32f7 src scale min size dst
  | 8 => Encode32f8 src scale min size dst
  | _ => (0, 0, dst)

/-- The float view of a half-precision source: element `i` is the conversion (`cvtph`, the
decoding of a 16-bit pattern, a parameter) of the `i`-th 16-bit word, as
`_mm256_cvtph_ps(_mm_loadu_si128(...))` reads it. -/
def halfView (cvtph : Nat → ℚ) (src : Vec) : FVec := fun i => cvtph (u16 src i)

/-- `Encode16f4` .. `Encode16f8` repeat `Encode32f4` .. `Encode32f8` line by line; only the load
differs, which converts eight half-precision values to floats. -/
def Encode16f4 (cvtph : Nat → ℚ) (src : Vec) (scale min : ℚ) (size : Nat) (dst : Vec) :
    Int × Int × Vec := Encode32f4 (halfView cvtph src) scale min size dst
def Encode16f5 (cvtph : Nat → ℚ) (src : Vec) (scale min : ℚ) (size : Nat) (dst : Vec) :
    Int × Int × Vec := Encode32f5 (halfView cvtph src) scale min size dst
def Encode16f6 (cvtph : Nat → ℚ) (src : Vec) (scale min : ℚ) (size : Nat) (dst : Vec) :
    Int × Int × Vec := Encode32f6 (halfView cvtph src) scale min size dst
def Encode16f7 (cvtph : Nat → ℚ) (src : Vec) (scale min : ℚ) (size : Nat) (dst : Vec) :
    Int × Int × Vec := Encode32f7 (halfView cvtph src) scale min size dst
def Encode16f8 (cvtph : Nat → ℚ) (src : Vec) (scale min : ℚ) (size : Nat) (dst : Vec) :
    Int × Int × Vec := Encode32f8 (halfView cvtph src) scale min size dst

end Avx2


/-! ## Unpacking steps shared by the decoders and the correlation kernels -/

namespace Avx2

/-- The expression `_mm256_srli_epi16(_mm256_mullo_epi16(_mm256_shuffle_epi8(
_mm256_broadcastsi128_si256(_mm_loadu_si128(src)), SHFL), MULLO), sh)`: sixteen codes unpacked
to 16-bit lanes. -/
def Unpack16 (SHFL MULLO : Vec) (sh : Nat) (src : Vec) (p : Nat) : Vec :=
  _mm256_srli_epi16 (_mm256_mullo_epi16 (_mm256_shuffle_epi8
    (_mm256_broadcastsi128_si256 (_mm_loadu_si128 src p)) SHFL) MULLO) sh

/-- The expression `_mm_srli_epi16(_mm_mullo_epi16(_mm_shuffle_epi8(_mm_loadl_epi64(src),
SHFL0), MULLO), sh)`: eight codes unpacked to 16-bit lanes. -/
def Unpack8 (SHFL0 MULLO : Vec) (sh : Nat) (src : Vec) (p : Nat) : Vec :=
  _mm_srli_epi16 (_mm_mullo_epi16 (_mm_shuffle_epi8 (_mm_loadl_epi64 src p) SHFL0) MULLO) sh

/-- The expression `_mm256_srli_epi16(_mm256_mullo_epi16(_mm256_shuffle_epi8(
_mm256_castsi128_si256(_mm_loadl_epi64(src)), SHFL), MULLO), sh)` of the tail loops of the
micro kernels. -/
def Unpack8x256 (SHFL MULLO : Vec) (sh : Nat) (src : Vec) (p : Nat) : Vec :=
  _mm256_srli_epi16 (_mm256_mullo_epi16 (_mm256_shuffle_epi8
    (_mm256_castsi128_si256 (_mm_loadl_epi64 src p)) SHFL) MULLO) sh

end Avx2

/-! ## Decoders (`Decode32f4` .. `Decode32f8`) -/

/-- Loop state of a decoder: the index `i`, the pointers `src` and `dst` (as offsets from the
arguments) and the destination buffer. -/
structure DecState where
  i : Nat
  src : Nat
  dst : Nat
  out : FVec

namespace Avx2

/-- The main loop of `Decode32f4` .. `Decode32f7`: sixteen codes per iteration, `step` source
bytes. -/
def decLoop16 (SHFL MULLO : Vec) (sh step bound : Nat) (src : Vec) (scale shift : FVec)
    (fuel : Nat) (s : DecState) : DecState :=
  forLoop fuel (fun s => decide (s.i < bound))
    (fun s =>
      let s16 := Unpack16 SHFL MULLO sh src s.src
      let o0 := _mm256_storeu_ps s.out (s.dst + 0) (_mm256_fmadd_ps (_mm256_cvtepi32_ps
        (_mm256_cvtepu16_epi32 (_mm256_extracti128_si256 s16 0))) scale shift)
      let o1 := _mm256_storeu_ps o0 (s.dst + 8) (_mm256_fmadd_ps (_mm256_cvtepi32_ps
        (_mm256_cvtepu16_epi32 (_mm256_extracti128_si256 s16 1))) scale shift)
      ⟨s.i + 16, s.src + step, s.dst + 16, o1⟩) s

/-- The tail loop of `Decode32f4` .. `Decode32f7`: eight codes per iteration, `step` source
bytes. -/
def decLoop8 (SHFL0 MULLO : Vec) (sh step bound : Nat) (src : Vec) (scale shift : FVec)
    (fuel : Nat) (s : DecState) : DecState :=
  forLoop fuel (fun s => decide (s.i < bound))
    (fun s =>
      let s16 := Unpack8 SHFL0 MULLO sh src s.src
      ⟨s.i + 8, s.src + step, s.dst + 8,
        _mm256_storeu_ps s.out (s.dst + 0) (_mm256_fmadd_ps (_mm256_cvtepi32_ps
          (_mm256_cvtepu16_epi32 s16)) scale shift)⟩) s

def Decode32f4 (src : Vec) (scale shift : ℚ) (size : Nat) (dst : FVec) : FVec :=
  let _scale := _mm256_set1_ps scale
  let _shift := _mm256_set1_ps shift
  let size16 := AlignLo size 16
  let s1 := decLoop16 C4_SHFL C4_MULLO 12 8 size16 src _scale _shift size ⟨0, 0, 0, dst⟩
  let s2 := decLoop8 Sse41.C4_SHFL0 Sse41.C4_MULLO 12 4 size src _scale _shift size s1
  s2.out

def Decode32f5 (src : Vec) (scale shift : ℚ) (size : Nat) (dst : FVec) : FVec :=
  let _scale := _mm256_set1_ps scale
  let _shift := _mm256_set1_ps shift
  let size16 := AlignLo size 16
  let s1 := decLoop16 C5_SHFL C5_MULLO 11 10 size16 src _scale _shift size ⟨0, 0, 0, dst⟩
  let s2 := decLoop8 Sse41.C5_SHFL0 Sse41.C5_MULLO 11 5 size src _scale _shift size s1
  s2.out

def Decode32f6 (src : Vec) (scale shift : ℚ) (size : Nat) (dst : FVec) : FVec :=
  let _scale := _mm256_set1_ps scale
  let _shift := _mm256_set1_ps shift
  let size16 := AlignLo size 16
  let s1 := decLoop16 C6_SHFL C6_MULLO 10 12 size16 src _scale _shift size ⟨0, 0, 0, dst⟩
  let s2 := decLoop8 Sse41.C6_SHFL0 Sse41.C6_MULLO 10 6 size src _scale _shift size s1
  s2.out

def Decode32f7 (src : Vec) (scale shift : ℚ) (size : Nat) (dst : FVec) : FVec :=
  let _scale := _mm256_set1_ps scale
  let _shift := _mm256_set1_ps shift
  let size16 := AlignLo size 16
  let s1 := decLoop16 C7_SHFL C7_MULLO 9 14 size16 src _scale _shift size ⟨0, 0, 0, dst⟩
  let s2 := decLoop8 Sse41.C7_SHFL0 Sse41.C7_MULLO 9 7 size src _scale _shift size s1
  s2.out

/-- In `Decode32f8` the source and destination are addressed as `src + i` and `dst + i`; the
offsets carried by the loop state coincide with `i`. -/
def Decode32f8 (src : Vec) (scale shift : ℚ) (size : Nat) (dst : FVec) : FVec :=
  let _scale := _mm256_set1_ps scale
  let _shift := _mm256_set1_ps shift
  let size16 := AlignLo size 16
  let s1 := forLoop size (fun s : DecState => decide (s.i < size16))
    (fun s =>
      let u8 := _mm_loadu_si128 src s.src
      let o0 := _mm256_storeu_ps s.out (s.dst + 0) (_mm256_fmadd_ps (_mm256_cvtepi32_ps
        (_mm256_cvtepu8_epi32 u8)) _scale _shift)
      let o1 := _mm256_storeu_ps o0 (s.dst + F) (_mm256_fmadd_ps (_mm256_cvtepi32_ps
        (_mm256_cvtepu8_epi32 (_mm_srli_si128 u8 8))) _scale _shift)
      ⟨s.i + 16, s.src + 16, s.dst + 16, o1⟩) ⟨0, 0, 0, dst⟩
  let s2 := forLoop size (fun s : DecState => decide (s.i < size))
    (fun s =>
      let _src := _mm256_cvtepi32_ps (_mm256_cvtepu8_epi32 (_mm_loadl_epi64 src s.src))
      ⟨s.i + 8, s.src + 8, s.dst + 8,
        _mm256_storeu_ps s.out s.dst (_mm256_fmadd_ps _src _scale _shift)⟩) s1
  s2.out

/-- The decoder `Decode32f<bits>` that the constructor of the engine binds for `depth = bits`;
no decoder is bound for another depth. -/
def Decode32fN (bits : Nat) (src : Vec) (scale shift : ℚ) (size : Nat) (dst : FVec) : FVec :=
  match bits with
  | 4 => Decode32f4 src scale shift size dst
  | 5 => Decode32f5 src scale shift size dst
  | 6 => Decode32f6 src scale shift size dst
  | 7 => Decode32f7 src scale shift size dst
  | 8 => Decode32f8 src scale shift size dst
  | _ => dst

end Avx2

/-! ## Specification level: codes, bit layout -/

/-- The quantised code of element `i`: `cvtps_epi32((src[i] - min) * scale)`. -/
def code (src : FVec) (scale min : ℚ) (i : Nat) : Int := cvtps_lane ((src i - min) * scale)

/-- The integer whose binary digits are the eight `bits`-wide codes of group `g`, first code in
the least significant bits: `sum_{i<8} v (8 g + i) * 2^(bits * i)`. -/
def groupValue (bits : Nat) (v : Nat → Nat) (g : Nat) : Nat :=
  v (8 * g) + v (8 * g + 1) * 2 ^ bits + v (8 * g + 2) * 2 ^ (bits * 2)
    + v (8 * g + 3) * 2 ^ (bits * 3) + v (8 * g + 4) * 2 ^ (bits * 4)
    + v (8 * g + 5) * 2 ^ (bits * 5) + v (8 * g + 6) * 2 ^ (bits * 6)
    + v (8 * g + 7) * 2 ^ (bits * 7)

/-- Byte `k` of the packed stream: group `k / bits`, little-endian byte `k % bits` of its
integer. -/
def packByte (bits : Nat) (v : Nat → Nat) (k : Nat) : Nat :=
  groupValue bits v (k / bits) / 256 ^ (k % bits) % 256

/-- The `i`-th `bits`-wide code of a packed stream (LSB first): the bit field that starts at
bit `i * bits`, read from the two bytes that hold it. -/
def codeAt (bits : Nat) (m : Vec) (i : Nat) : Nat :=
  (m (i * bits / 8) + 256 * m (i * bits / 8 + 1)) / 2 ^ (i * bits % 8) % 2 ^ bits

/-- A buffer of bytes: every cell holds a value below 256. -/
def IsBytes (m : Vec) : Prop := ∀ a, m a < 256

/-- Pointer arithmetic `m + n` on a buffer. -/
def ptrAdd (m : Vec) (n : Nat) : Vec := fun k => m (n + k)

/-! ## Float intrinsics of the distance decoders -/

def _mm_setzero_ps : FVec := fun _ => 0
def _mm_add_ps (a b : FVec) : FVec := fun i => a i + b i
def _mm_sub_ps (a b : FVec) : FVec := fun i => a i - b i
def _mm_mul_ps (a b : FVec) : FVec := fun i => a i * b i
def _mm_div_ps (a b : FVec) : FVec := fun i => a i / b i
def _mm_min_ps (a b : FVec) : FVec := fun i => min (a i) (b i)
def _mm_max_ps (a b : FVec) : FVec := fun i => max (a i) (b i)
def _mm_unpacklo_ps (a b : FVec) : FVec := fun i =>
  match i with
  | 0 => a 0
  | 1 => b 0
  | 2 => a 1
  | _ => b 1
def _mm_unpackhi_ps (a b : FVec) : FVec := fun i =>
  match i with
  | 0 => a 2
  | 1 => b 2
  | 2 => a 3
  | _ => b 3

/-- The float `((float*)m)[k]`: the value (`f32`, the decoding of a 32-bit pattern, a
parameter) of the four bytes at offset `4 * k`. -/
def loadF32 (f32 : Nat → ℚ) (m : Vec) (k : Nat) : ℚ := f32 (u32 m k)

/-- The load `_mm_loadu_ps((float*)m)` of four floats from a byte buffer. -/
def _mm_loadu_ps (f32 : Nat → ℚ) (m : Vec) : FVec := fun k => loadF32 f32 m k

/-- Modelled from the spec: `Simd::RestrictRange` of `SimdMath.h` (absent here), which clamps
`value` to `[min, max]` as `Max(min, Min(max, value))`. -/
def RestrictRange (value min max : ℚ) : ℚ := Max.max min (Min.min max value)

namespace Base

def DecodeCosineDistance (f32 : Nat → ℚ) (a b : Vec) (abSum size : ℚ) (distance : FVec)
    (p : Nat) : FVec :=
  let aScale := loadF32 f32 a 0
  let aShift := loadF32 f32 a 1
  let aMean := loadF32 f32 a 2
  let aNorm := loadF32 f32 a 3
  let bScale := loadF32 f32 b 0
  let bShift := loadF32 f32 b 1
  let bMean := loadF32 f32 b 2
  let bNorm := loadF32 f32 b 3
  let ab := abSum * aScale * bScale + aMean * bShift + bMean * aShift
  fun k => if k = p + 0 then RestrictRange (1 - ab / (aNorm * bNorm)) 0 2 else distance k

end Base

namespace Sse41

def DecodeCosineDistances (f32 : Nat → ℚ) (a : Vec) (B : Nat → Vec) (abSum size : FVec)
    (distances : FVec) (p : Nat) : FVec :=
  let bScale := _mm_loadu_ps f32 (B 0)
  let bShift := _mm_loadu_ps f32 (B 1)
  let bMean := _mm_loadu_ps f32 (B 2)
  let bNorm := _mm_loadu_ps f32 (B 3)
  let aScale := _mm_unpacklo_ps bScale bMean
  let aShift := _mm_unpacklo_ps bShift bNorm
  let aMean := _mm_unpackhi_ps bScale bMean
  let aNorm := _mm_unpackhi_ps bShift bNorm
  let bScale := _mm_unpacklo_ps aScale aShift
  let bShift := _mm_unpackhi_ps aScale aShift
  let bMean := _mm_unpacklo_ps aMean aNorm
  let bNorm := _mm_unpackhi_ps aMean aNorm
  let aScale := _mm_set1_ps (loadF32 f32 a 0)
  let aShift := _mm_set1_ps (loadF32 f32 a 1)
  let aMean := _mm_set1_ps (loadF32 f32 a 2)
  let aNorm := _mm_set1_ps (loadF32 f32 a 3)
  let ab := _mm_mul_ps abSum (_mm_mul_ps aScale bScale)
  let ab := _mm_add_ps (_mm_mul_ps aMean bShift) ab
  let ab := _mm_add_ps (_mm_mul_ps bMean aShift) ab
  _mm_storeu_ps distances p (_mm_min_ps (_mm_max_ps (_mm_sub_ps (_mm_set1_ps 1)
    (_mm_div_ps ab (_mm_mul_ps aNorm bNorm))) _mm_setzero_ps) (_mm_set1_ps 2))

end Sse41

/-! ## Correlation kernels (`Correlation<4>` .. `Correlation<8>`) -/

/-- Loop state of a correlation kernel: the index `i`, the pointers `a` and `b` (as offsets
from the arguments) and the vector accumulator. -/
structure CorrState where
  i : Nat
  a : Nat
  b : Nat
  ab : Vec

/-- One loop of a correlation kernel, `for (; i < bound; i += n, a += bytes, b += bytes)`,
whose body replaces the accumulator by `step a b ab`. -/
def corrLoop (step : Vec → Nat → Vec → Nat → Vec → Vec) (n bytes bound : Nat) (a b : Vec)
    (fuel : Nat) (s : CorrState) : CorrState :=
  forLoop fuel (fun s => decide (s.i < bound))
    (fun s => ⟨s.i + n, s.a + bytes, s.b + bytes, step a s.a b s.b s.ab⟩) s

namespace Avx2

/-- Body of the main loop of `Correlation<4>`: 64 codes, low and high nibbles. -/
def corr4x64 (a : Vec) (pa : Nat) (b : Vec) (pb : Nat) (ab32 : Vec) : Vec :=
  let _a := _mm256_loadu_si256 a pa
  let _b := _mm256_loadu_si256 b pb
  let ab16 := _mm256_maddubs_epi16 (_mm256_and_si256 _a K8_0F) (_mm256_and_si256 _b K8_0F)
  let ab16 := _mm256_add_epi16 ab16 (_mm256_maddubs_epi16
    (_mm256_and_si256 (_mm256_srli_epi16 _a 4) K8_0F)
    (_mm256_and_si256 (_mm256_srli_epi16 _b 4) K8_0F))
  _mm256_add_epi32 ab32 (_mm256_madd_epi16 ab16 K16_0001)

/-- Body of the main loops of `Correlation<5>` .. `Correlation<7>`: 16 codes. -/
def corrMain (SHFL MULLO : Vec) (sh : Nat) (a : Vec) (pa : Nat) (b : Vec) (pb : Nat)
    (ab : Vec) : Vec :=
  let _a := Unpack16 SHFL MULLO sh a pa
  let _b := Unpack16 SHFL MULLO sh b pb
  _mm256_add_epi32 (_mm256_madd_epi16 _a _b) ab

/-- Body of the tail loops of `Correlation<4>` .. `Correlation<7>`: 8 codes. -/
def corrTail (SHFL0 MULLO : Vec) (sh : Nat) (a : Vec) (pa : Nat) (b : Vec) (pb : Nat)
    (ab : Vec) : Vec :=
  let _a := Unpack8 SHFL0 MULLO sh a pa
  let _b := Unpack8 SHFL0 MULLO sh b pb
  _mm256_add_epi32 (_mm256_madd_epi16 (_mm256_castsi128_si256 _a) (_mm256_castsi128_si256 _b))
    ab

/-- Body of the main loop of `Correlation<8>`: 16 codes. -/
def corr8x16 (a : Vec) (pa : Nat) (b : Vec) (pb : Nat) (ab : Vec) : Vec :=
  let _a := _mm256_cvtepu8_epi16 (_mm_loadu_si128 a pa)
  let _b := _mm256_cvtepu8_epi16 (_mm_loadu_si128 b pb)
  _mm256_add_epi32 (_mm256_madd_epi16 _a _b) ab

/-- Body of the tail loop of `Correlation<8>`: 8 codes. -/
def corr8x8 (a : Vec) (pa : Nat) (b : Vec) (pb : Nat) (ab : Vec) : Vec :=
  let _a := _mm256_cvtepu8_epi16 (_mm_loadl_epi64 a pa)
  let _b := _mm256_cvtepu8_epi16 (_mm_loadl_epi64 b pb)
  _mm256_add_epi32 (_mm256_madd_epi16 _a _b) ab

def Correlation4 (a b : Vec) (size : Nat) : Int :=
  let size64 := AlignLo size 64
  let s1 := corrLoop corr4x64 64 32 size64 a b size ⟨0, 0, 0, _mm256_setzero_si256⟩
  let s2 := corrLoop (corrTail Sse41.C4_SHFL0 Sse41.C4_MULLO 12) 8 4 size a b size s1
  toS32 (ExtractSum s2.ab)

def Correlation5 (a b : Vec) (size : Nat) : Int :=
  let size16 := AlignLo size 16
  let s1 := corrLoop (corrMain C5_SHFL C5_MULLO 11) 16 10 size16 a b size
    ⟨0, 0, 0, _mm256_setzero_si256⟩
  let s2 := corrLoop (corrTail Sse41.C5_SHFL0 Sse41.C5_MULLO 11) 8 5 size a b size s1
  toS32 (ExtractSum s2.ab)

def Correlation6 (a b : Vec) (size : Nat) : Int :=
  let size16 := AlignLo size 16
  let s1 := corrLoop (corrMain C6_SHFL C6_MULLO 10) 16 12 size16 a b size
    ⟨0, 0, 0, _mm256_setzero_si256⟩
  let s2 := corrLoop (corrTail Sse41.C6_SHFL0 Sse41.C6_MULLO 10) 8 6 size a b size s1
  toS32 (ExtractSum s2.ab)

def Correlation7 (a b : Vec) (size : Nat) : Int :=
  let size16 := AlignLo size 16
  let s1 := corrLoop (corrMain C7_SHFL C7_MULLO 9) 16 14 size16 a b size
    ⟨0, 0, 0, _mm256_setzero_si256⟩
  let s2 := corrLoop (corrTail Sse41.C7_SHFL0 Sse41.C7_MULLO 9) 8 7 size a b size s1
  toS32 (ExtractSum s2.ab)

/-- In `Correlation<8>` the buffers are addressed as `a + i` and `b + i`; the offsets carried
by the loop state coincide with `i`. -/
def Correlation8 (a b : Vec) (size : Nat) : Int :=
  let size16 := AlignLo size 16
  let s1 := corrLoop corr8x16 16 16 size16 a b size ⟨0, 0, 0, _mm256_setzero_si256⟩
  let s2 := corrLoop corr8x8 8 8 size a b size s1
  toS32 (ExtractSum s2.ab)

/-- The kernel `Correlation<bits>`; the template has no other specialisation. -/
def Correlation (bits : Nat) (a b : Vec) (size : Nat) : Int :=
  match bits with
  | 4 => Correlation4 a b size
  | 5 => Correlation5 a b size
  | 6 => Correlation6 a b size
  | 7 => Correlation7 a b size
  | 8 => Correlation8 a b size
  | _ => 0

def CosineDistance (bits : Nat) (f32 : Nat → ℚ) (a b : Vec) (size : Nat) (distance : FVec)
    (p : Nat) : FVec :=
  let abSum : ℚ := (Correlation bits (ptrAdd a 16) (ptrAdd b 16) size : Int)
  Base.DecodeCosineDistance f32 a b abSum (size : ℚ) distance p

/-! ## Micro kernels and the macro kernel -/

/-- Loop state of a 2x4 micro kernel: the index `i`, the byte offset `o` and the eight vector
accumulators. -/
structure Micro2x4State where
  i : Nat
  o : Nat
  ab00 : Vec
  ab01 : Vec
  ab02 : Vec
  ab03 : Vec
  ab10 : Vec
  ab11 : Vec
  ab12 : Vec
  ab13 : Vec

/-- Loop state of a 1x4 micro kernel. -/
structure Micro1x4State where
  i : Nat
  o : Nat
  ab00 : Vec
  ab01 : Vec
  ab02 : Vec
  ab03 : Vec

/-- One loop of a 2x4 micro kernel. The source loads `a0`, `a1` once and each `b0` once per
iteration and updates the eight accumulators in turn; every update depends on its own row,
column and accumulator only and is written here as `step`. -/
def microLoop2x4 (step : Vec → Nat → Vec → Nat → Vec → Vec) (n bytes bound : Nat)
    (A B : Nat → Vec) (fuel : Nat) (s : Micro2x4State) : Micro2x4State :=
  forLoop fuel (fun s => decide (s.i < bound))
    (fun s => ⟨s.i + n, s.o + bytes,
      step (A 0) s.o (B 0) s.o s.ab00, step (A 0) s.o (B 1) s.o s.ab01,
      step (A 0) s.o (B 2) s.o s.ab02, step (A 0) s.o (B 3) s.o s.ab03,
      step (A 1) s.o (B 0) s.o s.ab10, step (A 1) s.o (B 1) s.o s.ab11,
      step (A 1) s.o (B 2) s.o s.ab12, step (A 1) s.o (B 3) s.o s.ab13⟩) s

/-- One loop of a 1x4 micro kernel. -/
def microLoop1x4 (step : Vec → Nat → Vec → Nat → Vec → Vec) (n bytes bound : Nat)
    (A B : Nat → Vec) (fuel : Nat) (s : Micro1x4State) : Micro1x4State :=
  forLoop fuel (fun s => decide (s.i < bound))
    (fun s => ⟨s.i + n, s.o + bytes,
      step (A 0) s.o (B 0) s.o s.ab00, step (A 0) s.o (B 1) s.o s.ab01,
      step (A 0) s.o (B 2) s.o s.ab02, step (A 0) s.o (B 3) s.o s.ab03⟩) s

/-- Accumulator update of the main loop of the 4-bit micro kernels: the low nibbles, then the
high nibbles. -/
def micro4x64 (a : Vec) (pa : Nat) (b : Vec) (pb : Nat) (ab : Vec) : Vec :=
  let a0 := _mm256_and_si256 (_mm256_loadu_si256 a pa) K8_0F
  let b0 := _mm256_and_si256 (_mm256_loadu_si256 b pb) K8_0F
  let ab := _mm256_add_epi32 ab (_mm256_madd_epi16 (_mm256_maddubs_epi16 a0 b0) K16_0001)
  let a0 := _mm256_and_si256 (_mm256_srli_epi16 (_mm256_loadu_si256 a pa) 4) K8_0F
  let b0 := _mm256_and_si256 (_mm256_srli_epi16 (_mm256_loadu_si256 b pb) 4) K8_0F
  _mm256_add_epi32 ab (_mm256_madd_epi16 (_mm256_maddubs_epi16 a0 b0) K16_0001)

/-- Accumulator update of the tail loops of the 4..7-bit micro kernels. -/
def microTail (SHFL MULLO : Vec) (sh : Nat) (a : Vec) (pa : Nat) (b : Vec) (pb : Nat)
    (ab : Vec) : Vec :=
  let a0 := Unpack8x256 SHFL MULLO sh a pa
  let b0 := Unpack8x256 SHFL MULLO sh b pb
  _mm256_add_epi32 (_mm256_madd_epi16 a0 b0) ab

/-- The two loops of `MicroCosineDistances2x4<bits>` (main loop, tail loop). -/
def microLoops2x4 (bits : Nat) (A B : Nat → Vec) (size : Nat) : Micro2x4State :=
  let z := _mm256_setzero_si256
  let s0 : Micro2x4State := ⟨0, 16, z, z, z, z, z, z, z, z⟩
  match bits with
  | 4 =>
    microLoop2x4 (microTail C4_SHFL C4_MULLO 12) 8 4 size A B size
      (microLoop2x4 micro4x64 64 32 (AlignLo size 64) A B size s0)
  | 5 =>
    microLoop2x4 (microTail C5_SHFL C5_MULLO 11) 8 5 size A B size
      (microLoop2x4 (corrMain C5_SHFL C5_MULLO 11) 16 10 (AlignLo size 16) A B size s0)
  | 6 =>
    microLoop2x4 (microTail C6_SHFL C6_MULLO 10) 8 6 size A B size
      (microLoop2x4 (corrMain C6_SHFL C6_MULLO 10) 16 12 (AlignLo size 16) A B size s0)
  | 7 =>
    microLoop2x4 (microTail C7_SHFL C7_MULLO 9) 8 7 size A B size
      (microLoop2x4 (corrMain C7_SHFL C7_MULLO 9) 16 14 (AlignLo size 16) A B size s0)
  | 8 =>
    microLoop2x4 corr8x8 8 8 size A B size
      (microLoop2x4 corr8x16 16 16 (AlignLo size 16) A B size s0)
  | _ => s0

/-- The two loops of `MicroCosineDistances1x4<bits>` (main loop, tail loop). -/
def microLoops1x4 (bits : Nat) (A B : Nat → Vec) (size : Nat) : Micro1x4State :=
  let z := _mm256_setzero_si256
  let s0 : Micro1x4State := ⟨0, 16, z, z, z, z⟩
  match bits with
  | 4 =>
    microLoop1x4 (microTail C4_SHFL C4_MULLO 12) 8 4 size A B size
      (microLoop1x4 micro4x64 64 32 (AlignLo size 64) A B size s0)
  | 5 =>
    microLoop1x4 (microTail C5_SHFL C5_MULLO 11) 8 5 size A B size
      (microLoop1x4 (corrMain C5_SHFL C5_MULLO 11) 16 10 (AlignLo size 16) A B size s0)
  | 6 =>
    microLoop1x4 (microTail C6_SHFL C6_MULLO 10) 8 6 size A B size
      (microLoop1x4 (corrMain C6_SHFL C6_MULLO 10) 16 12 (AlignLo size 16) A B size s0)
  | 7 =>
    microLoop1x4 (microTail C7_SHFL C7_MULLO 9) 8 7 size A B size
      (microLoop1x4 (corrMain C7_SHFL C7_MULLO 9) 16 14 (AlignLo size 16) A B size s0)
  | 8 =>
    microLoop1x4 corr8x8 8 8 size A B size
      (microLoop1x4 corr8x16 16 16 (AlignLo size 16) A B size s0)
  | _ => s0

def MicroCosineDistances2x4 (bits : Nat) (f32 : Nat → ℚ) (A B : Nat → Vec) (size : Nat)
    (distances : FVec) (p stride : Nat) : FVec :=
  let s := microLoops2x4 bits A B size
  let ab0 := _mm_cvtepi32_ps (Extract4Sums s.ab00 s.ab01 s.ab02 s.ab03)
  let ab1 := _mm_cvtepi32_ps (Extract4Sums s.ab10 s.ab11 s.ab12 s.ab13)
  let _size := _mm_set1_ps (size : ℚ)
  let d0 := Sse41.DecodeCosineDistances f32 (A 0) B ab0 _size distances (p + 0 * stride)
  Sse41.DecodeCosineDistances f32 (A 1) B ab1 _size d0 (p + 1 * stride)

def MicroCosineDistances1x4 (bits : Nat) (f32 : Nat → ℚ) (A B : Nat → Vec) (size : Nat)
    (distances : FVec) (p stride : Nat) : FVec :=
  let s := microLoops1x4 bits A B size
  let ab0 := _mm_cvtepi32_ps (Extract4Sums s.ab00 s.ab01 s.ab02 s.ab03)
  let _size := _mm_set1_ps (size : ℚ)
  Sse41.DecodeCosineDistances f32 (A 0) B ab0 _size distances (p + 0 * stride)

/-- Pointer arithmetic `A + n` on an array of descriptor pointers. -/
def ptrsAdd (A : Nat → Vec) (n : Nat) : Nat → Vec := fun k => A (n + k)

/-- Loop state of the column loops of the macro kernel: the column `j` and the distances. -/
structure ColState where
  j : Nat
  mem : FVec

/-- Loop state of the row loops of the macro kernel: the row `i`, the pointer `distances`
(as an offset from the argument) and the distances. -/
structure RowState where
  i : Nat
  dist : Nat
  mem : FVec

/-- Body of the first row loop of the macro kernel (rows `i` and `i + 1`): the 2x4 micro
kernels over the columns below `N4`, then the scalar kernel on the remaining columns, then
`distances += 2 * stride`. -/
def macroRow2 (bits : Nat) (f32 : Nat → ℚ) (N : Nat) (A B : Nat → Vec) (size stride : Nat)
    (r : RowState) : RowState :=
  let N4 := AlignLoAny N 4
  let c1 := forLoop N (fun c : ColState => decide (c.j < N4))
    (fun c => ⟨c.j + 4, MicroCosineDistances2x4 bits f32 (ptrsAdd A r.i) (ptrsAdd B c.j)
      size c.mem (r.dist + c.j) stride⟩) ⟨0, r.mem⟩
  let c2 := forLoop N (fun c : ColState => decide (c.j < N))
    (fun c => ⟨c.j + 1,
      CosineDistance bits f32 (A (r.i + 1)) (B c.j) size
        (CosineDistance bits f32 (A (r.i + 0)) (B c.j) size c.mem
          (r.dist + c.j + 0 * stride))
        (r.dist + c.j + 1 * stride)⟩) c1
  ⟨r.i + 2, r.dist + 2 * stride, c2.mem⟩

/-- Body of the second row loop of the macro kernel (row `i`): the 1x4 micro kernels over the
columns below `N4`, then the scalar kernel on the remaining columns, then
`distances += 1 * stride`. -/
def macroRow1 (bits : Nat) (f32 : Nat → ℚ) (N : Nat) (A B : Nat → Vec) (size stride : Nat)
    (r : RowState) : RowState :=
  let N4 := AlignLoAny N 4
  let c1 := forLoop N (fun c : ColState => decide (c.j < N4))
    (fun c => ⟨c.j + 4, MicroCosineDistances1x4 bits f32 (ptrsAdd A r.i) (ptrsAdd B c.j)
      size c.mem (r.dist + c.j) stride⟩) ⟨0, r.mem⟩
  let c2 := forLoop N (fun c : ColState => decide (c.j < N))
    (fun c => ⟨c.j + 1,
      CosineDistance bits f32 (A r.i) (B c.j) size c.mem (r.dist + c.j)⟩) c1
  ⟨r.i + 1, r.dist + 1 * stride, c2.mem⟩

def MacroCosineDistances (bits : Nat) (f32 : Nat → ℚ) (M N : Nat) (A B : Nat → Vec)
    (size : Nat) (distances : FVec) (stride : Nat) : FVec :=
  let M2 := AlignLoAny M 2
  let r1 := forLoop M (fun r : RowState => decide (r.i < M2))
    (macroRow2 bits f32 N A B size stride) ⟨0, 0, distances⟩
  let r2 := forLoop M (fun r : RowState => decide (r.i < M))
    (macroRow1 bits f32 N A B size stride) r1
  r2.mem

/-! ## The engine -/

/-- The kernels an engine can bind, tagged by code width. -/
inductive Kernel where
  | Encode32f (bits : Nat)
  | Encode16f (bits : Nat)
  | Decode32f (bits : Nat)
  | Decode16f (bits : Nat)
  | CosineDistance (bits : Nat)
  | MacroCosineDistances (bits : Nat)
  | MinMax32f
  | MinMax16f
  deriving DecidableEq, Repr

/-- The object `Avx2::DescrInt`: its size and depth and its kernel slots (`none`: unbound). -/
structure DescrInt where
  size : Nat
  depth : Nat
  _minMax32f : Option Kernel
  _minMax16f : Option Kernel
  _encode32f : Option Kernel
  _encode16f : Option Kernel
  _decode32f : Option Kernel
  _decode16f : Option Kernel
  _cosineDistance : Option Kernel
  _macroCosineDistances : Option Kernel
  deriving DecidableEq, Repr

/-- The constructor `DescrInt::DescrInt(size, depth)`; for a depth outside 4..8 the `switch`
reaches `assert(0)` and binds no codec kernel. -/
def DescrInt.new (size depth : Nat) : DescrInt :=
  match depth with
  | 4 => ⟨size, depth, some .MinMax32f, some .MinMax16f, some (.Encode32f 4),
      some (.Encode16f 4), some (.Decode32f 4), some (.Decode16f 4), some (.CosineDistance 4),
      some (.MacroCosineDistances 4)⟩
  | 5 => ⟨size, depth, some .MinMax32f, some .MinMax16f, some (.Encode32f 5),
      some (.Encode16f 5), some (.Decode32f 5), some (.Decode16f 5), some (.CosineDistance 5),
      some (.MacroCosineDistances 5)⟩
  | 6 => ⟨size, depth, some .MinMax32f, some .MinMax16f, some (.Encode32f 6),
      some (.Encode16f 6), some (.Decode32f 6), some (.Decode16f 6), some (.CosineDistance 6),
      some (.MacroCosineDistances 6)⟩
  | 7 => ⟨size, depth, some .MinMax32f, some .MinMax16f, some (.Encode32f 7),
      some (.Encode16f 7), some (.Decode32f 7), some (.Decode16f 7), some (.CosineDistance 7),
      some (.MacroCosineDistances 7)⟩
  | 8 => ⟨size, depth, some .MinMax32f, some .MinMax16f, some (.Encode32f 8),
      some (.Encode16f 8), some (.Decode32f 8), some (.Decode16f 8), some (.CosineDistance 8),
      some (.MacroCosineDistances 8)⟩
  | _ => ⟨size, depth, some .MinMax32f, some .MinMax16f, none, none, none, none, none, none⟩

/-- The factory `DescrIntInit(size, depth)`: `none` is `NULL`. `Valid` is
`Base::DescrInt::Valid`, declared outside the translated files and taken as a parameter. -/
def DescrIntInit (Valid : Nat → Nat → Bool) (size depth : Nat) : Option DescrInt :=
  if !Valid size depth then none else some (DescrInt.new size depth)

end Avx2

/-! ## Counting loops -/

/-- The loop `for (size_t i = 0; i < bound; i += step) body(i)` on a state of type `σ`; the fuel
`bound` suffices for every positive `step`. -/
def rangeLoop {σ : Type} (bound step : Nat) (body : Nat → σ → σ) (s : σ) : σ :=
  (forLoop bound (fun t : Nat × σ => decide (t.1 < bound))
    (fun t => (t.1 + step, body t.1 t.2)) (0, s)).2

/-! ## The JPEG loader error helper (`SimdImageLoadJpeg.h`) -/

namespace Base

/-- `JpegLoadError(text, type)`: writes the message to `std::cout` (the stream is threaded
through as a string) and returns `0`. -/
def JpegLoadError (text type : String) (cout : String) : Int × String :=
  (0, cout ++ "JPEG load error: " ++ text ++ ", " ++ type ++ "!\n")

end Base

/-! ## Linear quantisation of sums (`SimdSynetQuantizeLinear.h`) -/

/-- Modelled from the spec: `Simd::RestrictRange` of `SimdMath.h` (absent here) at type `int`,
which clamps `value` to `[min, max]` as `Max(min, Min(max, value))`. -/
def RestrictRangeInt (value min max : Int) : Int := Max.max min (Min.min max value)

/-- The tensor formats `SimdTensorFormatNchw` and `SimdTensorFormatNhwc` of
`SimdTensorFormatType` (`SimdLib.h`, absent here); `Other` stands for every other value. -/
inductive SimdTensorFormatType where
  | Nchw
  | Nhwc
  | Other
  deriving DecidableEq, Repr

/-- The pointers `sum` and `dst` of the tensor quantiser (as offsets from the arguments) and
the destination memory. -/
structure QPtr where
  sum : Nat
  dst : Nat
  mem : Vec

namespace Base

/-- `NearByInt(value) = (int)std::nearbyint(value)`: round to nearest, ties to even (the
default rounding mode), on exact values. -/
def NearByInt (value : ℚ) : Int := roundNearestEven value

/-- The scalar `QuantizeSumLinear(sum, bias, norm, zero, min, max)`; `int` and `float`
arithmetic are taken exactly. -/
def QuantizeSumLinear (sum bias : Int) (norm : ℚ) (zero min max : Int) : Int :=
  RestrictRangeInt (NearByInt (((sum + bias : Int) : ℚ) * norm) + zero) min max

/-- The conversion `(uint8_t)x` of an `int`. -/
def castU8 (x : Int) : Nat := (x % 256).toNat

/-- Body of the `h` loop of the NCHW branch: one row of `width` values of a channel, then
`sum += width; dst += width`. -/
def quantizeRowNchw (sum : Nat → Int) (width : Nat) (_bias : Int) (_norm : ℚ) (_zero : Int)
    (min max : Int) (s : QPtr) : QPtr :=
  let m := rangeLoop width 1 (fun w (m : Vec) =>
    store_u8 m (s.dst + w)
      (castU8 (QuantizeSumLinear (sum (s.sum + w)) _bias _norm _zero min max))) s.mem
  ⟨s.sum + width, s.dst + width, m⟩

/-- Body of the `c` loop of the NCHW branch: the parameters of channel `c` are read once, then
the `height` rows of the channel are converted. -/
def quantizeChannelNchw (sum : Nat → Int) (height width : Nat) (bias : Nat → Int)
    (norm : Nat → ℚ) (zero : Nat → Int) (min max : Int) (c : Nat) (s : QPtr) : QPtr :=
  let _bias := bias c
  let _norm := norm c
  let _zero := zero c
  rangeLoop height 1 (fun _ (s : QPtr) => quantizeRowNchw sum width _bias _norm _zero min max s)
    s

/-- Body of the `w` loop of the NHWC branch: the `channels` values of one pixel, then
`sum += channels; dst += channels`. -/
def quantizePixelNhwc (sum : Nat → Int) (channels : Nat) (bias : Nat → Int) (norm : Nat → ℚ)
    (zero : Nat → Int) (min max : Int) (s : QPtr) : QPtr :=
  let m := rangeLoop channels 1 (fun c (m : Vec) =>
    store_u8 m (s.dst + c)
      (castU8 (QuantizeSumLinear (sum (s.sum + c)) (bias c) (norm c) (zero c) min max))) s.mem
  ⟨s.sum + channels, s.dst + channels, m⟩

/-- Body of the `h` loop of the NHWC branch: the `width` pixels of one line. -/
def quantizeLineNhwc (sum : Nat → Int) (channels width : Nat) (bias : Nat → Int)
    (norm : Nat → ℚ) (zero : Nat → Int) (min max : Int) (s : QPtr) : QPtr :=
  rangeLoop width 1 (fun _ (s : QPtr) => quantizePixelNhwc sum channels bias norm zero min max s)
    s

/-- The tensor `QuantizeSumLinear(sum, batch, channels, height, width, format, bias, norm, zero,
dst)`; the result is the destination buffer. For a format other than NCHW and NHWC the source
reaches `assert(0)` and writes nothing. -/
def QuantizeSumLinearTensor (sum : Nat → Int) (batch channels height width : Nat)
    (format : SimdTensorFormatType) (bias : Nat → Int) (norm : Nat → ℚ) (zero : Nat → Int)
    (dst : Vec) : Vec :=
  let min : Int := 0
  let max : Int := 255
  (rangeLoop batch 1 (fun _ (s : QPtr) =>
    match format with
    | .Nchw =>
      rangeLoop channels 1
        (fun c (s : QPtr) => quantizeChannelNchw sum height width bias norm zero min max c s) s
    | .Nhwc =>
      rangeLoop height 1
        (fun _ (s : QPtr) => quantizeLineNhwc sum channels width bias norm zero min max s) s
    | .Other => s) ⟨0, 0, dst⟩).mem

end Base

/-! ## Code width of a kernel -/

namespace Avx2

/-- The code width a codec kernel is specialised for: the `bits` of `Encode32f<bits>`,
`Decode16f<bits>`, `CosineDistance<bits>`, ...; the `MinMax` kernels have none. -/
def Kernel.bits : Kernel → Option Nat
  | .Encode32f b => some b
  | .Encode16f b => some b
  | .Decode32f b => some b
  | .Decode16f b => some b
  | .CosineDistance b => some b
  | .MacroCosineDistances b => some b
  | .MinMax32f => none
  | .MinMax16f => none

end Avx2

/-! ## The normalize layer (`SimdBaseSynetNormalize.cpp`)

The floats of this layer are elements of an arbitrary field `F` (exact arithmetic) and
`::sqrt` is a function `sqrt : F → F` given as a parameter, so that the statements hold for the
real numbers with the real square root. -/

/-- Modelled from the spec: `Simd::Square` of `SimdMath.h` (absent here), `x * x`. -/
def Square {F : Type} [Field F] (x : F) : F := x * x

/-- The store `m[p] = x` into a float buffer. -/
def storeF {F : Type} (m : Nat → F) (p : Nat) (x : F) : Nat → F :=
  fun a => if a = p then x else m a

/-- The pointers `src` and `dst` of the normalize layer (as offsets from the arguments) and
the destination memory. -/
structure NPtr (F : Type) where
  src : Nat
  dst : Nat
  mem : Nat → F

namespace Base

/-- One channel of an NCHW batch with a common factor:
`for (s < spatial) dst[s] = src[s] * k; dst += spatial; src += spatial`. -/
def normChannelNchw {F : Type} [Field F] (src : Nat → F) (spatial : Nat) (k : F)
    (s : NPtr F) : NPtr F :=
  let m := rangeLoop spatial 1 (fun sp (m : Nat → F) =>
    storeF m (s.dst + sp) (src (s.src + sp) * k)) s.mem
  ⟨s.src + spatial, s.dst + spatial, m⟩

/-- Body of the batch loop, NCHW, across spatial. -/
def normBatchNchwAcross {F : Type} [Field F] (sqrt : F → F) (src : Nat → F)
    (channels spatial : Nat) (scale : Nat → F) (_eps : F) (s : NPtr F) : NPtr F :=
  let size := channels * spatial
  let sum := rangeLoop size 1 (fun i (sum : F) => sum + Square (src (s.src + i))) _eps
  let k0 := 1 / sqrt sum
  rangeLoop channels 1 (fun c (s : NPtr F) =>
    let k := scale c * k0
    normChannelNchw src spatial k s) s

/-- One channel of an NCHW batch with the per-position factors of `buf`:
`for (s < spatial) dst[s] = src[s] * buf[s] * k; dst += spatial; src += spatial`. -/
def normChannelNchwBuf {F : Type} [Field F] (src : Nat → F) (spatial : Nat) (buf : Nat → F)
    (k : F) (s : NPtr F) : NPtr F :=
  let m := rangeLoop spatial 1 (fun sp (m : Nat → F) =>
    storeF m (s.dst + sp) (src (s.src + sp) * buf sp * k)) s.mem
  ⟨s.src + spatial, s.dst + spatial, m⟩

/-- Body of the batch loop, NCHW, per spatial position; the state carries the scratch buffer
`buf`. -/
def normBatchNchw {F : Type} [Field F] (sqrt : F → F) (src : Nat → F)
    (channels spatial : Nat) (scale : Nat → F) (_eps : F) (t : NPtr F × (Nat → F)) :
    NPtr F × (Nat → F) :=
  let s := t.1
  let buf := rangeLoop spatial 1 (fun sp (buf : Nat → F) => storeF buf sp _eps) t.2
  let buf := rangeLoop channels 1 (fun c (buf : Nat → F) =>
    let ps := s.src + c * spatial
    rangeLoop spatial 1 (fun sp (buf : Nat → F) =>
      storeF buf sp (buf sp + Square (src (ps + sp)))) buf) buf
  let buf := rangeLoop spatial 1 (fun sp (buf : Nat → F) =>
    storeF buf sp (1 / sqrt (buf sp))) buf
  (rangeLoop channels 1 (fun c (s : NPtr F) =>
    let k := scale c
    normChannelNchwBuf src spatial buf k s) s, buf)

/-- One pixel of an NHWC batch:
`for (c < channels) dst[c] = src[c] * scale[c] * k; dst += channels; src += channels`. -/
def normPixelNhwc {F : Type} [Field F] (src : Nat → F) (channels : Nat) (scale : Nat → F)
    (k : F) (s : NPtr F) : NPtr F :=
  let m := rangeLoop channels 1 (fun c (m : Nat → F) =>
    storeF m (s.dst + c) (src (s.src + c) * scale c * k)) s.mem
  ⟨s.src + channels, s.dst + channels, m⟩

/-- Body of the batch loop, NHWC, across spatial. -/
def normBatchNhwcAcross {F : Type} [Field F] (sqrt : F → F) (src : Nat → F)
    (channels spatial : Nat) (scale : Nat → F) (_eps : F) (s : NPtr F) : NPtr F :=
  let size := channels * spatial
  let sum := rangeLoop size 1 (fun i (sum : F) => sum + Square (src (s.src + i))) _eps
  let k := 1 / sqrt sum
  rangeLoop spatial 1 (fun _ (s : NPtr F) => normPixelNhwc src channels scale k s) s

/-- Body of the spatial loop, NHWC, per spatial position. -/
def normPositionNhwc {F : Type} [Field F] (sqrt : F → F) (src : Nat → F)
    (channels : Nat) (scale : Nat → F) (_eps : F) (s : NPtr F) : NPtr F :=
  let sum := rangeLoop channels 1 (fun c (sum : F) => sum + Square (src (s.src + c))) _eps
  let k := 1 / sqrt sum
  normPixelNhwc src channels scale k s

/-- `SynetNormalizeLayerForward(src, batch, channels, spatial, scale, eps, acrossSpatial, format,
buf, dst)`; the result is the destination buffer. `buf = none` is `buf == NULL`, for which the
source allocates the scratch buffer. For a format other than NCHW and NHWC the source reaches
`assert(0)` and writes nothing. -/
def SynetNormalizeLayerForward {F : Type} [Field F] (sqrt : F → F) (src : Nat → F)
    (batch channels spatial : Nat) (scale : Nat → F) (eps : Nat → F) (acrossSpatial : Bool)
    (format : SimdTensorFormatType) (buf : Option (Nat → F)) (dst : Nat → F) : Nat → F :=
  let _eps := eps 0
  match format with
  | .Nchw =>
    if acrossSpatial then
      (rangeLoop batch 1 (fun _ (s : NPtr F) =>
        normBatchNchwAcross sqrt src channels spatial scale _eps s) ⟨0, 0, dst⟩).mem
    else
      let buf := match buf with
        | none => fun _ => 0
        | some b => b
      (rangeLoop batch 1 (fun _ (t : NPtr F × (Nat → F)) =>
        normBatchNchw sqrt src channels spatial scale _eps t) (⟨0, 0, dst⟩, buf)).1.mem
  | .Nhwc =>
    if acrossSpatial then
      (rangeLoop batch 1 (fun _ (s : NPtr F) =>
        normBatchNhwcAcross sqrt src channels spatial scale _eps s) ⟨0, 0, dst⟩).mem
    else
      (rangeLoop batch 1 (fun _ (s : NPtr F) =>
        rangeLoop spatial 1 (fun _ (s : NPtr F) =>
          normPositionNhwc sqrt src channels scale _eps s) s) ⟨0, 0, dst⟩).mem
  | .Other => dst

end Base

/-! ## YUV to BGRA (`SimdSse41YuvToBgraV2.cpp`) -/

/-- The conversion traits of a YUV standard, the template argument `T` (`Base::Bt601`,
`Base::Bt709`, `Base::Bt2020`, `Base::Trect871` of `SimdYuvToBgr.h`, absent here), given by
what the conversion helpers compute in one lane: the 16-bit lane `unpackY y` (`unpackUV u`)
made of a luma (chroma) byte, and the bytes `blue`, `green`, `red` computed from such lanes. -/
structure YuvTraits where
  unpackY : Nat → Nat
  unpackUV : Nat → Nat
  blue : Nat → Nat → Nat
  green : Nat → Nat → Nat → Nat
  red : Nat → Nat → Nat

/-- The values of `SimdYuvType` (`SimdLib.h`, absent here) the conversions accept; `Unknown`
stands for every other value. -/
inductive SimdYuvType where
  | Bt601
  | Bt709
  | Bt2020
  | Trect871
  | Unknown
  deriving DecidableEq, Repr

def _mm_set1_epi16 (x : Nat) : Vec := ofU16 (fun _ => x)
def _mm_slli_si128 (a : Vec) (n : Nat) : Vec := fun j => if j < n then 0 else a (j - n)
def _mm_unpacklo_epi8 (a b : Vec) : Vec := fun j => if j % 2 = 0 then a (j / 2) else b (j / 2)
def _mm_unpackhi_epi8 (a b : Vec) : Vec :=
  fun j => if j % 2 = 0 then a (8 + j / 2) else b (8 + j / 2)
def _mm_unpacklo_epi16 (a b : Vec) : Vec :=
  fun j => if j % 4 < 2 then a (2 * (j / 4) + j % 4) else b (2 * (j / 4) + j % 4 - 2)
def _mm_unpackhi_epi16 (a b : Vec) : Vec :=
  fun j => if j % 4 < 2 then a (8 + 2 * (j / 4) + j % 4) else b (8 + 2 * (j / 4) + j % 4 - 2)

/-- The pointers `y`, `u`, `v`, `bgra` of an image conversion (as offsets from the arguments)
and the output memory. -/
structure YuvPtr where
  y : Nat
  u : Nat
  v : Nat
  bgra : Nat
  mem : Vec

/-- The pointers `y`, `u`, `v`, `a`, `bgra` of the conversion with an alpha plane and the
output memory. -/
structure YuvaPtr where
  y : Nat
  u : Nat
  v : Nat
  a : Nat
  bgra : Nat
  mem : Vec

namespace Sse41

/-- Modelled from the spec: `Sse41::A`, the byte size of a `__m128i` (`SimdConst.h`, absent
here). -/
def A : Nat := 16
/-- Modelled from the spec: `Sse41::DA = 2 * A` (`SimdConst.h`, absent here). -/
def DA : Nat := 32
/-- Modelled from the spec: `Sse41::QA = 4 * A` (`SimdConst.h`, absent here). -/
def QA : Nat := 64
/-- Modelled from the spec: `Sse41::OA = 8 * A` (`SimdConst.h`, absent here). -/
def OA : Nat := 128

/-- Modelled from the spec: `Load<align>` of `SimdLoad.h` (absent here), the aligned or
unaligned load of 16 bytes; both read the same bytes. -/
def Load (_align : Bool) (m : Vec) (p : Nat) : Vec := _mm_loadu_si128 m p

/-- Modelled from the spec: `Store<align>` of `SimdStore.h` (absent here), the aligned or
unaligned store of 16 bytes; both write the same bytes. -/
def Store (_align : Bool) (m : Vec) (p : Nat) (v : Vec) : Vec := _mm_storeu_si128 m p v

/-- Modelled from the spec: `UnpackU8<part>(a)` of `SimdConversion.h` (absent here), which
interleaves the low (`part = 0`) or high (`part = 1`) eight bytes of `a` with zero bytes. -/
def UnpackU8 (part : Nat) (a : Vec) : Vec :=
  if part = 0 then _mm_unpacklo_epi8 a K_ZERO else _mm_unpackhi_epi8 a K_ZERO

/-- Modelled from the spec: `UnpackY<T, part>(y)` of `SimdYuvToBgr.h` (absent here): lane `k` is
the luma lane of byte `8 * part + k`. -/
def UnpackY (T : YuvTraits) (part : Nat) (y : Vec) : Vec :=
  ofU16 (fun k => T.unpackY (y (8 * part + k)))

/-- Modelled from the spec: `UnpackUV<T, part>(uv)` of `SimdYuvToBgr.h` (absent here): lane `k`
is the chroma lane of byte `8 * part + k`. -/
def UnpackUV (T : YuvTraits) (part : Nat) (uv : Vec) : Vec :=
  ofU16 (fun k => T.unpackUV (uv (8 * part + k)))

/-- Modelled from the spec: `YuvToBlue16<T>(y16, u16)` of `SimdYuvToBgr.h` (absent here): lane
`k` is the blue byte computed from lanes `k`, zero extended. -/
def YuvToBlue16 (T : YuvTraits) (yy uu : Vec) : Vec :=
  ofU16 (fun k => T.blue (u16 yy k) (u16 uu k))

/-- Modelled from the spec: `YuvToGreen16<T>(y16, u16, v16)` of `SimdYuvToBgr.h` (absent here):
lane `k` is the green byte computed from lanes `k`, zero extended. -/
def YuvToGreen16 (T : YuvTraits) (yy uu vv : Vec) : Vec :=
  ofU16 (fun k => T.green (u16 yy k) (u16 uu k) (u16 vv k))

/-- Modelled from the spec: `YuvToRed16<T>(y16, v16)` of `SimdYuvToBgr.h` (absent here): lane
`k` is the red byte computed from lanes `k`, zero extended. -/
def YuvToRed16 (T : YuvTraits) (yy vv : Vec) : Vec :=
  ofU16 (fun k => T.red (u16 yy k) (u16 vv k))

/-- `YuvaToBgra16<T>(y16, u16, v16, a16, bgra)`: eight pixels, stored at `bgra + 0` and
`bgra + 1` (in units of 16 bytes). -/
def YuvaToBgra16 (T : YuvTraits) (yy uu vv aa : Vec) (m : Vec) (p : Nat) : Vec :=
  let b16 := YuvToBlue16 T yy uu
  let g16 := YuvToGreen16 T yy uu vv
  let r16 := YuvToRed16 T yy vv
  let bg8 := _mm_or_si128 b16 (_mm_slli_si128 g16 1)
  let ra8 := _mm_or_si128 r16 (_mm_slli_si128 aa 1)
  _mm_storeu_si128 (_mm_storeu_si128 m (p + 16 * 0) (_mm_unpacklo_epi16 bg8 ra8))
    (p + 16 * 1) (_mm_unpackhi_epi16 bg8 ra8)

/-- The block `Yuva444pToBgraV2<T>(y, u, v, a, bgra)`: sixteen pixels. -/
def Yuva444pToBgraV2Block (T : YuvTraits) (y : Vec) (yo : Nat) (u : Vec) (uo : Nat) (v : Vec)
    (vo : Nat) (a : Vec) (ao : Nat) (m : Vec) (p : Nat) : Vec :=
  let _y := _mm_loadu_si128 y yo
  let _u := _mm_loadu_si128 u uo
  let _v := _mm_loadu_si128 v vo
  let _a := _mm_loadu_si128 a ao
  let m := YuvaToBgra16 T (UnpackY T 0 _y) (UnpackUV T 0 _u) (UnpackUV T 0 _v) (UnpackU8 0 _a)
    m (p + 16 * 0)
  YuvaToBgra16 T (UnpackY T 1 _y) (UnpackUV T 1 _u) (UnpackUV T 1 _v) (UnpackU8 1 _a)
    m (p + 16 * 2)

/-- Body of the row loop of `Yuva444pToBgraV2<T>`: the blocks of the body, the overlapping
block at `width - A` when `width` is not a multiple of `A`, then the pointers advance by one
row. The source asserts `width >= A`, so `width - A` does not wrap. -/
def yuva444pRow (T : YuvTraits) (y : Vec) (yStride : Nat) (u : Vec) (uStride : Nat) (v : Vec)
    (vStride : Nat) (a : Vec) (aStride : Nat) (width bgraStride : Nat) (s : YuvaPtr) :
    YuvaPtr :=
  let widthA := AlignLo width A
  let tail := width - widthA
  let m := rangeLoop widthA A (fun col (m : Vec) =>
    Yuva444pToBgraV2Block T y (s.y + col) u (s.u + col) v (s.v + col) a (s.a + col) m
      (s.bgra + col * 4)) s.mem
  let m := if tail ≠ 0 then
      let col := width - A
      Yuva444pToBgraV2Block T y (s.y + col) u (s.u + col) v (s.v + col) a (s.a + col) m
        (s.bgra + col * 4)
    else m
  ⟨s.y + yStride, s.u + uStride, s.v + vStride, s.a + aStride, s.bgra + bgraStride, m⟩

/-- The image conversion `Yuva444pToBgraV2<T>(y, yStride, ..., bgra, bgraStride)`; the result
is the output buffer. -/
def Yuva444pToBgraV2T (T : YuvTraits) (y : Vec) (yStride : Nat) (u : Vec) (uStride : Nat)
    (v : Vec) (vStride : Nat) (a : Vec) (aStride : Nat) (width height : Nat) (bgra : Vec)
    (bgraStride : Nat) : Vec :=
  (rangeLoop height 1 (fun _ (s : YuvaPtr) =>
    yuva444pRow T y yStride u uStride v vStride a aStride width bgraStride s)
    ⟨0, 0, 0, 0, 0, bgra⟩).mem

/-- The exported `Yuva444pToBgraV2(..., yuvType)`; `traits` gives the traits class of each
standard. For another `yuvType` the source reaches `assert(0)` and writes nothing. -/
def Yuva444pToBgraV2 (traits : SimdYuvType → YuvTraits) (y : Vec) (yStride : Nat) (u : Vec)
    (uStride : Nat) (v : Vec) (vStride : Nat) (a : Vec) (aStride : Nat) (width height : Nat)
    (bgra : Vec) (bgraStride : Nat) (yuvType : SimdYuvType) : Vec :=
  match yuvType with
  | .Bt601 => Yuva444pToBgraV2T (traits .Bt601) y yStride u uStride v vStride a aStride width
      height bgra bgraStride
  | .Bt709 => Yuva444pToBgraV2T (traits .Bt709) y yStride u uStride v vStride a aStride width
      height bgra bgraStride
  | .Bt2020 => Yuva444pToBgraV2T (traits .Bt2020) y yStride u uStride v vStride a aStride width
      height bgra bgraStride
  | .Trect871 => Yuva444pToBgraV2T (traits .Trect871) y yStride u uStride v vStride a aStride
      width height bgra bgraStride
  | .Unknown => bgra

/-- `YuvToBgra16<align, T>(y16, u16, v16, a_0, bgra)`: eight pixels with the constant alpha
lanes `a_0`. -/
def YuvToBgra16 (align : Bool) (T : YuvTraits) (yy uu vv a_0 : Vec) (m : Vec) (p : Nat) :
    Vec :=
  let b16 := YuvToBlue16 T yy uu
  let g16 := YuvToGreen16 T yy uu vv
  let r16 := YuvToRed16 T yy vv
  let bg8 := _mm_or_si128 b16 (_mm_slli_si128 g16 1)
  let ra8 := _mm_or_si128 r16 a_0
  Store align (Store align m (p + 16 * 0) (_mm_unpacklo_epi16 bg8 ra8))
    (p + 16 * 1) (_mm_unpackhi_epi16 bg8 ra8)

/-- `YuvToBgra<align, T>(y8, u8, v8, a_0, bgra)`: sixteen pixels. -/
def YuvToBgra (align : Bool) (T : YuvTraits) (y8 u8 v8 a_0 : Vec) (m : Vec) (p : Nat) : Vec :=
  let m := YuvToBgra16 align T (UnpackY T 0 y8) (UnpackUV T 0 u8) (UnpackUV T 0 v8) a_0
    m (p + 16 * 0)
  YuvToBgra16 align T (UnpackY T 1 y8) (UnpackUV T 1 u8) (UnpackUV T 1 v8) a_0 m (p + 16 * 2)

/-- The block `Yuv444pToBgraV2<align, T>(y, u, v, a_0, bgra)`: sixteen pixels. -/
def Yuv444pToBgraV2Block (align : Bool) (T : YuvTraits) (y : Vec) (yo : Nat) (u : Vec)
    (uo : Nat) (v : Vec) (vo : Nat) (a_0 : Vec) (m : Vec) (p : Nat) : Vec :=
  YuvToBgra align T (Load align y yo) (Load align u uo) (Load align v vo) a_0 m p

/-- Body of the row loop of `Yuv444pToBgraV2<align, T>`; the loop over the body carries
`colBgra` next to the output. The source asserts `width >= A`. -/
def yuv444pRow (align : Bool) (T : YuvTraits) (y : Vec) (yStride : Nat) (u : Vec)
    (uStride : Nat) (v : Vec) (vStride : Nat) (width bgraStride : Nat) (a_0 : Vec)
    (s : YuvPtr) : YuvPtr :=
  let bodyWidth := AlignLo width A
  let tail := width - bodyWidth
  let r := rangeLoop bodyWidth A (fun colYuv (t : Nat × Vec) =>
    (t.1 + QA, Yuv444pToBgraV2Block align T y (s.y + colYuv) u (s.u + colYuv) v (s.v + colYuv)
      a_0 t.2 (s.bgra + t.1))) (0, s.mem)
  let m := if tail ≠ 0 then
      let col := width - A
      Yuv444pToBgraV2Block false T y (s.y + col) u (s.u + col) v (s.v + col) a_0 r.2
        (s.bgra + 4 * col)
    else r.2
  ⟨s.y + yStride, s.u + uStride, s.v + vStride, s.bgra + bgraStride, m⟩

/-- The image conversion `Yuv444pToBgraV2<align, T>(y, yStride, ..., bgra, bgraStride, alpha)`;
the result is the output buffer. -/
def Yuv444pToBgraV2T (align : Bool) (T : YuvTraits) (y : Vec) (yStride : Nat) (u : Vec)
    (uStride : Nat) (v : Vec) (vStride : Nat) (width height : Nat) (bgra : Vec)
    (bgraStride : Nat) (alpha : Nat) : Vec :=
  let a_0 := _mm_slli_si128 (_mm_set1_epi16 alpha) 1
  (rangeLoop height 1 (fun _ (s : YuvPtr) =>
    yuv444pRow align T y yStride u uStride v vStride width bgraStride a_0 s)
    ⟨0, 0, 0, 0, bgra⟩).mem

/-- The dispatch `Yuv444pToBgraV2<align>(..., alpha, yuvType)` on the standard. -/
def Yuv444pToBgraV2A (align : Bool) (traits : SimdYuvType → YuvTraits) (y : Vec)
    (yStride : Nat) (u : Vec) (uStride : Nat) (v : Vec) (vStride : Nat) (width height : Nat)
    (bgra : Vec) (bgraStride : Nat) (alpha : Nat) (yuvType : SimdYuvType) : Vec :=
  match yuvType with
  | .Bt601 => Yuv444pToBgraV2T align (traits .Bt601) y yStride u uStride v vStride width height
      bgra bgraStride alpha
  | .Bt709 => Yuv444pToBgraV2T align (traits .Bt709) y yStride u uStride v vStride width height
      bgra bgraStride alpha
  | .Bt2020 => Yuv444pToBgraV2T align (traits .Bt2020) y yStride u uStride v vStride width
      height bgra bgraStride alpha
  | .Trect871 => Yuv444pToBgraV2T align (traits .Trect871) y yStride u uStride v vStride width
      height bgra bgraStride alpha
  | .Unknown => bgra

/-- The exported `Yuv444pToBgraV2(..., alpha, yuvType)`; `aligned` is the outcome of the test
`Aligned(y) && Aligned(yStride) && ... && Aligned(bgraStride)`. -/
def Yuv444pToBgraV2 (aligned : Bool) (traits : SimdYuvType → YuvTraits) (y : Vec)
    (yStride : Nat) (u : Vec) (uStride : Nat) (v : Vec) (vStride : Nat) (width height : Nat)
    (bgra : Vec) (bgraStride : Nat) (alpha : Nat) (yuvType : SimdYuvType) : Vec :=
  if aligned then
    Yuv444pToBgraV2A true traits y yStride u uStride v vStride width height bgra bgraStride
      alpha yuvType
  else
    Yuv444pToBgraV2A false traits y yStride u uStride v vStride width height bgra bgraStride
      alpha yuvType

/-- The block `Yuv422pToBgraV2<align, T>(y, u, v, a_0, bgra)`: 32 pixels from 32 luma bytes and
the 16 chroma bytes of the registers `u`, `v`, each used for two pixels. -/
def Yuv422pToBgraV2Block (align : Bool) (T : YuvTraits) (y : Vec) (yo : Nat) (u_ v_ a_0 : Vec)
    (m : Vec) (p : Nat) : Vec :=
  let m := YuvToBgra align T (Load align y (yo + 16 * 0)) (_mm_unpacklo_epi8 u_ u_)
    (_mm_unpacklo_epi8 v_ v_) a_0 m (p + 16 * 0)
  YuvToBgra align T (Load align y (yo + 16 * 1)) (_mm_unpackhi_epi8 u_ u_)
    (_mm_unpackhi_epi8 v_ v_) a_0 m (p + 16 * 4)

/-- Body of the row loop of `Yuv422pToBgraV2<align, T>`; the loop over the body carries
`colUV` and `colBgra` next to the output. The source asserts `width >= DA`. -/
def yuv422pRow (align : Bool) (T : YuvTraits) (y : Vec) (yStride : Nat) (u : Vec)
    (uStride : Nat) (v : Vec) (vStride : Nat) (width bgraStride : Nat) (a_0 : Vec)
    (s : YuvPtr) : YuvPtr :=
  let bodyWidth := AlignLo width DA
  let tail := width - bodyWidth
  let r := rangeLoop bodyWidth DA (fun colY (t : Nat × Nat × Vec) =>
    let u_ := Load align u (s.u + t.1)
    let v_ := Load align v (s.v + t.1)
    (t.1 + A, t.2.1 + OA,
      Yuv422pToBgraV2Block align T y (s.y + colY) u_ v_ a_0 t.2.2 (s.bgra + t.2.1)))
    (0, 0, s.mem)
  let m := if tail ≠ 0 then
      let offset := width - DA
      let u_ := Load false u (s.u + offset / 2)
      let v_ := Load false v (s.v + offset / 2)
      Yuv422pToBgraV2Block false T y (s.y + offset) u_ v_ a_0 r.2.2 (s.bgra + 4 * offset)
    else r.2.2
  ⟨s.y + yStride, s.u + uStride, s.v + vStride, s.bgra + bgraStride, m⟩

/-- The image conversion `Yuv422pToBgraV2<align, T>(..., alpha)`. -/
def Yuv422pToBgraV2T (align : Bool) (T : YuvTraits) (y : Vec) (yStride : Nat) (u : Vec)
    (uStride : Nat) (v : Vec) (vStride : Nat) (width height : Nat) (bgra : Vec)
    (bgraStride : Nat) (alpha : Nat) : Vec :=
  let a_0 := _mm_slli_si128 (_mm_set1_epi16 alpha) 1
  (rangeLoop height 1 (fun _ (s : YuvPtr) =>
    yuv422pRow align T y yStride u uStride v vStride width bgraStride a_0 s)
    ⟨0, 0, 0, 0, bgra⟩).mem

/-- The dispatch `Yuv422pToBgraV2<align>(..., alpha, yuvType)` on the standard. -/
def Yuv422pToBgraV2A (align : Bool) (traits : SimdYuvType → YuvTraits) (y : Vec)
    (yStride : Nat) (u : Vec) (uStride : Nat) (v : Vec) (vStride : Nat) (width height : Nat)
    (bgra : Vec) (bgraStride : Nat) (alpha : Nat) (yuvType : SimdYuvType) : Vec :=
  match yuvType with
  | .Bt601 => Yuv422pToBgraV2T align (traits .Bt601) y yStride u uStride v vStride width height
      bgra bgraStride alpha
  | .Bt709 => Yuv422pToBgraV2T align (traits .Bt709) y yStride u uStride v vStride width height
      bgra bgraStride alpha
  | .Bt2020 => Yuv422pToBgraV2T align (traits .Bt2020) y yStride u uStride v vStride width
      height bgra bgraStride alpha
  | .Trect871 => Yuv422pToBgraV2T align (traits .Trect871) y yStride u uStride v vStride width
      height bgra bgraStride alpha
  | .Unknown => bgra

/-- The exported `Yuv422pToBgraV2(..., alpha, yuvType)`. -/
def Yuv422pToBgraV2 (aligned : Bool) (traits : SimdYuvType → YuvTraits) (y : Vec)
    (yStride : Nat) (u : Vec) (uStride : Nat) (v : Vec) (vStride : Nat) (width height : Nat)
    (bgra : Vec) (bgraStride : Nat) (alpha : Nat) (yuvType : SimdYuvType) : Vec :=
  if aligned then
    Yuv422pToBgraV2A true traits y yStride u uStride v vStride width height bgra bgraStride
      alpha yuvType
  else
    Yuv422pToBgraV2A false traits y yStride u uStride v vStride width height bgra bgraStride
      alpha yuvType

/-- Body of the row loop of `Yuv420pToBgraV2<align, T>`: two rows of the image, which share
one row of chroma. The source asserts `width >= DA`. -/
def yuv420pRows (align : Bool) (T : YuvTraits) (y : Vec) (yStride : Nat) (u : Vec)
    (uStride : Nat) (v : Vec) (vStride : Nat) (width bgraStride : Nat) (a_0 : Vec)
    (s : YuvPtr) : YuvPtr :=
  let bodyWidth := AlignLo width DA
  let tail := width - bodyWidth
  let r := rangeLoop bodyWidth DA (fun colY (t : Nat × Nat × Vec) =>
    let u_ := Load align u (s.u + t.1)
    let v_ := Load align v (s.v + t.1)
    let m := Yuv422pToBgraV2Block align T y (s.y + colY) u_ v_ a_0 t.2.2 (s.bgra + t.2.1)
    (t.1 + A, t.2.1 + OA,
      Yuv422pToBgraV2Block align T y (s.y + colY + yStride) u_ v_ a_0 m
        (s.bgra + t.2.1 + bgraStride)))
    (0, 0, s.mem)
  let m := if tail ≠ 0 then
      let offset := width - DA
      let u_ := Load false u (s.u + offset / 2)
      let v_ := Load false v (s.v + offset / 2)
      let m := Yuv422pToBgraV2Block false T y (s.y + offset) u_ v_ a_0 r.2.2
        (s.bgra + 4 * offset)
      Yuv422pToBgraV2Block false T y (s.y + offset + yStride) u_ v_ a_0 m
        (s.bgra + 4 * offset + bgraStride)
    else r.2.2
  ⟨s.y + 2 * yStride, s.u + uStride, s.v + vStride, s.bgra + 2 * bgraStride, m⟩

/-- The image conversion `Yuv420pToBgraV2<align, T>(..., alpha)`: the row loop advances by two
rows. -/
def Yuv420pToBgraV2T (align : Bool) (T : YuvTraits) (y : Vec) (yStride : Nat) (u : Vec)
    (uStride : Nat) (v : Vec) (vStride : Nat) (width height : Nat) (bgra : Vec)
    (bgraStride : Nat) (alpha : Nat) : Vec :=
  let a_0 := _mm_slli_si128 (_mm_set1_epi16 alpha) 1
  (rangeLoop height 2 (fun _ (s : YuvPtr) =>
    yuv420pRows align T y yStride u uStride v vStride width bgraStride a_0 s)
    ⟨0, 0, 0, 0, bgra⟩).mem

/-- The dispatch `Yuv420pToBgraV2<align>(..., alpha, yuvType)` on the standard. -/
def Yuv420pToBgraV2A (align : Bool) (traits : SimdYuvType → YuvTraits) (y : Vec)
    (yStride : Nat) (u : Vec) (uStride : Nat) (v : Vec) (vStride : Nat) (width height : Nat)
    (bgra : Vec) (bgraStride : Nat) (alpha : Nat) (yuvType : SimdYuvType) : Vec :=
  match yuvType with
  | .Bt601 => Yuv420pToBgraV2T align (traits .Bt601) y yStride u uStride v vStride width height
      bgra bgraStride alpha
  | .Bt709 => Yuv420pToBgraV2T align (traits .Bt709) y yStride u uStride v vStride width height
      bgra bgraStride alpha
  | .Bt2020 => Yuv420pToBgraV2T align (traits .Bt2020) y yStride u uStride v vStride width
      height bgra bgraStride alpha
  | .Trect871 => Yuv420pToBgraV2T align (traits .Trect871) y yStride u uStride v vStride width
      height bgra bgraStride alpha
  | .Unknown => bgra

/-- The exported `Yuv420pToBgraV2(..., alpha, yuvType)`. -/
def Yuv420pToBgraV2 (aligned : Bool) (traits : SimdYuvType → YuvTraits) (y : Vec)
    (yStride : Nat) (u : Vec) (uStride : Nat) (v : Vec) (vStride : Nat) (width height : Nat)
    (bgra : Vec) (bgraStride : Nat) (alpha : Nat) (yuvType : SimdYuvType) : Vec :=
  if aligned then
    Yuv420pToBgraV2A true traits y yStride u uStride v vStride width height bgra bgraStride
      alpha yuvType
  else
    Yuv420pToBgraV2A false traits y yStride u uStride v vStride width height bgra bgraStride
      alpha yuvType

end Sse41

/-! ## The normalize layer with its scratch buffer as a result -/

namespace Base

/-- `SynetNormalizeLayerForward` with the memory behind the caller's `buf` as a second result:
`none` when `buf == NULL` (the scratch buffer is then internal), else the contents of the
caller's buffer on return. Only the NCHW branch with `acrossSpatial` false mentions `buf`. -/
def SynetNormalizeLayerForwardBuf {F : Type} [Field F] (sqrt : F → F) (src : Nat → F)
    (batch channels spatial : Nat) (scale : Nat → F) (eps : Nat → F) (acrossSpatial : Bool)
    (format : SimdTensorFormatType) (buf : Option (Nat → F)) (dst : Nat → F) :
    (Nat → F) × Option (Nat → F) :=
  let _eps := eps 0
  match format with
  | .Nchw =>
    if acrossSpatial then
      ((rangeLoop batch 1 (fun _ (s : NPtr F) =>
        normBatchNchwAcross sqrt src channels spatial scale _eps s) ⟨0, 0, dst⟩).mem, buf)
    else
      let t := rangeLoop batch 1 (fun _ (t : NPtr F × (Nat → F)) =>
        normBatchNchw sqrt src channels spatial scale _eps t)
        (⟨0, 0, dst⟩, match buf with
          | none => fun _ => 0
          | some b => b)
      (t.1.mem, match buf with
        | none => none
        | some _ => some t.2)
  | .Nhwc =>
    if acrossSpatial then
      ((rangeLoop batch 1 (fun _ (s : NPtr F) =>
        normBatchNhwcAcross sqrt src channels spatial scale _eps s) ⟨0, 0, dst⟩).mem, buf)
    else
      ((rangeLoop batch 1 (fun _ (s : NPtr F) =>
        rangeLoop spatial 1 (fun _ (s : NPtr F) =>
          normPositionNhwc sqrt src channels scale _eps s) s) ⟨0, 0, dst⟩).mem, buf)
  | .Other => (dst, buf)

end Base

/-! ## The vector quantise-and-store (`SimdSynetQuantizeLinear.h`) -/

def _mm_add_epi32 (a b : Vec) : Vec := ofU32 (fun i => (u32 a i + u32 b i) % 4294967296)
def _mm_cvtps_epi32 (a : FVec) : Vec := ofU32 (fun i => ofS32 (cvtps_lane (a i)))
def _mm_packs_epi32 (a b : Vec) : Vec :=
  ofU16 (fun i => if i < 4 then ofS16 (satS16 (toS32 (u32 a i)))
    else ofS16 (satS16 (toS32 (u32 b (i - 4)))))
def _mm_cvtsi128_si32 (a : Vec) : Nat := u32 a 0

/-- The signed 32-bit lane `k` of a register. -/
def s32 (v : Vec) (k : Nat) : Int := toS32 (u32 v k)

/-- The value fits `int32_t`. -/
def FitsInt32 (x : Int) : Prop := -2147483648 ≤ x ∧ x < 2147483648

/-- No step of `NearByInt(float(sum + bias) * norm) + zero` leaves `int32_t`: the sum
`sum + bias`, the rounded product (an `int` in the scalar code), and the rounded product plus
`zero`. -/
def NoOverflow (sum bias : Int) (norm : ℚ) (zero : Int) : Prop :=
  FitsInt32 (sum + bias) ∧ FitsInt32 (roundNearestEven (((sum + bias : Int) : ℚ) * norm))
    ∧ FitsInt32 (roundNearestEven (((sum + bias : Int) : ℚ) * norm) + zero)

namespace Sse41

/-- Modelled from the spec: `Sse41::F`, the number of floats in a `__m128` (`SimdConst.h`,
absent here). -/
def F : Nat := 4

namespace QuntizedTerm8iLast8u

/-- `QuntizedTerm8i<Term8iLast8u>::Save<index>(dst, buf, sum, bias, norm, zero)`: the store
`((int32_t*)dst)[index] = ...` writes the four bytes at `dst + 4 * index`. The argument `buf`
is not used by this specialisation. -/
def Save (index : Nat) (m : Vec) (dst : Nat) (sum : Vec) (bias : Nat → Vec)
    (norm : Nat → FVec) (zero : Vec) : Vec :=
  let i32 := _mm_add_epi32 (_mm_cvtps_epi32 (_mm_mul_ps
    (_mm_cvtepi32_ps (_mm_add_epi32 sum (bias index))) (norm index))) zero
  store_u32 m (dst + 4 * index)
    (_mm_cvtsi128_si32 (_mm_packus_epi16 (_mm_packs_epi32 i32 K_ZERO) K_ZERO))

/-- `QuntizedTerm8i<Term8iLast8u>::Save<index>(dst, buf, sum, bias, norm, zero, tail)`. The
local array `uint8_t tmp[F]` lies at offset `index * F` of a block `tmp` of its own (with any
initial contents), so that the pointer `tmp - index * F` handed to `Save<index>` is offset 0
of the block. -/
def SaveTail (index : Nat) (m : Vec) (dst : Nat) (sum : Vec) (bias : Nat → Vec)
    (norm : Nat → FVec) (zero : Vec) (tail : Nat) (tmp : Vec) : Vec :=
  let tmp := Save index tmp 0 sum bias norm zero
  rangeLoop tail 1 (fun i (m : Vec) =>
    store_u8 m (dst + index * F + i) (tmp (index * F + i))) m

/-- `QuntizedTerm8i<Term8iLast8u>::Save(dst, buf, sum0, sum1, bias, norm, zero)`. -/
def Save2 (m : Vec) (dst : Nat) (sum0 sum1 : Vec) (bias : Nat → Vec) (norm : Nat → FVec)
    (zero : Vec) : Vec :=
  let d0 := _mm_add_epi32 (_mm_cvtps_epi32 (_mm_mul_ps
    (_mm_cvtepi32_ps (_mm_add_epi32 sum0 (bias 0))) (norm 0))) zero
  let d1 := _mm_add_epi32 (_mm_cvtps_epi32 (_mm_mul_ps
    (_mm_cvtepi32_ps (_mm_add_epi32 sum1 (bias 1))) (norm 1))) zero
  _mm_storel_epi64 m dst (_mm_packus_epi16 (_mm_packs_epi32 d0 d1) K_ZERO)

end QuntizedTerm8iLast8u

end Sse41

namespace Avx2

/-- Modelled from the spec: `Avx2::F`, the number of floats in a `__m256` (`SimdConst.h`,
absent here). -/
def F : Nat := 8

/-- Modelled from the spec: the constant `Avx2::K_ZERO` of `SimdConst.h` (absent here). -/
def K_ZERO : Vec := fun _ => 0

namespace QuntizedTerm8iLast8u

/-- `QuntizedTerm8i<Term8iLast8u>::Save<index>(dst, buf, sum, bias, norm, zero)`: eight bytes
at `dst + index * F`. The argument `buf` is not used by this specialisation. -/
def Save (index : Nat) (m : Vec) (dst : Nat) (sum : Vec) (bias : Nat → Vec)
    (norm : Nat → FVec) (zero : Vec) : Vec :=
  let i32 := _mm256_add_epi32 (_mm256_cvtps_epi32 (_mm256_mul_ps
    (_mm256_cvtepi32_ps (_mm256_add_epi32 sum (bias index))) (norm index))) zero
  _mm_storel_epi64 m (dst + index * F)
    (_mm256_castsi256_si128 (PackI16ToU8 (PackI32ToI16 i32 K_ZERO) K_ZERO))

/-- `QuntizedTerm8i<Term8iLast8u>::Save<index>(dst, buf, sum, bias, norm, zero, tail)`. The
local array `uint8_t tmp[F]` lies at offset `index * F` of a block `tmp` of its own (with any
initial contents), so that the pointer `tmp - index * F` handed to `Save<index>` is offset 0
of the block. -/
def SaveTail (index : Nat) (m : Vec) (dst : Nat) (sum : Vec) (bias : Nat → Vec)
    (norm : Nat → FVec) (zero : Vec) (tail : Nat) (tmp : Vec) : Vec :=
  let tmp := Save index tmp 0 sum bias norm zero
  rangeLoop tail 1 (fun i (m : Vec) =>
    store_u8 m (dst + index * F + i) (tmp (index * F + i))) m

/-- `QuntizedTerm8i<Term8iLast8u>::Save(dst, buf, sum0, sum1, bias, norm, zero)`. -/
def Save2 (m : Vec) (dst : Nat) (sum0 sum1 : Vec) (bias : Nat → Vec) (norm : Nat → FVec)
    (zero : Vec) : Vec :=
  let d0 := _mm256_add_epi32 (_mm256_cvtps_epi32 (_mm256_mul_ps
    (_mm256_cvtepi32_ps (_mm256_add_epi32 sum0 (bias 0))) (norm 0))) zero
  let d1 := _mm256_add_epi32 (_mm256_cvtps_epi32 (_mm256_mul_ps
    (_mm256_cvtepi32_ps (_mm256_add_epi32 sum1 (bias 1))) (norm 1))) zero
  _mm_storeu_si128 m dst
    (_mm256_castsi256_si128 (PackI16ToU8 (PackI32ToI16 d0 d1) K_ZERO))

end QuntizedTerm8iLast8u

end Avx2

/-! ## `MinMax32f`

The float values are taken from a linearly ordered carrier `E` (floats without NaN; the
carrier may hold infinities), and `FLT_MAX`, `-FLT_MAX` are two of its elements. -/

namespace OrdLane

def _mm256_set1_ps {E : Type} (x : E) : Nat → E := fun _ => x
def _mm256_loadu_ps {E : Type} (m : Nat → E) (p : Nat) : Nat → E := fun j => m (p + j)
def _mm256_min_ps {E : Type} [LinearOrder E] (a b : Nat → E) : Nat → E :=
  fun i => min (a i) (b i)
def _mm256_max_ps {E : Type} [LinearOrder E] (a b : Nat → E) : Nat → E :=
  fun i => max (a i) (b i)

end OrdLane

namespace Avx2

/-- Modelled from the spec: `MinVal32f(src, dst)` of `SimdExtract.h` (absent here), the minimum
of the eight lanes. -/
def MinVal32f {E : Type} [LinearOrder E] (a : Nat → E) : E :=
  min (min (min (a 0) (a 1)) (min (a 2) (a 3))) (min (min (a 4) (a 5)) (min (a 6) (a 7)))

/-- Modelled from the spec: `MaxVal32f(src, dst)` of `SimdExtract.h` (absent here), the maximum
of the eight lanes. -/
def MaxVal32f {E : Type} [LinearOrder E] (a : Nat → E) : E :=
  max (max (max (a 0) (a 1)) (max (a 2) (a 3))) (max (max (a 4) (a 5)) (max (a 6) (a 7)))

/-- `MinMax32f(src, size, min, max)`; the result is the pair `(min, max)`. -/
def MinMax32f {E : Type} [LinearOrder E] (FLT_MAX negFLT_MAX : E) (src : Nat → E)
    (size : Nat) : E × E :=
  let _min := OrdLane._mm256_set1_ps FLT_MAX
  let _max := OrdLane._mm256_set1_ps negFLT_MAX
  let r := rangeLoop size 8 (fun i (t : (Nat → E) × (Nat → E)) =>
    let _src := OrdLane._mm256_loadu_ps src i
    (OrdLane._mm256_min_ps _src t.1, OrdLane._mm256_max_ps _src t.2)) (_min, _max)
  (MinVal32f r.1, MaxVal32f r.2)

end Avx2

/-- The largest finite `float`, `FLT_MAX = (2 - 2^-23) * 2^127`. -/
def FLT_MAX : ℚ := 340282346638528859811704183484516925440

/-! ## The vector error function (`SimdErf.h`) -/

def _mm_set1_epi32 (x : Int) : Vec := ofU32 (fun _ => ofS32 x)
def _mm256_set1_epi32 (x : Int) : Vec := ofU32 (fun _ => ofS32 x)
def _mm_slli_epi32 (a : Vec) (n : Nat) : Vec := ofU32 (fun i => u32 a i * 2 ^ n % 4294967296)
def _mm256_slli_epi32 (a : Vec) (n : Nat) : Vec :=
  ofU32 (fun i => u32 a i * 2 ^ n % 4294967296)
/-- The reinterpretation of 32-bit patterns as floats; `f32` is the decoding of a pattern. -/
def _mm_castsi128_ps (f32 : Nat → ℚ) (a : Vec) : FVec := fun i => f32 (u32 a i)
/-- The reinterpretation of 32-bit patterns as floats; `f32` is the decoding of a pattern. -/
def _mm256_castsi256_ps (f32 : Nat → ℚ) (a : Vec) : FVec := fun i => f32 (u32 a i)
def _mm256_min_ps (a b : FVec) : FVec := fun i => min (a i) (b i)
def _mm256_div_ps (a b : FVec) : FVec := fun i => a i / b i
def _mm256_fnmadd_ps (a b c : FVec) : FVec := fun i => -(a i * b i) + c i

/-- The operation `andnot_ps(_m0, x)` with `_m0 = set1_ps(-0.0f)`, the mask of the sign bits:
it clears the sign bit of every lane, which leaves the magnitude. -/
def clearSign (x : FVec) : FVec := fun i => |x i|

/-- The operation `or_ps(and_ps(_m0, x), r)` with `_m0 = set1_ps(-0.0f)`: it sets the sign bit
of a lane of `r` when the sign bit of the lane of `x` is set. Negative zero is not told from
zero in exact arithmetic. -/
def copySign (x r : FVec) : FVec := fun i => if x i < 0 then -|r i| else r i

namespace Sse41

namespace Detail

def Poly4 (x : FVec) (a b c d e : ℚ) : FVec :=
  let p := _mm_set1_ps e
  let p := _mm_add_ps (_mm_mul_ps x p) (_mm_set1_ps d)
  let p := _mm_add_ps (_mm_mul_ps x p) (_mm_set1_ps c)
  let p := _mm_add_ps (_mm_mul_ps x p) (_mm_set1_ps b)
  let p := _mm_add_ps (_mm_mul_ps x p) (_mm_set1_ps a)
  p

/-- Modelled from the spec: `Poly5` of `SimdExp.h` (absent here), the polynomial
`a + x (b + x (c + x (d + x (e + x f))))` in the scheme of `Poly4`. -/
def Poly5 (x : FVec) (a b c d e f : ℚ) : FVec :=
  let p := _mm_set1_ps f
  let p := _mm_add_ps (_mm_mul_ps x p) (_mm_set1_ps e)
  let p := _mm_add_ps (_mm_mul_ps x p) (_mm_set1_ps d)
  let p := _mm_add_ps (_mm_mul_ps x p) (_mm_set1_ps c)
  let p := _mm_add_ps (_mm_mul_ps x p) (_mm_set1_ps b)
  let p := _mm_add_ps (_mm_mul_ps x p) (_mm_set1_ps a)
  p

/-- `ExpNegSqr(x)`; float constants are the decimal values written in the source. -/
def ExpNegSqr (f32 : Nat → ℚ) (x : FVec) : FVec :=
  let x := _mm_mul_ps (_mm_set1_ps (-1.44269504)) (_mm_mul_ps x x)
  let ipart := _mm_cvtps_epi32 (_mm_sub_ps x (_mm_set1_ps 0.5))
  let fpart := _mm_sub_ps x (_mm_cvtepi32_ps ipart)
  let expipart := _mm_castsi128_ps f32
    (_mm_slli_epi32 (_mm_add_epi32 ipart (_mm_set1_epi32 127)) 23)
  let expfpart := Poly5 fpart 9.9999994e-1 6.9315308e-1 2.4015361e-1 5.5826318e-2
    8.9893397e-3 1.8775767e-3
  _mm_mul_ps expipart expfpart

/-- The local `ipart` of `ExpNegSqr(x)`. -/
def ExpNegSqrIpart (x : FVec) : Vec :=
  _mm_cvtps_epi32 (_mm_sub_ps (_mm_mul_ps (_mm_set1_ps (-1.44269504)) (_mm_mul_ps x x))
    (_mm_set1_ps 0.5))

/-- The bit pattern of the local `expipart` of `ExpNegSqr(x)`. -/
def ExpNegSqrExpBits (x : FVec) : Vec :=
  _mm_slli_epi32 (_mm_add_epi32 (ExpNegSqrIpart x) (_mm_set1_epi32 127)) 23

end Detail

/-- The local `a` of `Erf(x)`, the argument handed to `ExpNegSqr`. -/
def ErfArg (x : FVec) : FVec := _mm_min_ps (clearSign x) (_mm_set1_ps 9)

def Erf (f32 : Nat → ℚ) (x : FVec) : FVec :=
  let _max := _mm_set1_ps 9
  let _1 := _mm_set1_ps 1.0
  let a := _mm_min_ps (clearSign x) _max
  let q := _mm_div_ps _1 (_mm_add_ps (_mm_mul_ps (_mm_set1_ps 0.3275911) a) _1)
  let p := Detail.Poly4 q 0.254829592 (-0.284496736) 1.421413741 (-1.453152027) 1.061405429
  let r := _mm_sub_ps _1 (_mm_mul_ps (_mm_mul_ps p q) (Detail.ExpNegSqr f32 a))
  copySign x r

end Sse41

namespace Avx2

namespace Detail

def Poly4 (x : FVec) (a b c d e : ℚ) : FVec :=
  let p := _mm256_set1_ps e
  let p := _mm256_fmadd_ps x p (_mm256_set1_ps d)
  let p := _mm256_fmadd_ps x p (_mm256_set1_ps c)
  let p := _mm256_fmadd_ps x p (_mm256_set1_ps b)
  let p := _mm256_fmadd_ps x p (_mm256_set1_ps a)
  p

/-- Modelled from the spec: `Poly5` of `SimdExp.h` (absent here), the polynomial
`a + x (b + x (c + x (d + x (e + x f))))` in the scheme of `Poly4`. -/
def Poly5 (x : FVec) (a b c d e f : ℚ) : FVec :=
  let p := _mm256_set1_ps f
  let p := _mm256_fmadd_ps x p (_mm256_set1_ps e)
  let p := _mm256_fmadd_ps x p (_mm256_set1_ps d)
  let p := _mm256_fmadd_ps x p (_mm256_set1_ps c)
  let p := _mm256_fmadd_ps x p (_mm256_set1_ps b)
  let p := _mm256_fmadd_ps x p (_mm256_set1_ps a)
  p

/-- `ExpNegSqr(x)`; float constants are the decimal values written in the source. -/
def ExpNegSqr (f32 : Nat → ℚ) (x : FVec) : FVec :=
  let x := _mm256_mul_ps (_mm256_set1_ps (-1.44269504)) (_mm256_mul_ps x x)
  let ipart := _mm256_cvtps_epi32 (_mm256_sub_ps x (_mm256_set1_ps 0.5))
  let fpart := _mm256_sub_ps x (_mm256_cvtepi32_ps ipart)
  let expipart := _mm256_castsi256_ps f32
    (_mm256_slli_epi32 (_mm256_add_epi32 ipart (_mm256_set1_epi32 127)) 23)
  let expfpart := Poly5 fpart 9.9999994e-1 6.9315308e-1 2.4015361e-1 5.5826318e-2
    8.9893397e-3 1.8775767e-3
  _mm256_mul_ps expipart expfpart

/-- The local `ipart` of `ExpNegSqr(x)`. -/
def ExpNegSqrIpart (x : FVec) : Vec :=
  _mm256_cvtps_epi32 (_mm256_sub_ps
    (_mm256_mul_ps (_mm256_set1_ps (-1.44269504)) (_mm256_mul_ps x x)) (_mm256_set1_ps 0.5))

/-- The bit pattern of the local `expipart` of `ExpNegSqr(x)`. -/
def ExpNegSqrExpBits (x : FVec) : Vec :=
  _mm256_slli_epi32 (_mm256_add_epi32 (ExpNegSqrIpart x) (_mm256_set1_epi32 127)) 23

end Detail

/-- The local `a` of `Erf(x)`, the argument handed to `ExpNegSqr`. -/
def ErfArg (x : FVec) : FVec := _mm256_min_ps (clearSign x) (_mm256_set1_ps 9)

def Erf (f32 : Nat → ℚ) (x : FVec) : FVec :=
  let _max := _mm256_set1_ps 9
  let _1 := _mm256_set1_ps 1.0
  let a := _mm256_min_ps (clearSign x) _max
  let q := _mm256_div_ps _1 (_mm256_fmadd_ps (_mm256_set1_ps 0.3275911) a _1)
  let p := Detail.Poly4 q 0.254829592 (-0.284496736) 1.421413741 (-1.453152027) 1.061405429
  let r := _mm256_fnmadd_ps (_mm256_mul_ps p q) (Detail.ExpNegSqr f32 a) _1
  copySign x r

end Avx2

/-! ## Binary32 arithmetic

The definitions above take float arithmetic exactly. This section models the binary32 format:
an operation rounds its exact result to the nearest binary32 number (ties to even, the default
rounding mode), overflows to an infinity, and treats infinities and NaN as IEEE 754 prescribes.
The two zeros are identified (a zero divisor counts as `+0`) and NaN payloads are not
represented. The float code of the quantiser and the encoders, of the decoders, of the distance
decoders and of the scalar linear quantiser is repeated over this format in the namespace
`Ieee`. -/

/-- A binary32 value: a finite number, `+inf`, `-inf` or NaN. -/
inductive F32 where
  | fin (x : ℚ)
  | pinf
  | ninf
  | nan
  deriving DecidableEq

/-- A float register or a float buffer over binary32: lane index to value. -/
abbrev F32Vec := Nat → F32

namespace F32

/-- The spacing of the binary32 numbers at `x`: `2^(e - 23)` for `2^e <= |x| < 2^(e + 1)` with
`e >= -126`, and `2^-149` in the subnormal range. -/
def ulp (x : ℚ) : ℚ :=
  (2 : ℚ) ^ ((if x = 0 then -126 else max (Int.log 2 |x|) (-126)) - 23)

/-- The multiple of the spacing nearest to `x`, ties to the even multiple: the binary32 number
nearest to `x` if the exponent range had no upper end. -/
def nearest (x : ℚ) : ℚ := (roundNearestEven (x / ulp x) : ℚ) * ulp x

/-- The binary32 result of an operation whose exact result is `x`: the nearest binary32 number,
or an infinity when that exceeds `FLT_MAX = 2^128 - 2^104` in magnitude. -/
def round (x : ℚ) : F32 :=
  if 2 ^ 128 ≤ nearest x then pinf
  else if nearest x ≤ -2 ^ 128 then ninf
  else fin (nearest x)

/-- The conversion of an `int` to `float`. -/
def ofInt (z : Int) : F32 := round (z : ℚ)

def neg : F32 → F32
  | fin x => fin (-x)
  | pinf => ninf
  | ninf => pinf
  | nan => nan

def add : F32 → F32 → F32
  | fin x, fin y => round (x + y)
  | fin _, pinf => pinf
  | fin _, ninf => ninf
  | pinf, fin _ => pinf
  | pinf, pinf => pinf
  | pinf, ninf => nan
  | ninf, fin _ => ninf
  | ninf, ninf => ninf
  | ninf, pinf => nan
  | nan, _ => nan
  | _, nan => nan

def sub (a b : F32) : F32 := add a (neg b)

def mul : F32 → F32 → F32
  | fin x, fin y => round (x * y)
  | fin x, pinf => if x = 0 then nan else if 0 < x then pinf else ninf
  | fin x, ninf => if x = 0 then nan else if 0 < x then ninf else pinf
  | pinf, fin y => if y = 0 then nan else if 0 < y then pinf else ninf
  | ninf, fin y => if y = 0 then nan else if 0 < y then ninf else pinf
  | pinf, pinf => pinf
  | pinf, ninf => ninf
  | ninf, pinf => ninf
  | ninf, ninf => pinf
  | nan, _ => nan
  | _, nan => nan

def div : F32 → F32 → F32
  | fin x, fin y =>
    if y = 0 then (if x = 0 then nan else if 0 < x then pinf else ninf) else round (x / y)
  | fin _, pinf => fin 0
  | fin _, ninf => fin 0
  | pinf, fin y => if 0 ≤ y then pinf else ninf
  | ninf, fin y => if 0 ≤ y then ninf else pinf
  | pinf, pinf => nan
  | pinf, ninf => nan
  | ninf, pinf => nan
  | ninf, ninf => nan
  | nan, _ => nan
  | _, nan => nan

/-- The fused multiply-add `a * b + c`: the exact value of a finite `a * b + c` is rounded
once. -/
def fma : F32 → F32 → F32 → F32
  | fin x, fin y, fin z => round (x * y + z)
  | fin _, fin _, c => c
  | a, b, c => add (mul a b) c

/-- The comparison `a < b`, false when an operand is NaN. -/
def lt : F32 → F32 → Bool
  | fin x, fin y => decide (x < y)
  | fin _, pinf => true
  | ninf, fin _ => true
  | ninf, pinf => true
  | _, _ => false

/-- One lane of `cvtps_epi32`: a finite value is rounded to the nearest integer, ties to even;
a result outside `int32_t`, an infinity and NaN give the integer indefinite value
`0x80000000`. -/
def cvtps : F32 → Int
  | fin x => cvtps_lane x
  | _ => -2147483648

end F32

namespace Ieee

/-! ### Intrinsics over binary32 -/

def _mm256_set1_ps (x : F32) : F32Vec := fun _ => x
def _mm256_loadu_ps (m : F32Vec) (p : Nat) : F32Vec := fun j => m (p + j)
def _mm256_storeu_ps (m : F32Vec) (p : Nat) (v : F32Vec) : F32Vec :=
  fun a => if p ≤ a ∧ a < p + 8 then v (a - p) else m a
def _mm256_sub_ps (a b : F32Vec) : F32Vec := fun i => F32.sub (a i) (b i)
def _mm256_mul_ps (a b : F32Vec) : F32Vec := fun i => F32.mul (a i) (b i)
def _mm256_fmadd_ps (a b c : F32Vec) : F32Vec := fun i => F32.fma (a i) (b i) (c i)
def _mm256_cvtepi32_ps (a : Vec) : F32Vec := fun i => F32.ofInt (toS32 (u32 a i))
def _mm256_cvtps_epi32 (a : F32Vec) : Vec := ofU32 (fun i => ofS32 (F32.cvtps (a i)))

def _mm_setzero_ps : F32Vec := fun _ => F32.fin 0
def _mm_set1_ps (x : F32) : F32Vec := fun _ => x
def _mm_storeu_ps (m : F32Vec) (p : Nat) (v : F32Vec) : F32Vec :=
  fun a => if p ≤ a ∧ a < p + 4 then v (a - p) else m a
def _mm_add_ps (a b : F32Vec) : F32Vec := fun i => F32.add (a i) (b i)
def _mm_sub_ps (a b : F32Vec) : F32Vec := fun i => F32.sub (a i) (b i)
def _mm_mul_ps (a b : F32Vec) : F32Vec := fun i => F32.mul (a i) (b i)
def _mm_div_ps (a b : F32Vec) : F32Vec := fun i => F32.div (a i) (b i)
/-- Lane `i` of `_mm_min_ps(a, b)` is `a < b ? a : b`: the second operand when one is NaN. -/
def _mm_min_ps (a b : F32Vec) : F32Vec := fun i => if F32.lt (a i) (b i) then a i else b i
/-- Lane `i` of `_mm_max_ps(a, b)` is `a > b ? a : b`: the second operand when one is NaN. -/
def _mm_max_ps (a b : F32Vec) : F32Vec := fun i => if F32.lt (b i) (a i) then a i else b i
def _mm_unpacklo_ps (a b : F32Vec) : F32Vec := fun i =>
  match i with
  | 0 => a 0
  | 1 => b 0
  | 2 => a 1
  | _ => b 1
def _mm_unpackhi_ps (a b : F32Vec) : F32Vec := fun i =>
  match i with
  | 0 => a 2
  | 1 => b 2
  | 2 => a 3
  | _ => b 3

/-- The float `((float*)m)[k]`: the value (`f32`, the decoding of a 32-bit pattern, a
parameter) of the four bytes at offset `4 * k`. -/
def loadF32 (f32 : Nat → F32) (m : Vec) (k : Nat) : F32 := f32 (u32 m k)

/-- The load `_mm_loadu_ps((float*)m)` of four floats from a byte buffer. -/
def _mm_loadu_ps (f32 : Nat → F32) (m : Vec) : F32Vec := fun k => loadF32 f32 m k

/-- Modelled from the spec: `Simd::Min` of `SimdMath.h` (absent here), `a < b ? a : b`. -/
def Min (a b : F32) : F32 := if F32.lt a b then a else b

/-- Modelled from the spec: `Simd::Max` of `SimdMath.h` (absent here), `a > b ? a : b`. -/
def Max (a b : F32) : F32 := if F32.lt b a then a else b

/-- Modelled from the spec: `Simd::RestrictRange` of `SimdMath.h` (absent here),
`Max(min, Min(max, value))`. -/
def RestrictRange (value min max : F32) : F32 := Max min (Min max value)

/-! ### Distance decoders over binary32 -/

namespace Base

/-- `DecodeCosineDistance(a, b, abSum, size, distance)`: every product, sum, quotient and
difference of the expression is rounded on its own, in the order the expression is written. -/
def DecodeCosineDistance (f32 : Nat → F32) (a b : Vec) (abSum size : F32) (distance : F32Vec)
    (p : Nat) : F32Vec :=
  let aScale := loadF32 f32 a 0
  let aShift := loadF32 f32 a 1
  let aMean := loadF32 f32 a 2
  let aNorm := loadF32 f32 a 3
  let bScale := loadF32 f32 b 0
  let bShift := loadF32 f32 b 1
  let bMean := loadF32 f32 b 2
  let bNorm := loadF32 f32 b 3
  let ab := F32.add (F32.add (F32.mul (F32.mul abSum aScale) bScale) (F32.mul aMean bShift))
    (F32.mul bMean aShift)
  fun k => if k = p + 0
    then RestrictRange (F32.sub (F32.fin 1) (F32.div ab (F32.mul aNorm bNorm))) (F32.fin 0)
      (F32.fin 2)
    else distance k

end Base

namespace Sse41

def DecodeCosineDistances (f32 : Nat → F32) (a : Vec) (B : Nat → Vec) (abSum size : F32Vec)
    (distances : F32Vec) (p : Nat) : F32Vec :=
  let bScale := _mm_loadu_ps f32 (B 0)
  let bShift := _mm_loadu_ps f32 (B 1)
  let bMean := _mm_loadu_ps f32 (B 2)
  let bNorm := _mm_loadu_ps f32 (B 3)
  let aScale := _mm_unpacklo_ps bScale bMean
  let aShift := _mm_unpacklo_ps bShift bNorm
  let aMean := _mm_unpackhi_ps bScale bMean
  let aNorm := _mm_unpackhi_ps bShift bNorm
  let bScale := _mm_unpacklo_ps aScale aShift
  let bShift := _mm_unpackhi_ps aScale aShift
  let bMean := _mm_unpacklo_ps aMean aNorm
  let bNorm := _mm_unpackhi_ps aMean aNorm
  let aScale := _mm_set1_ps (loadF32 f32 a 0)
  let aShift := _mm_set1_ps (loadF32 f32 a 1)
  let aMean := _mm_set1_ps (loadF32 f32 a 2)
  let aNorm := _mm_set1_ps (loadF32 f32 a 3)
  let ab := _mm_mul_ps abSum (_mm_mul_ps aScale bScale)
  let ab := _mm_add_ps (_mm_mul_ps aMean bShift) ab
  let ab := _mm_add_ps (_mm_mul_ps bMean aShift) ab
  _mm_storeu_ps distances p (_mm_min_ps (_mm_max_ps (_mm_sub_ps (_mm_set1_ps (F32.fin 1))
    (_mm_div_ps ab (_mm_mul_ps aNorm bNorm))) _mm_setzero_ps) (_mm_set1_ps (F32.fin 2)))

end Sse41

/-! ### Scalar linear quantisation over binary32 and `int32_t` -/

/-- The value of an `int` expression whose exact value is `z`: wrapped to 32 bits (two's
complement). -/
def wrapInt (z : Int) : Int := toS32 (ofS32 z)

namespace Base

/-- `NearByInt(value)`, `(int)std::nearbyint(value)`: `nearbyint` rounds to the nearest
integer, ties to even; the conversion to `int` of a value outside `int32_t`, of an infinity
and of NaN gives `0x80000000` (the result of `cvttss2si`). -/
def NearByInt (value : F32) : Int := F32.cvtps value

/-- The scalar `QuantizeSumLinear(sum, bias, norm, zero, min, max)`: the `int` sums wrap to 32
bits, `float(sum + bias)` and the product with `norm` are rounded to binary32. -/
def QuantizeSumLinear (sum bias : Int) (norm : F32) (zero min max : Int) : Int :=
  RestrictRangeInt
    (wrapInt (NearByInt (F32.mul (F32.ofInt (wrapInt (sum + bias))) norm) + zero)) min max

end Base

/-! ### Encoders over binary32 -/

/-- One loop of an encoder, as `encLoop`, over a binary32 source. -/
def encLoop (x : F32Vec → Nat → F32Vec → F32Vec → Vec → Vec → Vec × Vec × Vec)
    (store : Vec → Nat → Vec → Vec) (n bytes bound : Nat)
    (src : F32Vec) (scale min : F32Vec) (fuel : Nat) (s : EncState) : EncState :=
  forLoop fuel (fun s => decide (s.i < bound))
    (fun s =>
      let e := x src s.src scale min s.sum s.sqsum
      ⟨s.i + n, s.src + n, s.dst + bytes, e.2.1, e.2.2, store s.mem s.dst e.1⟩) s

namespace Avx2

/-- The quantiser `Encode32f(__m256 src, ...)`: returns `value` and the updated `sum`, `sqsum`.
The difference `src - min` and its product with `scale` are each rounded to binary32. -/
def Encode32f (src scale min : F32Vec) (sum sqsum : Vec) : Vec × Vec × Vec :=
  let value := _mm256_cvtps_epi32 (_mm256_mul_ps (_mm256_sub_ps src min) scale)
  (value, _mm256_add_epi32 value sum, _mm256_add_epi32 (_mm256_madd_epi16 value value) sqsum)

def Encode32f4x8 (src : F32Vec) (p : Nat) (scale min : F32Vec) (sum sqsum : Vec) : Vec × Vec × Vec :=
  let i0 := Encode32f (_mm256_loadu_ps src (p + 0 * 8)) scale min sum sqsum
  let s0 := _mm_srli_epi32 (_mm_mullo_epi16
    (_mm256_castsi256_si128 (PackU32ToI16 i0.1 _mm256_setzero_si256)) Sse41.E4_MULLO) 12
  (_mm_packus_epi16 (_mm_packus_epi32 s0 Sse41.K_ZERO) Sse41.K_ZERO, i0.2.1, i0.2.2)

def Encode32f4x32 (src : F32Vec) (p : Nat) (scale min : F32Vec) (sum sqsum : Vec) : Vec × Vec × Vec :=
  let i0 := Encode32f (_mm256_loadu_ps src (p + 0 * 8)) scale min sum sqsum
  let i1 := Encode32f (_mm256_loadu_ps src (p + 1 * 8)) scale min i0.2.1 i0.2.2
  let s0 := _mm256_srli_epi32 (_mm256_mullo_epi16 (PackU32ToI16 i0.1 i1.1) Avx2.E4_MULLO) 12
  let i2 := Encode32f (_mm256_loadu_ps src (p + 2 * 8)) scale min i1.2.1 i1.2.2
  let i3 := Encode32f (_mm256_loadu_ps src (p + 3 * 8)) scale min i2.2.1 i2.2.2
  let s1 := _mm256_srli_epi32 (_mm256_mullo_epi16 (PackU32ToI16 i2.1 i3.1) Avx2.E4_MULLO) 12
  (_mm_packus_epi16
      (_mm_packus_epi32 (_mm256_castsi256_si128 s0) (_mm256_extracti128_si256 s0 1))
      (_mm_packus_epi32 (_mm256_castsi256_si128 s1) (_mm256_extracti128_si256 s1 1)),
    i3.2.1, i3.2.2)

def Encode32f4 (src : F32Vec) (scale min : F32) (size : Nat) (dst : Vec) : Int × Int × Vec :=
  let size32 := AlignLo size 32
  let _scale := _mm256_set1_ps scale
  let _min := _mm256_set1_ps min
  let s0 : EncState := ⟨0, 0, 0, _mm256_setzero_si256, _mm256_setzero_si256, dst⟩
  let s1 := encLoop Encode32f4x32 _mm_storeu_si128 32 16 size32 src _scale _min size s0
  let s2 := encLoop Encode32f4x8 Avx2.store4 8 4 size src _scale _min size s1
  (toS32 (ExtractSum s2.sum), toS32 (ExtractSum s2.sqsum), s2.mem)

def Encode32f5x1 (src : F32Vec) (p : Nat) (scale min : F32Vec) (sum sqsum : Vec) : Vec × Vec × Vec :=
  let i0 := Encode32f (_mm256_loadu_ps src (p + 0)) scale min sum sqsum
  let s0 := _mm_mullo_epi16
    (_mm256_castsi256_si128 (PackU32ToI16 i0.1 _mm256_setzero_si256)) Sse41.E5_MULLO
  (_mm_or_si128 (_mm_or_si128 (_mm_shuffle_epi8 s0 Sse41.E5_SHFL0)
      (_mm_shuffle_epi8 s0 Sse41.E5_SHFL1)) (_mm_shuffle_epi8 s0 Sse41.E5_SHFL2),
    i0.2.1, i0.2.2)

def Encode32f5x2 (src : F32Vec) (p : Nat) (scale min : F32Vec) (sum sqsum : Vec) : Vec × Vec × Vec :=
  let i0 := Encode32f (_mm256_loadu_ps src (p + 0)) scale min sum sqsum
  let i8 := Encode32f (_mm256_loadu_ps src (p + 8)) scale min i0.2.1 i0.2.2
  let s0 := _mm256_mullo_epi16 (PackU32ToI16 i0.1 i8.1) Avx2.E5_MULLO
  let e0 := _mm256_or_si256 (_mm256_or_si256 (_mm256_shuffle_epi8 s0 Avx2.E5_SHFL0)
      (_mm256_shuffle_epi8 s0 Avx2.E5_SHFL1)) (_mm256_shuffle_epi8 s0 Avx2.E5_SHFL2)
  (_mm_or_si128 (_mm256_castsi256_si128 e0) (_mm256_extracti128_si256 e0 1), i8.2.1, i8.2.2)

def Encode32f5 (src : F32Vec) (scale min : F32) (size : Nat) (dst : Vec) : Int × Int × Vec :=
  let main := subSizeT size 8
  let main16 := AlignLo main 16
  let _scale := _mm256_set1_ps scale
  let _min := _mm256_set1_ps min
  let s0 : EncState := ⟨0, 0, 0, _mm256_setzero_si256, _mm256_setzero_si256, dst⟩
  let s1 := encLoop Encode32f5x2 _mm_storeu_si128 16 10 main16 src _scale _min main s0
  let s2 := encLoop Encode32f5x1 _mm_storel_epi64 8 5 main src _scale _min main s1
  let s3 := encLoop Encode32f5x1 Avx2.store5 8 5 size src _scale _min size s2
  (toS32 (ExtractSum s3.sum), toS32 (ExtractSum s3.sqsum), s3.mem)

def Encode32f6x1 (src : F32Vec) (p : Nat) (scale min : F32Vec) (sum sqsum : Vec) : Vec × Vec × Vec :=
  let i0 := Encode32f (_mm256_loadu_ps src (p + 0)) scale min sum sqsum
  let s0 := _mm_mullo_epi16
    (_mm256_castsi256_si128 (PackU32ToI16 i0.1 _mm256_setzero_si256)) Sse41.E6_MULLO
  (_mm_or_si128 (_mm_shuffle_epi8 s0 Sse41.E6_SHFL0) (_mm_shuffle_epi8 s0 Sse41.E6_SHFL1),
    i0.2.1, i0.2.2)

def Encode32f6x2 (src : F32Vec) (p : Nat) (scale min : F32Vec) (sum sqsum : Vec) : Vec × Vec × Vec :=
  let i0 := Encode32f (_mm256_loadu_ps src (p + 0)) scale min sum sqsum
  let i8 := Encode32f (_mm256_loadu_ps src (p + 8)) scale min i0.2.1 i0.2.2
  let s0 := _mm256_mullo_epi16 (PackU32ToI16 i0.1 i8.1) Avx2.E6_MULLO
  let e0 := _mm256_or_si256 (_mm256_shuffle_epi8 s0 Avx2.E6_SHFL0) (_mm256_shuffle_epi8 s0 Avx2.E6_SHFL1)
  (_mm_or_si128 (_mm256_castsi256_si128 e0) (_mm256_extracti128_si256 e0 1), i8.2.1, i8.2.2)

def Encode32f6 (src : F32Vec) (scale min : F32) (size : Nat) (dst : Vec) : Int × Int × Vec :=
  let main := subSizeT size 8
  let main16 := AlignLo main 16
  let _scale := _mm256_set1_ps scale
  let _min := _mm256_set1_ps min
  let s0 : EncState := ⟨0, 0, 0, _mm256_setzero_si256, _mm256_setzero_si256, dst⟩
  let s1 := encLoop Encode32f6x2 _mm_storeu_si128 16 12 main16 src _scale _min main s0
  let s2 := encLoop Encode32f6x1 _mm_storel_epi64 8 6 main src _scale _min main s1
  let s3 := encLoop Encode32f6x1 Avx2.store6 8 6 size src _scale _min size s2
  (toS32 (ExtractSum s3.sum), toS32 (ExtractSum s3.sqsum), s3.mem)

def Encode32f7x1 (src : F32Vec) (p : Nat) (scale min : F32Vec) (sum sqsum : Vec) : Vec × Vec × Vec :=
  let i0 := Encode32f (_mm256_loadu_ps src (p + 0)) scale min sum sqsum
  let s0 := _mm_mullo_epi16
    (_mm256_castsi256_si128 (PackU32ToI16 i0.1 _mm256_setzero_si256)) Sse41.E7_MULLO
  (_mm_or_si128 (_mm_shuffle_epi8 s0 Sse41.E7_SHFL0) (_mm_shuffle_epi8 s0 Sse41.E7_SHFL1),
    i0.2.1, i0.2.2)

def Encode32f7x2 (src : F32Vec) (p : Nat) (scale min : F32Vec) (sum sqsum : Vec) : Vec × Vec × Vec :=
  let i0 := Encode32f (_mm256_loadu_ps src (p + 0)) scale min sum sqsum
  let i8 := Encode32f (_mm256_loadu_ps src (p + 8)) scale min i0.2.1 i0.2.2
  let s0 := _mm256_mullo_epi16 (PackU32ToI16 i0.1 i8.1) Avx2.E7_MULLO
  let e0 := _mm256_or_si256 (_mm256_shuffle_epi8 s0 Avx2.E7_SHFL0) (_mm256_shuffle_epi8 s0 Avx2.E7_SHFL1)
  (_mm_or_si128 (_mm256_castsi256_si128 e0) (_mm256_extracti128_si256 e0 1), i8.2.1, i8.2.2)

def Encode32f7 (src : F32Vec) (scale min : F32) (size : Nat) (dst : Vec) : Int × Int × Vec :=
  let main := subSizeT size 8
  let main16 := AlignLo main 16
  let _scale := _mm256_set1_ps scale
  let _min := _mm256_set1_ps min
  let s0 : EncState := ⟨0, 0, 0, _mm256_setzero_si256, _mm256_setzero_si256, dst⟩
  let s1 := encLoop Encode32f7x2 _mm_storeu_si128 16 14 main16 src _scale _min main s0
  let s2 := encLoop Encode32f7x1 _mm_storel_epi64 8 7 main src _scale _min main s1
  let s3 := encLoop Encode32f7x1 Avx2.store7 8 7 size src _scale _min size s2
  (toS32 (ExtractSum s3.sum), toS32 (ExtractSum s3.sqsum), s3.mem)

/-- The body of the main loop of `Encode32f8`: four quantised registers packed to 32 bytes. -/
def Encode32f8x32 (src : F32Vec) (p : Nat) (scale min : F32Vec) (sum sqsum : Vec) : Vec × Vec × Vec :=
  let d0 := Encode32f (_mm256_loadu_ps src (p + 0 * F)) scale min sum sqsum
  let d1 := Encode32f (_mm256_loadu_ps src (p + 1 * F)) scale min d0.2.1 d0.2.2
  let d2 := Encode32f (_mm256_loadu_ps src (p + 2 * F)) scale min d1.2.1 d1.2.2
  let d3 := Encode32f (_mm256_loadu_ps src (p + 3 * F)) scale min d2.2.1 d2.2.2
  (PackI16ToU8 (PackI32ToI16 d0.1 d1.1) (PackI32ToI16 d2.1 d3.1), d3.2.1, d3.2.2)

/-- The body of the tail loop of `Encode32f8`: one quantised register packed to 8 bytes. -/
def Encode32f8x8 (src : F32Vec) (p : Nat) (scale min : F32Vec) (sum sqsum : Vec) : Vec × Vec × Vec :=
  let d0 := Encode32f (_mm256_loadu_ps src p) scale min sum sqsum
  (_mm256_castsi256_si128 (PackI16ToU8 (PackI32ToI16 d0.1 _mm256_setzero_si256)
    _mm256_setzero_si256), d0.2.1, d0.2.2)

/-- In `Encode32f8` the source and destination are addressed as `src + i` and `dst + i`; the
offsets carried by the loop state coincide with `i`. -/
def Encode32f8 (src : F32Vec) (scale min : F32) (size : Nat) (dst : Vec) : Int × Int × Vec :=
  let sizeA := AlignLo size A
  let _scale := _mm256_set1_ps scale
  let _min := _mm256_set1_ps min
  let s0 : EncState := ⟨0, 0, 0, _mm256_setzero_si256, _mm256_setzero_si256, dst⟩
  let s1 := encLoop Encode32f8x32 _mm256_storeu_si256 A A sizeA src _scale _min size s0
  let s2 := encLoop Encode32f8x8 _mm_storel_epi64 F F size src _scale _min size s1
  (toS32 (ExtractSum s2.sum), toS32 (ExtractSum s2.sqsum), s2.mem)

/-- The encoder `Encode32f<bits>` that the constructor of the engine binds for `depth = bits`;
no encoder is bound for another depth. -/
def Encode32fN (bits : Nat) (src : F32Vec) (scale min : F32) (size : Nat) (dst : Vec) :
    Int × Int × Vec :=
  match bits with
  | 4 => Encode32f4 src scale min size dst
  | 5 => Encode32f5 src scale min size dst
  | 6 => Encode32f6 src scale min size dst
  | 7 => Encode32f7 src scale min size dst
  | 8 => Encode32f8 src scale min size dst
  | _ => (0, 0, dst)

end Avx2

/-! ### Decoders over binary32 -/

/-- Loop state of a decoder over binary32: the index `i`, the pointers `src` and `dst` (as
offsets from the arguments) and the destination buffer. -/
structure DecState where
  i : Nat
  src : Nat
  dst : Nat
  out : F32Vec

namespace Avx2

/-- The main loop of `Decode32f4` .. `Decode32f7`: sixteen codes per iteration, `step` source
bytes. -/
def decLoop16 (SHFL MULLO : Vec) (sh step bound : Nat) (src : Vec) (scale shift : F32Vec)
    (fuel : Nat) (s : DecState) : DecState :=
  forLoop fuel (fun s => decide (s.i < bound))
    (fun s =>
      let s16 := Avx2.Unpack16 SHFL MULLO sh src s.src
      let o0 := _mm256_storeu_ps s.out (s.dst + 0) (_mm256_fmadd_ps (_mm256_cvtepi32_ps
        (_mm256_cvtepu16_epi32 (_mm256_extracti128_si256 s16 0))) scale shift)
      let o1 := _mm256_storeu_ps o0 (s.dst + 8) (_mm256_fmadd_ps (_mm256_cvtepi32_ps
        (_mm256_cvtepu16_epi32 (_mm256_extracti128_si256 s16 1))) scale shift)
      ⟨s.i + 16, s.src + step, s.dst + 16, o1⟩) s

/-- The tail loop of `Decode32f4` .. `Decode32f7`: eight codes per iteration, `step` source
bytes. -/
def decLoop8 (SHFL0 MULLO : Vec) (sh step bound : Nat) (src : Vec) (scale shift : F32Vec)
    (fuel : Nat) (s : DecState) : DecState :=
  forLoop fuel (fun s => decide (s.i < bound))
    (fun s =>
      let s16 := Avx2.Unpack8 SHFL0 MULLO sh src s.src
      ⟨s.i + 8, s.src + step, s.dst + 8,
        _mm256_storeu_ps s.out (s.dst + 0) (_mm256_fmadd_ps (_mm256_cvtepi32_ps
          (_mm256_cvtepu16_epi32 s16)) scale shift)⟩) s

def Decode32f4 (src : Vec) (scale shift : F32) (size : Nat) (dst : F32Vec) : F32Vec :=
  let _scale := _mm256_set1_ps scale
  let _shift := _mm256_set1_ps shift
  let size16 := AlignLo size 16
  let s1 := decLoop16 Avx2.C4_SHFL Avx2.C4_MULLO 12 8 size16 src _scale _shift size ⟨0, 0, 0, dst⟩
  let s2 := decLoop8 Sse41.C4_SHFL0 Sse41.C4_MULLO 12 4 size src _scale _shift size s1
  s2.out

def Decode32f5 (src : Vec) (scale shift : F32) (size : Nat) (dst : F32Vec) : F32Vec :=
  let _scale := _mm256_set1_ps scale
  let _shift := _mm256_set1_ps shift
  let size16 := AlignLo size 16
  let s1 := decLoop16 Avx2.C5_SHFL Avx2.C5_MULLO 11 10 size16 src _scale _shift size ⟨0, 0, 0, dst⟩
  let s2 := decLoop8 Sse41.C5_SHFL0 Sse41.C5_MULLO 11 5 size src _scale _shift size s1
  s2.out

def Decode32f6 (src : Vec) (scale shift : F32) (size : Nat) (dst : F32Vec) : F32Vec :=
  let _scale := _mm256_set1_ps scale
  let _shift := _mm256_set1_ps shift
  let size16 := AlignLo size 16
  let s1 := decLoop16 Avx2.C6_SHFL Avx2.C6_MULLO 10 12 size16 src _scale _shift size ⟨0, 0, 0, dst⟩
  let s2 := decLoop8 Sse41.C6_SHFL0 Sse41.C6_MULLO 10 6 size src _scale _shift size s1
  s2.out

def Decode32f7 (src : Vec) (scale shift : F32) (size : Nat) (dst : F32Vec) : F32Vec :=
  let _scale := _mm256_set1_ps scale
  let _shift := _mm256_set1_ps shift
  let size16 := AlignLo size 16
  let s1 := decLoop16 Avx2.C7_SHFL Avx2.C7_MULLO 9 14 size16 src _scale _shift size ⟨0, 0, 0, dst⟩
  let s2 := decLoop8 Sse41.C7_SHFL0 Sse41.C7_MULLO 9 7 size src _scale _shift size s1
  s2.out

/-- In `Decode32f8` the source and destination are addressed as `src + i` and `dst + i`; the
offsets carried by the loop state coincide with `i`. -/
def Decode32f8 (src : Vec) (scale shift : F32) (size : Nat) (dst : F32Vec) : F32Vec :=
  let _scale := _mm256_set1_ps scale
  let _shift := _mm256_set1_ps shift
  let size16 := AlignLo size 16
  let s1 := forLoop size (fun s : DecState => decide (s.i < size16))
    (fun s =>
      let u8 := _mm_loadu_si128 src s.src
      let o0 := _mm256_storeu_ps s.out (s.dst + 0) (_mm256_fmadd_ps (_mm256_cvtepi32_ps
        (_mm256_cvtepu8_epi32 u8)) _scale _shift)
      let o1 := _mm256_storeu_ps o0 (s.dst + F) (_mm256_fmadd_ps (_mm256_cvtepi32_ps
        (_mm256_cvtepu8_epi32 (_mm_srli_si128 u8 8))) _scale _shift)
      ⟨s.i + 16, s.src + 16, s.dst + 16, o1⟩) ⟨0, 0, 0, dst⟩
  let s2 := forLoop size (fun s : DecState => decide (s.i < size))
    (fun s =>
      let _src := _mm256_cvtepi32_ps (_mm256_cvtepu8_epi32 (_mm_loadl_epi64 src s.src))
      ⟨s.i + 8, s.src + 8, s.dst + 8,
        _mm256_storeu_ps s.out s.dst (_mm256_fmadd_ps _src _scale _shift)⟩) s1
  s2.out

/-- The decoder `Decode32f<bits>` that the constructor of the engine binds for `depth = bits`;
no decoder is bound for another depth. -/
def Decode32fN (bits : Nat) (src : Vec) (scale shift : F32) (size : Nat) (dst : F32Vec) : F32Vec :=
  match bits with
  | 4 => Decode32f4 src scale shift size dst
  | 5 => Decode32f5 src scale shift size dst
  | 6 => Decode32f6 src scale shift size dst
  | 7 => Decode32f7 src scale shift size dst
  | 8 => Decode32f8 src scale shift size dst
  | _ => dst

end Avx2

end Ieee

/-! ## Specifications of the steps and loop invariants -/

/-- What a packing step `x` of `n` elements with `bits`-wide codes has to do: its register
holds the packed bytes of the groups it encodes, and the accumulators grow by the sums of the
codes and of their squares. -/
def XSpec (bits n : Nat)
    (x : FVec → Nat → FVec → FVec → Vec → Vec → Vec × Vec × Vec) : Prop :=
  ∀ (src : FVec) (scale min : ℚ) (p : Nat) (sum sqsum : Vec),
    p % 8 = 0 →
    (∀ j, j < n → 0 ≤ code src scale min (p + j) ∧ code src scale min (p + j) < 2 ^ bits) →
    (∀ j, j < n / 8 * bits →
      (x src p (_mm256_set1_ps scale) (_mm256_set1_ps min) sum sqsum).1 j
        = packByte bits (fun i => (code src scale min i).toNat) (p / 8 * bits + j))
    ∧ ExtractSum (x src p (_mm256_set1_ps scale) (_mm256_set1_ps min) sum sqsum).2.1
        = (ExtractSum sum + ∑ k ∈ Finset.range n, (code src scale min (p + k)).toNat)
            % 4294967296
    ∧ ExtractSum (x src p (_mm256_set1_ps scale) (_mm256_set1_ps min) sum sqsum).2.2
        = (ExtractSum sqsum + ∑ k ∈ Finset.range n, (code src scale min (p + k)).toNat ^ 2)
            % 4294967296

/-- Every byte of the register that a packing step returns is a byte. -/
def XBytes (x : FVec → Nat → FVec → FVec → Vec → Vec → Vec × Vec × Vec) : Prop :=
  ∀ src p scale min sum sqsum j, (x src p scale min sum sqsum).1 j < 256

/-- What a store of `bytes` payload bytes has to do: bytes below the pointer are kept, the
payload lands at the pointer, and a buffer of bytes stays one. -/
def StoreSpec (bytes : Nat) (store : Vec → Nat → Vec → Vec) : Prop :=
  ∀ (m : Vec) (p : Nat) (d : Vec), (∀ j, d j < 256) →
    (∀ a, a < p → store m p d a = m a)
    ∧ (∀ j, j < bytes → store m p d (p + j) = d j)
    ∧ (IsBytes m → IsBytes (store m p d))

/-- Loop invariant of the encoders: the first `i` elements are encoded. -/
def EncInv (bits : Nat) (v : Nat → Nat) (s : EncState) : Prop :=
  s.i % 8 = 0 ∧ s.src = s.i ∧ s.dst = s.i / 8 * bits ∧ IsBytes s.mem
    ∧ (∀ k, k < s.dst → s.mem k = packByte bits v k)
    ∧ ExtractSum s.sum = (∑ j ∈ Finset.range s.i, v j) % 4294967296
    ∧ ExtractSum s.sqsum = (∑ j ∈ Finset.range s.i, v j ^ 2) % 4294967296

/-- What an encoder returns: the packed stream in the first `size * bits / 8` bytes of the
destination, and the sums of the codes and of their squares. -/
def EncodeSpec (bits : Nat) (src : FVec) (scale min : ℚ) (size : Nat)
    (r : Int × Int × Vec) : Prop :=
  IsBytes r.2.2
    ∧ (∀ k, k < size / 8 * bits →
        r.2.2 k = packByte bits (fun i => (code src scale min i).toNat) k)
    ∧ r.1 = toS32 ((∑ j ∈ Finset.range size, (code src scale min j).toNat) % 4294967296)
    ∧ r.2.1 = toS32 ((∑ j ∈ Finset.range size, (code src scale min j).toNat ^ 2) % 4294967296)

/-- Loop invariant of the decoders: the first `i` floats are decoded, the others untouched. -/
def DecInv (bits : Nat) (m : Vec) (scale shift : ℚ) (dst0 : FVec) (s : DecState) : Prop :=
  s.i % 8 = 0 ∧ s.src = s.i / 8 * bits ∧ s.dst = s.i
    ∧ (∀ a, a < s.i → s.out a = (codeAt bits m a : ℚ) * scale + shift)
    ∧ (∀ a, s.i ≤ a → s.out a = dst0 a)

/-- What a decoder returns: the affine image of the unpacked codes in the first `size` floats,
the rest of the destination untouched. -/
def DecodeSpec (bits : Nat) (m : Vec) (scale shift : ℚ) (size : Nat) (dst0 r : FVec) : Prop :=
  (∀ a, a < size → r a = (codeAt bits m a : ℚ) * scale + shift) ∧ (∀ a, size ≤ a → r a = dst0 a)

/-- The dot product of the first `n` codes of two packed streams. -/
def dot (bits : Nat) (a b : Vec) (n : Nat) : Nat :=
  ∑ k ∈ Finset.range n, codeAt bits a k * codeAt bits b k

/-- What an accumulator update over `n` codes has to do: the sum of the lanes grows by the dot
product of the `n` codes at the two pointers (modulo `2^32`). -/
def StepSpec (bits n : Nat) (step : Vec → Nat → Vec → Nat → Vec → Vec) : Prop :=
  ∀ (a b : Vec), IsBytes a → IsBytes b → ∀ (pa pb : Nat) (acc : Vec),
    ExtractSum (step a pa b pb acc)
      = (ExtractSum acc + dot bits (ptrAdd a pa) (ptrAdd b pb) n) % 4294967296

/-- Loop invariant of the correlation kernels: the lanes sum to the dot product of the first
`i` codes (modulo `2^32`). -/
def CorrInv (bits : Nat) (a b : Vec) (s : CorrState) : Prop :=
  s.i % 8 = 0 ∧ s.a = s.i / 8 * bits ∧ s.b = s.i / 8 * bits
    ∧ ExtractSum s.ab = dot bits a b s.i % 4294967296

/-- The byte the tensor quantiser stores for the sum at index `a` with the parameters of
channel `c`. -/
def qByte (sum : Nat → Int) (bias : Nat → Int) (norm : Nat → ℚ) (zero : Nat → Int)
    (a c : Nat) : Nat :=
  Base.castU8 (Base.QuantizeSumLinear (sum a) (bias c) (norm c) (zero c) 0 255)

/-- The pointers stand at offset `p`, the bytes below `p` hold their final value `V` and the
bytes from `p` on are untouched. -/
def Filled (V : Nat → Nat) (mem0 : Vec) (p : Nat) (s : QPtr) : Prop :=
  s.sum = p ∧ s.dst = p ∧ (∀ a, a < p → s.mem a = V a) ∧ (∀ a, p ≤ a → s.mem a = mem0 a)

/-- The pointers stand at offset `p`, the floats below `p` hold their final value `V` and the
floats from `p` on are untouched. -/
def FilledN {F : Type} (V : Nat → F) (mem0 : Nat → F) (p : Nat) (s : NPtr F) : Prop :=
  s.src = p ∧ s.dst = p ∧ (∀ a, a < p → s.mem a = V a) ∧ (∀ a, p ≤ a → s.mem a = mem0 a)

/-- The value stored by the NCHW layer across spatial, as the source computes it. -/
def normV1 {F : Type} [Field F] (sqrt : F → F) (src scale : Nat → F) (eps0 : F) (C S : Nat)
    (a : Nat) : F :=
  src a * (scale (a / S % C)
    * (1 / sqrt (eps0 + ∑ i ∈ Finset.range (C * S), Square (src (a / S / C * C * S + i)))))

/-- The value stored by the NCHW layer per spatial position, as the source computes it. -/
def normV2 {F : Type} [Field F] (sqrt : F → F) (src scale : Nat → F) (eps0 : F) (C S : Nat)
    (a : Nat) : F :=
  src a * (1 / sqrt (eps0
      + ∑ c ∈ Finset.range C, Square (src (a / S / C * C * S + c * S + a % S))))
    * scale (a / S % C)

/-- The value stored by the NHWC layer across spatial, as the source computes it. -/
def normV3 {F : Type} [Field F] (sqrt : F → F) (src scale : Nat → F) (eps0 : F) (C S : Nat)
    (a : Nat) : F :=
  src a * scale (a % C)
    * (1 / sqrt (eps0 + ∑ i ∈ Finset.range (C * S), Square (src (a / C / S * S * C + i))))

/-- The value stored by the NHWC layer per spatial position, as the source computes it. -/
def normV4 {F : Type} [Field F] (sqrt : F → F) (src scale : Nat → F) (eps0 : F) (C : Nat)
    (a : Nat) : F :=
  src a * scale (a % C)
    * (1 / sqrt (eps0 + ∑ c ∈ Finset.range C, Square (src (a / C * C + c))))

/-- The helpers of a traits class produce 16-bit lanes and colour bytes. -/
def YuvTraits.Valid (T : YuvTraits) : Prop :=
  (∀ x, T.unpackY x < 65536) ∧ (∀ x, T.unpackUV x < 65536) ∧ (∀ a b, T.blue a b < 256)
    ∧ (∀ a b c, T.green a b c < 256) ∧ (∀ a b, T.red a b < 256)

/-- Byte `c` of the pixel with the bytes `b`, `g`, `r`, `al`. -/
def sel4 (b g r al : Nat) (c : Nat) : Nat :=
  if c = 0 then b else if c = 1 then g else if c = 2 then r else al

/-- Byte `c` of the BGRA pixel (B, G, R, alpha) converted from the sample triple `yv`, `uv`,
`vv` with the traits `T`. -/
def yuvPixel (T : YuvTraits) (yv uv vv alpha : Nat) (c : Nat) : Nat :=
  sel4 (T.blue (T.unpackY yv) (T.unpackUV uv))
    (T.green (T.unpackY yv) (T.unpackUV uv) (T.unpackUV vv))
    (T.red (T.unpackY yv) (T.unpackUV vv)) alpha c

/-- The buffer `m` is `m0` with the bytes of the region `R` replaced by `val`. -/
def Fill (R : Nat → Prop) (val : Nat → Nat) (m0 m : Vec) : Prop :=
  ∀ a, (R a → m a = val a) ∧ (¬ R a → m a = m0 a)

/-- A traits class for examples: lanes are the bytes, colours are sums modulo 256. -/
def exampleTraits : YuvTraits where
  unpackY := fun x => x % 256
  unpackUV := fun x => x % 256
  blue := fun a b => (a + b) % 256
  green := fun a b c => (a + b + c) % 256
  red := fun a b => (a + 2 * b) % 256

/-- The buffer `m` is `m0` outside the region `R`. -/
def Frame (R : Nat → Prop) (m0 m : Vec) : Prop := ∀ a, ¬ R a → m a = m0 a

/-- The rows of an image: the addresses `row * S + [0, 4 W)` for `row < rows`. -/
def InRows (S W rows : Nat) (a : Nat) : Prop := ∃ k, k < rows ∧ k * S ≤ a ∧ a < k * S + 4 * W

/-- What the lanes of the two accumulators hold after the elements below `i`. -/
def MinMaxInv {E : Type} [LinearOrder E] (hi lo : E) (src : Nat → E) (i : Nat)
    (t : (Nat → E) × (Nat → E)) : Prop :=
  (∀ j, j < i → t.1 (j % 8) ≤ src j ∧ src j ≤ t.2 (j % 8))
    ∧ (∀ l, l < 8 → t.1 l ≤ hi ∧ lo ≤ t.2 l)
    ∧ (∀ l, l < 8 → (t.1 l = hi ∨ ∃ j, j < i ∧ src j = t.1 l)
        ∧ (t.2 l = lo ∨ ∃ j, j < i ∧ src j = t.2 l))

/-- The 32-bit pattern of a positive normal power of two: sign bit 0, an exponent field in
`[1, 254]` and a zero mantissa. -/
def PositiveNormalPowerOfTwo (pattern : Nat) : Prop :=
  pattern / 2147483648 = 0 ∧ 1 ≤ pattern / 8388608 % 256 ∧ pattern / 8388608 % 256 ≤ 254
    ∧ pattern % 8388608 = 0

/-- The code of element `i` over binary32: the lane
`cvtps_epi32(mul_ps(sub_ps(src, min), scale))` of the quantiser `Encode32f`, in which the
difference and the product are each rounded to binary32. -/
def Ieee.code (src : F32Vec) (scale min : F32) (i : Nat) : Int :=
  F32.cvtps (F32.mul (F32.sub (src i) min) scale)

/-- The codes over binary32, as a source of the exact encoder with scale 1 and minimum 0. -/
def Ieee.codeSrc (src : F32Vec) (scale min : F32) : FVec :=
  fun i => (Ieee.code src scale min i : ℚ)

/-- Loop invariant of the decoders over binary32: the first `i` floats are decoded, the others
untouched. -/
def IeeeDecInv (bits : Nat) (m : Vec) (scale shift : F32) (dst0 : F32Vec) (s : Ieee.DecState) : Prop :=
  s.i % 8 = 0 ∧ s.src = s.i / 8 * bits ∧ s.dst = s.i
    ∧ (∀ a, a < s.i → s.out a = F32.fma (F32.fin (codeAt bits m a : ℚ)) scale shift)
    ∧ (∀ a, s.i ≤ a → s.out a = dst0 a)

/-- What a decoder over binary32 returns: the fused multiply-add of the unpacked codes in the
first `size` floats, the rest of the destination untouched. -/
def IeeeDecodeSpec (bits : Nat) (m : Vec) (scale shift : F32) (size : Nat) (dst0 r : F32Vec) : Prop :=
  (∀ a, a < size → r a = F32.fma (F32.fin (codeAt bits m a : ℚ)) scale shift)
    ∧ (∀ a, size ≤ a → r a = dst0 a)

/-! ## Lanes -/

theorem u16_ofU16 (f : Nat → Nat) (i : Nat) : u16 (ofU16 f) i = f i % 65536 := by
  simp only [u16, ofU16]
  have h1 : 2 * i / 2 = i := by omega
  have h2 : (2 * i + 1) / 2 = i := by omega
  have h3 : 2 * i % 2 = 0 := by omega
  have h4 : (2 * i + 1) % 2 = 1 := by omega
  rw [h1, h2, h3, h4]
  simp only [pow_zero, pow_one, Nat.div_one]
  omega

theorem u32_ofU32 (f : Nat → Nat) (i : Nat) : u32 (ofU32 f) i = f i % 4294967296 := by
  simp only [u32, ofU32]
  have h1 : 4 * i / 4 = i := by omega
  have h2 : (4 * i + 1) / 4 = i := by omega
  have h3 : (4 * i + 2) / 4 = i := by omega
  have h4 : (4 * i + 3) / 4 = i := by omega
  have h5 : 4 * i % 4 = 0 := by omega
  have h6 : (4 * i + 1) % 4 = 1 := by omega
  have h7 : (4 * i + 2) % 4 = 2 := by omega
  have h8 : (4 * i + 3) % 4 = 3 := by omega
  rw [h1, h2, h3, h4, h5, h6, h7, h8]
  norm_num
  omega

theorem u16_ofU32_even (f : Nat → Nat) (i : Nat) : u16 (ofU32 f) (2 * i) = f i % 65536 := by
  simp only [u16, ofU32]
  have h1 : 2 * (2 * i) / 4 = i := by omega
  have h2 : (2 * (2 * i) + 1) / 4 = i := by omega
  have h3 : 2 * (2 * i) % 4 = 0 := by omega
  have h4 : (2 * (2 * i) + 1) % 4 = 1 := by omega
  rw [h1, h2, h3, h4]
  simp only [pow_zero, pow_one, Nat.div_one]
  omega

theorem u16_ofU32_odd (f : Nat → Nat) (i : Nat) :
    u16 (ofU32 f) (2 * i + 1) = f i / 65536 % 65536 := by
  simp only [u16, ofU32]
  have h1 : 2 * (2 * i + 1) / 4 = i := by omega
  have h2 : (2 * (2 * i + 1) + 1) / 4 = i := by omega
  have h3 : 2 * (2 * i + 1) % 4 = 2 := by omega
  have h4 : (2 * (2 * i + 1) + 1) % 4 = 3 := by omega
  rw [h1, h2, h3, h4]
  norm_num
  omega

theorem u32_ofU16 (f : Nat → Nat) (i : Nat) :
    u32 (ofU16 f) i = f (2 * i) % 65536 + 65536 * (f (2 * i + 1) % 65536) := by
  simp only [u32, ofU16]
  have h1 : 4 * i / 2 = 2 * i := by omega
  have h2 : (4 * i + 1) / 2 = 2 * i := by omega
  have h3 : (4 * i + 2) / 2 = 2 * i + 1 := by omega
  have h4 : (4 * i + 3) / 2 = 2 * i + 1 := by omega
  have h5 : 4 * i % 2 = 0 := by omega
  have h6 : (4 * i + 1) % 2 = 1 := by omega
  have h7 : (4 * i + 2) % 2 = 0 := by omega
  have h8 : (4 * i + 3) % 2 = 1 := by omega
  rw [h1, h2, h3, h4, h5, h6, h7, h8]
  simp only [pow_zero, pow_one, Nat.div_one]
  omega

theorem ofU16_lt (f : Nat → Nat) (j : Nat) : ofU16 f j < 256 := by
  simp only [ofU16]
  omega

theorem ofU32_lt (f : Nat → Nat) (j : Nat) : ofU32 f j < 256 := by
  simp only [ofU32]
  omega

theorem lor_eq_add (k x y : Nat) (hx : x < 2 ^ k) (hy : y % 2 ^ k = 0) : x ||| y = x + y := by
  have h : y = 2 ^ k * (y / 2 ^ k) := by
    have := Nat.div_add_mod y (2 ^ k)
    omega
  rw [h, Nat.lor_comm, ← Nat.mul_add_lt_is_or hx]
  omega

theorem lor_eq_add1 (x y : Nat) (hx : x < 2) (hy : y % 2 = 0) : x ||| y = x + y :=
  lor_eq_add 1 x y hx hy

theorem lor_eq_add2 (x y : Nat) (hx : x < 4) (hy : y % 4 = 0) : x ||| y = x + y :=
  lor_eq_add 2 x y hx hy

theorem lor_eq_add3 (x y : Nat) (hx : x < 8) (hy : y % 8 = 0) : x ||| y = x + y :=
  lor_eq_add 3 x y hx hy

theorem lor_eq_add4 (x y : Nat) (hx : x < 16) (hy : y % 16 = 0) : x ||| y = x + y :=
  lor_eq_add 4 x y hx hy

theorem lor_eq_add5 (x y : Nat) (hx : x < 32) (hy : y % 32 = 0) : x ||| y = x + y :=
  lor_eq_add 5 x y hx hy

theorem lor_eq_add6 (x y : Nat) (hx : x < 64) (hy : y % 64 = 0) : x ||| y = x + y :=
  lor_eq_add 6 x y hx hy

theorem lor_eq_add7 (x y : Nat) (hx : x < 128) (hy : y % 128 = 0) : x ||| y = x + y :=
  lor_eq_add 7 x y hx hy

theorem lor_lt_256 (x y : Nat) (hx : x < 256) (hy : y < 256) : x ||| y < 256 :=
  Nat.or_lt_two_pow (n := 8) hx hy

/-! ## Loops -/

/-- A counting loop `for (; i < bound; i += n)` whose body keeps an invariant reaches `bound`
with the invariant, provided the fuel covers the trip count. -/
theorem forLoop_inv {σ : Type} (idx : σ → Nat) (Inv : σ → Prop) (bound n : Nat) (body : σ → σ)
    (hidx : ∀ t, idx (body t) = idx t + n)
    (hstep : ∀ t, Inv t → idx t + n ≤ bound → n ∣ bound - idx t → Inv (body t)) :
    ∀ (fuel : Nat) (s : σ), idx s ≤ bound → n ∣ bound - idx s → bound ≤ idx s + fuel * n →
      Inv s →
      Inv (forLoop fuel (fun t => decide (idx t < bound)) body s)
        ∧ idx (forLoop fuel (fun t => decide (idx t < bound)) body s) = bound := by
  intro fuel
  induction fuel with
  | zero =>
    intro s h1 _ h3 h4
    simp only [forLoop]
    exact ⟨h4, by omega⟩
  | succ k ih =>
    intro s h1 h2 h3 h4
    simp only [forLoop]
    by_cases hc : idx s < bound
    · simp only [hc, decide_True, if_true]
      obtain ⟨q, hq⟩ := h2
      have hq0 : 0 < q := by
        rcases Nat.eq_zero_or_pos q with h | h
        · subst h; omega
        · exact h
      have e1 : n * q = n + n * (q - 1) := by
        have e2 : q = 1 + (q - 1) := by omega
        conv_lhs => rw [e2]
        rw [Nat.mul_add, Nat.mul_one]
      have hle : idx s + n ≤ bound := by
        have := Nat.zero_le (n * (q - 1))
        omega
      apply ih
      · rw [hidx]; exact hle
      · rw [hidx]; exact ⟨q - 1, by omega⟩
      · rw [hidx]
        have e3 : (k + 1) * n = k * n + n := by rw [Nat.add_mul, Nat.one_mul]
        omega
      · exact hstep s h4 hle ⟨q, hq⟩
    · simp only [hc, decide_False, Bool.false_eq_true, if_false]
      exact ⟨h4, by omega⟩

/-! ## The quantiser -/

theorem u32_Encode32f (src : FVec) (p : Nat) (scale min : ℚ) (sum sqsum : Vec) (k : Nat) :
    u32 (Avx2.Encode32f (_mm256_loadu_ps src p) (_mm256_set1_ps scale) (_mm256_set1_ps min)
      sum sqsum).1 k = ofS32 (code src scale min (p + k)) := by
  simp only [Avx2.Encode32f, _mm256_cvtps_epi32, u32_ofU32, _mm256_mul_ps, _mm256_sub_ps,
    _mm256_loadu_ps, _mm256_set1_ps, code, ofS32]
  omega

theorem Encode32f_fst (src scale min : FVec) (sum sqsum : Vec) :
    (Avx2.Encode32f src scale min sum sqsum).1
      = _mm256_cvtps_epi32 (_mm256_mul_ps (_mm256_sub_ps src min) scale) := by
  simp only [Avx2.Encode32f]

theorem Encode32f_sum (src scale min : FVec) (sum sqsum : Vec) :
    (Avx2.Encode32f src scale min sum sqsum).2.1
      = _mm256_add_epi32 (_mm256_cvtps_epi32 (_mm256_mul_ps (_mm256_sub_ps src min) scale))
          sum := by
  simp only [Avx2.Encode32f]

theorem Encode32f_sqsum (src scale min : FVec) (sum sqsum : Vec) :
    (Avx2.Encode32f src scale min sum sqsum).2.2
      = _mm256_add_epi32 (_mm256_madd_epi16
          (_mm256_cvtps_epi32 (_mm256_mul_ps (_mm256_sub_ps src min) scale))
          (_mm256_cvtps_epi32 (_mm256_mul_ps (_mm256_sub_ps src min) scale))) sqsum := by
  simp only [Avx2.Encode32f]

theorem u32_cvtps (src : FVec) (p : Nat) (scale min : ℚ) (k : Nat) :
    u32 (_mm256_cvtps_epi32 (_mm256_mul_ps (_mm256_sub_ps (_mm256_loadu_ps src p)
      (_mm256_set1_ps min)) (_mm256_set1_ps scale))) k = ofS32 (code src scale min (p + k)) := by
  simp only [_mm256_cvtps_epi32, u32_ofU32, _mm256_mul_ps, _mm256_sub_ps,
    _mm256_loadu_ps, _mm256_set1_ps, code, ofS32]
  omega

theorem ofS32_small (z : Int) (h0 : 0 ≤ z) (h1 : z < 4294967296) : ofS32 z = z.toNat := by
  simp only [ofS32]
  omega

theorem satU16_ofS32 (z : Int) (h0 : 0 ≤ z) (h1 : z < 65536) :
    satU16 (toS32 (ofS32 z)) = z.toNat := by
  simp only [ofS32, toS32, satU16]
  have e : (z % 4294967296).toNat = z.toNat := by omega
  rw [e]
  have h3 : z.toNat < 2147483648 := by omega
  simp only [h3, if_true]
  have h4 : ¬ ((z.toNat : Int) < 0) := by omega
  have h5 : ¬ (65535 < (z.toNat : Int)) := by omega
  simp only [h4, h5, if_false]
  omega

theorem satS16_ofS32 (z : Int) (h0 : 0 ≤ z) (h1 : z < 32768) :
    ofS16 (satS16 (toS32 (ofS32 z))) = z.toNat := by
  simp only [ofS32, toS32, satS16, ofS16]
  have e : (z % 4294967296).toNat = z.toNat := by omega
  rw [e]
  have h3 : z.toNat < 2147483648 := by omega
  simp only [h3, if_true]
  have h4 : ¬ ((z.toNat : Int) < -32768) := by omega
  have h5 : ¬ (32767 < (z.toNat : Int)) := by omega
  simp only [h4, h5, if_false]
  omega

theorem satU8_toS16 (x : Nat) (h : x < 256) : satU8 (toS16 x) = x := by
  simp only [toS16, satU8]
  have h3 : x < 32768 := by omega
  simp only [h3, if_true]
  have h4 : ¬ ((x : Int) < 0) := by omega
  have h5 : ¬ (255 < (x : Int)) := by omega
  simp only [h4, h5, if_false]
  omega

theorem satU8_lt (z : Int) : satU8 z < 256 := by
  simp only [satU8]
  split_ifs <;> omega

theorem satU16_toS32 (x : Nat) (h : x < 65536) : satU16 (toS32 x) = x := by
  simp only [toS32, satU16]
  have h3 : x < 2147483648 := by omega
  simp only [h3, if_true]
  have h4 : ¬ ((x : Int) < 0) := by omega
  have h5 : ¬ (65535 < (x : Int)) := by omega
  simp only [h4, h5, if_false]
  omega

/-- The 16-bit lanes of two quantised registers packed by `PackU32ToI16` are the codes. -/
theorem u16_PackU32ToI16 (src : FVec) (scale min : ℚ) (p : Nat) (s1 s2 s3 s4 : Vec) (i : Nat)
    (hi : i < 16)
    (hc : ∀ j, j < 16 → 0 ≤ code src scale min (p + j) ∧ code src scale min (p + j) < 65536) :
    u16 (PackU32ToI16
      (Avx2.Encode32f (_mm256_loadu_ps src (p + 0)) (_mm256_set1_ps scale) (_mm256_set1_ps min)
        s1 s2).1
      (Avx2.Encode32f (_mm256_loadu_ps src (p + 8)) (_mm256_set1_ps scale) (_mm256_set1_ps min)
        s3 s4).1) i = (code src scale min (p + i)).toNat := by
  simp only [PackU32ToI16, u16_ofU16, u32_Encode32f]
  obtain ⟨h0, h1⟩ := hc i hi
  by_cases h : i < 8
  · simp only [h, if_true, Nat.add_zero]
    rw [satU16_ofS32 _ h0 h1]
    omega
  · simp only [h, if_false]
    have e : p + 8 + (i - 8) = p + i := by omega
    rw [e, satU16_ofS32 _ h0 h1]
    omega

/-- The low 16-bit lanes of one quantised register packed by `PackU32ToI16` with zero. -/
theorem u16_PackU32ToI16_zero (src : FVec) (scale min : ℚ) (p : Nat) (s1 s2 : Vec) (i : Nat)
    (hi : i < 8)
    (hc : ∀ j, j < 8 → 0 ≤ code src scale min (p + j) ∧ code src scale min (p + j) < 65536) :
    u16 (PackU32ToI16
      (Avx2.Encode32f (_mm256_loadu_ps src p) (_mm256_set1_ps scale) (_mm256_set1_ps min)
        s1 s2).1 _mm256_setzero_si256) i = (code src scale min (p + i)).toNat := by
  simp only [PackU32ToI16, u16_ofU16, u32_Encode32f]
  obtain ⟨h0, h1⟩ := hc i hi
  simp only [hi, if_true]
  rw [satU16_ofS32 _ h0 h1]
  omega

theorem ExtractSum_add (a b : Vec) :
    ExtractSum (_mm256_add_epi32 a b)
      = (ExtractSum b + (u32 a 0 + u32 a 1 + u32 a 2 + u32 a 3 + u32 a 4 + u32 a 5 + u32 a 6
          + u32 a 7)) % 4294967296 := by
  simp only [ExtractSum, _mm256_add_epi32, u32_ofU32]
  omega

theorem sum_range_8 (f : Nat → Nat) :
    ∑ k ∈ Finset.range 8, f k = f 0 + f 1 + f 2 + f 3 + f 4 + f 5 + f 6 + f 7 := by
  simp [Finset.sum_range_succ]

theorem sum_range_add (f : Nat → Nat) (n m : Nat) :
    ∑ k ∈ Finset.range (n + m), f k
      = ∑ k ∈ Finset.range n, f k + ∑ k ∈ Finset.range m, f (n + k) :=
  Finset.sum_range_add f n m

theorem sum_range_16 (f : Nat → Nat) :
    ∑ k ∈ Finset.range 16, f k
      = ∑ k ∈ Finset.range 8, f k + ∑ k ∈ Finset.range 8, f (8 + k) :=
  Finset.sum_range_add f 8 8

theorem sum_range_32 (f : Nat → Nat) :
    ∑ k ∈ Finset.range 32, f k
      = ∑ k ∈ Finset.range 8, f k + (∑ k ∈ Finset.range 8, f (8 + k)
        + (∑ k ∈ Finset.range 8, f (16 + k) + ∑ k ∈ Finset.range 8, f (24 + k))) := by
  rw [Finset.sum_range_add f 16 16, sum_range_16, sum_range_16]
  have e : ∀ k, 16 + (8 + k) = 24 + k := fun k => by omega
  simp only [Nat.add_assoc, e]

/-- The vector accumulator `sum` after one call of the quantiser. -/
theorem ExtractSum_Encode32f_sum (src : FVec) (scale min : ℚ) (p : Nat) (sum sqsum : Vec)
    (hc : ∀ j, j < 8 → 0 ≤ code src scale min (p + j) ∧ code src scale min (p + j) < 256) :
    ExtractSum (Avx2.Encode32f (_mm256_loadu_ps src p) (_mm256_set1_ps scale)
        (_mm256_set1_ps min) sum sqsum).2.1
      = (ExtractSum sum + ∑ k ∈ Finset.range 8, (code src scale min (p + k)).toNat)
          % 4294967296 := by
  rw [Encode32f_sum, ExtractSum_add, sum_range_8]
  simp only [u32_cvtps]
  rw [ofS32_small _ (hc 0 (by omega)).1 (by have := (hc 0 (by omega)).2; omega),
    ofS32_small _ (hc 1 (by omega)).1 (by have := (hc 1 (by omega)).2; omega),
    ofS32_small _ (hc 2 (by omega)).1 (by have := (hc 2 (by omega)).2; omega),
    ofS32_small _ (hc 3 (by omega)).1 (by have := (hc 3 (by omega)).2; omega),
    ofS32_small _ (hc 4 (by omega)).1 (by have := (hc 4 (by omega)).2; omega),
    ofS32_small _ (hc 5 (by omega)).1 (by have := (hc 5 (by omega)).2; omega),
    ofS32_small _ (hc 6 (by omega)).1 (by have := (hc 6 (by omega)).2; omega),
    ofS32_small _ (hc 7 (by omega)).1 (by have := (hc 7 (by omega)).2; omega)]

theorem toS16_small (x : Nat) (h : x < 32768) : toS16 x = (x : Int) := by
  simp only [toS16, h, if_true]

/-- A 32-bit lane of `madd_epi16` on small non-negative 16-bit lanes. -/
theorem u32_madd_epi16 (a b : Vec) (i : Nat)
    (h0 : u16 a (2 * i) < 256) (h1 : u16 a (2 * i + 1) < 256)
    (h2 : u16 b (2 * i) < 256) (h3 : u16 b (2 * i + 1) < 256) :
    u32 (_mm256_madd_epi16 a b) i
      = u16 a (2 * i) * u16 b (2 * i) + u16 a (2 * i + 1) * u16 b (2 * i + 1) := by
  simp only [_mm256_madd_epi16, u32_ofU32, ofS32]
  rw [toS16_small _ (by omega), toS16_small _ (by omega), toS16_small _ (by omega),
    toS16_small _ (by omega)]
  have b0 : u16 a (2 * i) * u16 b (2 * i) ≤ 255 * 255 := Nat.mul_le_mul (by omega) (by omega)
  have b1 : u16 a (2 * i + 1) * u16 b (2 * i + 1) ≤ 255 * 255 :=
    Nat.mul_le_mul (by omega) (by omega)
  have e : ((u16 a (2 * i) : Int) * (u16 b (2 * i) : Int)
      + (u16 a (2 * i + 1) : Int) * (u16 b (2 * i + 1) : Int))
      = ((u16 a (2 * i) * u16 b (2 * i) + u16 a (2 * i + 1) * u16 b (2 * i + 1) : Nat) : Int) := by
    push_cast
    ring
  rw [e]
  omega

/-- The vector accumulator `sqsum` after one call of the quantiser. -/
theorem ExtractSum_Encode32f_sqsum (src : FVec) (scale min : ℚ) (p : Nat) (sum sqsum : Vec)
    (hc : ∀ j, j < 8 → 0 ≤ code src scale min (p + j) ∧ code src scale min (p + j) < 256) :
    ExtractSum (Avx2.Encode32f (_mm256_loadu_ps src p) (_mm256_set1_ps scale)
        (_mm256_set1_ps min) sum sqsum).2.2
      = (ExtractSum sqsum + ∑ k ∈ Finset.range 8, (code src scale min (p + k)).toNat ^ 2)
          % 4294967296 := by
  rw [Encode32f_sqsum, ExtractSum_add, sum_range_8]
  have key : ∀ k, k < 8 → u32 (_mm256_madd_epi16
          (_mm256_cvtps_epi32 (_mm256_mul_ps (_mm256_sub_ps (_mm256_loadu_ps src p)
            (_mm256_set1_ps min)) (_mm256_set1_ps scale)))
          (_mm256_cvtps_epi32 (_mm256_mul_ps (_mm256_sub_ps (_mm256_loadu_ps src p)
            (_mm256_set1_ps min)) (_mm256_set1_ps scale)))) k
        = (code src scale min (p + k)).toNat ^ 2 := by
    intro k hk
    obtain ⟨c0, c1⟩ := hc k hk
    have l0 : u16 (_mm256_cvtps_epi32 (_mm256_mul_ps (_mm256_sub_ps (_mm256_loadu_ps src p)
            (_mm256_set1_ps min)) (_mm256_set1_ps scale))) (2 * k)
        = (code src scale min (p + k)).toNat := by
      simp only [_mm256_cvtps_epi32, u16_ofU32_even, _mm256_mul_ps, _mm256_sub_ps,
        _mm256_loadu_ps, _mm256_set1_ps, ofS32]
      simp only [code] at c0 c1 ⊢
      omega
    have l1 : u16 (_mm256_cvtps_epi32 (_mm256_mul_ps (_mm256_sub_ps (_mm256_loadu_ps src p)
            (_mm256_set1_ps min)) (_mm256_set1_ps scale))) (2 * k + 1) = 0 := by
      simp only [_mm256_cvtps_epi32, u16_ofU32_odd, _mm256_mul_ps, _mm256_sub_ps,
        _mm256_loadu_ps, _mm256_set1_ps, ofS32]
      simp only [code] at c0 c1
      omega
    rw [u32_madd_epi16 _ _ _ (by rw [l0]; omega) (by rw [l1]; omega) (by rw [l0]; omega)
      (by rw [l1]; omega), l0, l1]
    ring
  rw [key 0 (by omega), key 1 (by omega), key 2 (by omega), key 3 (by omega), key 4 (by omega),
    key 5 (by omega), key 6 (by omega), key 7 (by omega)]

/-! ## The bit layout written by the packing steps -/

theorem packByte_shift (bits : Nat) (hb : 0 < bits) (v : Nat → Nat) (p : Nat) (hp : p % 8 = 0)
    (j : Nat) : packByte bits v (p / 8 * bits + j) = packByte bits (fun i => v (p + i)) j := by
  have e1 : (p / 8 * bits + j) / bits = p / 8 + j / bits := by
    rw [Nat.add_comm, Nat.add_mul_div_right _ _ hb, Nat.add_comm]
  have e2 : (p / 8 * bits + j) % bits = j % bits := by
    rw [Nat.add_comm, Nat.add_mul_mod_self_right]
  have e4 : 8 * (p / 8 + j / bits) = p + 8 * (j / bits) := by omega
  simp only [packByte, groupValue, e1, e2, e4, Nat.add_assoc]

theorem packByte_lt (bits : Nat) (v : Nat → Nat) (k : Nat) : packByte bits v k < 256 := by
  simp only [packByte]
  omega

theorem packByte_8 (v : Nat → Nat) (k : Nat) (hv : ∀ t, t < 8 → v (8 * (k / 8) + t) < 256) :
    packByte 8 v k = v k := by
  obtain ⟨g, t, ht, rfl⟩ : ∃ g t, t < 8 ∧ k = 8 * g + t := ⟨k / 8, k % 8, by omega, by omega⟩
  have e1 : (8 * g + t) / 8 = g := by omega
  have e2 : (8 * g + t) % 8 = t := by omega
  simp only [packByte, groupValue, e1, e2]
  rw [e1] at hv
  have h0 := hv 0 (by omega)
  have h1 := hv 1 (by omega)
  have h2 := hv 2 (by omega)
  have h3 := hv 3 (by omega)
  have h4 := hv 4 (by omega)
  have h5 := hv 5 (by omega)
  have h6 := hv 6 (by omega)
  have h7 := hv 7 (by omega)
  simp only [Nat.add_zero] at h0
  interval_cases t <;> norm_num <;> omega

theorem pack5x1_bytes (c : Nat → Nat) (s0 : Vec) (hs : ∀ i, i < 8 → u16 s0 i = c i)
    (hc : ∀ i, i < 8 → c i < 32) (j : Nat) (hj : j < 8) :
    _mm_or_si128 (_mm_or_si128
      (_mm_shuffle_epi8 (_mm_mullo_epi16 s0 Sse41.E5_MULLO) Sse41.E5_SHFL0)
      (_mm_shuffle_epi8 (_mm_mullo_epi16 s0 Sse41.E5_MULLO) Sse41.E5_SHFL1))
      (_mm_shuffle_epi8 (_mm_mullo_epi16 s0 Sse41.E5_MULLO) Sse41.E5_SHFL2) j
    = if j < 5 then packByte 5 c j else 0 := by
  have h0 := hc 0 (by omega)
  have h1 := hc 1 (by omega)
  have h2 := hc 2 (by omega)
  have h3 := hc 3 (by omega)
  have h4 := hc 4 (by omega)
  have h5 := hc 5 (by omega)
  have h6 := hc 6 (by omega)
  have h7 := hc 7 (by omega)
  interval_cases j <;>
  simp [_mm_or_si128, _mm_shuffle_epi8, _mm_mullo_epi16, Sse41.E5_MULLO, Sse41.E5_SHFL0,
    Sse41.E5_SHFL1, Sse41.E5_SHFL2, _mm_setr_epi8, _mm_setr_epi16, ofU16, u16_ofU16, hs,
    packByte, groupValue] <;>
  (try simp (disch := omega) only [lor_eq_add1, lor_eq_add2, lor_eq_add3, lor_eq_add4,
    lor_eq_add5, lor_eq_add6, lor_eq_add7]) <;>
  omega

theorem pack5x2_bytes (c : Nat → Nat) (s0 : Vec) (hs : ∀ i, i < 16 → u16 s0 i = c i)
    (hc : ∀ i, i < 16 → c i < 32) (j : Nat) (hj : j < 16) :
    _mm_or_si128
      (_mm256_castsi256_si128 (_mm256_or_si256 (_mm256_or_si256
        (_mm256_shuffle_epi8 (_mm256_mullo_epi16 s0 Avx2.E5_MULLO) Avx2.E5_SHFL0)
        (_mm256_shuffle_epi8 (_mm256_mullo_epi16 s0 Avx2.E5_MULLO) Avx2.E5_SHFL1))
        (_mm256_shuffle_epi8 (_mm256_mullo_epi16 s0 Avx2.E5_MULLO) Avx2.E5_SHFL2)))
      (_mm256_extracti128_si256 (_mm256_or_si256 (_mm256_or_si256
        (_mm256_shuffle_epi8 (_mm256_mullo_epi16 s0 Avx2.E5_MULLO) Avx2.E5_SHFL0)
        (_mm256_shuffle_epi8 (_mm256_mullo_epi16 s0 Avx2.E5_MULLO) Avx2.E5_SHFL1))
        (_mm256_shuffle_epi8 (_mm256_mullo_epi16 s0 Avx2.E5_MULLO) Avx2.E5_SHFL2)) 1) j
    = if j < 10 then packByte 5 c j else 0 := by
  have h0 := hc 0 (by omega)
  have h1 := hc 1 (by omega)
  have h2 := hc 2 (by omega)
  have h3 := hc 3 (by omega)
  have h4 := hc 4 (by omega)
  have h5 := hc 5 (by omega)
  have h6 := hc 6 (by omega)
  have h7 := hc 7 (by omega)
  have h8 := hc 8 (by omega)
  have h9 := hc 9 (by omega)
  have h10 := hc 10 (by omega)
  have h11 := hc 11 (by omega)
  have h12 := hc 12 (by omega)
  have h13 := hc 13 (by omega)
  have h14 := hc 14 (by omega)
  have h15 := hc 15 (by omega)
  interval_cases j <;>
  simp [_mm_or_si128, _mm256_or_si256, _mm256_shuffle_epi8, _mm256_mullo_epi16,
    _mm256_castsi256_si128, _mm256_extracti128_si256, Avx2.E5_MULLO, Avx2.E5_SHFL0,
    Avx2.E5_SHFL1, Avx2.E5_SHFL2, _mm_setr_epi8, _mm_setr_epi16, ofU16, u16_ofU16, hs,
    packByte, groupValue] <;>
  (try simp (disch := omega) only [lor_eq_add1, lor_eq_add2, lor_eq_add3, lor_eq_add4,
    lor_eq_add5, lor_eq_add6, lor_eq_add7]) <;>
  omega

theorem pack6x1_bytes (c : Nat → Nat) (s0 : Vec) (hs : ∀ i, i < 8 → u16 s0 i = c i)
    (hc : ∀ i, i < 8 → c i < 64) (j : Nat) (hj : j < 8) :
    _mm_or_si128
      (_mm_shuffle_epi8 (_mm_mullo_epi16 s0 Sse41.E6_MULLO) Sse41.E6_SHFL0)
      (_mm_shuffle_epi8 (_mm_mullo_epi16 s0 Sse41.E6_MULLO) Sse41.E6_SHFL1) j
    = if j < 6 then packByte 6 c j else 0 := by
  have h0 := hc 0 (by omega)
  have h1 := hc 1 (by omega)
  have h2 := hc 2 (by omega)
  have h3 := hc 3 (by omega)
  have h4 := hc 4 (by omega)
  have h5 := hc 5 (by omega)
  have h6 := hc 6 (by omega)
  have h7 := hc 7 (by omega)
  interval_cases j <;>
  simp [_mm_or_si128, _mm_shuffle_epi8, _mm_mullo_epi16, Sse41.E6_MULLO, Sse41.E6_SHFL0,
    Sse41.E6_SHFL1, _mm_setr_epi8, _mm_setr_epi16, ofU16, u16_ofU16, hs,
    packByte, groupValue] <;>
  (try simp (disch := omega) only [lor_eq_add1, lor_eq_add2, lor_eq_add3, lor_eq_add4,
    lor_eq_add5, lor_eq_add6, lor_eq_add7]) <;>
  omega

theorem pack6x2_bytes (c : Nat → Nat) (s0 : Vec) (hs : ∀ i, i < 16 → u16 s0 i = c i)
    (hc : ∀ i, i < 16 → c i < 64) (j : Nat) (hj : j < 16) :
    _mm_or_si128
      (_mm256_castsi256_si128 (_mm256_or_si256
        (_mm256_shuffle_epi8 (_mm256_mullo_epi16 s0 Avx2.E6_MULLO) Avx2.E6_SHFL0)
        (_mm256_shuffle_epi8 (_mm256_mullo_epi16 s0 Avx2.E6_MULLO) Avx2.E6_SHFL1)))
      (_mm256_extracti128_si256 (_mm256_or_si256
        (_mm256_shuffle_epi8 (_mm256_mullo_epi16 s0 Avx2.E6_MULLO) Avx2.E6_SHFL0)
        (_mm256_shuffle_epi8 (_mm256_mullo_epi16 s0 Avx2.E6_MULLO) Avx2.E6_SHFL1)) 1) j
    = if j < 12 then packByte 6 c j else 0 := by
  have h0 := hc 0 (by omega)
  have h1 := hc 1 (by omega)
  have h2 := hc 2 (by omega)
  have h3 := hc 3 (by omega)
  have h4 := hc 4 (by omega)
  have h5 := hc 5 (by omega)
  have h6 := hc 6 (by omega)
  have h7 := hc 7 (by omega)
  have h8 := hc 8 (by omega)
  have h9 := hc 9 (by omega)
  have h10 := hc 10 (by omega)
  have h11 := hc 11 (by omega)
  have h12 := hc 12 (by omega)
  have h13 := hc 13 (by omega)
  have h14 := hc 14 (by omega)
  have h15 := hc 15 (by omega)
  interval_cases j <;>
  simp [_mm_or_si128, _mm256_or_si256, _mm256_shuffle_epi8, _mm256_mullo_epi16,
    _mm256_castsi256_si128, _mm256_extracti128_si256, Avx2.E6_MULLO, Avx2.E6_SHFL0,
    Avx2.E6_SHFL1, _mm_setr_epi8, _mm_setr_epi16, ofU16, u16_ofU16, hs,
    packByte, groupValue] <;>
  (try simp (disch := omega) only [lor_eq_add1, lor_eq_add2, lor_eq_add3, lor_eq_add4,
    lor_eq_add5, lor_eq_add6, lor_eq_add7]) <;>
  omega

theorem pack7x1_bytes (c : Nat → Nat) (s0 : Vec) (hs : ∀ i, i < 8 → u16 s0 i = c i)
    (hc : ∀ i, i < 8 → c i < 128) (j : Nat) (hj : j < 8) :
    _mm_or_si128
      (_mm_shuffle_epi8 (_mm_mullo_epi16 s0 Sse41.E7_MULLO) Sse41.E7_SHFL0)
      (_mm_shuffle_epi8 (_mm_mullo_epi16 s0 Sse41.E7_MULLO) Sse41.E7_SHFL1) j
    = if j < 7 then packByte 7 c j else 0 := by
  have h0 := hc 0 (by omega)
  have h1 := hc 1 (by omega)
  have h2 := hc 2 (by omega)
  have h3 := hc 3 (by omega)
  have h4 := hc 4 (by omega)
  have h5 := hc 5 (by omega)
  have h6 := hc 6 (by omega)
  have h7 := hc 7 (by omega)
  interval_cases j <;>
  simp [_mm_or_si128, _mm_shuffle_epi8, _mm_mullo_epi16, Sse41.E7_MULLO, Sse41.E7_SHFL0,
    Sse41.E7_SHFL1, _mm_setr_epi8, _mm_setr_epi16, ofU16, u16_ofU16, hs,
    packByte, groupValue] <;>
  (try simp (disch := omega) only [lor_eq_add1, lor_eq_add2, lor_eq_add3, lor_eq_add4,
    lor_eq_add5, lor_eq_add6, lor_eq_add7]) <;>
  omega

theorem pack7x2_bytes (c : Nat → Nat) (s0 : Vec) (hs : ∀ i, i < 16 → u16 s0 i = c i)
    (hc : ∀ i, i < 16 → c i < 128) (j : Nat) (hj : j < 16) :
    _mm_or_si128
      (_mm256_castsi256_si128 (_mm256_or_si256
        (_mm256_shuffle_epi8 (_mm256_mullo_epi16 s0 Avx2.E7_MULLO) Avx2.E7_SHFL0)
        (_mm256_shuffle_epi8 (_mm256_mullo_epi16 s0 Avx2.E7_MULLO) Avx2.E7_SHFL1)))
      (_mm256_extracti128_si256 (_mm256_or_si256
        (_mm256_shuffle_epi8 (_mm256_mullo_epi16 s0 Avx2.E7_MULLO) Avx2.E7_SHFL0)
        (_mm256_shuffle_epi8 (_mm256_mullo_epi16 s0 Avx2.E7_MULLO) Avx2.E7_SHFL1)) 1) j
    = if j < 14 then packByte 7 c j else 0 := by
  have h0 := hc 0 (by omega)
  have h1 := hc 1 (by omega)
  have h2 := hc 2 (by omega)
  have h3 := hc 3 (by omega)
  have h4 := hc 4 (by omega)
  have h5 := hc 5 (by omega)
  have h6 := hc 6 (by omega)
  have h7 := hc 7 (by omega)
  have h8 := hc 8 (by omega)
  have h9 := hc 9 (by omega)
  have h10 := hc 10 (by omega)
  have h11 := hc 11 (by omega)
  have h12 := hc 12 (by omega)
  have h13 := hc 13 (by omega)
  have h14 := hc 14 (by omega)
  have h15 := hc 15 (by omega)
  interval_cases j <;>
  simp [_mm_or_si128, _mm256_or_si256, _mm256_shuffle_epi8, _mm256_mullo_epi16,
    _mm256_castsi256_si128, _mm256_extracti128_si256, Avx2.E7_MULLO, Avx2.E7_SHFL0,
    Avx2.E7_SHFL1, _mm_setr_epi8, _mm_setr_epi16, ofU16, u16_ofU16, hs,
    packByte, groupValue] <;>
  (try simp (disch := omega) only [lor_eq_add1, lor_eq_add2, lor_eq_add3, lor_eq_add4,
    lor_eq_add5, lor_eq_add6, lor_eq_add7]) <;>
  omega

theorem pack4x8_bytes (c : Nat → Nat) (s0 : Vec) (hs : ∀ i, i < 8 → u16 s0 i = c i)
    (hc : ∀ i, i < 8 → c i < 16) (j : Nat) (hj : j < 16) :
    _mm_packus_epi16 (_mm_packus_epi32
      (_mm_srli_epi32 (_mm_mullo_epi16 s0 Sse41.E4_MULLO) 12) Sse41.K_ZERO) Sse41.K_ZERO j
    = if j < 4 then packByte 4 c j else 0 := by
  have h0 := hc 0 (by omega)
  have h1 := hc 1 (by omega)
  have h2 := hc 2 (by omega)
  have h3 := hc 3 (by omega)
  have h4 := hc 4 (by omega)
  have h5 := hc 5 (by omega)
  have h6 := hc 6 (by omega)
  have h7 := hc 7 (by omega)
  have hz : ∀ i, u16 Sse41.K_ZERO i = 0 := fun i => by simp [u16, Sse41.K_ZERO]
  have hl : ∀ i, i < 4 → u32 (_mm_srli_epi32 (_mm_mullo_epi16 s0 Sse41.E4_MULLO) 12) i
      = c (2 * i) + 16 * c (2 * i + 1) := by
    intro i hi
    simp only [_mm_srli_epi32, u32_ofU32, _mm_mullo_epi16, u32_ofU16, u16_ofU16]
    interval_cases i <;>
    simp [Sse41.E4_MULLO, _mm_setr_epi16, u16_ofU16, hs] <;>
    omega
  have hp : ∀ i, i < 4 → u16 (_mm_packus_epi32
      (_mm_srli_epi32 (_mm_mullo_epi16 s0 Sse41.E4_MULLO) 12) Sse41.K_ZERO) i
      = c (2 * i) + 16 * c (2 * i + 1) := by
    intro i hi
    simp only [_mm_packus_epi32, u16_ofU16, hi, if_true, hl i hi]
    have a0 := hc (2 * i) (by omega)
    have a1 := hc (2 * i + 1) (by omega)
    rw [satU16_toS32 _ (by omega)]
    omega
  have hq : ∀ i, 4 ≤ i → i < 8 → u16 (_mm_packus_epi32
      (_mm_srli_epi32 (_mm_mullo_epi16 s0 Sse41.E4_MULLO) 12) Sse41.K_ZERO) i = 0 := by
    intro i h4 h8
    have e : ¬ i < 4 := by omega
    simp [_mm_packus_epi32, u16_ofU16, e, u32, Sse41.K_ZERO, satU16, toS32]
  simp only [_mm_packus_epi16]
  by_cases h : j < 4
  · have h8 : j < 8 := by omega
    simp only [h, h8, if_true, hp j h]
    have a0 := hc (2 * j) (by omega)
    have a1 := hc (2 * j + 1) (by omega)
    rw [satU8_toS16 _ (by omega)]
    interval_cases j <;> simp [packByte, groupValue] <;> omega
  · by_cases h8 : j < 8
    · simp only [h, h8, if_true, if_false, hq j (by omega) h8]
      simp [satU8, toS16]
    · simp only [h, h8, if_false, hz]
      simp [satU8, toS16]

theorem pack4x16_lanes (c : Nat → Nat) (s0 : Vec) (hs : ∀ i, i < 16 → u16 s0 i = c i)
    (hc : ∀ i, i < 16 → c i < 16) (i : Nat) (hi : i < 8) :
    u16 (_mm_packus_epi32
      (_mm256_castsi256_si128 (_mm256_srli_epi32 (_mm256_mullo_epi16 s0 Avx2.E4_MULLO) 12))
      (_mm256_extracti128_si256 (_mm256_srli_epi32 (_mm256_mullo_epi16 s0 Avx2.E4_MULLO) 12) 1)) i
    = c (2 * i) + 16 * c (2 * i + 1) := by
  have h0 := hc 0 (by omega)
  have h1 := hc 1 (by omega)
  have h2 := hc 2 (by omega)
  have h3 := hc 3 (by omega)
  have h4 := hc 4 (by omega)
  have h5 := hc 5 (by omega)
  have h6 := hc 6 (by omega)
  have h7 := hc 7 (by omega)
  have h8 := hc 8 (by omega)
  have h9 := hc 9 (by omega)
  have h10 := hc 10 (by omega)
  have h11 := hc 11 (by omega)
  have h12 := hc 12 (by omega)
  have h13 := hc 13 (by omega)
  have h14 := hc 14 (by omega)
  have h15 := hc 15 (by omega)
  have hl : ∀ i, i < 8 → u32 (_mm256_srli_epi32 (_mm256_mullo_epi16 s0 Avx2.E4_MULLO) 12) i
      = c (2 * i) + 16 * c (2 * i + 1) := by
    intro i hi
    simp only [_mm256_srli_epi32, u32_ofU32, _mm256_mullo_epi16, u32_ofU16, u16_ofU16]
    interval_cases i <;>
    simp [Avx2.E4_MULLO, _mm_setr_epi16, u16_ofU16, hs] <;>
    omega
  have he : ∀ i, u32 (_mm256_extracti128_si256
      (_mm256_srli_epi32 (_mm256_mullo_epi16 s0 Avx2.E4_MULLO) 12) 1) i
      = u32 (_mm256_srli_epi32 (_mm256_mullo_epi16 s0 Avx2.E4_MULLO) 12) (4 + i) := by
    intro i
    simp only [u32, _mm256_extracti128_si256]
    have e0 : 16 * 1 + 4 * i = 4 * (4 + i) := by omega
    have e1 : 16 * 1 + (4 * i + 1) = 4 * (4 + i) + 1 := by omega
    have e2 : 16 * 1 + (4 * i + 2) = 4 * (4 + i) + 2 := by omega
    have e3 : 16 * 1 + (4 * i + 3) = 4 * (4 + i) + 3 := by omega
    rw [e0, e1, e2, e3]
  simp only [_mm_packus_epi32, u16_ofU16, _mm256_castsi256_si128]
  have a0 := hc (2 * i) (by omega)
  have a1 := hc (2 * i + 1) (by omega)
  by_cases h : i < 4
  · simp only [h, if_true, hl i hi]
    rw [satU16_toS32 _ (by omega)]
    omega
  · simp only [h, if_false, he, hl (4 + (i - 4)) (by omega)]
    have e : 4 + (i - 4) = i := by omega
    rw [e, satU16_toS32 _ (by omega)]
    omega

theorem pack4x32_bytes (c : Nat → Nat) (s0 s1 : Vec) (hs0 : ∀ i, i < 16 → u16 s0 i = c i)
    (hs1 : ∀ i, i < 16 → u16 s1 i = c (16 + i))
    (hc : ∀ i, i < 32 → c i < 16) (j : Nat) (hj : j < 16) :
    _mm_packus_epi16
      (_mm_packus_epi32
        (_mm256_castsi256_si128 (_mm256_srli_epi32 (_mm256_mullo_epi16 s0 Avx2.E4_MULLO) 12))
        (_mm256_extracti128_si256 (_mm256_srli_epi32 (_mm256_mullo_epi16 s0 Avx2.E4_MULLO) 12) 1))
      (_mm_packus_epi32
        (_mm256_castsi256_si128 (_mm256_srli_epi32 (_mm256_mullo_epi16 s1 Avx2.E4_MULLO) 12))
        (_mm256_extracti128_si256 (_mm256_srli_epi32 (_mm256_mullo_epi16 s1 Avx2.E4_MULLO) 12) 1)) j
    = packByte 4 c j := by
  have hb : packByte 4 c j = c (2 * j) + 16 * c (2 * j + 1) := by
    have h0 := hc 0 (by omega)
    have h1 := hc 1 (by omega)
    have h2 := hc 2 (by omega)
    have h3 := hc 3 (by omega)
    have h4 := hc 4 (by omega)
    have h5 := hc 5 (by omega)
    have h6 := hc 6 (by omega)
    have h7 := hc 7 (by omega)
    have h8 := hc 8 (by omega)
    have h9 := hc 9 (by omega)
    have h10 := hc 10 (by omega)
    have h11 := hc 11 (by omega)
    have h12 := hc 12 (by omega)
    have h13 := hc 13 (by omega)
    have h14 := hc 14 (by omega)
    have h15 := hc 15 (by omega)
    have h16 := hc 16 (by omega)
    have h17 := hc 17 (by omega)
    have h18 := hc 18 (by omega)
    have h19 := hc 19 (by omega)
    have h20 := hc 20 (by omega)
    have h21 := hc 21 (by omega)
    have h22 := hc 22 (by omega)
    have h23 := hc 23 (by omega)
    have h24 := hc 24 (by omega)
    have h25 := hc 25 (by omega)
    have h26 := hc 26 (by omega)
    have h27 := hc 27 (by omega)
    have h28 := hc 28 (by omega)
    have h29 := hc 29 (by omega)
    have h30 := hc 30 (by omega)
    have h31 := hc 31 (by omega)
    interval_cases j <;> simp [packByte, groupValue] <;> omega
  rw [hb]
  simp only [_mm_packus_epi16]
  by_cases h : j < 8
  · simp only [h, if_true, pack4x16_lanes c s0 hs0 (fun i hi => hc i (by omega)) j h]
    have a0 := hc (2 * j) (by omega)
    have a1 := hc (2 * j + 1) (by omega)
    rw [satU8_toS16 _ (by omega)]
  · simp only [h, if_false, pack4x16_lanes (fun i => c (16 + i)) s1 hs1
      (fun i hi => hc (16 + i) (by omega)) (j - 8) (by omega)]
    have e0 : 16 + 2 * (j - 8) = 2 * j := by omega
    have e1 : 16 + (2 * (j - 8) + 1) = 2 * j + 1 := by omega
    rw [e0, e1]
    have a0 := hc (2 * j) (by omega)
    have a1 := hc (2 * j + 1) (by omega)
    rw [satU8_toS16 _ (by omega)]

/-! ## Packing steps of the encoders -/

theorem sums_8 (src : FVec) (scale min : ℚ) (p : Nat) (sum sqsum : Vec)
    (hc : ∀ j, j < 8 → 0 ≤ code src scale min (p + j) ∧ code src scale min (p + j) < 256) :
    ExtractSum (Avx2.Encode32f (_mm256_loadu_ps src p) (_mm256_set1_ps scale)
        (_mm256_set1_ps min) sum sqsum).2.1
      = (ExtractSum sum + ∑ k ∈ Finset.range 8, (code src scale min (p + k)).toNat)
          % 4294967296
    ∧ ExtractSum (Avx2.Encode32f (_mm256_loadu_ps src p) (_mm256_set1_ps scale)
        (_mm256_set1_ps min) sum sqsum).2.2
      = (ExtractSum sqsum + ∑ k ∈ Finset.range 8, (code src scale min (p + k)).toNat ^ 2)
          % 4294967296 :=
  ⟨ExtractSum_Encode32f_sum src scale min p sum sqsum hc,
    ExtractSum_Encode32f_sqsum src scale min p sum sqsum hc⟩

theorem mod_add_mod32 (a b c : Nat) :
    ((a + b) % 4294967296 + c) % 4294967296 = (a + (b + c)) % 4294967296 := by
  omega

theorem sums_16 (src : FVec) (scale min : ℚ) (p : Nat) (sum sqsum : Vec)
    (hc : ∀ j, j < 16 → 0 ≤ code src scale min (p + j) ∧ code src scale min (p + j) < 256) :
    ExtractSum (Avx2.Encode32f (_mm256_loadu_ps src (p + 8)) (_mm256_set1_ps scale)
        (_mm256_set1_ps min)
        (Avx2.Encode32f (_mm256_loadu_ps src (p + 0)) (_mm256_set1_ps scale)
          (_mm256_set1_ps min) sum sqsum).2.1
        (Avx2.Encode32f (_mm256_loadu_ps src (p + 0)) (_mm256_set1_ps scale)
          (_mm256_set1_ps min) sum sqsum).2.2).2.1
      = (ExtractSum sum + ∑ k ∈ Finset.range 16, (code src scale min (p + k)).toNat)
          % 4294967296
    ∧ ExtractSum (Avx2.Encode32f (_mm256_loadu_ps src (p + 8)) (_mm256_set1_ps scale)
        (_mm256_set1_ps min)
        (Avx2.Encode32f (_mm256_loadu_ps src (p + 0)) (_mm256_set1_ps scale)
          (_mm256_set1_ps min) sum sqsum).2.1
        (Avx2.Encode32f (_mm256_loadu_ps src (p + 0)) (_mm256_set1_ps scale)
          (_mm256_set1_ps min) sum sqsum).2.2).2.2
      = (ExtractSum sqsum + ∑ k ∈ Finset.range 16, (code src scale min (p + k)).toNat ^ 2)
          % 4294967296 := by
  have a := sums_8 src scale min (p + 0) sum sqsum (fun j hj => hc j (by omega))
  have b := fun s q => sums_8 src scale min (p + 8) s q (fun j hj => by
    have := hc (8 + j) (by omega)
    rw [Nat.add_assoc]
    exact this)
  constructor
  · rw [(b _ _).1, a.1, mod_add_mod32, sum_range_add _ 8 8]
    simp only [Nat.add_zero, Nat.add_assoc]
  · rw [(b _ _).2, a.2, mod_add_mod32, sum_range_add _ 8 8]
    simp only [Nat.add_zero, Nat.add_assoc]

theorem x1_generic (bits : Nat) (hb : 0 < bits) (hb8 : bits ≤ 8)
    (x : FVec → Nat → FVec → FVec → Vec → Vec → Vec × Vec × Vec)
    (pk : Vec → Vec)
    (hx : ∀ src p scale min sum sqsum, x src p scale min sum sqsum
      = (pk (PackU32ToI16 (Avx2.Encode32f (_mm256_loadu_ps src (p + 0)) scale min sum sqsum).1
            _mm256_setzero_si256),
          (Avx2.Encode32f (_mm256_loadu_ps src (p + 0)) scale min sum sqsum).2.1,
          (Avx2.Encode32f (_mm256_loadu_ps src (p + 0)) scale min sum sqsum).2.2))
    (hpk : ∀ (c : Nat → Nat) (s0 : Vec), (∀ i, i < 8 → u16 s0 i = c i) →
      (∀ i, i < 8 → c i < 2 ^ bits) → ∀ j, j < bits → pk s0 j = packByte bits c j) :
    XSpec bits 8 x := by
  intro src scale min p sum sqsum hp hc
  have hc' : ∀ j, j < 8 → 0 ≤ code src scale min (p + j) ∧ code src scale min (p + j) < 256 := by
    intro j hj
    have h2 : (2 : Int) ^ bits ≤ 2 ^ 8 := pow_le_pow_right₀ (by norm_num) hb8
    have := hc j hj
    constructor
    · exact this.1
    · have h3 : (2 : Int) ^ 8 = 256 := by norm_num
      omega
  rw [hx]
  refine ⟨?_, ?_, ?_⟩
  · intro j hj
    have e : 8 / 8 * bits = bits := by omega
    rw [e] at hj
    rw [packByte_shift bits hb _ p hp j]
    apply hpk
    · intro i hi
      rw [Nat.add_zero]
      exact u16_PackU32ToI16_zero src scale min p _ _ i hi (fun j hj => by
        have := hc' j hj
        omega)
    · intro i hi
      have := hc i hi
      have h4 : ((code src scale min (p + i)).toNat : Int) < 2 ^ bits := by omega
      exact_mod_cast h4
    · exact hj
  · simp only [Nat.add_zero]
    exact (sums_8 src scale min p sum sqsum hc').1
  · simp only [Nat.add_zero]
    exact (sums_8 src scale min p sum sqsum hc').2

theorem x2_generic (bits : Nat) (hb : 0 < bits) (hb8 : bits ≤ 8)
    (x : FVec → Nat → FVec → FVec → Vec → Vec → Vec × Vec × Vec)
    (pk : Vec → Vec)
    (hx : ∀ src p scale min sum sqsum, x src p scale min sum sqsum
      = (pk (PackU32ToI16 (Avx2.Encode32f (_mm256_loadu_ps src (p + 0)) scale min sum sqsum).1
            (Avx2.Encode32f (_mm256_loadu_ps src (p + 8)) scale min
              (Avx2.Encode32f (_mm256_loadu_ps src (p + 0)) scale min sum sqsum).2.1
              (Avx2.Encode32f (_mm256_loadu_ps src (p + 0)) scale min sum sqsum).2.2).1),
          (Avx2.Encode32f (_mm256_loadu_ps src (p + 8)) scale min
              (Avx2.Encode32f (_mm256_loadu_ps src (p + 0)) scale min sum sqsum).2.1
              (Avx2.Encode32f (_mm256_loadu_ps src (p + 0)) scale min sum sqsum).2.2).2.1,
          (Avx2.Encode32f (_mm256_loadu_ps src (p + 8)) scale min
              (Avx2.Encode32f (_mm256_loadu_ps src (p + 0)) scale min sum sqsum).2.1
              (Avx2.Encode32f (_mm256_loadu_ps src (p + 0)) scale min sum sqsum).2.2).2.2))
    (hpk : ∀ (c : Nat → Nat) (s0 : Vec), (∀ i, i < 16 → u16 s0 i = c i) →
      (∀ i, i < 16 → c i < 2 ^ bits) → ∀ j, j < 2 * bits → pk s0 j = packByte bits c j) :
    XSpec bits 16 x := by
  intro src scale min p sum sqsum hp hc
  have hc' : ∀ j, j < 16 → 0 ≤ code src scale min (p + j) ∧ code src scale min (p + j) < 256 := by
    intro j hj
    have h2 : (2 : Int) ^ bits ≤ 2 ^ 8 := pow_le_pow_right₀ (by norm_num) hb8
    have := hc j hj
    constructor
    · exact this.1
    · have h3 : (2 : Int) ^ 8 = 256 := by norm_num
      omega
  rw [hx]
  refine ⟨?_, ?_, ?_⟩
  · intro j hj
    have e : 16 / 8 * bits = 2 * bits := by omega
    rw [e] at hj
    rw [packByte_shift bits hb _ p hp j]
    apply hpk
    · intro i hi
      exact u16_PackU32ToI16 src scale min p _ _ _ _ i hi (fun j hj => by
        have := hc' j hj
        omega)
    · intro i hi
      have := hc i hi
      have h4 : ((code src scale min (p + i)).toNat : Int) < 2 ^ bits := by omega
      exact_mod_cast h4
    · exact hj
  · exact (sums_16 src scale min p sum sqsum hc').1
  · exact (sums_16 src scale min p sum sqsum hc').2

theorem XSpec_5x1 : XSpec 5 8 Avx2.Encode32f5x1 :=
  x1_generic 5 (by omega) (by omega) _
    (fun s0 => _mm_or_si128 (_mm_or_si128
      (_mm_shuffle_epi8 (_mm_mullo_epi16 s0 Sse41.E5_MULLO) Sse41.E5_SHFL0)
      (_mm_shuffle_epi8 (_mm_mullo_epi16 s0 Sse41.E5_MULLO) Sse41.E5_SHFL1))
      (_mm_shuffle_epi8 (_mm_mullo_epi16 s0 Sse41.E5_MULLO) Sse41.E5_SHFL2))
    (fun _ _ _ _ _ _ => by simp only [Avx2.Encode32f5x1, _mm256_castsi256_si128])
    (fun c s0 hs hc j hj => by
      have := pack5x1_bytes c s0 hs hc j (by omega)
      simp only [hj, if_true] at this
      exact this)

theorem XSpec_5x2 : XSpec 5 16 Avx2.Encode32f5x2 :=
  x2_generic 5 (by omega) (by omega) _
    (fun s0 => _mm_or_si128
      (_mm256_castsi256_si128 (_mm256_or_si256 (_mm256_or_si256
        (_mm256_shuffle_epi8 (_mm256_mullo_epi16 s0 Avx2.E5_MULLO) Avx2.E5_SHFL0)
        (_mm256_shuffle_epi8 (_mm256_mullo_epi16 s0 Avx2.E5_MULLO) Avx2.E5_SHFL1))
        (_mm256_shuffle_epi8 (_mm256_mullo_epi16 s0 Avx2.E5_MULLO) Avx2.E5_SHFL2)))
      (_mm256_extracti128_si256 (_mm256_or_si256 (_mm256_or_si256
        (_mm256_shuffle_epi8 (_mm256_mullo_epi16 s0 Avx2.E5_MULLO) Avx2.E5_SHFL0)
        (_mm256_shuffle_epi8 (_mm256_mullo_epi16 s0 Avx2.E5_MULLO) Avx2.E5_SHFL1))
        (_mm256_shuffle_epi8 (_mm256_mullo_epi16 s0 Avx2.E5_MULLO) Avx2.E5_SHFL2)) 1))
    (fun _ _ _ _ _ _ => by simp only [Avx2.Encode32f5x2])
    (fun c s0 hs hc j hj => by
      have := pack5x2_bytes c s0 hs hc j (by omega)
      simp only [hj, if_true] at this
      exact this)

theorem XSpec_6x1 : XSpec 6 8 Avx2.Encode32f6x1 :=
  x1_generic 6 (by omega) (by omega) _
    (fun s0 => _mm_or_si128
      (_mm_shuffle_epi8 (_mm_mullo_epi16 s0 Sse41.E6_MULLO) Sse41.E6_SHFL0)
      (_mm_shuffle_epi8 (_mm_mullo_epi16 s0 Sse41.E6_MULLO) Sse41.E6_SHFL1))
    (fun _ _ _ _ _ _ => by simp only [Avx2.Encode32f6x1, _mm256_castsi256_si128])
    (fun c s0 hs hc j hj => by
      have := pack6x1_bytes c s0 hs hc j (by omega)
      simp only [hj, if_true] at this
      exact this)

theorem XSpec_6x2 : XSpec 6 16 Avx2.Encode32f6x2 :=
  x2_generic 6 (by omega) (by omega) _
    (fun s0 => _mm_or_si128
      (_mm256_castsi256_si128 (_mm256_or_si256
        (_mm256_shuffle_epi8 (_mm256_mullo_epi16 s0 Avx2.E6_MULLO) Avx2.E6_SHFL0)
        (_mm256_shuffle_epi8 (_mm256_mullo_epi16 s0 Avx2.E6_MULLO) Avx2.E6_SHFL1)))
      (_mm256_extracti128_si256 (_mm256_or_si256
        (_mm256_shuffle_epi8 (_mm256_mullo_epi16 s0 Avx2.E6_MULLO) Avx2.E6_SHFL0)
        (_mm256_shuffle_epi8 (_mm256_mullo_epi16 s0 Avx2.E6_MULLO) Avx2.E6_SHFL1)) 1))
    (fun _ _ _ _ _ _ => by simp only [Avx2.Encode32f6x2])
    (fun c s0 hs hc j hj => by
      have := pack6x2_bytes c s0 hs hc j (by omega)
      simp only [hj, if_true] at this
      exact this)

theorem XSpec_7x1 : XSpec 7 8 Avx2.Encode32f7x1 :=
  x1_generic 7 (by omega) (by omega) _
    (fun s0 => _mm_or_si128
      (_mm_shuffle_epi8 (_mm_mullo_epi16 s0 Sse41.E7_MULLO) Sse41.E7_SHFL0)
      (_mm_shuffle_epi8 (_mm_mullo_epi16 s0 Sse41.E7_MULLO) Sse41.E7_SHFL1))
    (fun _ _ _ _ _ _ => by simp only [Avx2.Encode32f7x1, _mm256_castsi256_si128])
    (fun c s0 hs hc j hj => by
      have := pack7x1_bytes c s0 hs hc j (by omega)
      simp only [hj, if_true] at this
      exact this)

theorem XSpec_7x2 : XSpec 7 16 Avx2.Encode32f7x2 :=
  x2_generic 7 (by omega) (by omega) _
    (fun s0 => _mm_or_si128
      (_mm256_castsi256_si128 (_mm256_or_si256
        (_mm256_shuffle_epi8 (_mm256_mullo_epi16 s0 Avx2.E7_MULLO) Avx2.E7_SHFL0)
        (_mm256_shuffle_epi8 (_mm256_mullo_epi16 s0 Avx2.E7_MULLO) Avx2.E7_SHFL1)))
      (_mm256_extracti128_si256 (_mm256_or_si256
        (_mm256_shuffle_epi8 (_mm256_mullo_epi16 s0 Avx2.E7_MULLO) Avx2.E7_SHFL0)
        (_mm256_shuffle_epi8 (_mm256_mullo_epi16 s0 Avx2.E7_MULLO) Avx2.E7_SHFL1)) 1))
    (fun _ _ _ _ _ _ => by simp only [Avx2.Encode32f7x2])
    (fun c s0 hs hc j hj => by
      have := pack7x2_bytes c s0 hs hc j (by omega)
      simp only [hj, if_true] at this
      exact this)

theorem XSpec_4x8 : XSpec 4 8 Avx2.Encode32f4x8 :=
  x1_generic 4 (by omega) (by omega) _
    (fun s0 => _mm_packus_epi16 (_mm_packus_epi32
      (_mm_srli_epi32 (_mm_mullo_epi16 s0 Sse41.E4_MULLO) 12) Sse41.K_ZERO) Sse41.K_ZERO)
    (fun _ _ _ _ _ _ => by
      simp only [Avx2.Encode32f4x8, _mm256_castsi256_si128, Nat.zero_mul])
    (fun c s0 hs hc j hj => by
      have := pack4x8_bytes c s0 hs hc j (by omega)
      simp only [hj, if_true] at this
      exact this)

theorem sums_32 (src : FVec) (scale min : ℚ) (p : Nat) (sum sqsum : Vec)
    (hc : ∀ j, j < 32 → 0 ≤ code src scale min (p + j) ∧ code src scale min (p + j) < 256)
    (S Q : Vec)
    (hS : S = (Avx2.Encode32f (_mm256_loadu_ps src (p + 24)) (_mm256_set1_ps scale)
        (_mm256_set1_ps min)
        (Avx2.Encode32f (_mm256_loadu_ps src (p + 16)) (_mm256_set1_ps scale)
          (_mm256_set1_ps min)
          (Avx2.Encode32f (_mm256_loadu_ps src (p + 8)) (_mm256_set1_ps scale)
            (_mm256_set1_ps min)
            (Avx2.Encode32f (_mm256_loadu_ps src (p + 0)) (_mm256_set1_ps scale)
              (_mm256_set1_ps min) sum sqsum).2.1
            (Avx2.Encode32f (_mm256_loadu_ps src (p + 0)) (_mm256_set1_ps scale)
              (_mm256_set1_ps min) sum sqsum).2.2).2.1
          (Avx2.Encode32f (_mm256_loadu_ps src (p + 8)) (_mm256_set1_ps scale)
            (_mm256_set1_ps min)
            (Avx2.Encode32f (_mm256_loadu_ps src (p + 0)) (_mm256_set1_ps scale)
              (_mm256_set1_ps min) sum sqsum).2.1
            (Avx2.Encode32f (_mm256_loadu_ps src (p + 0)) (_mm256_set1_ps scale)
              (_mm256_set1_ps min) sum sqsum).2.2).2.2).2.1
        Q).2.1) :
    ExtractSum S
      = (ExtractSum sum + ∑ k ∈ Finset.range 32, (code src scale min (p + k)).toNat)
          % 4294967296 := by
  subst hS
  have a := sums_16 src scale min p sum sqsum (fun j hj => hc j (by omega))
  have b := fun s q => sums_8 src scale min (p + 16) s q (fun j hj => by
    have := hc (16 + j) (by omega)
    rw [Nat.add_assoc]
    exact this)
  have c := fun s q => sums_8 src scale min (p + 24) s q (fun j hj => by
    have := hc (24 + j) (by omega)
    rw [Nat.add_assoc]
    exact this)
  rw [(c _ _).1, (b _ _).1, a.1, mod_add_mod32, mod_add_mod32]
  simp only [sum_range_32, sum_range_16, Nat.add_assoc]

theorem sqsums_32 (src : FVec) (scale min : ℚ) (p : Nat) (sum sqsum : Vec)
    (hc : ∀ j, j < 32 → 0 ≤ code src scale min (p + j) ∧ code src scale min (p + j) < 256)
    (S Q : Vec)
    (hQ : Q = (Avx2.Encode32f (_mm256_loadu_ps src (p + 24)) (_mm256_set1_ps scale)
        (_mm256_set1_ps min) S
        (Avx2.Encode32f (_mm256_loadu_ps src (p + 16)) (_mm256_set1_ps scale)
          (_mm256_set1_ps min)
          (Avx2.Encode32f (_mm256_loadu_ps src (p + 8)) (_mm256_set1_ps scale)
            (_mm256_set1_ps min)
            (Avx2.Encode32f (_mm256_loadu_ps src (p + 0)) (_mm256_set1_ps scale)
              (_mm256_set1_ps min) sum sqsum).2.1
            (Avx2.Encode32f (_mm256_loadu_ps src (p + 0)) (_mm256_set1_ps scale)
              (_mm256_set1_ps min) sum sqsum).2.2).2.1
          (Avx2.Encode32f (_mm256_loadu_ps src (p + 8)) (_mm256_set1_ps scale)
            (_mm256_set1_ps min)
            (Avx2.Encode32f (_mm256_loadu_ps src (p + 0)) (_mm256_set1_ps scale)
              (_mm256_set1_ps min) sum sqsum).2.1
            (Avx2.Encode32f (_mm256_loadu_ps src (p + 0)) (_mm256_set1_ps scale)
              (_mm256_set1_ps min) sum sqsum).2.2).2.2).2.2).2.2) :
    ExtractSum Q
      = (ExtractSum sqsum + ∑ k ∈ Finset.range 32, (code src scale min (p + k)).toNat ^ 2)
          % 4294967296 := by
  subst hQ
  have a := sums_16 src scale min p sum sqsum (fun j hj => hc j (by omega))
  have b := fun s q => sums_8 src scale min (p + 16) s q (fun j hj => by
    have := hc (16 + j) (by omega)
    rw [Nat.add_assoc]
    exact this)
  have c := fun s q => sums_8 src scale min (p + 24) s q (fun j hj => by
    have := hc (24 + j) (by omega)
    rw [Nat.add_assoc]
    exact this)
  rw [(c _ _).2, (b _ _).2, a.2, mod_add_mod32, mod_add_mod32]
  simp only [sum_range_32, sum_range_16, Nat.add_assoc]

theorem code_lt_256 (bits : Nat) (hb8 : bits ≤ 8) (z : Int) (h : z < 2 ^ bits) : z < 256 := by
  have h2 : (2 : Int) ^ bits ≤ 2 ^ 8 := pow_le_pow_right₀ (by norm_num) hb8
  have h3 : (2 : Int) ^ 8 = 256 := by norm_num
  omega

theorem XSpec_4x32 : XSpec 4 32 Avx2.Encode32f4x32 := by
  intro src scale min p sum sqsum hp hc
  have hc' : ∀ j, j < 32 →
      0 ≤ code src scale min (p + j) ∧ code src scale min (p + j) < 256 := fun j hj =>
    ⟨(hc j hj).1, code_lt_256 4 (by omega) _ (hc j hj).2⟩
  refine ⟨?_, ?_, ?_⟩
  · intro j hj
    rw [packByte_shift 4 (by omega) _ p hp j]
    simp only [Avx2.Encode32f4x32]
    have e : packByte 4 (fun i => (code src scale min (p + i)).toNat) j
        = packByte 4 (fun i => (code src scale min (p + i)).toNat) j := rfl
    rw [← pack4x32_bytes (fun i => (code src scale min (p + i)).toNat) _ _ ?_ ?_ ?_ j
      (by omega)]
    · intro i hi
      simp only [Nat.zero_mul, Nat.one_mul]
      exact u16_PackU32ToI16 src scale min p _ _ _ _ i hi (fun j hj => by
        have := hc' j (by omega)
        omega)
    · intro i hi
      have e1 : p + 2 * 8 = p + 16 + 0 := by omega
      have e2 : p + 3 * 8 = p + 16 + 8 := by omega
      rw [e1, e2, u16_PackU32ToI16 src scale min (p + 16) _ _ _ _ i hi (fun j hj => by
        have := hc' (16 + j) (by omega)
        rw [Nat.add_assoc]
        omega)]
      rw [Nat.add_assoc]
    · intro i hi
      have := hc i hi
      show (code src scale min (p + i)).toNat < 16
      omega
  · simp only [Avx2.Encode32f4x32]
    exact sums_32 src scale min p sum sqsum hc' _ _ rfl
  · simp only [Avx2.Encode32f4x32]
    exact sqsums_32 src scale min p sum sqsum hc' _ _ rfl

theorem u16_PackI32ToI16 (src : FVec) (scale min : ℚ) (q1 q2 : Nat) (s1 s2 s3 s4 : Vec) (i : Nat)
    (hc1 : ∀ j, j < 8 → 0 ≤ code src scale min (q1 + j) ∧ code src scale min (q1 + j) < 256)
    (hc2 : ∀ j, j < 8 → 0 ≤ code src scale min (q2 + j) ∧ code src scale min (q2 + j) < 256)
    (hi : i < 16) :
    u16 (PackI32ToI16
      (Avx2.Encode32f (_mm256_loadu_ps src q1) (_mm256_set1_ps scale) (_mm256_set1_ps min)
        s1 s2).1
      (Avx2.Encode32f (_mm256_loadu_ps src q2) (_mm256_set1_ps scale) (_mm256_set1_ps min)
        s3 s4).1) i
      = if i < 8 then (code src scale min (q1 + i)).toNat
        else (code src scale min (q2 + (i - 8))).toNat := by
  simp only [PackI32ToI16, u16_ofU16, u32_Encode32f]
  by_cases h : i < 8
  · simp only [h, if_true]
    obtain ⟨h0, h1⟩ := hc1 i h
    rw [satS16_ofS32 _ h0 (by omega)]
    omega
  · simp only [h, if_false]
    obtain ⟨h0, h1⟩ := hc2 (i - 8) (by omega)
    rw [satS16_ofS32 _ h0 (by omega)]
    omega

theorem u16_PackI32ToI16_zero (src : FVec) (scale min : ℚ) (q1 : Nat) (s1 s2 : Vec) (i : Nat)
    (hc1 : ∀ j, j < 8 → 0 ≤ code src scale min (q1 + j) ∧ code src scale min (q1 + j) < 256)
    (hi : i < 8) :
    u16 (PackI32ToI16
      (Avx2.Encode32f (_mm256_loadu_ps src q1) (_mm256_set1_ps scale) (_mm256_set1_ps min)
        s1 s2).1 _mm256_setzero_si256) i = (code src scale min (q1 + i)).toNat := by
  simp only [PackI32ToI16, u16_ofU16, u32_Encode32f]
  simp only [hi, if_true]
  obtain ⟨h0, h1⟩ := hc1 i hi
  rw [satS16_ofS32 _ h0 (by omega)]
  omega

theorem XSpec_8x8 : XSpec 8 8 Avx2.Encode32f8x8 := by
  intro src scale min p sum sqsum hp hc
  have hc' : ∀ j, j < 8 →
      0 ≤ code src scale min (p + j) ∧ code src scale min (p + j) < 256 := fun j hj =>
    ⟨(hc j hj).1, code_lt_256 8 (by omega) _ (hc j hj).2⟩
  refine ⟨?_, ?_, ?_⟩
  · intro j hj
    have hj8 : j < 8 := by omega
    have e : p / 8 * 8 + j = p + j := by omega
    rw [e, packByte_8 _ _ (fun t ht => by
      have e2 : 8 * ((p + j) / 8) + t = p + t := by omega
      rw [e2]
      have := hc' t ht
      omega)]
    simp only [Avx2.Encode32f8x8, _mm256_castsi256_si128, PackI16ToU8]
    have h16 : j < 16 := by omega
    simp only [h16, if_true]
    rw [u16_PackI32ToI16_zero src scale min p _ _ j hc' hj8]
    have := hc' j hj8
    rw [satU8_toS16 _ (by omega)]
  · simp only [Avx2.Encode32f8x8]
    exact (sums_8 src scale min p sum sqsum hc').1
  · simp only [Avx2.Encode32f8x8]
    exact (sums_8 src scale min p sum sqsum hc').2

theorem XSpec_8x32 : XSpec 8 32 Avx2.Encode32f8x32 := by
  intro src scale min p sum sqsum hp hc
  have hc' : ∀ j, j < 32 →
      0 ≤ code src scale min (p + j) ∧ code src scale min (p + j) < 256 := fun j hj =>
    ⟨(hc j hj).1, code_lt_256 8 (by omega) _ (hc j hj).2⟩
  have e0 : p + 0 * F = p + 0 := by simp [F]
  have e1 : p + 1 * F = p + 8 := by simp [F]
  have e2 : p + 2 * F = p + 16 := by simp [F]
  have e3 : p + 3 * F = p + 24 := by simp [F]
  refine ⟨?_, ?_, ?_⟩
  · intro j hj
    have hj32 : j < 32 := by omega
    have e : p / 8 * 8 + j = p + j := by omega
    rw [e, packByte_8 _ _ (fun t ht => by
      have e2 : 8 * ((p + j) / 8) + t = p + (8 * (j / 8) + t) := by omega
      rw [e2]
      have := hc' (8 * (j / 8) + t) (by omega)
      omega)]
    simp only [Avx2.Encode32f8x32, PackI16ToU8, e0, e1, e2, e3]
    by_cases h16 : j < 16
    · simp only [h16, if_true]
      rw [u16_PackI32ToI16 src scale min (p + 0) (p + 8) _ _ _ _ j
        (fun t ht => by have := hc' t (by omega); simpa using this)
        (fun t ht => by have := hc' (8 + t) (by omega); rw [Nat.add_assoc]; exact this) h16]
      have := hc' j hj32
      by_cases h8 : j < 8
      · simp only [h8, if_true, Nat.add_zero]
        rw [satU8_toS16 _ (by omega)]
      · simp only [h8, if_false]
        have e5 : p + 8 + (j - 8) = p + j := by omega
        rw [e5, satU8_toS16 _ (by omega)]
    · simp only [h16, if_false]
      rw [u16_PackI32ToI16 src scale min (p + 16) (p + 24) _ _ _ _ (j - 16)
        (fun t ht => by have := hc' (16 + t) (by omega); rw [Nat.add_assoc]; exact this)
        (fun t ht => by have := hc' (24 + t) (by omega); rw [Nat.add_assoc]; exact this)
        (by omega)]
      have := hc' j hj32
      by_cases h8 : j - 16 < 8
      · simp only [h8, if_true]
        have e5 : p + 16 + (j - 16) = p + j := by omega
        rw [e5, satU8_toS16 _ (by omega)]
      · simp only [h8, if_false]
        have e5 : p + 24 + (j - 16 - 8) = p + j := by omega
        rw [e5, satU8_toS16 _ (by omega)]
  · simp only [Avx2.Encode32f8x32, e0, e1, e2, e3]
    exact sums_32 src scale min p sum sqsum hc' _ _ rfl
  · simp only [Avx2.Encode32f8x32, e0, e1, e2, e3]
    exact sqsums_32 src scale min p sum sqsum hc' _ _ rfl

/-! ## The loops of the encoders -/

theorem mod_add_mod32' (a b : Nat) :
    (a % 4294967296 + b) % 4294967296 = (a + b) % 4294967296 := by
  omega

theorem encLoop_spec (bits n bytes : Nat)
    (x : FVec → Nat → FVec → FVec → Vec → Vec → Vec × Vec × Vec)
    (store : Vec → Nat → Vec → Vec)
    (hx : XSpec bits n x) (hxb : XBytes x) (hst : StoreSpec bytes store)
    (hbytes : bytes = n / 8 * bits) (h8 : 8 ∣ n)
    (src : FVec) (scale min : ℚ) (size bound : Nat)
    (hc : ∀ i, i < size → 0 ≤ code src scale min i ∧ code src scale min i < 2 ^ bits)
    (hb : bound ≤ size) (fuel : Nat) (s : EncState)
    (hle : s.i ≤ bound) (hdiv : n ∣ bound - s.i) (hfuel : bound ≤ s.i + fuel * n)
    (hinv : EncInv bits (fun i => (code src scale min i).toNat) s) :
    EncInv bits (fun i => (code src scale min i).toNat)
        (encLoop x store n bytes bound src (_mm256_set1_ps scale) (_mm256_set1_ps min) fuel s)
      ∧ (encLoop x store n bytes bound src (_mm256_set1_ps scale) (_mm256_set1_ps min)
          fuel s).i = bound := by
  unfold encLoop
  apply forLoop_inv (fun t : EncState => t.i) _ bound n _ (fun t => rfl) _ fuel s hle hdiv
    hfuel hinv
  intro t ht hlt0 _
  have hlt : t.i + n ≤ bound := hlt0
  obtain ⟨i8, hsrc, hdst, hbm, hmem, hsum, hsq⟩ := ht
  obtain ⟨q, hq⟩ := h8
  have hcs : ∀ j, j < n → 0 ≤ code src scale min (t.src + j)
      ∧ code src scale min (t.src + j) < 2 ^ bits := fun j hj => hc _ (by omega)
  obtain ⟨hx1, hx2, hx3⟩ := hx src scale min t.src t.sum t.sqsum (by omega) hcs
  obtain ⟨hs1, hs2, hs3⟩ := hst t.mem t.dst
    (x src t.src (_mm256_set1_ps scale) (_mm256_set1_ps min) t.sum t.sqsum).1
    (fun j => hxb _ _ _ _ _ _ j)
  have hn8 : n / 8 = q := by omega
  have hi8 : (t.i + n) / 8 = t.i / 8 + q := by omega
  refine ⟨?_, ?_, ?_, ?_, ?_, ?_, ?_⟩
  · show (t.i + n) % 8 = 0
    omega
  · show t.src + n = t.i + n
    omega
  · show t.dst + bytes = (t.i + n) / 8 * bits
    rw [hi8, Nat.add_mul, hbytes, hn8, hdst]
  · exact hs3 hbm
  · intro k hk
    show store t.mem t.dst _ k = _
    by_cases hlo : k < t.dst
    · rw [hs1 k hlo]
      exact hmem k hlo
    · have hk' : k < t.dst + bytes := hk
      have e : k = t.dst + (k - t.dst) := by omega
      rw [e, hs2 (k - t.dst) (by omega), hx1 (k - t.dst) (by rw [← hbytes]; omega)]
      rw [hsrc, ← hdst]
  · show ExtractSum (x src t.src _ _ t.sum t.sqsum).2.1 = _
    rw [hx2, hsum, mod_add_mod32', sum_range_add, hsrc]
  · show ExtractSum (x src t.src _ _ t.sum t.sqsum).2.2 = _
    rw [hx3, hsq, mod_add_mod32', sum_range_add, hsrc]

theorem StoreSpec_storeu_si128 (bytes : Nat) (h : bytes ≤ 16) :
    StoreSpec bytes _mm_storeu_si128 := by
  intro m p d hd
  refine ⟨?_, ?_, ?_⟩
  · intro a ha
    have e : ¬ (p ≤ a ∧ a < p + 16) := by omega
    simp only [_mm_storeu_si128, e, if_false]
  · intro j hj
    have e : p ≤ p + j ∧ p + j < p + 16 := by omega
    simp only [_mm_storeu_si128, e, and_self, if_true, Nat.add_sub_cancel_left]
  · intro hm a
    simp only [_mm_storeu_si128]
    split_ifs
    · exact hd _
    · exact hm a

theorem StoreSpec_storeu_si256 (bytes : Nat) (h : bytes ≤ 32) :
    StoreSpec bytes _mm256_storeu_si256 := by
  intro m p d hd
  refine ⟨?_, ?_, ?_⟩
  · intro a ha
    have e : ¬ (p ≤ a ∧ a < p + 32) := by omega
    simp only [_mm256_storeu_si256, e, if_false]
  · intro j hj
    have e : p ≤ p + j ∧ p + j < p + 32 := by omega
    simp only [_mm256_storeu_si256, e, and_self, if_true, Nat.add_sub_cancel_left]
  · intro hm a
    simp only [_mm256_storeu_si256]
    split_ifs
    · exact hd _
    · exact hm a

theorem StoreSpec_storel_epi64 (bytes : Nat) (h : bytes ≤ 8) :
    StoreSpec bytes _mm_storel_epi64 := by
  intro m p d hd
  refine ⟨?_, ?_, ?_⟩
  · intro a ha
    have e : ¬ (p ≤ a ∧ a < p + 8) := by omega
    simp only [_mm_storel_epi64, e, if_false]
  · intro j hj
    have e : p ≤ p + j ∧ p + j < p + 8 := by omega
    simp only [_mm_storel_epi64, e, and_self, if_true, Nat.add_sub_cancel_left]
  · intro hm a
    simp only [_mm_storel_epi64]
    split_ifs
    · exact hd _
    · exact hm a

theorem store_u32_at (m : Vec) (p : Nat) (d : Vec) (hd : ∀ j, d j < 256) (a : Nat) :
    store_u32 m p (_mm_extract_epi32 d 0) a
      = if p ≤ a ∧ a < p + 4 then d (a - p) else m a := by
  simp only [store_u32, _mm_extract_epi32, u32]
  by_cases h : p ≤ a ∧ a < p + 4
  · simp only [h, and_self, if_true]
    have h0 := hd 0
    have h1 := hd 1
    have h2 := hd 2
    have h3 := hd 3
    obtain ⟨t, ht, rfl⟩ : ∃ t, t < 4 ∧ a = p + t := ⟨a - p, by omega, by omega⟩
    rw [Nat.add_sub_cancel_left]
    interval_cases t <;> norm_num <;> omega
  · simp only [h, if_false]

theorem store_u16_at (m : Vec) (p : Nat) (d : Vec) (hd : ∀ j, d j < 256) (a : Nat) :
    store_u16 m p (_mm_extract_epi16 d 2) a
      = if p ≤ a ∧ a < p + 2 then d (4 + (a - p)) else m a := by
  simp only [store_u16, _mm_extract_epi16, u16]
  by_cases h : p ≤ a ∧ a < p + 2
  · simp only [h, and_self, if_true]
    have h0 := hd 4
    have h1 := hd 5
    obtain ⟨t, ht, rfl⟩ : ∃ t, t < 2 ∧ a = p + t := ⟨a - p, by omega, by omega⟩
    rw [Nat.add_sub_cancel_left]
    interval_cases t <;> norm_num <;> omega
  · simp only [h, if_false]

theorem store4_at (m : Vec) (p : Nat) (d : Vec) (hd : ∀ j, d j < 256) (a : Nat) :
    Avx2.store4 m p d a = if p ≤ a ∧ a < p + 4 then d (a - p) else m a := by
  simp only [Avx2.store4, store_u32_at m p d hd]

theorem store5_at (m : Vec) (p : Nat) (d : Vec) (hd : ∀ j, d j < 256) (a : Nat) :
    Avx2.store5 m p d a = if p ≤ a ∧ a < p + 5 then d (a - p) else m a := by
  simp only [Avx2.store5, store_u8, _mm_extract_epi8, Nat.add_zero, store_u32_at m p d hd]
  have h4 := hd 4
  by_cases h : a = p + 4
  · subst h
    have e : p ≤ p + 4 ∧ p + 4 < p + 5 := by omega
    simp only [if_true, e, and_self, Nat.add_sub_cancel_left]
    omega
  · simp only [h, if_false]
    by_cases h' : p ≤ a ∧ a < p + 4
    · have e : p ≤ a ∧ a < p + 5 := by omega
      simp only [h', e, and_self, if_true]
    · have e : ¬ (p ≤ a ∧ a < p + 5) := by omega
      simp only [h', e, if_false]

theorem store6_at (m : Vec) (p : Nat) (d : Vec) (hd : ∀ j, d j < 256) (a : Nat) :
    Avx2.store6 m p d a = if p ≤ a ∧ a < p + 6 then d (a - p) else m a := by
  simp only [Avx2.store6, Nat.add_zero, store_u16_at _ (p + 4) d hd, store_u32_at m p d hd]
  by_cases h : p + 4 ≤ a ∧ a < p + 4 + 2
  · have e : p ≤ a ∧ a < p + 6 := by omega
    simp only [h, e, and_self, if_true]
    congr 1
    omega
  · simp only [h, if_false]
    by_cases h' : p ≤ a ∧ a < p + 4
    · have e : p ≤ a ∧ a < p + 6 := by omega
      simp only [h', e, and_self, if_true]
    · have e : ¬ (p ≤ a ∧ a < p + 6) := by omega
      simp only [h', e, if_false]

theorem store7_at (m : Vec) (p : Nat) (d : Vec) (hd : ∀ j, d j < 256) (a : Nat) :
    Avx2.store7 m p d a = if p ≤ a ∧ a < p + 7 then d (a - p) else m a := by
  have h6 := hd 6
  have e6 := store6_at m p d hd
  simp only [Avx2.store6] at e6
  simp only [Avx2.store7, store_u8, _mm_extract_epi8, e6]
  by_cases h : a = p + 6
  · subst h
    have e : p ≤ p + 6 ∧ p + 6 < p + 7 := by omega
    simp only [if_true, e, and_self, Nat.add_sub_cancel_left]
    omega
  · simp only [h, if_false]
    by_cases h' : p ≤ a ∧ a < p + 6
    · have e : p ≤ a ∧ a < p + 7 := by omega
      simp only [h', e, and_self, if_true]
    · have e : ¬ (p ≤ a ∧ a < p + 7) := by omega
      simp only [h', e, if_false]

theorem StoreSpec_of_at (bytes : Nat) (store : Vec → Nat → Vec → Vec)
    (h : ∀ m p d, (∀ j, d j < 256) → ∀ a,
      store m p d a = if p ≤ a ∧ a < p + bytes then d (a - p) else m a) :
    StoreSpec bytes store := by
  intro m p d hd
  refine ⟨?_, ?_, ?_⟩
  · intro a ha
    have e : ¬ (p ≤ a ∧ a < p + bytes) := by omega
    rw [h m p d hd, if_neg e]
  · intro j hj
    have e : p ≤ p + j ∧ p + j < p + bytes := by omega
    rw [h m p d hd, if_pos e, Nat.add_sub_cancel_left]
  · intro hm a
    rw [h m p d hd]
    split_ifs
    · exact hd _
    · exact hm a

theorem StoreSpec_store4 : StoreSpec 4 Avx2.store4 := StoreSpec_of_at 4 _ store4_at

theorem StoreSpec_store5 : StoreSpec 5 Avx2.store5 := StoreSpec_of_at 5 _ store5_at

theorem StoreSpec_store6 : StoreSpec 6 Avx2.store6 := StoreSpec_of_at 6 _ store6_at

theorem StoreSpec_store7 : StoreSpec 7 Avx2.store7 := StoreSpec_of_at 7 _ store7_at

theorem shuffle_lt (a b : Vec) (ha : ∀ j, a j < 256) (j : Nat) : _mm_shuffle_epi8 a b j < 256 := by
  simp only [_mm_shuffle_epi8]
  split_ifs
  · omega
  · exact ha _

theorem shuffle256_lt (a b : Vec) (ha : ∀ j, a j < 256) (j : Nat) :
    _mm256_shuffle_epi8 a b j < 256 := by
  simp only [_mm256_shuffle_epi8]
  split_ifs
  · omega
  · exact ha _

theorem mullo_lt (a b : Vec) (j : Nat) : _mm_mullo_epi16 a b j < 256 := ofU16_lt _ j

theorem mullo256_lt (a b : Vec) (j : Nat) : _mm256_mullo_epi16 a b j < 256 := ofU16_lt _ j

theorem or_lt (a b : Vec) (ha : ∀ j, a j < 256) (hb : ∀ j, b j < 256) (j : Nat) :
    _mm_or_si128 a b j < 256 := lor_lt_256 _ _ (ha j) (hb j)

theorem or256_lt (a b : Vec) (ha : ∀ j, a j < 256) (hb : ∀ j, b j < 256) (j : Nat) :
    _mm256_or_si256 a b j < 256 := lor_lt_256 _ _ (ha j) (hb j)

theorem packus_epi16_lt (a b : Vec) (j : Nat) : _mm_packus_epi16 a b j < 256 := by
  simp only [_mm_packus_epi16]
  split_ifs <;> exact satU8_lt _

theorem PackI16ToU8_lt (a b : Vec) (j : Nat) : PackI16ToU8 a b j < 256 := by
  simp only [PackI16ToU8]
  split_ifs <;> exact satU8_lt _

theorem XBytes_4x8 : XBytes Avx2.Encode32f4x8 := fun _ _ _ _ _ _ j => by
  simp only [Avx2.Encode32f4x8]
  exact packus_epi16_lt _ _ j

theorem XBytes_4x32 : XBytes Avx2.Encode32f4x32 := fun _ _ _ _ _ _ j => by
  simp only [Avx2.Encode32f4x32]
  exact packus_epi16_lt _ _ j

theorem XBytes_5x1 : XBytes Avx2.Encode32f5x1 := fun _ _ _ _ _ _ j => by
  simp only [Avx2.Encode32f5x1]
  exact or_lt _ _ (or_lt _ _ (shuffle_lt _ _ (mullo_lt _ _)) (shuffle_lt _ _ (mullo_lt _ _)))
    (shuffle_lt _ _ (mullo_lt _ _)) j

theorem XBytes_5x2 : XBytes Avx2.Encode32f5x2 := fun _ _ _ _ _ _ j => by
  simp only [Avx2.Encode32f5x2]
  have h : ∀ s0 : Vec, ∀ j, _mm256_or_si256 (_mm256_or_si256
      (_mm256_shuffle_epi8 (_mm256_mullo_epi16 s0 Avx2.E5_MULLO) Avx2.E5_SHFL0)
      (_mm256_shuffle_epi8 (_mm256_mullo_epi16 s0 Avx2.E5_MULLO) Avx2.E5_SHFL1))
      (_mm256_shuffle_epi8 (_mm256_mullo_epi16 s0 Avx2.E5_MULLO) Avx2.E5_SHFL2) j < 256 :=
    fun s0 => or256_lt _ _ (or256_lt _ _ (shuffle256_lt _ _ (mullo256_lt _ _))
      (shuffle256_lt _ _ (mullo256_lt _ _))) (shuffle256_lt _ _ (mullo256_lt _ _))
  exact or_lt _ _ (fun j => h _ j) (fun j => h _ _) j

theorem XBytes_6x1 : XBytes Avx2.Encode32f6x1 := fun _ _ _ _ _ _ j => by
  simp only [Avx2.Encode32f6x1]
  exact or_lt _ _ (shuffle_lt _ _ (mullo_lt _ _)) (shuffle_lt _ _ (mullo_lt _ _)) j

theorem XBytes_6x2 : XBytes Avx2.Encode32f6x2 := fun _ _ _ _ _ _ j => by
  simp only [Avx2.Encode32f6x2]
  have h : ∀ s0 : Vec, ∀ j, _mm256_or_si256
      (_mm256_shuffle_epi8 (_mm256_mullo_epi16 s0 Avx2.E6_MULLO) Avx2.E6_SHFL0)
      (_mm256_shuffle_epi8 (_mm256_mullo_epi16 s0 Avx2.E6_MULLO) Avx2.E6_SHFL1) j < 256 :=
    fun s0 => or256_lt _ _ (shuffle256_lt _ _ (mullo256_lt _ _))
      (shuffle256_lt _ _ (mullo256_lt _ _))
  exact or_lt _ _ (fun j => h _ j) (fun j => h _ _) j

theorem XBytes_7x1 : XBytes Avx2.Encode32f7x1 := fun _ _ _ _ _ _ j => by
  simp only [Avx2.Encode32f7x1]
  exact or_lt _ _ (shuffle_lt _ _ (mullo_lt _ _)) (shuffle_lt _ _ (mullo_lt _ _)) j

theorem XBytes_7x2 : XBytes Avx2.Encode32f7x2 := fun _ _ _ _ _ _ j => by
  simp only [Avx2.Encode32f7x2]
  have h : ∀ s0 : Vec, ∀ j, _mm256_or_si256
      (_mm256_shuffle_epi8 (_mm256_mullo_epi16 s0 Avx2.E7_MULLO) Avx2.E7_SHFL0)
      (_mm256_shuffle_epi8 (_mm256_mullo_epi16 s0 Avx2.E7_MULLO) Avx2.E7_SHFL1) j < 256 :=
    fun s0 => or256_lt _ _ (shuffle256_lt _ _ (mullo256_lt _ _))
      (shuffle256_lt _ _ (mullo256_lt _ _))
  exact or_lt _ _ (fun j => h _ j) (fun j => h _ _) j

theorem XBytes_8x8 : XBytes Avx2.Encode32f8x8 := fun _ _ _ _ _ _ j => by
  simp only [Avx2.Encode32f8x8]
  exact PackI16ToU8_lt _ _ j

theorem XBytes_8x32 : XBytes Avx2.Encode32f8x32 := fun _ _ _ _ _ _ j => by
  simp only [Avx2.Encode32f8x32]
  exact PackI16ToU8_lt _ _ j

/-! ## The encoders -/

theorem EncInv_init (bits : Nat) (v : Nat → Nat) (dst : Vec) (hd : IsBytes dst) :
    EncInv bits v ⟨0, 0, 0, _mm256_setzero_si256, _mm256_setzero_si256, dst⟩ := by
  refine ⟨rfl, rfl, by simp, hd, ?_, ?_, ?_⟩
  · intro k hk
    exact absurd hk (Nat.not_lt_zero _)
  · simp [ExtractSum, u32, _mm256_setzero_si256]
  · simp [ExtractSum, u32, _mm256_setzero_si256]

theorem EncodeSpec_of_inv (bits : Nat) (src : FVec) (scale min : ℚ) (size : Nat)
    (s : EncState) (h : EncInv bits (fun i => (code src scale min i).toNat) s)
    (hi : s.i = size) :
    EncodeSpec bits src scale min size
      (toS32 (ExtractSum s.sum), toS32 (ExtractSum s.sqsum), s.mem) := by
  obtain ⟨_, _, hdst, hbm, hmem, hsum, hsq⟩ := h
  refine ⟨hbm, ?_, ?_, ?_⟩
  · intro k hk
    apply hmem
    rw [hdst, hi]
    exact hk
  · show toS32 (ExtractSum s.sum) = _
    rw [hsum, hi]
  · show toS32 (ExtractSum s.sqsum) = _
    rw [hsq, hi]

/-- The three loops shared by `Encode32f5`, `Encode32f6` and `Encode32f7`. -/
theorem encode567_spec (bits : Nat)
    (x2 x1 : FVec → Nat → FVec → FVec → Vec → Vec → Vec × Vec × Vec)
    (st : Vec → Nat → Vec → Vec)
    (hx2 : XSpec bits 16 x2) (hx1 : XSpec bits 8 x1) (hb2 : XBytes x2) (hb1 : XBytes x1)
    (hst : StoreSpec bits st) (h16 : 2 * bits ≤ 16)
    (src : FVec) (scale min : ℚ) (size : Nat) (dst : Vec)
    (hsz : size % 8 = 0) (hpos : 0 < size) (h64 : size < 18446744073709551616)
    (hd : IsBytes dst)
    (hc : ∀ i, i < size → 0 ≤ code src scale min i ∧ code src scale min i < 2 ^ bits) :
    EncInv bits (fun i => (code src scale min i).toNat)
      (encLoop x1 st 8 bits size src (_mm256_set1_ps scale) (_mm256_set1_ps min) size
        (encLoop x1 _mm_storel_epi64 8 bits (subSizeT size 8) src (_mm256_set1_ps scale)
          (_mm256_set1_ps min) (subSizeT size 8)
          (encLoop x2 _mm_storeu_si128 16 (2 * bits) (AlignLo (subSizeT size 8) 16) src
            (_mm256_set1_ps scale) (_mm256_set1_ps min) (subSizeT size 8)
            ⟨0, 0, 0, _mm256_setzero_si256, _mm256_setzero_si256, dst⟩)))
    ∧ (encLoop x1 st 8 bits size src (_mm256_set1_ps scale) (_mm256_set1_ps min) size
        (encLoop x1 _mm_storel_epi64 8 bits (subSizeT size 8) src (_mm256_set1_ps scale)
          (_mm256_set1_ps min) (subSizeT size 8)
          (encLoop x2 _mm_storeu_si128 16 (2 * bits) (AlignLo (subSizeT size 8) 16) src
            (_mm256_set1_ps scale) (_mm256_set1_ps min) (subSizeT size 8)
            ⟨0, 0, 0, _mm256_setzero_si256, _mm256_setzero_si256, dst⟩))).i = size := by
  have hS : subSizeT size 8 = size - 8 := by
    simp only [subSizeT]
    omega
  rw [hS]
  have hA : AlignLo (size - 8) 16 = (size - 8) / 16 * 16 := rfl
  obtain ⟨i1, e1⟩ := encLoop_spec bits 16 (2 * bits) x2 _mm_storeu_si128 hx2 hb2
    (StoreSpec_storeu_si128 _ h16) (by omega) ⟨2, by omega⟩ src scale min size
    (AlignLo (size - 8) 16) hc (by rw [hA]; omega) (size - 8)
    ⟨0, 0, 0, _mm256_setzero_si256, _mm256_setzero_si256, dst⟩ (Nat.zero_le _)
    ⟨(size - 8) / 16, by rw [hA]; show (size - 8) / 16 * 16 - 0 = _; omega⟩
    (by rw [hA]; show _ ≤ 0 + (size - 8) * 16; omega) (EncInv_init bits _ dst hd)
  obtain ⟨i2, e2⟩ := encLoop_spec bits 8 bits x1 _mm_storel_epi64 hx1 hb1
    (StoreSpec_storel_epi64 _ (by omega)) (by omega) ⟨1, by omega⟩ src scale min size
    (size - 8) hc (by omega) (size - 8) _ (by rw [e1, hA]; omega)
    ⟨((size - 8) - (size - 8) / 16 * 16) / 8, by rw [e1, hA]; omega⟩
    (by rw [e1, hA]; omega) i1
  exact encLoop_spec bits 8 bits x1 st hx1 hb1 hst (by omega) ⟨1, by omega⟩ src scale min size
    size hc (le_refl _) size _ (by rw [e2]; omega) ⟨1, by rw [e2]; omega⟩
    (by rw [e2]; omega) i2

theorem Encode32f5_spec (src : FVec) (scale min : ℚ) (size : Nat) (dst : Vec)
    (hsz : size % 8 = 0) (hpos : 0 < size) (h64 : size < 18446744073709551616)
    (hd : IsBytes dst)
    (hc : ∀ i, i < size → 0 ≤ code src scale min i ∧ code src scale min i < 2 ^ 5) :
    EncodeSpec 5 src scale min size (Avx2.Encode32f5 src scale min size dst) := by
  obtain ⟨h1, h2⟩ := encode567_spec 5 _ _ _ XSpec_5x2 XSpec_5x1 XBytes_5x2 XBytes_5x1
    StoreSpec_store5 (by omega) src scale min size dst hsz hpos h64 hd hc
  exact EncodeSpec_of_inv 5 src scale min size _ h1 h2

theorem Encode32f6_spec (src : FVec) (scale min : ℚ) (size : Nat) (dst : Vec)
    (hsz : size % 8 = 0) (hpos : 0 < size) (h64 : size < 18446744073709551616)
    (hd : IsBytes dst)
    (hc : ∀ i, i < size → 0 ≤ code src scale min i ∧ code src scale min i < 2 ^ 6) :
    EncodeSpec 6 src scale min size (Avx2.Encode32f6 src scale min size dst) := by
  obtain ⟨h1, h2⟩ := encode567_spec 6 _ _ _ XSpec_6x2 XSpec_6x1 XBytes_6x2 XBytes_6x1
    StoreSpec_store6 (by omega) src scale min size dst hsz hpos h64 hd hc
  exact EncodeSpec_of_inv 6 src scale min size _ h1 h2

theorem Encode32f7_spec (src : FVec) (scale min : ℚ) (size : Nat) (dst : Vec)
    (hsz : size % 8 = 0) (hpos : 0 < size) (h64 : size < 18446744073709551616)
    (hd : IsBytes dst)
    (hc : ∀ i, i < size → 0 ≤ code src scale min i ∧ code src scale min i < 2 ^ 7) :
    EncodeSpec 7 src scale min size (Avx2.Encode32f7 src scale min size dst) := by
  obtain ⟨h1, h2⟩ := encode567_spec 7 _ _ _ XSpec_7x2 XSpec_7x1 XBytes_7x2 XBytes_7x1
    StoreSpec_store7 (by omega) src scale min size dst hsz hpos h64 hd hc
  exact EncodeSpec_of_inv 7 src scale min size _ h1 h2

theorem Encode32f4_spec (src : FVec) (scale min : ℚ) (size : Nat) (dst : Vec)
    (hsz : size % 8 = 0) (hd : IsBytes dst)
    (hc : ∀ i, i < size → 0 ≤ code src scale min i ∧ code src scale min i < 2 ^ 4) :
    EncodeSpec 4 src scale min size (Avx2.Encode32f4 src scale min size dst) := by
  have hA : AlignLo size 32 = size / 32 * 32 := rfl
  obtain ⟨i1, e1⟩ := encLoop_spec 4 32 16 _ _mm_storeu_si128 XSpec_4x32 XBytes_4x32
    (StoreSpec_storeu_si128 _ (le_refl _)) (by omega) ⟨4, by omega⟩ src scale min size
    (AlignLo size 32) hc (by rw [hA]; omega) size
    ⟨0, 0, 0, _mm256_setzero_si256, _mm256_setzero_si256, dst⟩ (Nat.zero_le _)
    ⟨size / 32, by rw [hA]; show size / 32 * 32 - 0 = _; omega⟩
    (by rw [hA]; show _ ≤ 0 + size * 32; omega) (EncInv_init 4 _ dst hd)
  obtain ⟨i2, e2⟩ := encLoop_spec 4 8 4 _ Avx2.store4 XSpec_4x8 XBytes_4x8
    StoreSpec_store4 (by omega) ⟨1, by omega⟩ src scale min size
    size hc (le_refl _) size _ (by rw [e1, hA]; omega)
    ⟨(size - size / 32 * 32) / 8, by rw [e1, hA]; omega⟩
    (by rw [e1, hA]; omega) i1
  exact EncodeSpec_of_inv 4 src scale min size _ i2 e2

theorem Encode32f8_spec (src : FVec) (scale min : ℚ) (size : Nat) (dst : Vec)
    (hsz : size % 8 = 0) (hd : IsBytes dst)
    (hc : ∀ i, i < size → 0 ≤ code src scale min i ∧ code src scale min i < 2 ^ 8) :
    EncodeSpec 8 src scale min size (Avx2.Encode32f8 src scale min size dst) := by
  have hA : AlignLo size A = size / 32 * 32 := rfl
  obtain ⟨i1, e1⟩ := encLoop_spec 8 32 32 _ _mm256_storeu_si256 XSpec_8x32 XBytes_8x32
    (StoreSpec_storeu_si256 _ (le_refl _)) (by omega) ⟨4, by omega⟩ src scale min size
    (AlignLo size A) hc (by rw [hA]; omega) size
    ⟨0, 0, 0, _mm256_setzero_si256, _mm256_setzero_si256, dst⟩ (Nat.zero_le _)
    ⟨size / 32, by rw [hA]; show size / 32 * 32 - 0 = _; omega⟩
    (by rw [hA]; show _ ≤ 0 + size * 32; omega) (EncInv_init 8 _ dst hd)
  obtain ⟨i2, e2⟩ := encLoop_spec 8 8 8 _ _mm_storel_epi64 XSpec_8x8 XBytes_8x8
    (StoreSpec_storel_epi64 _ (le_refl _)) (by omega) ⟨1, by omega⟩ src scale min size
    size hc (le_refl _) size _ (by rw [e1, hA]; omega)
    ⟨(size - size / 32 * 32) / 8, by rw [e1, hA]; omega⟩
    (by rw [e1, hA]; omega) i1
  exact EncodeSpec_of_inv 8 src scale min size _ i2 e2

/-! ## The codes read by the unpacking steps -/

set_option maxRecDepth 100000 in
theorem dup_lane_2_512 (a : Nat) (h : a < 256) :
    (a + 256 * a) * 2 % 65536 / 512 % 65536 = a / 1 % 128 := by
  have key : ∀ a, a < 256 → (a + 256 * a) * 2 % 65536 / 512 % 65536 = a / 1 % 128 := by
    decide
  exact key a h

set_option maxRecDepth 100000 in
theorem dup_lane_2_2048 (a : Nat) (h : a < 256) :
    (a + 256 * a) * 2 % 65536 / 2048 % 65536 = a / 4 % 32 := by
  have key : ∀ a, a < 256 → (a + 256 * a) * 2 % 65536 / 2048 % 65536 = a / 4 % 32 := by
    decide
  exact key a h

set_option maxRecDepth 100000 in
theorem dup_lane_4_1024 (a : Nat) (h : a < 256) :
    (a + 256 * a) * 4 % 65536 / 1024 % 65536 = a / 1 % 64 := by
  have key : ∀ a, a < 256 → (a + 256 * a) * 4 % 65536 / 1024 % 65536 = a / 1 % 64 := by
    decide
  exact key a h

set_option maxRecDepth 100000 in
theorem dup_lane_4_2048 (a : Nat) (h : a < 256) :
    (a + 256 * a) * 4 % 65536 / 2048 % 65536 = a / 2 % 32 := by
  have key : ∀ a, a < 256 → (a + 256 * a) * 4 % 65536 / 2048 % 65536 = a / 2 % 32 := by
    decide
  exact key a h

set_option maxRecDepth 100000 in
theorem dup_lane_8_2048 (a : Nat) (h : a < 256) :
    (a + 256 * a) * 8 % 65536 / 2048 % 65536 = a / 1 % 32 := by
  have key : ∀ a, a < 256 → (a + 256 * a) * 8 % 65536 / 2048 % 65536 = a / 1 % 32 := by
    decide
  exact key a h

set_option maxRecDepth 100000 in
theorem dup_lane_256_512 (a : Nat) (h : a < 256) :
    (a + 256 * a) * 256 % 65536 / 512 % 65536 = a / 2 % 128 := by
  have key : ∀ a, a < 256 → (a + 256 * a) * 256 % 65536 / 512 % 65536 = a / 2 % 128 := by
    decide
  exact key a h

set_option maxRecDepth 100000 in
theorem dup_lane_256_1024 (a : Nat) (h : a < 256) :
    (a + 256 * a) * 256 % 65536 / 1024 % 65536 = a / 4 % 64 := by
  have key : ∀ a, a < 256 → (a + 256 * a) * 256 % 65536 / 1024 % 65536 = a / 4 % 64 := by
    decide
  exact key a h

set_option maxRecDepth 100000 in
theorem dup_lane_256_2048 (a : Nat) (h : a < 256) :
    (a + 256 * a) * 256 % 65536 / 2048 % 65536 = a / 8 % 32 := by
  have key : ∀ a, a < 256 → (a + 256 * a) * 256 % 65536 / 2048 % 65536 = a / 8 % 32 := by
    decide
  exact key a h

set_option maxRecDepth 100000 in
theorem dup_lane_256_4096 (a : Nat) (h : a < 256) :
    (a + 256 * a) * 256 % 65536 / 4096 % 65536 = a / 16 % 16 := by
  have key : ∀ a, a < 256 → (a + 256 * a) * 256 % 65536 / 4096 % 65536 = a / 16 % 16 := by
    decide
  exact key a h

set_option maxRecDepth 100000 in
theorem dup_lane_4096_4096 (a : Nat) (h : a < 256) :
    (a + 256 * a) * 4096 % 65536 / 4096 % 65536 = a / 1 % 16 := by
  have key : ∀ a, a < 256 → (a + 256 * a) * 4096 % 65536 / 4096 % 65536 = a / 1 % 16 := by
    decide
  exact key a h

theorem unpack16_lanes_4 (m : Vec) (hm : IsBytes m) (p k : Nat) (hk : k < 16) :
    u16 (Avx2.Unpack16 Avx2.C4_SHFL Avx2.C4_MULLO 12 m p) k = codeAt 4 (ptrAdd m p) k := by
  have b0 := hm p
  have b1 := hm (p + 1)
  have b2 := hm (p + 2)
  have b3 := hm (p + 3)
  have b4 := hm (p + 4)
  have b5 := hm (p + 5)
  have b6 := hm (p + 6)
  have b7 := hm (p + 7)
  have b8 := hm (p + 8)
  have b9 := hm (p + 9)
  have b10 := hm (p + 10)
  have b11 := hm (p + 11)
  have b12 := hm (p + 12)
  have b13 := hm (p + 13)
  have b14 := hm (p + 14)
  have b15 := hm (p + 15)
  simp only [Avx2.Unpack16, _mm256_srli_epi16, u16_ofU16, _mm256_mullo_epi16]
  interval_cases k <;>
  simp [u16, _mm256_shuffle_epi8, _mm256_broadcastsi128_si256, _mm_loadu_si128,
    Avx2.C4_SHFL, Avx2.C4_MULLO, _mm_setr_epi8, _mm_setr_epi16, ofU16, codeAt, ptrAdd] <;>
  (try simp (disch := assumption) only [dup_lane_2_512, dup_lane_2_2048, dup_lane_4_1024, dup_lane_4_2048, dup_lane_8_2048,
    dup_lane_256_512, dup_lane_256_1024, dup_lane_256_2048, dup_lane_256_4096,
    dup_lane_4096_4096]) <;>
  omega

theorem unpack8_lanes_4 (m : Vec) (hm : IsBytes m) (p k : Nat) (hk : k < 8) :
    u16 (Avx2.Unpack8 Sse41.C4_SHFL0 Sse41.C4_MULLO 12 m p) k = codeAt 4 (ptrAdd m p) k := by
  have b0 := hm p
  have b1 := hm (p + 1)
  have b2 := hm (p + 2)
  have b3 := hm (p + 3)
  have b4 := hm (p + 4)
  have b5 := hm (p + 5)
  have b6 := hm (p + 6)
  have b7 := hm (p + 7)
  simp only [Avx2.Unpack8, _mm_srli_epi16, u16_ofU16, _mm_mullo_epi16]
  interval_cases k <;>
  simp [u16, _mm_shuffle_epi8, _mm_loadl_epi64,
    Sse41.C4_SHFL0, Sse41.C4_MULLO, _mm_setr_epi8, _mm_setr_epi16, ofU16, codeAt, ptrAdd] <;>
  (try simp (disch := assumption) only [dup_lane_2_512, dup_lane_2_2048, dup_lane_4_1024, dup_lane_4_2048, dup_lane_8_2048,
    dup_lane_256_512, dup_lane_256_1024, dup_lane_256_2048, dup_lane_256_4096,
    dup_lane_4096_4096]) <;>
  omega

theorem unpack16_lanes_5 (m : Vec) (hm : IsBytes m) (p k : Nat) (hk : k < 16) :
    u16 (Avx2.Unpack16 Avx2.C5_SHFL Avx2.C5_MULLO 11 m p) k = codeAt 5 (ptrAdd m p) k := by
  have b0 := hm p
  have b1 := hm (p + 1)
  have b2 := hm (p + 2)
  have b3 := hm (p + 3)
  have b4 := hm (p + 4)
  have b5 := hm (p + 5)
  have b6 := hm (p + 6)
  have b7 := hm (p + 7)
  have b8 := hm (p + 8)
  have b9 := hm (p + 9)
  have b10 := hm (p + 10)
  have b11 := hm (p + 11)
  have b12 := hm (p + 12)
  have b13 := hm (p + 13)
  have b14 := hm (p + 14)
  have b15 := hm (p + 15)
  simp only [Avx2.Unpack16, _mm256_srli_epi16, u16_ofU16, _mm256_mullo_epi16]
  interval_cases k <;>
  simp [u16, _mm256_shuffle_epi8, _mm256_broadcastsi128_si256, _mm_loadu_si128,
    Avx2.C5_SHFL, Avx2.C5_MULLO, _mm_setr_epi8, _mm_setr_epi16, ofU16, codeAt, ptrAdd] <;>
  (try simp (disch := assumption) only [dup_lane_2_512, dup_lane_2_2048, dup_lane_4_1024, dup_lane_4_2048, dup_lane_8_2048,
    dup_lane_256_512, dup_lane_256_1024, dup_lane_256_2048, dup_lane_256_4096,
    dup_lane_4096_4096]) <;>
  omega

theorem unpack8_lanes_5 (m : Vec) (hm : IsBytes m) (p k : Nat) (hk : k < 8) :
    u16 (Avx2.Unpack8 Sse41.C5_SHFL0 Sse41.C5_MULLO 11 m p) k = codeAt 5 (ptrAdd m p) k := by
  have b0 := hm p
  have b1 := hm (p + 1)
  have b2 := hm (p + 2)
  have b3 := hm (p + 3)
  have b4 := hm (p + 4)
  have b5 := hm (p + 5)
  have b6 := hm (p + 6)
  have b7 := hm (p + 7)
  simp only [Avx2.Unpack8, _mm_srli_epi16, u16_ofU16, _mm_mullo_epi16]
  interval_cases k <;>
  simp [u16, _mm_shuffle_epi8, _mm_loadl_epi64,
    Sse41.C5_SHFL0, Sse41.C5_MULLO, _mm_setr_epi8, _mm_setr_epi16, ofU16, codeAt, ptrAdd] <;>
  (try simp (disch := assumption) only [dup_lane_2_512, dup_lane_2_2048, dup_lane_4_1024, dup_lane_4_2048, dup_lane_8_2048,
    dup_lane_256_512, dup_lane_256_1024, dup_lane_256_2048, dup_lane_256_4096,
    dup_lane_4096_4096]) <;>
  omega

theorem unpack16_lanes_6 (m : Vec) (hm : IsBytes m) (p k : Nat) (hk : k < 16) :
    u16 (Avx2.Unpack16 Avx2.C6_SHFL Avx2.C6_MULLO 10 m p) k = codeAt 6 (ptrAdd m p) k := by
  have b0 := hm p
  have b1 := hm (p + 1)
  have b2 := hm (p + 2)
  have b3 := hm (p + 3)
  have b4 := hm (p + 4)
  have b5 := hm (p + 5)
  have b6 := hm (p + 6)
  have b7 := hm (p + 7)
  have b8 := hm (p + 8)
  have b9 := hm (p + 9)
  have b10 := hm (p + 10)
  have b11 := hm (p + 11)
  have b12 := hm (p + 12)
  have b13 := hm (p + 13)
  have b14 := hm (p + 14)
  have b15 := hm (p + 15)
  simp only [Avx2.Unpack16, _mm256_srli_epi16, u16_ofU16, _mm256_mullo_epi16]
  interval_cases k <;>
  simp [u16, _mm256_shuffle_epi8, _mm256_broadcastsi128_si256, _mm_loadu_si128,
    Avx2.C6_SHFL, Avx2.C6_MULLO, _mm_setr_epi8, _mm_setr_epi16, ofU16, codeAt, ptrAdd] <;>
  (try simp (disch := assumption) only [dup_lane_2_512, dup_lane_2_2048, dup_lane_4_1024, dup_lane_4_2048, dup_lane_8_2048,
    dup_lane_256_512, dup_lane_256_1024, dup_lane_256_2048, dup_lane_256_4096,
    dup_lane_4096_4096]) <;>
  omega

theorem unpack8_lanes_6 (m : Vec) (hm : IsBytes m) (p k : Nat) (hk : k < 8) :
    u16 (Avx2.Unpack8 Sse41.C6_SHFL0 Sse41.C6_MULLO 10 m p) k = codeAt 6 (ptrAdd m p) k := by
  have b0 := hm p
  have b1 := hm (p + 1)
  have b2 := hm (p + 2)
  have b3 := hm (p + 3)
  have b4 := hm (p + 4)
  have b5 := hm (p + 5)
  have b6 := hm (p + 6)
  have b7 := hm (p + 7)
  simp only [Avx2.Unpack8, _mm_srli_epi16, u16_ofU16, _mm_mullo_epi16]
  interval_cases k <;>
  simp [u16, _mm_shuffle_epi8, _mm_loadl_epi64,
    Sse41.C6_SHFL0, Sse41.C6_MULLO, _mm_setr_epi8, _mm_setr_epi16, ofU16, codeAt, ptrAdd] <;>
  (try simp (disch := assumption) only [dup_lane_2_512, dup_lane_2_2048, dup_lane_4_1024, dup_lane_4_2048, dup_lane_8_2048,
    dup_lane_256_512, dup_lane_256_1024, dup_lane_256_2048, dup_lane_256_4096,
    dup_lane_4096_4096]) <;>
  omega

theorem unpack16_lanes_7 (m : Vec) (hm : IsBytes m) (p k : Nat) (hk : k < 16) :
    u16 (Avx2.Unpack16 Avx2.C7_SHFL Avx2.C7_MULLO 9 m p) k = codeAt 7 (ptrAdd m p) k := by
  have b0 := hm p
  have b1 := hm (p + 1)
  have b2 := hm (p + 2)
  have b3 := hm (p + 3)
  have b4 := hm (p + 4)
  have b5 := hm (p + 5)
  have b6 := hm (p + 6)
  have b7 := hm (p + 7)
  have b8 := hm (p + 8)
  have b9 := hm (p + 9)
  have b10 := hm (p + 10)
  have b11 := hm (p + 11)
  have b12 := hm (p + 12)
  have b13 := hm (p + 13)
  have b14 := hm (p + 14)
  have b15 := hm (p + 15)
  simp only [Avx2.Unpack16, _mm256_srli_epi16, u16_ofU16, _mm256_mullo_epi16]
  interval_cases k <;>
  simp [u16, _mm256_shuffle_epi8, _mm256_broadcastsi128_si256, _mm_loadu_si128,
    Avx2.C7_SHFL, Avx2.C7_MULLO, _mm_setr_epi8, _mm_setr_epi16, ofU16, codeAt, ptrAdd] <;>
  (try simp (disch := assumption) only [dup_lane_2_512, dup_lane_2_2048, dup_lane_4_1024, dup_lane_4_2048, dup_lane_8_2048,
    dup_lane_256_512, dup_lane_256_1024, dup_lane_256_2048, dup_lane_256_4096,
    dup_lane_4096_4096]) <;>
  omega

theorem unpack8_lanes_7 (m : Vec) (hm : IsBytes m) (p k : Nat) (hk : k < 8) :
    u16 (Avx2.Unpack8 Sse41.C7_SHFL0 Sse41.C7_MULLO 9 m p) k = codeAt 7 (ptrAdd m p) k := by
  have b0 := hm p
  have b1 := hm (p + 1)
  have b2 := hm (p + 2)
  have b3 := hm (p + 3)
  have b4 := hm (p + 4)
  have b5 := hm (p + 5)
  have b6 := hm (p + 6)
  have b7 := hm (p + 7)
  simp only [Avx2.Unpack8, _mm_srli_epi16, u16_ofU16, _mm_mullo_epi16]
  interval_cases k <;>
  simp [u16, _mm_shuffle_epi8, _mm_loadl_epi64,
    Sse41.C7_SHFL0, Sse41.C7_MULLO, _mm_setr_epi8, _mm_setr_epi16, ofU16, codeAt, ptrAdd] <;>
  (try simp (disch := assumption) only [dup_lane_2_512, dup_lane_2_2048, dup_lane_4_1024, dup_lane_4_2048, dup_lane_8_2048,
    dup_lane_256_512, dup_lane_256_1024, dup_lane_256_2048, dup_lane_256_4096,
    dup_lane_4096_4096]) <;>
  omega

theorem codeAt_shift (bits : Nat) (m : Vec) (i k : Nat) (hi : i % 8 = 0) :
    codeAt bits (ptrAdd m (i / 8 * bits)) k = codeAt bits m (i + k) := by
  have e0 : (i + k) * bits = 8 * (i / 8 * bits) + k * bits := by
    have e : i = 8 * (i / 8) := by omega
    conv_lhs => rw [e]
    ring
  have e1 : (i + k) * bits / 8 = i / 8 * bits + k * bits / 8 := by
    rw [e0, Nat.mul_add_div (by omega)]
  have e2 : (i + k) * bits % 8 = k * bits % 8 := by
    rw [e0, Nat.mul_add_mod]
  simp only [codeAt, ptrAdd, e1, e2, Nat.add_assoc]

theorem codeAt_lt (bits : Nat) (m : Vec) (i : Nat) : codeAt bits m i < 2 ^ bits := by
  simp only [codeAt]
  exact Nat.mod_lt _ (by positivity)

theorem codeAt_8 (m : Vec) (hm : IsBytes m) (a : Nat) : codeAt 8 m a = m a := by
  have e1 : a * 8 / 8 = a := by omega
  have e2 : a * 8 % 8 = 0 := by omega
  have h0 := hm a
  have h1 := hm (a + 1)
  simp only [codeAt, e1, e2]
  norm_num
  omega

theorem u16_lt_of_bytes (v : Vec) (hv : ∀ j, v j < 256) (k : Nat) : u16 v k < 65536 := by
  have h0 := hv (2 * k)
  have h1 := hv (2 * k + 1)
  simp only [u16]
  omega

theorem toS32_small (x : Nat) (h : x < 2147483648) : toS32 x = (x : Int) := by
  simp only [toS32, h, if_true]

/-- A lane of `_mm256_cvtepi32_ps(_mm256_cvtepu16_epi32(v))` is the 16-bit lane of `v`. -/
theorem cvt_u16_lane (v : Vec) (k : Nat) (h : u16 v k < 65536) :
    _mm256_cvtepi32_ps (_mm256_cvtepu16_epi32 v) k = (u16 v k : ℚ) := by
  simp only [_mm256_cvtepi32_ps, _mm256_cvtepu16_epi32, u32_ofU32]
  have e : u16 v k % 4294967296 = u16 v k := by omega
  rw [e, toS32_small _ (by omega)]
  norm_cast

/-- A lane of `_mm256_cvtepi32_ps(_mm256_cvtepu8_epi32(v))` is the byte of `v`. -/
theorem cvt_u8_lane (v : Vec) (k : Nat) (h : v k < 256) :
    _mm256_cvtepi32_ps (_mm256_cvtepu8_epi32 v) k = (v k : ℚ) := by
  simp only [_mm256_cvtepi32_ps, _mm256_cvtepu8_epi32, u32_ofU32]
  have e : v k % 4294967296 = v k := by omega
  rw [e, toS32_small _ (by omega)]
  norm_cast

theorem u16_extract_0 (v : Vec) (k : Nat) : u16 (_mm256_extracti128_si256 v 0) k = u16 v k := by
  simp only [u16, _mm256_extracti128_si256, Nat.mul_zero, Nat.zero_add]

theorem u16_extract_1 (v : Vec) (k : Nat) :
    u16 (_mm256_extracti128_si256 v 1) k = u16 v (8 + k) := by
  simp only [u16, _mm256_extracti128_si256]
  have e0 : 16 * 1 + 2 * k = 2 * (8 + k) := by omega
  have e1 : 16 * 1 + (2 * k + 1) = 2 * (8 + k) + 1 := by omega
  rw [e0, e1]

theorem srli_epi16_lt (a : Vec) (n j : Nat) : _mm_srli_epi16 a n j < 256 := ofU16_lt _ j

theorem srli256_epi16_lt (a : Vec) (n j : Nat) : _mm256_srli_epi16 a n j < 256 := ofU16_lt _ j

theorem decLoop16_spec (bits : Nat) (SHFL MULLO : Vec) (sh step : Nat)
    (hU : ∀ m, IsBytes m → ∀ p k, k < 16 →
      u16 (Avx2.Unpack16 SHFL MULLO sh m p) k = codeAt bits (ptrAdd m p) k)
    (hstep : step = 2 * bits)
    (m : Vec) (hm : IsBytes m) (scale shift : ℚ) (dst0 : FVec) (bound fuel : Nat)
    (s : DecState) (hle : s.i ≤ bound) (hdiv : 16 ∣ bound - s.i)
    (hfuel : bound ≤ s.i + fuel * 16) (hinv : DecInv bits m scale shift dst0 s) :
    DecInv bits m scale shift dst0
        (Avx2.decLoop16 SHFL MULLO sh step bound m (_mm256_set1_ps scale)
          (_mm256_set1_ps shift) fuel s)
      ∧ (Avx2.decLoop16 SHFL MULLO sh step bound m (_mm256_set1_ps scale)
          (_mm256_set1_ps shift) fuel s).i = bound := by
  unfold Avx2.decLoop16
  apply forLoop_inv (fun t : DecState => t.i) _ bound 16 _ (fun t => rfl) _ fuel s hle hdiv
    hfuel hinv
  intro t ht _ _
  obtain ⟨i8, hsrc, hdst, hlo, hhi⟩ := ht
  have hb : ∀ j, Avx2.Unpack16 SHFL MULLO sh m t.src j < 256 := fun j =>
    srli256_epi16_lt _ _ j
  have hlane : ∀ k, k < 16 → (u16 (Avx2.Unpack16 SHFL MULLO sh m t.src) k)
      = codeAt bits m (t.i + k) := by
    intro k hk
    rw [hU m hm t.src k hk, hsrc, codeAt_shift bits m t.i k i8]
  refine ⟨?_, ?_, ?_, ?_, ?_⟩
  · show (t.i + 16) % 8 = 0
    omega
  · show t.src + step = (t.i + 16) / 8 * bits
    have e : (t.i + 16) / 8 = t.i / 8 + 2 := by omega
    rw [e, Nat.add_mul, hsrc, hstep]
  · show t.dst + 16 = t.i + 16
    omega
  · intro a ha
    have ha' : a < t.i + 16 := ha
    show _mm256_storeu_ps (_mm256_storeu_ps t.out (t.dst + 0) _) (t.dst + 8) _ a = _
    simp only [_mm256_storeu_ps, _mm256_fmadd_ps, _mm256_set1_ps, Nat.add_zero, hdst]
    by_cases h1 : t.i + 8 ≤ a ∧ a < t.i + 8 + 8
    · simp only [h1, and_self, if_true]
      rw [cvt_u16_lane _ _ (by rw [u16_extract_1]; exact u16_lt_of_bytes _ hb _),
        u16_extract_1, hlane _ (by omega)]
      have e : t.i + (8 + (a - (t.i + 8))) = a := by omega
      rw [e]
    · simp only [h1, if_false]
      by_cases h0 : t.i ≤ a ∧ a < t.i + 8
      · simp only [h0, and_self, if_true]
        rw [cvt_u16_lane _ _ (by rw [u16_extract_0]; exact u16_lt_of_bytes _ hb _),
          u16_extract_0, hlane _ (by omega)]
        have e : t.i + (a - t.i) = a := by omega
        rw [e]
      · simp only [h0, if_false]
        exact hlo a (by omega)
  · intro a ha
    have ha' : t.i + 16 ≤ a := ha
    show _mm256_storeu_ps (_mm256_storeu_ps t.out (t.dst + 0) _) (t.dst + 8) _ a = _
    simp only [_mm256_storeu_ps, Nat.add_zero, hdst]
    have h1 : ¬ (t.i + 8 ≤ a ∧ a < t.i + 8 + 8) := by omega
    have h0 : ¬ (t.i ≤ a ∧ a < t.i + 8) := by omega
    simp only [h1, h0, if_false]
    exact hhi a (by omega)

theorem decLoop8_spec (bits : Nat) (SHFL0 MULLO : Vec) (sh step : Nat)
    (hU : ∀ m, IsBytes m → ∀ p k, k < 8 →
      u16 (Avx2.Unpack8 SHFL0 MULLO sh m p) k = codeAt bits (ptrAdd m p) k)
    (hstep : step = bits)
    (m : Vec) (hm : IsBytes m) (scale shift : ℚ) (dst0 : FVec) (bound fuel : Nat)
    (s : DecState) (hle : s.i ≤ bound) (hdiv : 8 ∣ bound - s.i)
    (hfuel : bound ≤ s.i + fuel * 8) (hinv : DecInv bits m scale shift dst0 s) :
    DecInv bits m scale shift dst0
        (Avx2.decLoop8 SHFL0 MULLO sh step bound m (_mm256_set1_ps scale)
          (_mm256_set1_ps shift) fuel s)
      ∧ (Avx2.decLoop8 SHFL0 MULLO sh step bound m (_mm256_set1_ps scale)
          (_mm256_set1_ps shift) fuel s).i = bound := by
  unfold Avx2.decLoop8
  apply forLoop_inv (fun t : DecState => t.i) _ bound 8 _ (fun t => rfl) _ fuel s hle hdiv
    hfuel hinv
  intro t ht _ _
  obtain ⟨i8, hsrc, hdst, hlo, hhi⟩ := ht
  have hb : ∀ j, Avx2.Unpack8 SHFL0 MULLO sh m t.src j < 256 := fun j =>
    srli_epi16_lt _ _ j
  have hlane : ∀ k, k < 8 → (u16 (Avx2.Unpack8 SHFL0 MULLO sh m t.src) k)
      = codeAt bits m (t.i + k) := by
    intro k hk
    rw [hU m hm t.src k hk, hsrc, codeAt_shift bits m t.i k i8]
  refine ⟨?_, ?_, ?_, ?_, ?_⟩
  · show (t.i + 8) % 8 = 0
    omega
  · show t.src + step = (t.i + 8) / 8 * bits
    have e : (t.i + 8) / 8 = t.i / 8 + 1 := by omega
    rw [e, Nat.add_mul, hsrc, hstep, Nat.one_mul]
  · show t.dst + 8 = t.i + 8
    omega
  · intro a ha
    have ha' : a < t.i + 8 := ha
    show _mm256_storeu_ps t.out (t.dst + 0) _ a = _
    simp only [_mm256_storeu_ps, _mm256_fmadd_ps, _mm256_set1_ps, Nat.add_zero, hdst]
    by_cases h0 : t.i ≤ a ∧ a < t.i + 8
    · simp only [h0, and_self, if_true]
      rw [cvt_u16_lane _ _ (u16_lt_of_bytes _ hb _), hlane _ (by omega)]
      have e : t.i + (a - t.i) = a := by omega
      rw [e]
    · simp only [h0, if_false]
      exact hlo a (by omega)
  · intro a ha
    have ha' : t.i + 8 ≤ a := ha
    show _mm256_storeu_ps t.out (t.dst + 0) _ a = _
    simp only [_mm256_storeu_ps, Nat.add_zero, hdst]
    have h0 : ¬ (t.i ≤ a ∧ a < t.i + 8) := by omega
    simp only [h0, if_false]
    exact hhi a (by omega)

theorem DecInv_init (bits : Nat) (m : Vec) (scale shift : ℚ) (dst : FVec) :
    DecInv bits m scale shift dst ⟨0, 0, 0, dst⟩ := by
  refine ⟨rfl, by simp, rfl, ?_, ?_⟩
  · intro a ha
    exact absurd ha (Nat.not_lt_zero _)
  · intro a _
    rfl

theorem decode4567_spec (bits : Nat) (SHFL MULLO SHFL0 MULLO0 : Vec) (sh : Nat)
    (hU16 : ∀ m, IsBytes m → ∀ p k, k < 16 →
      u16 (Avx2.Unpack16 SHFL MULLO sh m p) k = codeAt bits (ptrAdd m p) k)
    (hU8 : ∀ m, IsBytes m → ∀ p k, k < 8 →
      u16 (Avx2.Unpack8 SHFL0 MULLO0 sh m p) k = codeAt bits (ptrAdd m p) k)
    (m : Vec) (hm : IsBytes m) (scale shift : ℚ) (size : Nat) (dst : FVec)
    (hsz : size % 8 = 0) :
    DecodeSpec bits m scale shift size dst
      (Avx2.decLoop8 SHFL0 MULLO0 sh bits size m (_mm256_set1_ps scale) (_mm256_set1_ps shift)
        size
        (Avx2.decLoop16 SHFL MULLO sh (2 * bits) (AlignLo size 16) m (_mm256_set1_ps scale)
          (_mm256_set1_ps shift) size ⟨0, 0, 0, dst⟩)).out := by
  have hA : AlignLo size 16 = size / 16 * 16 := rfl
  obtain ⟨i1, e1⟩ := decLoop16_spec bits SHFL MULLO sh (2 * bits) hU16 rfl m hm scale shift dst
    (AlignLo size 16) size ⟨0, 0, 0, dst⟩ (Nat.zero_le _)
    ⟨size / 16, by rw [hA]; show size / 16 * 16 - 0 = _; omega⟩
    (by rw [hA]; show _ ≤ 0 + size * 16; omega) (DecInv_init bits m scale shift dst)
  obtain ⟨i2, e2⟩ := decLoop8_spec bits SHFL0 MULLO0 sh bits hU8 rfl m hm scale shift dst
    size size _ (by rw [e1, hA]; omega) ⟨(size - size / 16 * 16) / 8, by rw [e1, hA]; omega⟩
    (by rw [e1, hA]; omega) i1
  obtain ⟨_, _, _, hlo, hhi⟩ := i2
  rw [e2] at hlo hhi
  exact ⟨hlo, hhi⟩

theorem Decode32f4_spec (m : Vec) (hm : IsBytes m) (scale shift : ℚ) (size : Nat) (dst : FVec)
    (hsz : size % 8 = 0) :
    DecodeSpec 4 m scale shift size dst (Avx2.Decode32f4 m scale shift size dst) :=
  decode4567_spec 4 _ _ _ _ 12 unpack16_lanes_4 unpack8_lanes_4 m hm scale shift size dst hsz

theorem Decode32f5_spec (m : Vec) (hm : IsBytes m) (scale shift : ℚ) (size : Nat) (dst : FVec)
    (hsz : size % 8 = 0) :
    DecodeSpec 5 m scale shift size dst (Avx2.Decode32f5 m scale shift size dst) :=
  decode4567_spec 5 _ _ _ _ 11 unpack16_lanes_5 unpack8_lanes_5 m hm scale shift size dst hsz

theorem Decode32f6_spec (m : Vec) (hm : IsBytes m) (scale shift : ℚ) (size : Nat) (dst : FVec)
    (hsz : size % 8 = 0) :
    DecodeSpec 6 m scale shift size dst (Avx2.Decode32f6 m scale shift size dst) :=
  decode4567_spec 6 _ _ _ _ 10 unpack16_lanes_6 unpack8_lanes_6 m hm scale shift size dst hsz

theorem Decode32f7_spec (m : Vec) (hm : IsBytes m) (scale shift : ℚ) (size : Nat) (dst : FVec)
    (hsz : size % 8 = 0) :
    DecodeSpec 7 m scale shift size dst (Avx2.Decode32f7 m scale shift size dst) :=
  decode4567_spec 7 _ _ _ _ 9 unpack16_lanes_7 unpack8_lanes_7 m hm scale shift size dst hsz

theorem Decode32f8_spec (m : Vec) (hm : IsBytes m) (scale shift : ℚ) (size : Nat) (dst : FVec)
    (hsz : size % 8 = 0) :
    DecodeSpec 8 m scale shift size dst (Avx2.Decode32f8 m scale shift size dst) := by
  have hA : AlignLo size 16 = size / 16 * 16 := rfl
  unfold Avx2.Decode32f8
  simp only []
  obtain ⟨i1, e1⟩ := forLoop_inv (fun t : DecState => t.i) (DecInv 8 m scale shift dst)
    (AlignLo size 16) 16
    (fun s : DecState =>
      (⟨s.i + 16, s.src + 16, s.dst + 16,
        _mm256_storeu_ps (_mm256_storeu_ps s.out (s.dst + 0) (_mm256_fmadd_ps
          (_mm256_cvtepi32_ps (_mm256_cvtepu8_epi32 (_mm_loadu_si128 m s.src)))
          (_mm256_set1_ps scale) (_mm256_set1_ps shift))) (s.dst + F) (_mm256_fmadd_ps
          (_mm256_cvtepi32_ps (_mm256_cvtepu8_epi32 (_mm_srli_si128 (_mm_loadu_si128 m s.src) 8)))
          (_mm256_set1_ps scale) (_mm256_set1_ps shift))⟩ : DecState))
    (fun t => rfl)
    (by
      intro t ht _ _
      obtain ⟨i8, hsrc, hdst, hlo, hhi⟩ := ht
      have hsrc' : t.src = t.i := by omega
      refine ⟨?_, ?_, ?_, ?_, ?_⟩
      · show (t.i + 16) % 8 = 0
        omega
      · show t.src + 16 = (t.i + 16) / 8 * 8
        omega
      · show t.dst + 16 = t.i + 16
        omega
      · intro a ha
        have ha' : a < t.i + 16 := ha
        show _mm256_storeu_ps (_mm256_storeu_ps t.out (t.dst + 0) _) (t.dst + F) _ a = _
        simp only [_mm256_storeu_ps, _mm256_fmadd_ps, _mm256_set1_ps, Nat.add_zero, hdst, F,
          hsrc']
        rw [codeAt_8 m hm a]
        by_cases h1 : t.i + 8 ≤ a ∧ a < t.i + 8 + 8
        · simp only [h1, and_self, if_true]
          have hlt : a - (t.i + 8) + 8 < 16 := by omega
          have e : t.i + (a - (t.i + 8) + 8) = a := by omega
          rw [cvt_u8_lane _ _ (by
            simp only [_mm_srli_si128, hlt, if_true, _mm_loadu_si128]
            exact hm _)]
          simp only [_mm_srli_si128, hlt, if_true, _mm_loadu_si128, e]
        · simp only [h1, if_false]
          by_cases h0 : t.i ≤ a ∧ a < t.i + 8
          · simp only [h0, and_self, if_true]
            have e : t.i + (a - t.i) = a := by omega
            rw [cvt_u8_lane _ _ (by simp only [_mm_loadu_si128]; exact hm _)]
            simp only [_mm_loadu_si128, e]
          · simp only [h0, if_false]
            rw [hlo a (by omega), codeAt_8 m hm a]
      · intro a ha
        have ha' : t.i + 16 ≤ a := ha
        show _mm256_storeu_ps (_mm256_storeu_ps t.out (t.dst + 0) _) (t.dst + F) _ a = _
        simp only [_mm256_storeu_ps, Nat.add_zero, hdst, F]
        have h1 : ¬ (t.i + 8 ≤ a ∧ a < t.i + 8 + 8) := by omega
        have h0 : ¬ (t.i ≤ a ∧ a < t.i + 8) := by omega
        simp only [h1, h0, if_false]
        exact hhi a (by omega))
    size ⟨0, 0, 0, dst⟩ (Nat.zero_le _)
    ⟨size / 16, by rw [hA]; show size / 16 * 16 - 0 = _; omega⟩
    (by rw [hA]; show _ ≤ 0 + size * 16; omega) (DecInv_init 8 m scale shift dst)
  obtain ⟨i2, e2⟩ := forLoop_inv (fun t : DecState => t.i) (DecInv 8 m scale shift dst)
    size 8
    (fun s : DecState =>
      (⟨s.i + 8, s.src + 8, s.dst + 8,
        _mm256_storeu_ps s.out s.dst (_mm256_fmadd_ps
          (_mm256_cvtepi32_ps (_mm256_cvtepu8_epi32 (_mm_loadl_epi64 m s.src)))
          (_mm256_set1_ps scale) (_mm256_set1_ps shift))⟩ : DecState))
    (fun t => rfl)
    (by
      intro t ht _ _
      obtain ⟨i8, hsrc, hdst, hlo, hhi⟩ := ht
      have hsrc' : t.src = t.i := by omega
      refine ⟨?_, ?_, ?_, ?_, ?_⟩
      · show (t.i + 8) % 8 = 0
        omega
      · show t.src + 8 = (t.i + 8) / 8 * 8
        omega
      · show t.dst + 8 = t.i + 8
        omega
      · intro a ha
        have ha' : a < t.i + 8 := ha
        show _mm256_storeu_ps t.out t.dst _ a = _
        simp only [_mm256_storeu_ps, _mm256_fmadd_ps, _mm256_set1_ps, hdst, hsrc']
        rw [codeAt_8 m hm a]
        by_cases h0 : t.i ≤ a ∧ a < t.i + 8
        · simp only [h0, and_self, if_true]
          have hlt : a - t.i < 8 := by omega
          have e : t.i + (a - t.i) = a := by omega
          rw [cvt_u8_lane _ _ (by
            simp only [_mm_loadl_epi64, hlt, if_true]
            exact hm _)]
          simp only [_mm_loadl_epi64, hlt, if_true, e]
        · simp only [h0, if_false]
          rw [hlo a (by omega), codeAt_8 m hm a]
      · intro a ha
        have ha' : t.i + 8 ≤ a := ha
        show _mm256_storeu_ps t.out t.dst _ a = _
        simp only [_mm256_storeu_ps, hdst]
        have h0 : ¬ (t.i ≤ a ∧ a < t.i + 8) := by omega
        simp only [h0, if_false]
        exact hhi a (by omega))
    size _ (by show DecState.i (forLoop _ _ _ _) ≤ _; rw [e1, hA]; omega)
    ⟨(size - size / 16 * 16) / 8, by
      show _ - DecState.i (forLoop _ _ _ _) = _
      rw [e1, hA]
      omega⟩
    (by show _ ≤ DecState.i (forLoop _ _ _ _) + _; rw [e1, hA]; omega) i1
  obtain ⟨_, _, _, hlo, hhi⟩ := i2
  have e2' : (forLoop size (fun t : DecState => decide (t.i < size)) _ _).i = size := e2
  rw [e2'] at hlo hhi
  exact ⟨hlo, hhi⟩

/-! ## Reading back the packed layout -/

theorem codeAt_local_4 (c : Nat → Nat) (m : Vec) (hc : ∀ t, t < 8 → c t < 16)
    (hm : ∀ j, j < 4 → m j = packByte 4 c j) (hbytes : IsBytes m) (t : Nat) (ht : t < 8) :
    codeAt 4 m t = c t := by
  have c0 := hc 0 (by omega)
  have c1 := hc 1 (by omega)
  have c2 := hc 2 (by omega)
  have c3 := hc 3 (by omega)
  have c4 := hc 4 (by omega)
  have c5 := hc 5 (by omega)
  have c6 := hc 6 (by omega)
  have c7 := hc 7 (by omega)
  interval_cases t
  · have ma := hm 0 (by omega)
    have mb := hm 1 (by omega)
    simp [packByte, groupValue] at ma mb
    simp [codeAt]
    omega
  · have ma := hm 0 (by omega)
    have mb := hm 1 (by omega)
    simp [packByte, groupValue] at ma mb
    simp [codeAt]
    omega
  · have ma := hm 1 (by omega)
    have mb := hm 2 (by omega)
    simp [packByte, groupValue] at ma mb
    simp [codeAt]
    omega
  · have ma := hm 1 (by omega)
    have mb := hm 2 (by omega)
    simp [packByte, groupValue] at ma mb
    simp [codeAt]
    omega
  · have ma := hm 2 (by omega)
    have mb := hm 3 (by omega)
    simp [packByte, groupValue] at ma mb
    simp [codeAt]
    omega
  · have ma := hm 2 (by omega)
    have mb := hm 3 (by omega)
    simp [packByte, groupValue] at ma mb
    simp [codeAt]
    omega
  · have ma := hm 3 (by omega)
    have mb := hbytes 4
    simp [packByte, groupValue] at ma
    simp [codeAt]
    omega
  · have ma := hm 3 (by omega)
    have mb := hbytes 4
    simp [packByte, groupValue] at ma
    simp [codeAt]
    omega

theorem codeAt_local_5 (c : Nat → Nat) (m : Vec) (hc : ∀ t, t < 8 → c t < 32)
    (hm : ∀ j, j < 5 → m j = packByte 5 c j) (hbytes : IsBytes m) (t : Nat) (ht : t < 8) :
    codeAt 5 m t = c t := by
  have c0 := hc 0 (by omega)
  have c1 := hc 1 (by omega)
  have c2 := hc 2 (by omega)
  have c3 := hc 3 (by omega)
  have c4 := hc 4 (by omega)
  have c5 := hc 5 (by omega)
  have c6 := hc 6 (by omega)
  have c7 := hc 7 (by omega)
  interval_cases t
  · have ma := hm 0 (by omega)
    have mb := hm 1 (by omega)
    simp [packByte, groupValue] at ma mb
    simp [codeAt]
    omega
  · have ma := hm 0 (by omega)
    have mb := hm 1 (by omega)
    simp [packByte, groupValue] at ma mb
    simp [codeAt]
    omega
  · have ma := hm 1 (by omega)
    have mb := hm 2 (by omega)
    simp [packByte, groupValue] at ma mb
    simp [codeAt]
    omega
  · have ma := hm 1 (by omega)
    have mb := hm 2 (by omega)
    simp [packByte, groupValue] at ma mb
    simp [codeAt]
    omega
  · have ma := hm 2 (by omega)
    have mb := hm 3 (by omega)
    simp [packByte, groupValue] at ma mb
    simp [codeAt]
    omega
  · have ma := hm 3 (by omega)
    have mb := hm 4 (by omega)
    simp [packByte, groupValue] at ma mb
    simp [codeAt]
    omega
  · have ma := hm 3 (by omega)
    have mb := hm 4 (by omega)
    simp [packByte, groupValue] at ma mb
    simp [codeAt]
    omega
  · have ma := hm 4 (by omega)
    have mb := hbytes 5
    simp [packByte, groupValue] at ma
    simp [codeAt]
    omega

theorem codeAt_local_6 (c : Nat → Nat) (m : Vec) (hc : ∀ t, t < 8 → c t < 64)
    (hm : ∀ j, j < 6 → m j = packByte 6 c j) (hbytes : IsBytes m) (t : Nat) (ht : t < 8) :
    codeAt 6 m t = c t := by
  have c0 := hc 0 (by omega)
  have c1 := hc 1 (by omega)
  have c2 := hc 2 (by omega)
  have c3 := hc 3 (by omega)
  have c4 := hc 4 (by omega)
  have c5 := hc 5 (by omega)
  have c6 := hc 6 (by omega)
  have c7 := hc 7 (by omega)
  interval_cases t
  · have ma := hm 0 (by omega)
    have mb := hm 1 (by omega)
    simp [packByte, groupValue] at ma mb
    simp [codeAt]
    omega
  · have ma := hm 0 (by omega)
    have mb := hm 1 (by omega)
    simp [packByte, groupValue] at ma mb
    simp [codeAt]
    omega
  · have ma := hm 1 (by omega)
    have mb := hm 2 (by omega)
    simp [packByte, groupValue] at ma mb
    simp [codeAt]
    omega
  · have ma := hm 2 (by omega)
    have mb := hm 3 (by omega)
    simp [packByte, groupValue] at ma mb
    simp [codeAt]
    omega
  · have ma := hm 3 (by omega)
    have mb := hm 4 (by omega)
    simp [packByte, groupValue] at ma mb
    simp [codeAt]
    omega
  · have ma := hm 3 (by omega)
    have mb := hm 4 (by omega)
    simp [packByte, groupValue] at ma mb
    simp [codeAt]
    omega
  · have ma := hm 4 (by omega)
    have mb := hm 5 (by omega)
    simp [packByte, groupValue] at ma mb
    simp [codeAt]
    omega
  · have ma := hm 5 (by omega)
    have mb := hbytes 6
    simp [packByte, groupValue] at ma
    simp [codeAt]
    omega

theorem codeAt_local_7 (c : Nat → Nat) (m : Vec) (hc : ∀ t, t < 8 → c t < 128)
    (hm : ∀ j, j < 7 → m j = packByte 7 c j) (hbytes : IsBytes m) (t : Nat) (ht : t < 8) :
    codeAt 7 m t = c t := by
  have c0 := hc 0 (by omega)
  have c1 := hc 1 (by omega)
  have c2 := hc 2 (by omega)
  have c3 := hc 3 (by omega)
  have c4 := hc 4 (by omega)
  have c5 := hc 5 (by omega)
  have c6 := hc 6 (by omega)
  have c7 := hc 7 (by omega)
  interval_cases t
  · have ma := hm 0 (by omega)
    have mb := hm 1 (by omega)
    simp [packByte, groupValue] at ma mb
    simp [codeAt]
    omega
  · have ma := hm 0 (by omega)
    have mb := hm 1 (by omega)
    simp [packByte, groupValue] at ma mb
    simp [codeAt]
    omega
  · have ma := hm 1 (by omega)
    have mb := hm 2 (by omega)
    simp [packByte, groupValue] at ma mb
    simp [codeAt]
    omega
  · have ma := hm 2 (by omega)
    have mb := hm 3 (by omega)
    simp [packByte, groupValue] at ma mb
    simp [codeAt]
    omega
  · have ma := hm 3 (by omega)
    have mb := hm 4 (by omega)
    simp [packByte, groupValue] at ma mb
    simp [codeAt]
    omega
  · have ma := hm 4 (by omega)
    have mb := hm 5 (by omega)
    simp [packByte, groupValue] at ma mb
    simp [codeAt]
    omega
  · have ma := hm 5 (by omega)
    have mb := hm 6 (by omega)
    simp [packByte, groupValue] at ma mb
    simp [codeAt]
    omega
  · have ma := hm 6 (by omega)
    have mb := hbytes 7
    simp [packByte, groupValue] at ma
    simp [codeAt]
    omega

theorem codeAt_local_8 (c : Nat → Nat) (m : Vec) (hc : ∀ t, t < 8 → c t < 256)
    (hm : ∀ j, j < 8 → m j = packByte 8 c j) (hbytes : IsBytes m) (t : Nat) (ht : t < 8) :
    codeAt 8 m t = c t := by
  rw [codeAt_8 m hbytes t, hm t ht, packByte_8 c t (fun u hu => by
    have e : 8 * (t / 8) + u = u := by omega
    rw [e]
    exact hc u hu)]

/-- Reading code `i` back from a buffer that holds the packed layout of its group gives the
code. -/
theorem codeAt_packByte (bits : Nat) (hb4 : 4 ≤ bits) (hb8 : bits ≤ 8) (v : Nat → Nat) (m : Vec)
    (i : Nat) (hv : ∀ t, t < 8 → v (8 * (i / 8) + t) < 2 ^ bits)
    (hm : ∀ j, j < bits → m (i / 8 * bits + j) = packByte bits v (i / 8 * bits + j))
    (hbytes : IsBytes m) : codeAt bits m i = v i := by
  have e : i = 8 * (i / 8) + i % 8 := by omega
  have e8 : 8 * (i / 8) / 8 = i / 8 := by omega
  have hs := codeAt_shift bits m (8 * (i / 8)) (i % 8) (by omega)
  rw [e8, ← e] at hs
  rw [← hs]
  have hm0 : ∀ j, j < bits → ptrAdd m (i / 8 * bits) j
      = packByte bits (fun t => v (8 * (i / 8) + t)) j := by
    intro j hj
    have := packByte_shift bits (by omega) v (8 * (i / 8)) (by omega) j
    rw [e8] at this
    rw [← this]
    exact hm j hj
  have hb0 : IsBytes (ptrAdd m (i / 8 * bits)) := fun a => hbytes _
  have ht : i % 8 < 8 := by omega
  have goal : codeAt bits (ptrAdd m (i / 8 * bits)) (i % 8)
      = (fun t => v (8 * (i / 8) + t)) (i % 8) := by
    obtain h | h | h | h | h : bits = 4 ∨ bits = 5 ∨ bits = 6 ∨ bits = 7 ∨ bits = 8 := by omega
    · subst h
      exact codeAt_local_4 _ _ hv hm0 hb0 _ ht
    · subst h
      exact codeAt_local_5 _ _ hv hm0 hb0 _ ht
    · subst h
      exact codeAt_local_6 _ _ hv hm0 hb0 _ ht
    · subst h
      exact codeAt_local_7 _ _ hv hm0 hb0 _ ht
    · subst h
      exact codeAt_local_8 _ _ hv hm0 hb0 _ ht
  rw [goal]
  show v (8 * (i / 8) + i % 8) = v i
  rw [← e]

/-! ## Main results on the codec -/

theorem roundNearestEven_intCast (z : Int) : roundNearestEven (z : ℚ) = z := by
  simp [roundNearestEven]

theorem rne_const (n : Nat) (c : ℚ) (hc : c = (n : ℚ)) :
    roundNearestEven ((c - 0) * 1) = (n : Int) := by
  have e : (c - 0) * 1 = ((n : Int) : ℚ) := by
    rw [hc]
    simp
  rw [e, roundNearestEven_intCast]

theorem code_const (n : Nat) (c : ℚ) (hc : c = (n : ℚ)) (hn : n < 2147483648) (i : Nat) :
    code (fun _ => c) 1 0 i = (n : Int) := by
  simp only [code, cvtps_lane, rne_const n c hc]
  have h1 : (-2147483648 : Int) ≤ (n : Int) ∧ (n : Int) < 2147483648 := by omega
  simp only [h1, and_self, if_true]

theorem IsBytes_const (c : Nat) (h : c < 256) : IsBytes (fun _ => c) := fun _ => h

theorem Encode32fN_spec (bits : Nat) (hb4 : 4 ≤ bits) (hb8 : bits ≤ 8)
    (src : FVec) (scale min : ℚ) (size : Nat) (dst : Vec)
    (hsz : size % 8 = 0) (hpos : 0 < size) (h64 : size < 18446744073709551616)
    (hd : IsBytes dst)
    (hc : ∀ i, i < size → 0 ≤ code src scale min i ∧ code src scale min i < 2 ^ bits) :
    EncodeSpec bits src scale min size (Avx2.Encode32fN bits src scale min size dst) := by
  obtain h | h | h | h | h : bits = 4 ∨ bits = 5 ∨ bits = 6 ∨ bits = 7 ∨ bits = 8 := by omega
  · subst h
    exact Encode32f4_spec src scale min size dst hsz hd hc
  · subst h
    exact Encode32f5_spec src scale min size dst hsz hpos h64 hd hc
  · subst h
    exact Encode32f6_spec src scale min size dst hsz hpos h64 hd hc
  · subst h
    exact Encode32f7_spec src scale min size dst hsz hpos h64 hd hc
  · subst h
    exact Encode32f8_spec src scale min size dst hsz hd hc

theorem Decode32fN_spec (bits : Nat) (hb4 : 4 ≤ bits) (hb8 : bits ≤ 8)
    (m : Vec) (hm : IsBytes m) (scale shift : ℚ) (size : Nat) (dst : FVec)
    (hsz : size % 8 = 0) :
    DecodeSpec bits m scale shift size dst (Avx2.Decode32fN bits m scale shift size dst) := by
  obtain h | h | h | h | h : bits = 4 ∨ bits = 5 ∨ bits = 6 ∨ bits = 7 ∨ bits = 8 := by omega
  · subst h
    exact Decode32f4_spec m hm scale shift size dst hsz
  · subst h
    exact Decode32f5_spec m hm scale shift size dst hsz
  · subst h
    exact Decode32f6_spec m hm scale shift size dst hsz
  · subst h
    exact Decode32f7_spec m hm scale shift size dst hsz
  · subst h
    exact Decode32f8_spec m hm scale shift size dst hsz

/-- The codes read back from the destination of an encoder are the quantised codes. -/
theorem codeAt_encoded (bits : Nat) (hb4 : 4 ≤ bits) (hb8 : bits ≤ 8)
    (src : FVec) (scale min : ℚ) (size : Nat) (r : Int × Int × Vec)
    (hsz : size % 8 = 0)
    (hc : ∀ i, i < size → 0 ≤ code src scale min i ∧ code src scale min i < 2 ^ bits)
    (hr : EncodeSpec bits src scale min size r) (i : Nat) (hi : i < size) :
    codeAt bits r.2.2 i = (code src scale min i).toNat := by
  obtain ⟨hbytes, hmem, _, _⟩ := hr
  apply codeAt_packByte bits hb4 hb8 (fun i => (code src scale min i).toNat) r.2.2 i ?_ ?_ hbytes
  · intro t ht
    have := hc (8 * (i / 8) + t) (by omega)
    have h4 : ((code src scale min (8 * (i / 8) + t)).toNat : Int) < 2 ^ bits := by omega
    exact_mod_cast h4
  · intro j hj
    apply hmem
    have h1 : i / 8 + 1 ≤ size / 8 := by omega
    calc i / 8 * bits + j < i / 8 * bits + bits := by omega
      _ = (i / 8 + 1) * bits := by ring
      _ ≤ size / 8 * bits := Nat.mul_le_mul_right _ h1

/-- C1. Pack/unpack round trip. For every code width `bits` in 4..8, every positive multiple
of 8 `size` and every code vector `v` with `v i < 2^bits`: when the quantiser of
`Encode32f<bits>` produces the codes `v` (for any source, scale and minimum that do), then
`Decode32f<bits>` run on the packed bytes with scale 1 and shift 0, so that each stored value
is the unpacked 16-bit lane itself, returns exactly `v i` at every index `i < size`, whichever
loop (main or tail) handled the element. -/
theorem C1_pack_unpack_round_trip (bits : Nat) (hb4 : 4 ≤ bits) (hb8 : bits ≤ 8)
    (src : FVec) (scale min : ℚ) (size : Nat) (dst : Vec) (out : FVec) (v : Nat → Nat)
    (hsz : size % 8 = 0) (hpos : 0 < size) (h64 : size < 18446744073709551616)
    (hd : IsBytes dst)
    (hv : ∀ i, i < size → code src scale min i = (v i : Int) ∧ v i < 2 ^ bits) :
    ∀ i, i < size →
      Avx2.Decode32fN bits (Avx2.Encode32fN bits src scale min size dst).2.2 1 0 size out i
        = (v i : ℚ) := by
  intro i hi
  have hc : ∀ i, i < size → 0 ≤ code src scale min i ∧ code src scale min i < 2 ^ bits := by
    intro j hj
    obtain ⟨h1, h2⟩ := hv j hj
    rw [h1]
    exact ⟨by omega, by exact_mod_cast h2⟩
  have hE := Encode32fN_spec bits hb4 hb8 src scale min size dst hsz hpos h64 hd hc
  have hD := Decode32fN_spec bits hb4 hb8 _ hE.1 1 0 size out hsz
  rw [hD.1 i hi, codeAt_encoded bits hb4 hb8 src scale min size _ hsz hc hE i hi, (hv i hi).1]
  simp

/-- Witness of C1: eight 5-bit codes equal to 3. -/
theorem C1_pack_unpack_round_trip_witness :
    Avx2.Decode32fN 5 (Avx2.Encode32fN 5 (fun _ => 3) 1 0 8 (fun _ => 0)).2.2 1 0 8
      (fun _ => 0) 2 = ((fun _ => 3 : Nat → Nat) 2 : ℚ) :=
  C1_pack_unpack_round_trip 5 (by omega) (by omega) (fun _ => 3) 1 0 8 (fun _ => 0) (fun _ => 0)
    (fun _ => 3) (by omega) (by omega) (by omega) (IsBytes_const 0 (by omega))
    (fun i _ => ⟨code_const 3 3 (by norm_num) (by omega) i, by norm_num⟩) 2 (by omega)

/-- C9. Serialized bit layout. For every code width `bits` in 4..8, after
`Encode32f<bits>` of a positive multiple of 8 elements whose codes are below `2^bits`, group
`g` of eight codes occupies the bytes `[g * bits, (g + 1) * bits)` of the destination, and
byte `j` of the group is byte `j` (little endian) of the integer
`sum_{i<8} v (8 g + i) * 2^(bits * i)`. The statement is the same for every group, so the groups
written by a 16- or 32-element main loop hold the bytes the 8-element tail loop would write. -/
theorem C9_serialized_bit_layout (bits : Nat) (hb4 : 4 ≤ bits) (hb8 : bits ≤ 8)
    (src : FVec) (scale min : ℚ) (size : Nat) (dst : Vec)
    (hsz : size % 8 = 0) (hpos : 0 < size) (h64 : size < 18446744073709551616)
    (hd : IsBytes dst)
    (hc : ∀ i, i < size → 0 ≤ code src scale min i ∧ code src scale min i < 2 ^ bits) :
    ∀ g, g < size / 8 → ∀ j, j < bits →
      (Avx2.Encode32fN bits src scale min size dst).2.2 (g * bits + j)
        = groupValue bits (fun i => (code src scale min i).toNat) g / 256 ^ j % 256 := by
  intro g hg j hj
  have hE := Encode32fN_spec bits hb4 hb8 src scale min size dst hsz hpos h64 hd hc
  have hk : g * bits + j < size / 8 * bits := by
    have h1 : g + 1 ≤ size / 8 := by omega
    calc g * bits + j < g * bits + bits := by omega
      _ = (g + 1) * bits := by ring
      _ ≤ size / 8 * bits := Nat.mul_le_mul_right _ h1
  rw [hE.2.1 _ hk]
  have e1 : (g * bits + j) / bits = g := by
    rw [Nat.add_comm, Nat.add_mul_div_right _ _ (by omega), Nat.div_eq_of_lt hj, Nat.zero_add]
  have e2 : (g * bits + j) % bits = j := by
    rw [Nat.add_comm, Nat.add_mul_mod_self_right, Nat.mod_eq_of_lt hj]
  simp only [packByte, e1, e2]

/-- Witness of C9: 40 seven-bit codes equal to 100, byte 3 of group 4. -/
theorem C9_serialized_bit_layout_witness :
    (Avx2.Encode32fN 7 (fun _ => 100) 1 0 40 (fun _ => 0)).2.2 (4 * 7 + 3)
      = groupValue 7 (fun i => (code (fun _ => 100) 1 0 i).toNat) 4 / 256 ^ 3 % 256 :=
  C9_serialized_bit_layout 7 (by omega) (by omega) (fun _ => 100) 1 0 40 (fun _ => 0) (by omega)
    (by omega) (by omega) (IsBytes_const 0 (by omega))
    (fun i _ => by
      rw [code_const 100 100 (by norm_num) (by omega) i]
      constructor
      · omega
      · norm_num) 4 (by omega) 3 (by omega)

theorem cvtps_lane_eq (x : ℚ) (h0 : 0 ≤ roundNearestEven x) (h1 : roundNearestEven x < 256) :
    cvtps_lane x = roundNearestEven x := by
  simp only [cvtps_lane]
  have h : -2147483648 ≤ roundNearestEven x ∧ roundNearestEven x < 2147483648 := by omega
  simp only [h, and_self, if_true]

theorem sum_toNat_cast (f : Nat → Int) (n : Nat) (h : ∀ i, i < n → 0 ≤ f i) :
    ((∑ j ∈ Finset.range n, (f j).toNat : Nat) : Int) = ∑ j ∈ Finset.range n, f j := by
  push_cast
  apply Finset.sum_congr rfl
  intro j hj
  exact Int.toNat_of_nonneg (h j (Finset.mem_range.1 hj))

theorem sum_le_of_le (f : Nat → Nat) (n c : Nat) (h : ∀ i, i < n → f i ≤ c) :
    ∑ j ∈ Finset.range n, f j ≤ n * c := by
  induction n with
  | zero => simp
  | succ k ih =>
    rw [Finset.sum_range_succ]
    have h1 := ih (fun i hi => h i (by omega))
    have h2 := h k (by omega)
    have e : (k + 1) * c = k * c + c := by ring
    omega

/-- Quantisation and exact statistics in exact arithmetic. For every code width `bits` in 4..8
and every positive multiple of 8 `size <= 32768`: when every rounded value
`round-to-nearest-even((src i - min) * scale)` lies in `[0, 2^bits - 1]`, the encoder stores
that value as the code of element `i`, returns `sum` equal to the sum of the codes and `sqsum`
equal to the sum of their squares over all `size` elements (no wrap around). -/
theorem encode_statistics (bits : Nat) (hb4 : 4 ≤ bits) (hb8 : bits ≤ 8)
    (src : FVec) (scale min : ℚ) (size : Nat) (dst : Vec)
    (hsz : size % 8 = 0) (hpos : 0 < size) (hsize : size ≤ 32768) (hd : IsBytes dst)
    (hc : ∀ i, i < size → 0 ≤ roundNearestEven ((src i - min) * scale)
      ∧ roundNearestEven ((src i - min) * scale) ≤ 2 ^ bits - 1) :
    (∀ i, i < size → ((codeAt bits (Avx2.Encode32fN bits src scale min size dst).2.2 i : Nat)
        : Int) = roundNearestEven ((src i - min) * scale))
    ∧ (Avx2.Encode32fN bits src scale min size dst).1
        = ∑ i ∈ Finset.range size, roundNearestEven ((src i - min) * scale)
    ∧ (Avx2.Encode32fN bits src scale min size dst).2.1
        = ∑ i ∈ Finset.range size, roundNearestEven ((src i - min) * scale) ^ 2 := by
  have h256 : ∀ i, i < size → roundNearestEven ((src i - min) * scale) < 256 := by
    intro i hi
    have := (hc i hi).2
    have h3 := code_lt_256 bits hb8 (roundNearestEven ((src i - min) * scale)) (by omega)
    exact h3
  have hcode : ∀ i, i < size →
      code src scale min i = roundNearestEven ((src i - min) * scale) := fun i hi =>
    cvtps_lane_eq _ (hc i hi).1 (h256 i hi)
  have hc' : ∀ i, i < size → 0 ≤ code src scale min i ∧ code src scale min i < 2 ^ bits := by
    intro i hi
    rw [hcode i hi]
    have := hc i hi
    exact ⟨this.1, by omega⟩
  have hE := Encode32fN_spec bits hb4 hb8 src scale min size dst hsz hpos (by omega) hd hc'
  have hle : ∀ i, i < size → (code src scale min i).toNat ≤ 255 := by
    intro i hi
    have := h256 i hi
    rw [← hcode i hi] at this
    omega
  refine ⟨?_, ?_, ?_⟩
  · intro i hi
    rw [codeAt_encoded bits hb4 hb8 src scale min size _ hsz hc' hE i hi, ← hcode i hi]
    exact Int.toNat_of_nonneg (hc' i hi).1
  · rw [hE.2.2.1]
    have hb : ∑ j ∈ Finset.range size, (code src scale min j).toNat ≤ size * 255 :=
      sum_le_of_le (fun j => (code src scale min j).toNat) size 255 hle
    have hlt : (∑ j ∈ Finset.range size, (code src scale min j).toNat) < 2147483648 := by
      have : size * 255 ≤ 32768 * 255 := Nat.mul_le_mul_right _ hsize
      omega
    rw [Nat.mod_eq_of_lt (by omega), toS32_small _ hlt,
      sum_toNat_cast _ _ (fun i hi => (hc' i hi).1)]
    exact Finset.sum_congr rfl (fun j hj => hcode j (Finset.mem_range.1 hj))
  · rw [hE.2.2.2]
    have hb : ∑ j ∈ Finset.range size, (code src scale min j).toNat ^ 2 ≤ size * 65025 :=
      sum_le_of_le (fun j => (code src scale min j).toNat ^ 2) size 65025 (by
        intro i hi
        have := hle i hi
        show (code src scale min i).toNat ^ 2 ≤ 65025
        nlinarith)
    have hlt : (∑ j ∈ Finset.range size, (code src scale min j).toNat ^ 2) < 2147483648 := by
      have : size * 65025 ≤ 32768 * 65025 := Nat.mul_le_mul_right _ hsize
      omega
    rw [Nat.mod_eq_of_lt (by omega), toS32_small _ hlt]
    push_cast
    apply Finset.sum_congr rfl
    intro j hj
    have hj' := Finset.mem_range.1 hj
    rw [Int.toNat_of_nonneg (hc' j hj').1, hcode j hj']

/-! ## Correlation kernels -/

theorem ExtractSum_add' (a b : Vec) :
    ExtractSum (_mm256_add_epi32 a b) = (ExtractSum a + ExtractSum b) % 4294967296 := by
  simp only [ExtractSum, _mm256_add_epi32, u32_ofU32]
  omega

theorem u32_madd (a b : Vec) (i : Nat)
    (h0 : u16 a (2 * i) < 32768) (h1 : u16 a (2 * i + 1) < 32768)
    (h2 : u16 b (2 * i) < 32768) (h3 : u16 b (2 * i + 1) < 32768) :
    u32 (_mm256_madd_epi16 a b) i
      = u16 a (2 * i) * u16 b (2 * i) + u16 a (2 * i + 1) * u16 b (2 * i + 1) := by
  simp only [_mm256_madd_epi16, u32_ofU32, ofS32]
  rw [toS16_small _ h0, toS16_small _ h1, toS16_small _ h2, toS16_small _ h3]
  have b0 : u16 a (2 * i) * u16 b (2 * i) ≤ 32767 * 32767 :=
    Nat.mul_le_mul (by omega) (by omega)
  have b1 : u16 a (2 * i + 1) * u16 b (2 * i + 1) ≤ 32767 * 32767 :=
    Nat.mul_le_mul (by omega) (by omega)
  have e : ((u16 a (2 * i) : Int) * (u16 b (2 * i) : Int)
      + (u16 a (2 * i + 1) : Int) * (u16 b (2 * i + 1) : Int))
      = ((u16 a (2 * i) * u16 b (2 * i) + u16 a (2 * i + 1) * u16 b (2 * i + 1) : Nat) : Int) := by
    push_cast
    ring
  rw [e]
  omega

theorem sum_range_16' (f : Nat → Nat) :
    ∑ k ∈ Finset.range 16, f k = f 0 + f 1 + f 2 + f 3 + f 4 + f 5 + f 6 + f 7 + f 8 + f 9
      + f 10 + f 11 + f 12 + f 13 + f 14 + f 15 := by
  simp [Finset.sum_range_succ]

/-- The lanes of `madd_epi16` sum to the dot product of the sixteen 16-bit lanes. -/
theorem ExtractSum_madd (x y : Vec) (hx : ∀ k, k < 16 → u16 x k < 32768)
    (hy : ∀ k, k < 16 → u16 y k < 32768) :
    ExtractSum (_mm256_madd_epi16 x y)
      = (∑ k ∈ Finset.range 16, u16 x k * u16 y k) % 4294967296 := by
  have l : ∀ i, i < 8 → u32 (_mm256_madd_epi16 x y) i
      = u16 x (2 * i) * u16 y (2 * i) + u16 x (2 * i + 1) * u16 y (2 * i + 1) := fun i hi =>
    u32_madd x y i (hx _ (by omega)) (hx _ (by omega)) (hy _ (by omega)) (hy _ (by omega))
  simp only [ExtractSum, l 0 (by omega), l 1 (by omega), l 2 (by omega), l 3 (by omega),
    l 4 (by omega), l 5 (by omega), l 6 (by omega), l 7 (by omega), sum_range_16']
  norm_num
  congr 1
  ring

theorem add_mod32 (a b : Nat) :
    (a % 4294967296 + b) % 4294967296 = (b + a) % 4294967296 := by
  omega

/-- An update `acc + madd(X a, X b)` where the lanes of `X` are the sixteen codes at the
pointer. -/
theorem stepSpec_16 (bits : Nat) (hb : bits ≤ 8) (X : Vec → Nat → Vec)
    (hX : ∀ m, IsBytes m → ∀ p k, k < 16 → u16 (X m p) k = codeAt bits (ptrAdd m p) k) :
    StepSpec bits 16
      (fun a pa b pb acc => _mm256_add_epi32 (_mm256_madd_epi16 (X a pa) (X b pb)) acc) := by
  intro a b ha hb' pa pb acc
  have h256 : (2 : Nat) ^ bits ≤ 256 := by
    calc (2 : Nat) ^ bits ≤ 2 ^ 8 := Nat.pow_le_pow_right (by omega) hb
      _ = 256 := by norm_num
  have hxa : ∀ k, k < 16 → u16 (X a pa) k < 32768 := fun k hk => by
    rw [hX a ha pa k hk]
    have := codeAt_lt bits (ptrAdd a pa) k
    omega
  have hxb : ∀ k, k < 16 → u16 (X b pb) k < 32768 := fun k hk => by
    rw [hX b hb' pb k hk]
    have := codeAt_lt bits (ptrAdd b pb) k
    omega
  have hsum : ∑ k ∈ Finset.range 16, u16 (X a pa) k * u16 (X b pb) k
      = dot bits (ptrAdd a pa) (ptrAdd b pb) 16 := by
    simp only [dot]
    apply Finset.sum_congr rfl
    intro k hk
    have hk' := Finset.mem_range.1 hk
    rw [hX a ha pa k hk', hX b hb' pb k hk']
  simp only []
  rw [ExtractSum_add', ExtractSum_madd _ _ hxa hxb, add_mod32, hsum]

/-- An update `acc + madd(X a, X b)` where the low eight lanes of `X` are the eight codes at
the pointer and the high eight lanes are zero. -/
theorem stepSpec_8 (bits : Nat) (hb : bits ≤ 8) (X : Vec → Nat → Vec)
    (hX : ∀ m, IsBytes m → ∀ p k, k < 16 →
      u16 (X m p) k = if k < 8 then codeAt bits (ptrAdd m p) k else 0) :
    StepSpec bits 8
      (fun a pa b pb acc => _mm256_add_epi32 (_mm256_madd_epi16 (X a pa) (X b pb)) acc) := by
  intro a b ha hb' pa pb acc
  have h256 : (2 : Nat) ^ bits ≤ 256 := by
    calc (2 : Nat) ^ bits ≤ 2 ^ 8 := Nat.pow_le_pow_right (by omega) hb
      _ = 256 := by norm_num
  have hxa : ∀ k, k < 16 → u16 (X a pa) k < 32768 := fun k hk => by
    rw [hX a ha pa k hk]
    have := codeAt_lt bits (ptrAdd a pa) k
    split_ifs <;> omega
  have hxb : ∀ k, k < 16 → u16 (X b pb) k < 32768 := fun k hk => by
    rw [hX b hb' pb k hk]
    have := codeAt_lt bits (ptrAdd b pb) k
    split_ifs <;> omega
  have hsum : ∑ k ∈ Finset.range 16, u16 (X a pa) k * u16 (X b pb) k
      = dot bits (ptrAdd a pa) (ptrAdd b pb) 8 := by
    simp only [dot]
    rw [sum_range_16]
    have z : ∑ k ∈ Finset.range 8, u16 (X a pa) (8 + k) * u16 (X b pb) (8 + k) = 0 := by
      apply Finset.sum_eq_zero
      intro k hk
      have hk' := Finset.mem_range.1 hk
      have e : ¬ (8 + k < 8) := by omega
      rw [hX a ha pa (8 + k) (by omega), if_neg e, Nat.zero_mul]
    rw [z, Nat.add_zero]
    apply Finset.sum_congr rfl
    intro k hk
    have hk' := Finset.mem_range.1 hk
    rw [hX a ha pa k (by omega), hX b hb' pb k (by omega), if_pos hk', if_pos hk']
  simp only []
  rw [ExtractSum_add', ExtractSum_madd _ _ hxa hxb, add_mod32, hsum]

theorem u16_castsi128_si256 (v : Vec) (k : Nat) :
    u16 (_mm256_castsi128_si256 v) k = if k < 8 then u16 v k else 0 := by
  simp only [u16, _mm256_castsi128_si256]
  by_cases h : k < 8
  · have h0 : 2 * k < 16 := by omega
    have h1 : 2 * k + 1 < 16 := by omega
    simp only [h, h0, h1, if_true]
  · have h0 : ¬ 2 * k < 16 := by omega
    have h1 : ¬ 2 * k + 1 < 16 := by omega
    simp only [h, h0, h1, if_false]

theorem u16_cvtepu8_epi16 (v : Vec) (k : Nat) (h : v k < 256) :
    u16 (_mm256_cvtepu8_epi16 v) k = v k := by
  simp only [_mm256_cvtepu8_epi16, u16_ofU16]
  omega

theorem StepSpec_corrMain_5 : StepSpec 5 16 (Avx2.corrMain Avx2.C5_SHFL Avx2.C5_MULLO 11) :=
  stepSpec_16 5 (by omega) _ unpack16_lanes_5

theorem StepSpec_corrMain_6 : StepSpec 6 16 (Avx2.corrMain Avx2.C6_SHFL Avx2.C6_MULLO 10) :=
  stepSpec_16 6 (by omega) _ unpack16_lanes_6

theorem StepSpec_corrMain_7 : StepSpec 7 16 (Avx2.corrMain Avx2.C7_SHFL Avx2.C7_MULLO 9) :=
  stepSpec_16 7 (by omega) _ unpack16_lanes_7

theorem StepSpec_corrTail (bits : Nat) (hb : bits ≤ 8) (SHFL0 MULLO : Vec) (sh : Nat)
    (hU : ∀ m, IsBytes m → ∀ p k, k < 8 →
      u16 (Avx2.Unpack8 SHFL0 MULLO sh m p) k = codeAt bits (ptrAdd m p) k) :
    StepSpec bits 8 (Avx2.corrTail SHFL0 MULLO sh) :=
  stepSpec_8 bits hb (fun m p => _mm256_castsi128_si256 (Avx2.Unpack8 SHFL0 MULLO sh m p))
    (fun m hm p k _ => by
      rw [u16_castsi128_si256]
      by_cases h : k < 8
      · simp only [h, if_true]
        exact hU m hm p k h
      · simp only [h, if_false])

theorem IsBytes_ptrAdd (m : Vec) (hm : IsBytes m) (p : Nat) : IsBytes (ptrAdd m p) :=
  fun _ => hm _

theorem StepSpec_corr8x16 : StepSpec 8 16 Avx2.corr8x16 :=
  stepSpec_16 8 (by omega) (fun m p => _mm256_cvtepu8_epi16 (_mm_loadu_si128 m p))
    (fun m hm p k _ => by
      rw [u16_cvtepu8_epi16 _ _ (by simp only [_mm_loadu_si128]; exact hm _),
        codeAt_8 _ (IsBytes_ptrAdd m hm p)]
      rfl)

theorem StepSpec_corr8x8 : StepSpec 8 8 Avx2.corr8x8 :=
  stepSpec_8 8 (by omega) (fun m p => _mm256_cvtepu8_epi16 (_mm_loadl_epi64 m p))
    (fun m hm p k _ => by
      rw [u16_cvtepu8_epi16 _ _ (by
        simp only [_mm_loadl_epi64]
        split_ifs
        · exact hm _
        · omega)]
      simp only [_mm_loadl_epi64]
      by_cases h : k < 8
      · simp only [h, if_true]
        rw [codeAt_8 _ (IsBytes_ptrAdd m hm p)]
        rfl
      · simp only [h, if_false])

/-! ## The 4-bit correlation step (nibbles through `maddubs`) -/

theorem sum_range_pairs (f : Nat → Nat) (n : Nat) :
    ∑ k ∈ Finset.range (2 * n), f k = ∑ k ∈ Finset.range n, (f (2 * k) + f (2 * k + 1)) := by
  induction n with
  | zero => simp
  | succ n ih =>
    have e : 2 * (n + 1) = 2 * n + 1 + 1 := by ring
    rw [e, Finset.sum_range_succ, Finset.sum_range_succ, ih, Finset.sum_range_succ]
    ring

theorem sum_range_pairs_16 (f : Nat → Nat) :
    ∑ k ∈ Finset.range 32, f k = ∑ k ∈ Finset.range 16, (f (2 * k) + f (2 * k + 1)) :=
  sum_range_pairs f 16

theorem sum_range_pairs_32 (f : Nat → Nat) :
    ∑ k ∈ Finset.range 64, f k = ∑ k ∈ Finset.range 32, (f (2 * k) + f (2 * k + 1)) :=
  sum_range_pairs f 32

/-- The low nibbles of 32 loaded bytes. -/
theorem lo_nibble (m : Vec) (p j : Nat) :
    _mm256_and_si256 (_mm256_loadu_si256 m p) K8_0F j = m (p + j) % 16 := by
  simp only [_mm256_and_si256, _mm256_loadu_si256, K8_0F]
  exact Nat.and_pow_two_sub_one_eq_mod _ 4

/-- The high nibbles of 32 loaded bytes. -/
theorem hi_nibble (m : Vec) (hm : IsBytes m) (p j : Nat) :
    _mm256_and_si256 (_mm256_srli_epi16 (_mm256_loadu_si256 m p) 4) K8_0F j
      = m (p + j) / 16 := by
  simp only [_mm256_and_si256, K8_0F]
  rw [show (15 : Nat) = 2 ^ 4 - 1 by norm_num, Nat.and_pow_two_sub_one_eq_mod]
  simp only [_mm256_srli_epi16, ofU16, u16, _mm256_loadu_si256]
  obtain ⟨q, hq⟩ : ∃ q, j = 2 * q ∨ j = 2 * q + 1 := ⟨j / 2, by omega⟩
  have h0 := hm (p + 2 * q)
  have h1 := hm (p + (2 * q + 1))
  rcases hq with hq | hq
  · have e1 : j / 2 = q := by omega
    have e2 : j % 2 = 0 := by omega
    rw [e1, e2, hq]
    norm_num
    omega
  · have e1 : j / 2 = q := by omega
    have e2 : j % 2 = 1 := by omega
    rw [e1, e2, hq]
    norm_num
    omega

/-- The two codes held by a byte of a 4-bit stream. -/
theorem codeAt_4_even (m : Vec) (hm : IsBytes m) (j : Nat) :
    codeAt 4 m (2 * j) = m j % 16 := by
  have e1 : 2 * j * 4 / 8 = j := by omega
  have e2 : 2 * j * 4 % 8 = 0 := by omega
  have h0 := hm j
  simp only [codeAt, e1, e2]
  norm_num
  omega

theorem codeAt_4_odd (m : Vec) (hm : IsBytes m) (j : Nat) :
    codeAt 4 m (2 * j + 1) = m j / 16 := by
  have e1 : (2 * j + 1) * 4 / 8 = j := by omega
  have e2 : (2 * j + 1) * 4 % 8 = 4 := by omega
  have h0 := hm j
  have h1 := hm (j + 1)
  simp only [codeAt, e1, e2]
  norm_num
  omega

theorem toS8_small (x : Nat) (h : x < 128) : toS8 x = (x : Int) := by
  simp only [toS8, h, if_true]

/-- A 16-bit lane of `maddubs_epi16` on nibbles: no saturation. -/
theorem u16_maddubs (x y : Vec) (i : Nat) (hx : ∀ j, x j < 16) (hy : ∀ j, y j < 16) :
    u16 (_mm256_maddubs_epi16 x y) i
      = x (2 * i) * y (2 * i) + x (2 * i + 1) * y (2 * i + 1) := by
  have x0 := hx (2 * i)
  have x1 := hx (2 * i + 1)
  have y0 := hy (2 * i)
  have y1 := hy (2 * i + 1)
  simp only [_mm256_maddubs_epi16, u16_ofU16, ofS16]
  rw [toS8_small _ (by omega), toS8_small _ (by omega)]
  have b0 : x (2 * i) * y (2 * i) ≤ 15 * 15 := Nat.mul_le_mul (by omega) (by omega)
  have b1 : x (2 * i + 1) * y (2 * i + 1) ≤ 15 * 15 := Nat.mul_le_mul (by omega) (by omega)
  have e : ((x (2 * i) : Int) * (y (2 * i) : Int)
      + (x (2 * i + 1) : Int) * (y (2 * i + 1) : Int))
      = ((x (2 * i) * y (2 * i) + x (2 * i + 1) * y (2 * i + 1) : Nat) : Int) := by
    push_cast
    ring
  rw [e]
  simp only [satS16]
  split_ifs <;> omega

theorem u16_maddubs_le (x y : Vec) (i : Nat) (hx : ∀ j, x j < 16) (hy : ∀ j, y j < 16) :
    u16 (_mm256_maddubs_epi16 x y) i ≤ 450 := by
  rw [u16_maddubs x y i hx hy]
  have b0 : x (2 * i) * y (2 * i) ≤ 15 * 15 :=
    Nat.mul_le_mul (by have := hx (2 * i); omega) (by have := hy (2 * i); omega)
  have b1 : x (2 * i + 1) * y (2 * i + 1) ≤ 15 * 15 :=
    Nat.mul_le_mul (by have := hx (2 * i + 1); omega) (by have := hy (2 * i + 1); omega)
  omega

theorem u16_K16_0001 (k : Nat) : u16 K16_0001 k = 1 := by
  simp only [K16_0001, u16_ofU16]

/-- Horizontal sum of `madd_epi16 v K16_0001`: the sum of the sixteen 16-bit lanes. -/
theorem ExtractSum_madd_one (v : Vec) (hv : ∀ k, k < 16 → u16 v k < 32768) :
    ExtractSum (_mm256_madd_epi16 v K16_0001)
      = (∑ k ∈ Finset.range 16, u16 v k) % 4294967296 := by
  rw [ExtractSum_madd v K16_0001 hv (fun k _ => by rw [u16_K16_0001]; omega)]
  simp only [u16_K16_0001, Nat.mul_one]

theorem lo_nibble_lt (m : Vec) (p j : Nat) :
    _mm256_and_si256 (_mm256_loadu_si256 m p) K8_0F j < 16 := by
  rw [lo_nibble]
  omega

theorem hi_nibble_lt (m : Vec) (hm : IsBytes m) (p j : Nat) :
    _mm256_and_si256 (_mm256_srli_epi16 (_mm256_loadu_si256 m p) 4) K8_0F j < 16 := by
  rw [hi_nibble m hm]
  have := hm (p + j)
  omega

/-- The dot product of 64 four-bit codes, byte by byte. -/
theorem dot_4_64 (a b : Vec) (ha : IsBytes a) (hb : IsBytes b) (pa pb : Nat) :
    dot 4 (ptrAdd a pa) (ptrAdd b pb) 64
      = ∑ j ∈ Finset.range 32, (a (pa + j) % 16) * (b (pb + j) % 16)
        + ∑ j ∈ Finset.range 32, (a (pa + j) / 16) * (b (pb + j) / 16) := by
  simp only [dot]
  rw [sum_range_pairs_32, ← Finset.sum_add_distrib]
  apply Finset.sum_congr rfl
  intro j _
  rw [codeAt_4_even _ (IsBytes_ptrAdd a ha pa), codeAt_4_even _ (IsBytes_ptrAdd b hb pb),
    codeAt_4_odd _ (IsBytes_ptrAdd a ha pa), codeAt_4_odd _ (IsBytes_ptrAdd b hb pb)]
  rfl

theorem u16_add_epi16 (x y : Vec) (k : Nat) (h : u16 x k + u16 y k < 65536) :
    u16 (_mm256_add_epi16 x y) k = u16 x k + u16 y k := by
  simp only [_mm256_add_epi16, u16_ofU16]
  omega

/-- The nibble products of 32 byte pairs, low and high, added in 16 bits and summed. -/
theorem ExtractSum_maddubs2 (x y x' y' : Vec) (hx : ∀ j, x j < 16) (hy : ∀ j, y j < 16)
    (hx' : ∀ j, x' j < 16) (hy' : ∀ j, y' j < 16) :
    ExtractSum (_mm256_madd_epi16
        (_mm256_add_epi16 (_mm256_maddubs_epi16 x y) (_mm256_maddubs_epi16 x' y')) K16_0001)
      = (∑ j ∈ Finset.range 32, x j * y j + ∑ j ∈ Finset.range 32, x' j * y' j)
          % 4294967296 := by
  have l : ∀ k, u16 (_mm256_add_epi16 (_mm256_maddubs_epi16 x y)
      (_mm256_maddubs_epi16 x' y')) k
      = u16 (_mm256_maddubs_epi16 x y) k + u16 (_mm256_maddubs_epi16 x' y') k := by
    intro k
    apply u16_add_epi16
    have h1 := u16_maddubs_le x y k hx hy
    have h2 := u16_maddubs_le x' y' k hx' hy'
    omega
  have e : ∑ k ∈ Finset.range 16, u16 (_mm256_add_epi16 (_mm256_maddubs_epi16 x y)
      (_mm256_maddubs_epi16 x' y')) k
      = ∑ j ∈ Finset.range 32, x j * y j + ∑ j ∈ Finset.range 32, x' j * y' j := by
    rw [sum_range_pairs_16, sum_range_pairs_16, ← Finset.sum_add_distrib]
    apply Finset.sum_congr rfl
    intro k _
    rw [l k, u16_maddubs x y k hx hy, u16_maddubs x' y' k hx' hy']
  rw [ExtractSum_madd_one _ (fun k _ => by
    rw [l k]
    have h1 := u16_maddubs_le x y k hx hy
    have h2 := u16_maddubs_le x' y' k hx' hy'
    omega), e]

theorem StepSpec_corr4x64 : StepSpec 4 64 Avx2.corr4x64 := by
  intro a b ha hb pa pb acc
  simp only [Avx2.corr4x64]
  rw [ExtractSum_add', ExtractSum_maddubs2 _ _ _ _ (lo_nibble_lt a pa) (lo_nibble_lt b pb)
    (hi_nibble_lt a ha pa) (hi_nibble_lt b hb pb), dot_4_64 a b ha hb]
  simp only [lo_nibble, hi_nibble a ha, hi_nibble b hb]
  omega

/-! ## The correlation loops -/

theorem dot_add (bits : Nat) (a b : Vec) (i n : Nat) (hi : i % 8 = 0) :
    dot bits a b (i + n)
      = dot bits a b i + dot bits (ptrAdd a (i / 8 * bits)) (ptrAdd b (i / 8 * bits)) n := by
  simp only [dot]
  rw [Finset.sum_range_add]
  have e : ∑ k ∈ Finset.range n, codeAt bits a (i + k) * codeAt bits b (i + k)
      = ∑ k ∈ Finset.range n, codeAt bits (ptrAdd a (i / 8 * bits)) k
          * codeAt bits (ptrAdd b (i / 8 * bits)) k := by
    apply Finset.sum_congr rfl
    intro k _
    rw [codeAt_shift bits a i k hi, codeAt_shift bits b i k hi]
  rw [e]

theorem ExtractSum_zero : ExtractSum _mm256_setzero_si256 = 0 := by
  simp only [ExtractSum, u32, _mm256_setzero_si256]

theorem CorrInv_init (bits : Nat) (a b : Vec) :
    CorrInv bits a b ⟨0, 0, 0, _mm256_setzero_si256⟩ := by
  refine ⟨rfl, ?_, ?_, ?_⟩
  · show 0 = 0 / 8 * bits
    omega
  · show 0 = 0 / 8 * bits
    omega
  · show ExtractSum _mm256_setzero_si256 = dot bits a b 0 % 4294967296
    rw [ExtractSum_zero]
    simp only [dot, Finset.range_zero, Finset.sum_empty, Nat.zero_mod]

theorem corrLoop_spec (bits n bytes : Nat) (step : Vec → Nat → Vec → Nat → Vec → Vec)
    (hS : StepSpec bits n step) (hn : n % 8 = 0) (hbytes : bytes = n / 8 * bits)
    (a b : Vec) (ha : IsBytes a) (hb : IsBytes b) (bound fuel : Nat) (s : CorrState)
    (hle : s.i ≤ bound) (hdiv : n ∣ bound - s.i) (hfuel : bound ≤ s.i + fuel * n)
    (hinv : CorrInv bits a b s) :
    CorrInv bits a b (corrLoop step n bytes bound a b fuel s)
      ∧ (corrLoop step n bytes bound a b fuel s).i = bound := by
  unfold corrLoop
  apply forLoop_inv (fun t : CorrState => t.i) _ bound n _ (fun t => rfl) _ fuel s hle hdiv
    hfuel hinv
  intro t ht _ _
  obtain ⟨i8, hpa, hpb, hsum⟩ := ht
  have e : (t.i + n) / 8 = t.i / 8 + n / 8 := by omega
  refine ⟨?_, ?_, ?_, ?_⟩
  · show (t.i + n) % 8 = 0
    omega
  · show t.a + bytes = (t.i + n) / 8 * bits
    rw [e, Nat.add_mul, hpa, hbytes]
  · show t.b + bytes = (t.i + n) / 8 * bits
    rw [e, Nat.add_mul, hpb, hbytes]
  · show ExtractSum (step a t.a b t.b t.ab) = dot bits a b (t.i + n) % 4294967296
    rw [hS a b ha hb t.a t.b t.ab, hsum, dot_add bits a b t.i n i8, hpa, hpb]
    omega

/-- Two consecutive loops (main loop up to `AlignLo size n1`, tail loop of 8 up to `size`)
leave the dot product of all `size` codes in the accumulator. -/
theorem corr2_spec (bits n1 b1 b2 : Nat) (step1 step2 : Vec → Nat → Vec → Nat → Vec → Vec)
    (h1 : StepSpec bits n1 step1) (h2 : StepSpec bits 8 step2) (hn1 : n1 % 8 = 0)
    (hpos : 0 < n1) (hb1 : b1 = n1 / 8 * bits) (hb2 : b2 = bits)
    (a b : Vec) (ha : IsBytes a) (hb : IsBytes b) (size : Nat) (hsz : size % 8 = 0) :
    ExtractSum (corrLoop step2 8 b2 size a b size
        (corrLoop step1 n1 b1 (AlignLo size n1) a b size
          ⟨0, 0, 0, _mm256_setzero_si256⟩)).ab
      = dot bits a b size % 4294967296 := by
  have hA : AlignLo size n1 ≤ size := Nat.div_mul_le_self size n1
  have hA8 : 8 ∣ size - AlignLo size n1 := by
    have e := Nat.div_add_mod size n1
    have e2 : size - AlignLo size n1 = size % n1 := by
      simp only [AlignLo]
      rw [Nat.mul_comm]
      omega
    rw [e2]
    have d1 : 8 ∣ size := Nat.dvd_of_mod_eq_zero hsz
    have d2 : 8 ∣ n1 := Nat.dvd_of_mod_eq_zero hn1
    exact (Nat.dvd_mod_iff d2).2 d1
  have s1 := corrLoop_spec bits n1 b1 step1 h1 hn1 hb1 a b ha hb (AlignLo size n1) size
    ⟨0, 0, 0, _mm256_setzero_si256⟩ (Nat.zero_le _)
    (by
      show n1 ∣ AlignLo size n1 - 0
      rw [Nat.sub_zero]
      exact Dvd.intro_left _ rfl)
    (by
      show AlignLo size n1 ≤ 0 + size * n1
      have : size ≤ size * n1 := Nat.le_mul_of_pos_right size hpos
      omega)
    (CorrInv_init bits a b)
  have s2 := corrLoop_spec bits 8 b2 step2 h2 (by omega) (by omega) a b ha hb size size _
    (by rw [s1.2]; exact hA) (by rw [s1.2]; exact hA8) (by rw [s1.2]; omega) s1.1
  obtain ⟨⟨_, _, _, hs⟩, hi⟩ := s2
  rw [hs, hi]

theorem dot_le (bits : Nat) (hb : bits ≤ 8) (a b : Vec) (n : Nat) :
    dot bits a b n ≤ n * 65025 := by
  simp only [dot]
  apply sum_le_of_le
  intro i _
  have h256 : (2 : Nat) ^ bits ≤ 256 := by
    calc (2 : Nat) ^ bits ≤ 2 ^ 8 := Nat.pow_le_pow_right (by omega) hb
      _ = 256 := by norm_num
  have h1 := codeAt_lt bits a i
  have h2 := codeAt_lt bits b i
  exact Nat.mul_le_mul (by omega : codeAt bits a i ≤ 255) (by omega : codeAt bits b i ≤ 255)

theorem toS32_small' (x : Nat) (h : x < 2147483648) : toS32 x = (x : Int) := by
  simp only [toS32, h, if_true]

/-- The accumulated sum of `Correlation<bits>` modulo `2^32`, for every size. -/
theorem Correlation_mod (bits : Nat) (hb4 : 4 ≤ bits) (hb8 : bits ≤ 8) (a b : Vec)
    (ha : IsBytes a) (hb : IsBytes b) (size : Nat) (hsz : size % 8 = 0) :
    Avx2.Correlation bits a b size = toS32 (dot bits a b size % 4294967296) := by
  have h : bits = 4 ∨ bits = 5 ∨ bits = 6 ∨ bits = 7 ∨ bits = 8 := by omega
  rcases h with h | h | h | h | h <;> subst h
  · show toS32 (ExtractSum _) = _
    rw [corr2_spec 4 64 32 4 _ _ StepSpec_corr4x64
      (StepSpec_corrTail 4 (by omega) _ _ _ unpack8_lanes_4) (by omega) (by omega) (by omega)
      rfl a b ha hb size hsz]
  · show toS32 (ExtractSum _) = _
    rw [corr2_spec 5 16 10 5 _ _ StepSpec_corrMain_5
      (StepSpec_corrTail 5 (by omega) _ _ _ unpack8_lanes_5) (by omega) (by omega) (by omega)
      rfl a b ha hb size hsz]
  · show toS32 (ExtractSum _) = _
    rw [corr2_spec 6 16 12 6 _ _ StepSpec_corrMain_6
      (StepSpec_corrTail 6 (by omega) _ _ _ unpack8_lanes_6) (by omega) (by omega) (by omega)
      rfl a b ha hb size hsz]
  · show toS32 (ExtractSum _) = _
    rw [corr2_spec 7 16 14 7 _ _ StepSpec_corrMain_7
      (StepSpec_corrTail 7 (by omega) _ _ _ unpack8_lanes_7) (by omega) (by omega) (by omega)
      rfl a b ha hb size hsz]
  · show toS32 (ExtractSum _) = _
    rw [corr2_spec 8 16 16 8 _ _ StepSpec_corr8x16 StepSpec_corr8x8 (by omega) (by omega)
      (by omega) rfl a b ha hb size hsz]

/-- The value of `Correlation<bits>` when no 32-bit overflow can occur. -/
theorem Correlation_exact (bits : Nat) (hb4 : 4 ≤ bits) (hb8 : bits ≤ 8) (a b : Vec)
    (ha : IsBytes a) (hb : IsBytes b) (size : Nat) (hsz : size % 8 = 0)
    (hsize : size ≤ 32768) :
    Avx2.Correlation bits a b size = (dot bits a b size : Int) := by
  rw [Correlation_mod bits hb4 hb8 a b ha hb size hsz]
  have h := dot_le bits hb8 a b size
  have h2 : size * 65025 ≤ 32768 * 65025 := Nat.mul_le_mul_right _ hsize
  rw [Nat.mod_eq_of_lt (by omega), toS32_small' _ (by omega)]

/-- C2. Integer correlation on packed codes. For every code width `bits` in 4..8, every
`size <= 32768` that is a multiple of 8 and every two byte buffers `a`, `b`:
`Correlation<bits>(a, b, size)` is the exact integer dot product of the first `size`
`bits`-wide codes of the two packed streams (no saturation in `maddubs`/`madd`, no 32-bit
wrap around, the 256-bit cast of a 128-bit value being a zero extension). In particular, when
`a` and `b` hold the packed layout of code vectors `va`, `vb` with entries below `2^bits`, the
result is `sum_{i<size} va i * vb i`. -/
theorem C2_correlation_exact_dot_product (bits : Nat) (hb4 : 4 ≤ bits) (hb8 : bits ≤ 8)
    (a b : Vec) (ha : IsBytes a) (hb : IsBytes b) (size : Nat) (hsz : size % 8 = 0)
    (hsize : size ≤ 32768) :
    Avx2.Correlation bits a b size
        = ((∑ i ∈ Finset.range size, codeAt bits a i * codeAt bits b i : Nat) : Int)
    ∧ ∀ va vb : Nat → Nat, (∀ i, va i < 2 ^ bits) → (∀ i, vb i < 2 ^ bits) →
        (∀ k, k < size / 8 * bits → a k = packByte bits va k) →
        (∀ k, k < size / 8 * bits → b k = packByte bits vb k) →
        Avx2.Correlation bits a b size
          = ((∑ i ∈ Finset.range size, va i * vb i : Nat) : Int) := by
  have h := Correlation_exact bits hb4 hb8 a b ha hb size hsz hsize
  refine ⟨h, ?_⟩
  intro va vb hva hvb hpa hpb
  rw [h]
  simp only [dot]
  have hk : ∀ i, i < size → ∀ j, j < bits → i / 8 * bits + j < size / 8 * bits := by
    intro i hi j hj
    have h1 : i / 8 + 1 ≤ size / 8 := by omega
    calc i / 8 * bits + j < i / 8 * bits + bits := by omega
      _ = (i / 8 + 1) * bits := by ring
      _ ≤ size / 8 * bits := Nat.mul_le_mul_right _ h1
  have e : ∑ i ∈ Finset.range size, codeAt bits a i * codeAt bits b i
      = ∑ i ∈ Finset.range size, va i * vb i := by
    apply Finset.sum_congr rfl
    intro i hi
    have hi' := Finset.mem_range.1 hi
    rw [codeAt_packByte bits hb4 hb8 va a i (fun t _ => hva _)
        (fun j hj => hpa _ (hk i hi' j hj)) ha,
      codeAt_packByte bits hb4 hb8 vb b i (fun t _ => hvb _)
        (fun j hj => hpb _ (hk i hi' j hj)) hb]
  rw [e]

/-- Witness of C2: 72 seven-bit codes read from buffers of bytes `0x5A` and `0xC3`. -/
theorem C2_correlation_exact_dot_product_witness :
    Avx2.Correlation 7 (fun _ => 90) (fun _ => 195) 72
        = ((∑ i ∈ Finset.range 72,
            codeAt 7 (fun _ => 90) i * codeAt 7 (fun _ => 195) i : Nat) : Int)
    ∧ ∀ va vb : Nat → Nat, (∀ i, va i < 2 ^ 7) → (∀ i, vb i < 2 ^ 7) →
        (∀ k, k < 72 / 8 * 7 → (fun _ => 90 : Vec) k = packByte 7 va k) →
        (∀ k, k < 72 / 8 * 7 → (fun _ => 195 : Vec) k = packByte 7 vb k) →
        Avx2.Correlation 7 (fun _ => 90) (fun _ => 195) 72
          = ((∑ i ∈ Finset.range 72, va i * vb i : Nat) : Int) :=
  C2_correlation_exact_dot_product 7 (by omega) (by omega) (fun _ => 90) (fun _ => 195)
    (IsBytes_const 90 (by omega)) (IsBytes_const 195 (by omega)) 72 (by omega) (by omega)

/-! ## Cosine distance decoding and the factory -/

theorem RestrictRange_mem (x : ℚ) : 0 ≤ RestrictRange x 0 2 ∧ RestrictRange x 0 2 ≤ 2 := by
  simp only [RestrictRange]
  constructor
  · exact le_max_left _ _
  · exact max_le (by norm_num) (min_le_left _ _)

theorem DescrInt_new_size (size depth : Nat) :
    (Avx2.DescrInt.new size depth).size = size ∧ (Avx2.DescrInt.new size depth).depth = depth := by
  unfold Avx2.DescrInt.new
  split <;> exact ⟨rfl, rfl⟩

/-- C3. `CosineDistance<bits>(a, b, size, distance)` stores at `*distance` the value
`clamp(1 - (S * aScale * bScale + aMean * bShift + bMean * aShift) / (aNorm * bNorm), 0, 2)`
(`clamp(x, 0, 2) = max 0 (min 2 x)`), where scale, shift, mean and norm are the floats held by
bytes 0..3, 4..7, 8..11 and 12..15 of each descriptor and `S` is `Correlation<bits>` of the
code bytes that start at offset 16 of `a` and of `b`; no other float is written. The float
arithmetic is taken exactly. -/
theorem C3_cosine_distance_formula (bits : Nat) (f32 : Nat → ℚ) (a b : Vec) (size : Nat)
    (distance : FVec) (p k : Nat) :
    Avx2.CosineDistance bits f32 a b size distance p k
      = if k = p then
          max 0 (min 2 (1 -
            (((Avx2.Correlation bits (fun j => a (16 + j)) (fun j => b (16 + j)) size : Int) : ℚ)
                * f32 (a 0 + 256 * a 1 + 65536 * a 2 + 16777216 * a 3)
                * f32 (b 0 + 256 * b 1 + 65536 * b 2 + 16777216 * b 3)
              + f32 (a 8 + 256 * a 9 + 65536 * a 10 + 16777216 * a 11)
                * f32 (b 4 + 256 * b 5 + 65536 * b 6 + 16777216 * b 7)
              + f32 (b 8 + 256 * b 9 + 65536 * b 10 + 16777216 * b 11)
                * f32 (a 4 + 256 * a 5 + 65536 * a 6 + 16777216 * a 7))
            / (f32 (a 12 + 256 * a 13 + 65536 * a 14 + 16777216 * a 15)
                * f32 (b 12 + 256 * b 13 + 65536 * b 14 + 16777216 * b 15))))
        else distance k := by
  simp only [Avx2.CosineDistance, Base.DecodeCosineDistance, RestrictRange, loadF32, u32,
    Nat.add_zero, Nat.mul_zero, Nat.zero_add, Nat.mul_one]
  rfl

/-- C10. `DescrIntInit(size, depth)` returns `NULL` exactly when
`Base::DescrInt::Valid(size, depth)` is false; otherwise it returns a newly constructed
`Avx2::DescrInt` whose size and depth are the arguments. No engine is constructed for an
invalid pair. -/
theorem C10_factory_validates (Valid : Nat → Nat → Bool) (size depth : Nat) :
    (Avx2.DescrIntInit Valid size depth = none ↔ Valid size depth = false)
    ∧ Avx2.DescrIntInit Valid size depth
        = (if Valid size depth = true then some (Avx2.DescrInt.new size depth) else none)
    ∧ (Avx2.DescrInt.new size depth).size = size
    ∧ (Avx2.DescrInt.new size depth).depth = depth := by
  refine ⟨?_, ?_, (DescrInt_new_size size depth).1, (DescrInt_new_size size depth).2⟩
  · unfold Avx2.DescrIntInit
    cases h : Valid size depth <;> simp
  · unfold Avx2.DescrIntInit
    cases h : Valid size depth <;> simp

/-! ## The micro kernels -/

set_option maxRecDepth 100000 in
theorem encode5_overrun_eval :
    (Avx2.Encode32f5 (fun _ => 3) 1 0 24 (fun _ => 255)).2.2 15 = 0
    ∧ (Avx2.Encode16f5 (fun _ => 3) (fun _ => 0) 1 0 24 (fun _ => 255)).2.2 15 = 0
    ∧ (fun _ => 255 : Vec) 15 = 255 ∧ 24 * 5 / 8 = 15 := by
  decide

/-- C5 (failing input). `Encode32f5` and `Encode16f5` on 24 elements: the encoded stream has
`24 * 5 / 8 = 15` bytes, offsets 0..14, and yet the byte at offset 15 of the destination,
`0xFF` before the call, is `0` after it. The 16-byte store of the first loop iteration (a
10-byte payload followed by six zero bytes) reaches offset 15 and only the five bytes 10..14
are rewritten by the last group. -/
theorem C5_encode5_writes_past_the_end :
    (Avx2.Encode32f5 (fun _ => 3) 1 0 24 (fun _ => 255)).2.2 15 = 0
    ∧ (Avx2.Encode16f5 (fun _ => 3) (fun _ => 0) 1 0 24 (fun _ => 255)).2.2 15 = 0
    ∧ (fun _ => 255 : Vec) 15 = 255 ∧ 24 * 5 / 8 = 15 :=
  encode5_overrun_eval

/-! ## Counting loops -/

/-- Invariant rule for `rangeLoop`: an invariant indexed by the loop variable that holds at 0
and is kept by the body holds at `bound` after the loop, when `step` divides `bound`. -/
theorem rangeLoop_inv {σ : Type} (bound step : Nat) (body : Nat → σ → σ) (P : Nat → σ → Prop)
    (hstep : 0 < step) (hdiv : step ∣ bound)
    (hbody : ∀ i t, i + step ≤ bound → step ∣ i → P i t → P (i + step) (body i t))
    (s : σ) (h0 : P 0 s) : P bound (rangeLoop bound step body s) := by
  have key := forLoop_inv (fun t : Nat × σ => t.1) (fun t : Nat × σ => step ∣ t.1 ∧ P t.1 t.2)
    bound step (fun t => (t.1 + step, body t.1 t.2)) (fun t => rfl)
    (fun t ht hlt _ => ⟨Dvd.dvd.add ht.1 (dvd_refl step), hbody t.1 t.2 hlt ht.1 ht.2⟩)
    bound (0, s) (Nat.zero_le _) (by simpa using hdiv)
    (by
      show bound ≤ 0 + bound * step
      have : bound ≤ bound * step := Nat.le_mul_of_pos_right bound hstep
      omega)
    ⟨Nat.dvd_zero step, h0⟩
  obtain ⟨⟨_, k1⟩, k2⟩ := key
  have k2' : (forLoop bound (fun t : Nat × σ => decide (t.1 < bound))
      (fun t => (t.1 + step, body t.1 t.2)) (0, s)).1 = bound := k2
  have k1' : P (forLoop bound (fun t : Nat × σ => decide (t.1 < bound))
      (fun t => (t.1 + step, body t.1 t.2)) (0, s)).1
      (forLoop bound (fun t : Nat × σ => decide (t.1 < bound))
      (fun t => (t.1 + step, body t.1 t.2)) (0, s)).2 := k1
  rw [k2'] at k1'
  exact k1'

/-- Invariant rule for a loop that counts by one. -/
theorem countLoop_inv {σ : Type} (n : Nat) (body : Nat → σ → σ) (P : Nat → σ → Prop)
    (hbody : ∀ i t, i < n → P i t → P (i + 1) (body i t))
    (s : σ) (h0 : P 0 s) : P n (rangeLoop n 1 body s) :=
  rangeLoop_inv n 1 body P (by omega) (Nat.one_dvd n)
    (fun i t hi _ hp => hbody i t (by omega) hp) s h0

/-! ## Scalar helpers and the constructor -/

theorem RestrictRangeInt_mem (x lo hi : Int) (h : lo ≤ hi) :
    lo ≤ RestrictRangeInt x lo hi ∧ RestrictRangeInt x lo hi ≤ hi := by
  simp only [RestrictRangeInt]
  constructor
  · exact le_max_left _ _
  · exact max_le h (min_le_left _ _)

/-- C19. `JpegLoadError(text, type)` returns 0 for every pair of arguments (and every state of
the output stream), so a caller that returns its result reports the failure value 0. -/
theorem C19_jpeg_load_error_returns_zero (text type cout : String) :
    (Base.JpegLoadError text type cout).1 = 0 := by
  rfl

/-- C12. Depth-consistent binding. For every depth `d` in 4..8 the constructor
`Avx2::DescrInt(size, d)` binds the six codec slots to `Encode32f<d>`, `Encode16f<d>`,
`Decode32f<d>`, `Decode16f<d>`, `CosineDistance<d>` and `MacroCosineDistances<d>`: all six
kernels of one object have the code width `d`. -/
theorem C12_depth_consistent_binding (size d : Nat) (h4 : 4 ≤ d) (h8 : d ≤ 8) :
    ((Avx2.DescrInt.new size d)._encode32f = some (Avx2.Kernel.Encode32f d)
      ∧ (Avx2.DescrInt.new size d)._encode16f = some (Avx2.Kernel.Encode16f d)
      ∧ (Avx2.DescrInt.new size d)._decode32f = some (Avx2.Kernel.Decode32f d)
      ∧ (Avx2.DescrInt.new size d)._decode16f = some (Avx2.Kernel.Decode16f d)
      ∧ (Avx2.DescrInt.new size d)._cosineDistance = some (Avx2.Kernel.CosineDistance d)
      ∧ (Avx2.DescrInt.new size d)._macroCosineDistances
          = some (Avx2.Kernel.MacroCosineDistances d))
    ∧ (Avx2.DescrInt.new size d)._encode32f.bind Avx2.Kernel.bits = some d
    ∧ (Avx2.DescrInt.new size d)._encode16f.bind Avx2.Kernel.bits = some d
    ∧ (Avx2.DescrInt.new size d)._decode32f.bind Avx2.Kernel.bits = some d
    ∧ (Avx2.DescrInt.new size d)._decode16f.bind Avx2.Kernel.bits = some d
    ∧ (Avx2.DescrInt.new size d)._cosineDistance.bind Avx2.Kernel.bits = some d
    ∧ (Avx2.DescrInt.new size d)._macroCosineDistances.bind Avx2.Kernel.bits = some d := by
  have h : d = 4 ∨ d = 5 ∨ d = 6 ∨ d = 7 ∨ d = 8 := by omega
  rcases h with h | h | h | h | h <;> subst h <;>
    exact ⟨⟨rfl, rfl, rfl, rfl, rfl, rfl⟩, rfl, rfl, rfl, rfl, rfl, rfl⟩

/-- Witness of C12: the engine of depth 6. -/
theorem C12_depth_consistent_binding_witness :
    ((Avx2.DescrInt.new 256 6)._encode32f = some (Avx2.Kernel.Encode32f 6)
      ∧ (Avx2.DescrInt.new 256 6)._encode16f = some (Avx2.Kernel.Encode16f 6)
      ∧ (Avx2.DescrInt.new 256 6)._decode32f = some (Avx2.Kernel.Decode32f 6)
      ∧ (Avx2.DescrInt.new 256 6)._decode16f = some (Avx2.Kernel.Decode16f 6)
      ∧ (Avx2.DescrInt.new 256 6)._cosineDistance = some (Avx2.Kernel.CosineDistance 6)
      ∧ (Avx2.DescrInt.new 256 6)._macroCosineDistances
          = some (Avx2.Kernel.MacroCosineDistances 6))
    ∧ (Avx2.DescrInt.new 256 6)._encode32f.bind Avx2.Kernel.bits = some 6
    ∧ (Avx2.DescrInt.new 256 6)._encode16f.bind Avx2.Kernel.bits = some 6
    ∧ (Avx2.DescrInt.new 256 6)._decode32f.bind Avx2.Kernel.bits = some 6
    ∧ (Avx2.DescrInt.new 256 6)._decode16f.bind Avx2.Kernel.bits = some 6
    ∧ (Avx2.DescrInt.new 256 6)._cosineDistance.bind Avx2.Kernel.bits = some 6
    ∧ (Avx2.DescrInt.new 256 6)._macroCosineDistances.bind Avx2.Kernel.bits = some 6 :=
  C12_depth_consistent_binding 256 6 (by omega) (by omega)

/-- C11 (counterexample). The factory `DescrIntInit` reports invalid input through its return
value: whatever the validity check `Base::DescrInt::Valid` is, the result is `NULL` exactly
for the pairs the check rejects; for a check that rejects depth 3, `DescrIntInit(8, 3)` is
`NULL`. -/
theorem C11_counterexample_factory_returns_null :
    (∀ (Valid : Nat → Nat → Bool) (size depth : Nat),
      (Avx2.DescrIntInit Valid size depth).isNone = !Valid size depth)
    ∧ Avx2.DescrIntInit (fun _ depth => decide (4 ≤ depth ∧ depth ≤ 8)) 8 3 = none := by
  constructor
  · intro Valid size depth
    unfold Avx2.DescrIntInit
    cases h : Valid size depth <;> simp
  · decide

/-- C11 (amended). Two operations report a failure through their return value rather than
by an assertion: `DescrIntInit(size, depth)` returns `NULL` if and only if
`Base::DescrInt::Valid(size, depth)` is false, and a pointer to an engine otherwise; and
`JpegLoadError` returns the failure code 0 whatever its arguments are. -/
theorem C11_failure_reported_by_return_value (Valid : Nat → Nat → Bool) (size depth : Nat)
    (text type cout : String) :
    (Avx2.DescrIntInit Valid size depth = none ↔ Valid size depth = false)
    ∧ (Avx2.DescrIntInit Valid size depth).isSome = Valid size depth
    ∧ (Base.JpegLoadError text type cout).1 = 0 := by
  refine ⟨?_, ?_, rfl⟩
  · unfold Avx2.DescrIntInit
    cases h : Valid size depth <;> simp
  · unfold Avx2.DescrIntInit
    cases h : Valid size depth <;> simp

/-! ## Rounding error of the quantiser -/

theorem rne_sub_le (x : ℚ) : |(roundNearestEven x : ℚ) - x| ≤ 1 / 2 := by
  have h1 : ((⌊x⌋ : Int) : ℚ) ≤ x := Int.floor_le x
  have h2 : x < ((⌊x⌋ : Int) : ℚ) + 1 := Int.lt_floor_add_one x
  simp only [roundNearestEven]
  split_ifs with a b c
  · rw [abs_le]
    constructor <;> linarith
  · rw [abs_le]
    push_cast
    constructor <;> linarith
  · rw [abs_le]
    constructor <;> linarith
  · rw [abs_le]
    push_cast
    constructor <;> linarith

theorem rne_nonneg (x : ℚ) (h : 0 ≤ x) : 0 ≤ roundNearestEven x := by
  have h0 : (0 : Int) ≤ ⌊x⌋ := Int.floor_nonneg.2 h
  simp only [roundNearestEven]
  split_ifs <;> omega

theorem rne_le (x : ℚ) (n : Int) (h : x ≤ (n : ℚ)) : roundNearestEven x ≤ n := by
  have h0 : ⌊x⌋ ≤ n := by
    have h1 : ((⌊x⌋ : Int) : ℚ) ≤ (n : ℚ) := le_trans (Int.floor_le x) h
    exact_mod_cast h1
  rcases lt_or_eq_of_le h0 with h1 | h1
  · simp only [roundNearestEven]
    split_ifs <;> omega
  · have hx : x = (n : ℚ) := by
      have := Int.floor_le x
      rw [h1] at this
      exact le_antisymm h this
    rw [hx, roundNearestEven_intCast]

/-- The code of a source value inside the quantisation range lies in `[0, 2^bits - 1]` and is
within one half of `(src - min) * scale`. -/
theorem code_in_range (bits : Nat) (hb8 : bits ≤ 8) (src : FVec) (s min : ℚ) (hs : 0 < s)
    (i : Nat) (h0 : min ≤ src i) (h1 : src i ≤ min + (2 ^ bits - 1) / s) :
    (0 ≤ code src s min i ∧ code src s min i < 2 ^ bits)
      ∧ |(code src s min i : ℚ) - (src i - min) * s| ≤ 1 / 2 := by
  have hx0 : 0 ≤ (src i - min) * s := mul_nonneg (by linarith) hs.le
  have hx1 : (src i - min) * s ≤ (((2 ^ bits - 1 : Nat) : Int) : ℚ) := by
    have e : (((2 ^ bits - 1 : Nat) : Int) : ℚ) = (2 : ℚ) ^ bits - 1 := by
      have hp : 1 ≤ 2 ^ bits := Nat.one_le_two_pow
      push_cast [Nat.cast_sub hp]
      ring
    rw [e]
    have h2 : src i - min ≤ (2 ^ bits - 1) / s := by linarith
    calc (src i - min) * s ≤ (2 ^ bits - 1) / s * s := mul_le_mul_of_nonneg_right h2 hs.le
      _ = 2 ^ bits - 1 := div_mul_cancel₀ _ hs.ne'
  have r0 := rne_nonneg _ hx0
  have r1 := rne_le _ _ hx1
  have hp : 1 ≤ 2 ^ bits := Nat.one_le_two_pow
  have h256 : (2 : Nat) ^ bits ≤ 256 := by
    calc (2 : Nat) ^ bits ≤ 2 ^ 8 := Nat.pow_le_pow_right (by omega) hb8
      _ = 256 := by norm_num
  have r2 : roundNearestEven ((src i - min) * s) < 256 := by omega
  have hcode : code src s min i = roundNearestEven ((src i - min) * s) :=
    cvtps_lane_eq _ r0 r2
  rw [hcode]
  refine ⟨⟨r0, ?_⟩, rne_sub_le _⟩
  have : (((2 ^ bits - 1 : Nat) : Int)) < ((2 ^ bits : Nat) : Int) := by omega
  have e2 : ((2 ^ bits : Nat) : Int) = (2 : Int) ^ bits := by push_cast; rfl
  omega

/-- C20. Quantisation round-trip error bound. For every code width `bits` in 4..8, every scale
`s > 0` and every source whose `size` values (`size` a multiple of 8, as the encoder asserts)
satisfy `min <= src i <= min + (2^bits - 1) / s`: decoding the bytes written by
`Encode32f<bits>(src, s, min)` with `Decode32f<bits>(scale = 1 / s, shift = min)` gives at every
index `i < size` a value within `1 / (2 s)` of `src i` (exact arithmetic). -/
theorem C20_round_trip_error_bound (bits : Nat) (hb4 : 4 ≤ bits) (hb8 : bits ≤ 8)
    (src : FVec) (s min : ℚ) (hs : 0 < s) (size : Nat) (dst : Vec) (out : FVec)
    (hsz : size % 8 = 0) (h64 : size < 18446744073709551616) (hd : IsBytes dst)
    (hsrc : ∀ i, i < size → min ≤ src i ∧ src i ≤ min + (2 ^ bits - 1) / s) :
    ∀ i, i < size →
      |Avx2.Decode32fN bits (Avx2.Encode32fN bits src s min size dst).2.2 (1 / s) min size out i
        - src i| ≤ 1 / (2 * s) := by
  intro i hi
  have hpos : 0 < size := by omega
  have hc : ∀ i, i < size → 0 ≤ code src s min i ∧ code src s min i < 2 ^ bits :=
    fun j hj => (code_in_range bits hb8 src s min hs j (hsrc j hj).1 (hsrc j hj).2).1
  have hE := Encode32fN_spec bits hb4 hb8 src s min size dst hsz hpos h64 hd hc
  have hD := Decode32fN_spec bits hb4 hb8 _ hE.1 (1 / s) min size out hsz
  rw [hD.1 i hi, codeAt_encoded bits hb4 hb8 src s min size _ hsz hc hE i hi]
  have hr := (code_in_range bits hb8 src s min hs i (hsrc i hi).1 (hsrc i hi).2).2
  have e0 : (((code src s min i).toNat : Nat) : ℚ) = ((code src s min i : Int) : ℚ) := by
    have := Int.toNat_of_nonneg (hc i hi).1
    exact_mod_cast this
  rw [e0]
  have e1 : ((code src s min i : Int) : ℚ) * (1 / s) + min - src i
      = (((code src s min i : Int) : ℚ) - (src i - min) * s) / s := by
    field_simp
    ring
  rw [e1, abs_div, abs_of_pos hs]
  have e2 : (1 : ℚ) / (2 * s) = (1 / 2) / s := by
    field_simp
  rw [e2]
  exact div_le_div_of_nonneg_right hr hs.le

/-- Witness of C20: sixteen 5-bit codes of the constant source `5/2` with scale 2 and minimum
`1/2`. -/
theorem C20_round_trip_error_bound_witness :
    |Avx2.Decode32fN 5 (Avx2.Encode32fN 5 (fun _ => 5 / 2) 2 (1 / 2) 16 (fun _ => 0)).2.2
        (1 / 2) (1 / 2) 16 (fun _ => 0) 3 - (fun _ => 5 / 2 : FVec) 3| ≤ 1 / (2 * 2) :=
  C20_round_trip_error_bound 5 (by omega) (by omega) (fun _ => 5 / 2) 2 (1 / 2) (by norm_num)
    16 (fun _ => 0) (fun _ => 0) (by omega) (by omega) (IsBytes_const 0 (by omega))
    (fun i _ => by norm_num) 3 (by omega)

/-! ## The tensor quantiser -/

theorem castU8_lt (x : Int) : Base.castU8 x < 256 := by
  simp only [Base.castU8]
  omega

theorem castU8_of_byte (x : Int) (h0 : 0 ≤ x) (h1 : x ≤ 255) : (Base.castU8 x : Int) = x := by
  simp only [Base.castU8]
  omega

theorem qByte_eq (sum : Nat → Int) (bias : Nat → Int) (norm : Nat → ℚ) (zero : Nat → Int)
    (a c : Nat) :
    (qByte sum bias norm zero a c : Int)
      = Base.QuantizeSumLinear (sum a) (bias c) (norm c) (zero c) 0 255 := by
  have h := RestrictRangeInt_mem
    (Base.NearByInt (((sum a + bias c : Int) : ℚ) * norm c) + zero c) 0 255 (by omega)
  exact castU8_of_byte _ h.1 h.2

/-- An element loop `for (i < n) dst[i] = f(i)` at the pointer `p` extends the filled part by
`n` bytes. -/
theorem fill_inner (V : Nat → Nat) (mem0 : Vec) (p n : Nat) (f : Nat → Nat)
    (hf : ∀ w, w < n → f w % 256 = V (p + w)) (m : Vec)
    (h1 : ∀ a, a < p → m a = V a) (h2 : ∀ a, p ≤ a → m a = mem0 a) :
    (∀ a, a < p + n → rangeLoop n 1 (fun w (m : Vec) => store_u8 m (p + w) (f w)) m a = V a)
    ∧ (∀ a, p + n ≤ a →
        rangeLoop n 1 (fun w (m : Vec) => store_u8 m (p + w) (f w)) m a = mem0 a) := by
  apply countLoop_inv n (fun w (m : Vec) => store_u8 m (p + w) (f w))
    (fun w m => (∀ a, a < p + w → m a = V a) ∧ (∀ a, p + w ≤ a → m a = mem0 a))
  · intro i t hi ht
    constructor
    · intro a ha
      simp only [store_u8]
      by_cases e : a = p + i
      · rw [if_pos e, e]
        exact hf i hi
      · rw [if_neg e]
        exact ht.1 a (by omega)
    · intro a ha
      simp only [store_u8]
      have e : ¬ a = p + i := by omega
      rw [if_neg e]
      exact ht.2 a (by omega)
  · exact ⟨h1, h2⟩

theorem row_div (r W w : Nat) (hw : w < W) : (r * W + w) / W = r := by
  rw [Nat.add_comm, Nat.add_mul_div_right _ _ (by omega), Nat.div_eq_of_lt hw, Nat.zero_add]

theorem row_mod (r W w : Nat) (hw : w < W) : (r * W + w) % W = w := by
  rw [Nat.add_comm, Nat.add_mul_mod_self_right, Nat.mod_eq_of_lt hw]

/-- One row of the NCHW tensor. -/
theorem quantizeRowNchw_spec (sum : Nat → Int) (C H W : Nat) (bias : Nat → Int)
    (norm : Nat → ℚ) (zero : Nat → Int) (mem0 : Vec) (r c : Nat) (hc : r / H % C = c)
    (s : QPtr)
    (h : Filled (fun a => qByte sum bias norm zero a (a / W / H % C)) mem0 (r * W) s) :
    Filled (fun a => qByte sum bias norm zero a (a / W / H % C)) mem0 ((r + 1) * W)
      (Base.quantizeRowNchw sum W (bias c) (norm c) (zero c) 0 255 s) := by
  obtain ⟨hs, hd, h1, h2⟩ := h
  have e : (r + 1) * W = r * W + W := by ring
  have key := fill_inner (fun a => qByte sum bias norm zero a (a / W / H % C)) mem0 (r * W) W
    (fun w => Base.castU8 (Base.QuantizeSumLinear (sum (r * W + w)) (bias c) (norm c) (zero c)
      0 255))
    (fun w hw => by
      show _ = qByte sum bias norm zero (r * W + w) ((r * W + w) / W / H % C)
      rw [row_div r W w hw, hc, Nat.mod_eq_of_lt (castU8_lt _)]
      rfl)
    s.mem h1 h2
  refine ⟨?_, ?_, ?_, ?_⟩
  · show s.sum + W = _
    rw [hs, e]
  · show s.dst + W = _
    rw [hd, e]
  · intro a ha
    show rangeLoop W 1 (fun w (m : Vec) => store_u8 m (s.dst + w)
      (Base.castU8 (Base.QuantizeSumLinear (sum (s.sum + w)) (bias c) (norm c) (zero c)
        0 255))) s.mem a = _
    rw [hs, hd]
    exact key.1 a (by omega)
  · intro a ha
    show rangeLoop W 1 (fun w (m : Vec) => store_u8 m (s.dst + w)
      (Base.castU8 (Base.QuantizeSumLinear (sum (s.sum + w)) (bias c) (norm c) (zero c)
        0 255))) s.mem a = _
    rw [hs, hd]
    exact key.2 a (by omega)

/-- One channel of the NCHW tensor: rows `R .. R + H - 1` with `R = (b C + c) H`. -/
theorem quantizeChannelNchw_spec (sum : Nat → Int) (C H W : Nat) (bias : Nat → Int)
    (norm : Nat → ℚ) (zero : Nat → Int) (mem0 : Vec) (b c : Nat) (hc : c < C) (s : QPtr)
    (h : Filled (fun a => qByte sum bias norm zero a (a / W / H % C)) mem0
      (((b * C + c) * H) * W) s) :
    Filled (fun a => qByte sum bias norm zero a (a / W / H % C)) mem0
      (((b * C + (c + 1)) * H) * W)
      (Base.quantizeChannelNchw sum H W bias norm zero 0 255 c s) := by
  have e : ((b * C + (c + 1)) * H) * W = ((b * C + c) * H + H) * W := by ring
  rw [e]
  apply countLoop_inv H
    (fun _ (s : QPtr) => Base.quantizeRowNchw sum W (bias c) (norm c) (zero c) 0 255 s)
    (fun k s => Filled (fun a => qByte sum bias norm zero a (a / W / H % C)) mem0
      (((b * C + c) * H + k) * W) s)
  · intro k t hk ht
    have e2 : ((b * C + c) * H + (k + 1)) * W = ((b * C + c) * H + k + 1) * W := by ring
    rw [e2]
    apply quantizeRowNchw_spec sum C H W bias norm zero mem0 _ c ?_ t ht
    rw [row_div _ H k hk, Nat.add_comm, Nat.add_mul_mod_self_right, Nat.mod_eq_of_lt hc]
  · exact h

/-- One pixel of the NHWC tensor. -/
theorem quantizePixelNhwc_spec (sum : Nat → Int) (C : Nat) (bias : Nat → Int)
    (norm : Nat → ℚ) (zero : Nat → Int) (mem0 : Vec) (q : Nat) (s : QPtr)
    (h : Filled (fun a => qByte sum bias norm zero a (a % C)) mem0 (q * C) s) :
    Filled (fun a => qByte sum bias norm zero a (a % C)) mem0 ((q + 1) * C)
      (Base.quantizePixelNhwc sum C bias norm zero 0 255 s) := by
  obtain ⟨hs, hd, h1, h2⟩ := h
  have e : (q + 1) * C = q * C + C := by ring
  have key := fill_inner (fun a => qByte sum bias norm zero a (a % C)) mem0 (q * C) C
    (fun c => Base.castU8 (Base.QuantizeSumLinear (sum (q * C + c)) (bias c) (norm c) (zero c)
      0 255))
    (fun c hc => by
      show _ = qByte sum bias norm zero (q * C + c) ((q * C + c) % C)
      rw [row_mod q C c hc, Nat.mod_eq_of_lt (castU8_lt _)]
      rfl)
    s.mem h1 h2
  refine ⟨?_, ?_, ?_, ?_⟩
  · show s.sum + C = _
    rw [hs, e]
  · show s.dst + C = _
    rw [hd, e]
  · intro a ha
    show rangeLoop C 1 (fun c (m : Vec) => store_u8 m (s.dst + c)
      (Base.castU8 (Base.QuantizeSumLinear (sum (s.sum + c)) (bias c) (norm c) (zero c)
        0 255))) s.mem a = _
    rw [hs, hd]
    exact key.1 a (by omega)
  · intro a ha
    show rangeLoop C 1 (fun c (m : Vec) => store_u8 m (s.dst + c)
      (Base.castU8 (Base.QuantizeSumLinear (sum (s.sum + c)) (bias c) (norm c) (zero c)
        0 255))) s.mem a = _
    rw [hs, hd]
    exact key.2 a (by omega)

/-- One line of the NHWC tensor: pixels `Q .. Q + W - 1`. -/
theorem quantizeLineNhwc_spec (sum : Nat → Int) (C W : Nat) (bias : Nat → Int)
    (norm : Nat → ℚ) (zero : Nat → Int) (mem0 : Vec) (q : Nat) (s : QPtr)
    (h : Filled (fun a => qByte sum bias norm zero a (a % C)) mem0 (q * C) s) :
    Filled (fun a => qByte sum bias norm zero a (a % C)) mem0 ((q + W) * C)
      (Base.quantizeLineNhwc sum C W bias norm zero 0 255 s) := by
  apply countLoop_inv W
    (fun _ (s : QPtr) => Base.quantizePixelNhwc sum C bias norm zero 0 255 s)
    (fun k s => Filled (fun a => qByte sum bias norm zero a (a % C)) mem0 ((q + k) * C) s)
  · intro k t _ ht
    exact quantizePixelNhwc_spec sum C bias norm zero mem0 (q + k) t ht
  · exact h

/-- The NCHW tensor after the quantiser. -/
theorem QuantizeSumLinearTensor_nchw (sum : Nat → Int) (B C H W : Nat) (bias : Nat → Int)
    (norm : Nat → ℚ) (zero : Nat → Int) (dst : Vec) :
    (∀ a, a < ((B * C) * H) * W →
      Base.QuantizeSumLinearTensor sum B C H W .Nchw bias norm zero dst a
        = qByte sum bias norm zero a (a / W / H % C))
    ∧ (∀ a, ((B * C) * H) * W ≤ a →
      Base.QuantizeSumLinearTensor sum B C H W .Nchw bias norm zero dst a = dst a) := by
  have key := countLoop_inv B
    (fun _ (s : QPtr) => rangeLoop C 1
      (fun c (s : QPtr) => Base.quantizeChannelNchw sum H W bias norm zero 0 255 c s) s)
    (fun b s => Filled (fun a => qByte sum bias norm zero a (a / W / H % C)) dst
      (((b * C) * H) * W) s)
    (fun b t _ ht => by
      have e : (((b + 1) * C) * H) * W = ((b * C + C) * H) * W := by ring
      show Filled (fun a => qByte sum bias norm zero a (a / W / H % C)) dst
        ((((b + 1) * C) * H) * W) (rangeLoop C 1
          (fun c (s : QPtr) => Base.quantizeChannelNchw sum H W bias norm zero 0 255 c s) t)
      rw [e]
      apply countLoop_inv C
        (fun c (s : QPtr) => Base.quantizeChannelNchw sum H W bias norm zero 0 255 c s)
        (fun c s => Filled (fun a => qByte sum bias norm zero a (a / W / H % C)) dst
          (((b * C + c) * H) * W) s)
      · intro c t hc ht
        exact quantizeChannelNchw_spec sum C H W bias norm zero dst b c hc t ht
      · exact ht)
    ⟨0, 0, dst⟩
    ⟨by simp, by simp, fun a ha => by simp at ha, fun a _ => rfl⟩
  obtain ⟨_, _, k1, k2⟩ := key
  exact ⟨k1, k2⟩

/-- The NHWC tensor after the quantiser. -/
theorem QuantizeSumLinearTensor_nhwc (sum : Nat → Int) (B C H W : Nat) (bias : Nat → Int)
    (norm : Nat → ℚ) (zero : Nat → Int) (dst : Vec) :
    (∀ a, a < ((B * H) * W) * C →
      Base.QuantizeSumLinearTensor sum B C H W .Nhwc bias norm zero dst a
        = qByte sum bias norm zero a (a % C))
    ∧ (∀ a, ((B * H) * W) * C ≤ a →
      Base.QuantizeSumLinearTensor sum B C H W .Nhwc bias norm zero dst a = dst a) := by
  have key := countLoop_inv B
    (fun _ (s : QPtr) => rangeLoop H 1
      (fun _ (s : QPtr) => Base.quantizeLineNhwc sum C W bias norm zero 0 255 s) s)
    (fun b s => Filled (fun a => qByte sum bias norm zero a (a % C)) dst
      (((b * H) * W) * C) s)
    (fun b t _ ht => by
      have e : (((b + 1) * H) * W) * C = ((b * H + H) * W) * C := by ring
      show Filled (fun a => qByte sum bias norm zero a (a % C)) dst
        ((((b + 1) * H) * W) * C) (rangeLoop H 1
          (fun _ (s : QPtr) => Base.quantizeLineNhwc sum C W bias norm zero 0 255 s) t)
      rw [e]
      apply countLoop_inv H
        (fun _ (s : QPtr) => Base.quantizeLineNhwc sum C W bias norm zero 0 255 s)
        (fun h s => Filled (fun a => qByte sum bias norm zero a (a % C)) dst
          (((b * H + h) * W) * C) s)
      · intro h t _ ht
        have e2 : ((b * H + (h + 1)) * W) * C = ((b * H + h) * W + W) * C := by ring
        rw [e2]
        exact quantizeLineNhwc_spec sum C W bias norm zero dst _ t ht
      · exact ht)
    ⟨0, 0, dst⟩
    ⟨by simp, by simp, fun a ha => by simp at ha, fun a _ => rfl⟩
  obtain ⟨_, _, k1, k2⟩ := key
  exact ⟨k1, k2⟩

/-- The index of an element of a four-dimensional tensor lies below the size of the tensor. -/
theorem index4_lt (n1 n2 n3 n4 i1 i2 i3 i4 : Nat) (h1 : i1 < n1) (h2 : i2 < n2) (h3 : i3 < n3)
    (h4 : i4 < n4) : ((i1 * n2 + i2) * n3 + i3) * n4 + i4 < ((n1 * n2) * n3) * n4 := by
  have a1 : i1 * n2 + i2 + 1 ≤ n1 * n2 := by
    calc i1 * n2 + i2 + 1 ≤ i1 * n2 + n2 := by omega
      _ = (i1 + 1) * n2 := by ring
      _ ≤ n1 * n2 := Nat.mul_le_mul_right _ h1
  have a2 : (i1 * n2 + i2) * n3 + i3 + 1 ≤ (n1 * n2) * n3 := by
    calc (i1 * n2 + i2) * n3 + i3 + 1 ≤ (i1 * n2 + i2) * n3 + n3 := by omega
      _ = (i1 * n2 + i2 + 1) * n3 := by ring
      _ ≤ (n1 * n2) * n3 := Nat.mul_le_mul_right _ a1
  calc ((i1 * n2 + i2) * n3 + i3) * n4 + i4 < ((i1 * n2 + i2) * n3 + i3) * n4 + n4 := by omega
    _ = ((i1 * n2 + i2) * n3 + i3 + 1) * n4 := by ring
    _ ≤ ((n1 * n2) * n3) * n4 := Nat.mul_le_mul_right _ a2

/-- C17. The tensor `QuantizeSumLinear` applies the per-channel formula in both layouts: for
NCHW the byte at `((b C + c) H + h) W + w`, and for NHWC the byte at `((b H + h) W + w) C + c`,
is `QuantizeSumLinear(sum[same index], bias[c], norm[c], zero[c], 0, 255)` for all `b < batch`,
`c < channels`, `h < height`, `w < width`; every byte at an index
`>= batch * channels * height * width` is left as it was; and when the NHWC sums are the NCHW
sums under the layout permutation, so are the results. -/
theorem C17_tensor_quantize_layouts (sum : Nat → Int) (B C H W : Nat) (bias : Nat → Int)
    (norm : Nat → ℚ) (zero : Nat → Int) (dst : Vec) :
    (∀ b c h w, b < B → c < C → h < H → w < W →
      ((Base.QuantizeSumLinearTensor sum B C H W .Nchw bias norm zero dst
          (((b * C + c) * H + h) * W + w) : Nat) : Int)
        = Base.QuantizeSumLinear (sum (((b * C + c) * H + h) * W + w)) (bias c) (norm c)
            (zero c) 0 255)
    ∧ (∀ b c h w, b < B → c < C → h < H → w < W →
      ((Base.QuantizeSumLinearTensor sum B C H W .Nhwc bias norm zero dst
          (((b * H + h) * W + w) * C + c) : Nat) : Int)
        = Base.QuantizeSumLinear (sum (((b * H + h) * W + w) * C + c)) (bias c) (norm c)
            (zero c) 0 255)
    ∧ (∀ a, B * C * H * W ≤ a →
      Base.QuantizeSumLinearTensor sum B C H W .Nchw bias norm zero dst a = dst a
        ∧ Base.QuantizeSumLinearTensor sum B C H W .Nhwc bias norm zero dst a = dst a)
    ∧ (∀ sum' : Nat → Int,
      (∀ b c h w, b < B → c < C → h < H → w < W →
        sum' (((b * H + h) * W + w) * C + c) = sum (((b * C + c) * H + h) * W + w)) →
      ∀ b c h w, b < B → c < C → h < H → w < W →
        Base.QuantizeSumLinearTensor sum' B C H W .Nhwc bias norm zero dst
            (((b * H + h) * W + w) * C + c)
          = Base.QuantizeSumLinearTensor sum B C H W .Nchw bias norm zero dst
            (((b * C + c) * H + h) * W + w)) := by
  have nchw : ∀ (sum : Nat → Int) b c h w, b < B → c < C → h < H → w < W →
      Base.QuantizeSumLinearTensor sum B C H W .Nchw bias norm zero dst
          (((b * C + c) * H + h) * W + w)
        = qByte sum bias norm zero (((b * C + c) * H + h) * W + w) c := by
    intro sum b c h w hb hc hh hw
    rw [(QuantizeSumLinearTensor_nchw sum B C H W bias norm zero dst).1 _
      (index4_lt B C H W b c h w hb hc hh hw)]
    rw [row_div _ W w hw, row_div _ H h hh, row_mod b C c hc]
  have nhwc : ∀ (sum : Nat → Int) b c h w, b < B → c < C → h < H → w < W →
      Base.QuantizeSumLinearTensor sum B C H W .Nhwc bias norm zero dst
          (((b * H + h) * W + w) * C + c)
        = qByte sum bias norm zero (((b * H + h) * W + w) * C + c) c := by
    intro sum b c h w hb hc hh hw
    rw [(QuantizeSumLinearTensor_nhwc sum B C H W bias norm zero dst).1 _
      (index4_lt B H W C b h w c hb hh hw hc)]
    rw [row_mod _ C c hc]
  refine ⟨?_, ?_, ?_, ?_⟩
  · intro b c h w hb hc hh hw
    rw [nchw sum b c h w hb hc hh hw, qByte_eq]
  · intro b c h w hb hc hh hw
    rw [nhwc sum b c h w hb hc hh hw, qByte_eq]
  · intro a ha
    constructor
    · exact (QuantizeSumLinearTensor_nchw sum B C H W bias norm zero dst).2 a ha
    · apply (QuantizeSumLinearTensor_nhwc sum B C H W bias norm zero dst).2 a
      have e : ((B * H) * W) * C = B * C * H * W := by ring
      rw [e]
      exact ha
  · intro sum' hperm b c h w hb hc hh hw
    rw [nhwc sum' b c h w hb hc hh hw, nchw sum b c h w hb hc hh hw]
    simp only [qByte]
    rw [hperm b c h w hb hc hh hw]

/-! ## The normalize layer -/

/-- An accumulation loop `for (i < n) sum += g(i)`. -/
theorem sumLoop_spec {F : Type} [Field F] (n : Nat) (g : Nat → F) (e : F) :
    rangeLoop n 1 (fun i (acc : F) => acc + g i) e = e + ∑ i ∈ Finset.range n, g i := by
  apply countLoop_inv n (fun i (acc : F) => acc + g i)
    (fun i acc => acc = e + ∑ j ∈ Finset.range i, g j)
  · intro i t _ ht
    rw [ht, Finset.sum_range_succ, add_assoc]
  · simp

/-- An element-wise update loop `for (i < n) buf[i] = g(i, buf[i])`. -/
theorem mapLoop_spec {F : Type} (n : Nat) (g : Nat → F → F) (buf0 : Nat → F) (a : Nat) :
    rangeLoop n 1 (fun i (buf : Nat → F) => storeF buf i (g i (buf i))) buf0 a
      = if a < n then g a (buf0 a) else buf0 a := by
  have key := countLoop_inv n (fun i (buf : Nat → F) => storeF buf i (g i (buf i)))
    (fun i buf => ∀ a, buf a = if a < i then g a (buf0 a) else buf0 a)
    (fun i t _ ht a => by
      simp only [storeF]
      by_cases e : a = i
      · rw [if_pos e, if_pos (by omega), ht i, if_neg (by omega), e]
      · rw [if_neg e, ht a]
        by_cases e2 : a < i
        · rw [if_pos e2, if_pos (by omega)]
        · rw [if_neg e2, if_neg (by omega)])
    buf0 (fun a => by simp)
  exact key a

/-- An element loop `for (i < n) dst[i] = f(i)` at the pointer `p` extends the filled part by
`n` floats. -/
theorem fillN_inner {F : Type} (V : Nat → F) (mem0 : Nat → F) (p n : Nat) (f : Nat → F)
    (hf : ∀ w, w < n → f w = V (p + w)) (m : Nat → F)
    (h1 : ∀ a, a < p → m a = V a) (h2 : ∀ a, p ≤ a → m a = mem0 a) :
    (∀ a, a < p + n →
      rangeLoop n 1 (fun w (m : Nat → F) => storeF m (p + w) (f w)) m a = V a)
    ∧ (∀ a, p + n ≤ a →
        rangeLoop n 1 (fun w (m : Nat → F) => storeF m (p + w) (f w)) m a = mem0 a) := by
  apply countLoop_inv n (fun w (m : Nat → F) => storeF m (p + w) (f w))
    (fun w m => (∀ a, a < p + w → m a = V a) ∧ (∀ a, p + w ≤ a → m a = mem0 a))
  · intro i t hi ht
    constructor
    · intro a ha
      simp only [storeF]
      by_cases e : a = p + i
      · rw [if_pos e, e]
        exact hf i hi
      · rw [if_neg e]
        exact ht.1 a (by omega)
    · intro a ha
      simp only [storeF]
      have e : ¬ a = p + i := by omega
      rw [if_neg e]
      exact ht.2 a (by omega)
  · exact ⟨h1, h2⟩

/-- A block of `n` floats written at the pointers, which then advance by `n`. -/
theorem fillN_block {F : Type} (V : Nat → F) (mem0 : Nat → F) (q n : Nat) (f : Nat → F)
    (hf : ∀ w, w < n → f w = V (q * n + w)) (s : NPtr F)
    (h : FilledN V mem0 (q * n) s) :
    FilledN V mem0 ((q + 1) * n)
      ⟨s.src + n, s.dst + n,
        rangeLoop n 1 (fun w (m : Nat → F) => storeF m (q * n + w) (f w)) s.mem⟩ := by
  obtain ⟨hs, hd, h1, h2⟩ := h
  have e : (q + 1) * n = q * n + n := by ring
  have key := fillN_inner V mem0 (q * n) n f hf s.mem h1 h2
  refine ⟨?_, ?_, ?_, ?_⟩
  · show s.src + n = _
    rw [hs, e]
  · show s.dst + n = _
    rw [hd, e]
  · intro a ha
    exact key.1 a (by omega)
  · intro a ha
    exact key.2 a (by omega)

theorem normChannelNchw_spec {F : Type} [Field F] (src : Nat → F) (V : Nat → F)
    (mem0 : Nat → F) (r S : Nat) (k : F)
    (hV : ∀ sp, sp < S → src (r * S + sp) * k = V (r * S + sp)) (s : NPtr F)
    (h : FilledN V mem0 (r * S) s) :
    FilledN V mem0 ((r + 1) * S) (Base.normChannelNchw src S k s) := by
  have hs := h.1
  have hd := h.2.1
  have key := fillN_block V mem0 r S (fun sp => src (r * S + sp) * k) hV s h
  simp only [Base.normChannelNchw]
  rw [hs, hd]
  rw [hs, hd] at key
  exact key

theorem normChannelNchwBuf_spec {F : Type} [Field F] (src : Nat → F) (V : Nat → F)
    (mem0 : Nat → F) (r S : Nat) (buf : Nat → F) (k : F)
    (hV : ∀ sp, sp < S → src (r * S + sp) * buf sp * k = V (r * S + sp)) (s : NPtr F)
    (h : FilledN V mem0 (r * S) s) :
    FilledN V mem0 ((r + 1) * S) (Base.normChannelNchwBuf src S buf k s) := by
  have hs := h.1
  have hd := h.2.1
  have key := fillN_block V mem0 r S (fun sp => src (r * S + sp) * buf sp * k) hV s h
  simp only [Base.normChannelNchwBuf]
  rw [hs, hd]
  rw [hs, hd] at key
  exact key

theorem normPixelNhwc_spec {F : Type} [Field F] (src : Nat → F) (scale : Nat → F)
    (V : Nat → F) (mem0 : Nat → F) (q C : Nat) (k : F)
    (hV : ∀ c, c < C → src (q * C + c) * scale c * k = V (q * C + c)) (s : NPtr F)
    (h : FilledN V mem0 (q * C) s) :
    FilledN V mem0 ((q + 1) * C) (Base.normPixelNhwc src C scale k s) := by
  have hs := h.1
  have hd := h.2.1
  have key := fillN_block V mem0 q C (fun c => src (q * C + c) * scale c * k) hV s h
  simp only [Base.normPixelNhwc]
  rw [hs, hd]
  rw [hs, hd] at key
  exact key

theorem normBatchNchwAcross_spec {F : Type} [Field F] (sqrt : F → F) (src scale : Nat → F)
    (eps0 : F) (C S : Nat) (mem0 : Nat → F) (b : Nat) (s : NPtr F)
    (h : FilledN (normV1 sqrt src scale eps0 C S) mem0 (b * C * S) s) :
    FilledN (normV1 sqrt src scale eps0 C S) mem0 ((b + 1) * C * S)
      (Base.normBatchNchwAcross sqrt src C S scale eps0 s) := by
  have hs := h.1
  simp only [Base.normBatchNchwAcross]
  rw [sumLoop_spec, hs]
  have e : (b + 1) * C * S = (b * C + C) * S := by ring
  rw [e]
  apply countLoop_inv C
    (fun c (s : NPtr F) => Base.normChannelNchw src S (scale c
      * (1 / sqrt (eps0 + ∑ i ∈ Finset.range (C * S), Square (src (b * C * S + i))))) s)
    (fun c s => FilledN (normV1 sqrt src scale eps0 C S) mem0 ((b * C + c) * S) s)
  · intro c t hc ht
    apply normChannelNchw_spec src _ mem0 (b * C + c) S _ ?_ t ht
    intro sp hsp
    simp only [normV1]
    rw [row_div _ S sp hsp, row_div b C c hc, row_mod b C c hc]
  · show FilledN _ mem0 ((b * C + 0) * S) s
    rw [Nat.add_zero]
    exact h

theorem normBatchNhwcAcross_spec {F : Type} [Field F] (sqrt : F → F) (src scale : Nat → F)
    (eps0 : F) (C S : Nat) (mem0 : Nat → F) (b : Nat) (s : NPtr F)
    (h : FilledN (normV3 sqrt src scale eps0 C S) mem0 (b * S * C) s) :
    FilledN (normV3 sqrt src scale eps0 C S) mem0 ((b + 1) * S * C)
      (Base.normBatchNhwcAcross sqrt src C S scale eps0 s) := by
  have hs := h.1
  simp only [Base.normBatchNhwcAcross]
  rw [sumLoop_spec, hs]
  have e : (b + 1) * S * C = (b * S + S) * C := by ring
  rw [e]
  apply countLoop_inv S
    (fun _ (s : NPtr F) => Base.normPixelNhwc src C scale
      (1 / sqrt (eps0 + ∑ i ∈ Finset.range (C * S), Square (src (b * S * C + i)))) s)
    (fun sp s => FilledN (normV3 sqrt src scale eps0 C S) mem0 ((b * S + sp) * C) s)
  · intro sp t hsp ht
    apply normPixelNhwc_spec src scale _ mem0 (b * S + sp) C _ ?_ t ht
    intro c hc
    simp only [normV3]
    rw [row_div _ C c hc, row_div b S sp hsp, row_mod _ C c hc]
  · show FilledN _ mem0 ((b * S + 0) * C) s
    rw [Nat.add_zero]
    exact h

theorem normPositionNhwc_spec {F : Type} [Field F] (sqrt : F → F) (src scale : Nat → F)
    (eps0 : F) (C : Nat) (mem0 : Nat → F) (q : Nat) (s : NPtr F)
    (h : FilledN (normV4 sqrt src scale eps0 C) mem0 (q * C) s) :
    FilledN (normV4 sqrt src scale eps0 C) mem0 ((q + 1) * C)
      (Base.normPositionNhwc sqrt src C scale eps0 s) := by
  have hs := h.1
  simp only [Base.normPositionNhwc]
  rw [sumLoop_spec, hs]
  apply normPixelNhwc_spec src scale _ mem0 q C _ ?_ s h
  intro c hc
  simp only [normV4]
  rw [row_div _ C c hc, row_mod _ C c hc]

/-- The scratch buffer of the NCHW layer per spatial position, after its three passes. -/
theorem normBuf_spec {F : Type} [Field F] (sqrt : F → F) (src : Nat → F) (eps0 : F)
    (C S p : Nat) (buf0 : Nat → F) (sp : Nat) (hsp : sp < S) :
    rangeLoop S 1 (fun sp (buf : Nat → F) => storeF buf sp (1 / sqrt (buf sp)))
      (rangeLoop C 1 (fun c (buf : Nat → F) =>
        rangeLoop S 1 (fun sp (buf : Nat → F) =>
          storeF buf sp (buf sp + Square (src (p + c * S + sp)))) buf)
        (rangeLoop S 1 (fun sp (buf : Nat → F) => storeF buf sp eps0) buf0)) sp
      = 1 / sqrt (eps0 + ∑ c ∈ Finset.range C, Square (src (p + c * S + sp))) := by
  rw [mapLoop_spec S (fun _ x => 1 / sqrt x), if_pos hsp]
  have key := countLoop_inv C
    (fun c (buf : Nat → F) =>
        rangeLoop S 1 (fun sp (buf : Nat → F) =>
          storeF buf sp (buf sp + Square (src (p + c * S + sp)))) buf)
    (fun c buf => ∀ a, a < S →
      buf a = eps0 + ∑ j ∈ Finset.range c, Square (src (p + j * S + a)))
    (fun c t _ ht a ha => by
      show rangeLoop S 1 (fun sp (buf : Nat → F) =>
          storeF buf sp (buf sp + Square (src (p + c * S + sp)))) t a = _
      rw [mapLoop_spec S (fun sp x => x + Square (src (p + c * S + sp))), if_pos ha, ht a ha,
        Finset.sum_range_succ, add_assoc])
    (rangeLoop S 1 (fun sp (buf : Nat → F) => storeF buf sp eps0) buf0)
    (fun a ha => by
      rw [mapLoop_spec S (fun _ _ => eps0), if_pos ha]
      simp)
  rw [key sp hsp]

theorem normBatchNchw_spec {F : Type} [Field F] (sqrt : F → F) (src scale : Nat → F)
    (eps0 : F) (C S : Nat) (mem0 : Nat → F) (b : Nat) (t : NPtr F × (Nat → F))
    (h : FilledN (normV2 sqrt src scale eps0 C S) mem0 (b * C * S) t.1) :
    FilledN (normV2 sqrt src scale eps0 C S) mem0 ((b + 1) * C * S)
      (Base.normBatchNchw sqrt src C S scale eps0 t).1 := by
  have hs := h.1
  simp only [Base.normBatchNchw]
  have e : (b + 1) * C * S = (b * C + C) * S := by ring
  rw [e]
  apply countLoop_inv C
    (fun c (s : NPtr F) => Base.normChannelNchwBuf src S
      (rangeLoop S 1 (fun sp (buf : Nat → F) => storeF buf sp (1 / sqrt (buf sp)))
        (rangeLoop C 1 (fun c (buf : Nat → F) =>
          rangeLoop S 1 (fun sp (buf : Nat → F) =>
            storeF buf sp (buf sp + Square (src (t.1.src + c * S + sp)))) buf)
          (rangeLoop S 1 (fun sp (buf : Nat → F) => storeF buf sp eps0) t.2)))
      (scale c) s)
    (fun c s => FilledN (normV2 sqrt src scale eps0 C S) mem0 ((b * C + c) * S) s)
  · intro c u hc hu
    apply normChannelNchwBuf_spec src _ mem0 (b * C + c) S _ _ ?_ u hu
    intro sp hsp
    rw [normBuf_spec sqrt src eps0 C S t.1.src t.2 sp hsp, hs]
    simp only [normV2]
    rw [row_div _ S sp hsp, row_div b C c hc, row_mod b C c hc, row_mod _ S sp hsp]
  · show FilledN _ mem0 ((b * C + 0) * S) t.1
    rw [Nat.add_zero]
    exact h

theorem FilledN_init {F : Type} (V : Nat → F) (dst : Nat → F) :
    FilledN V dst 0 ⟨0, 0, dst⟩ :=
  ⟨rfl, rfl, fun a ha => absurd ha (Nat.not_lt_zero a), fun _ _ => rfl⟩

/-- The four variants of the layer: what every float of the destination holds. -/
theorem SynetNormalize_filled {F : Type} [Field F] (sqrt : F → F) (src : Nat → F)
    (B C S : Nat) (scale eps : Nat → F) (buf : Option (Nat → F)) (dst : Nat → F) :
    (∀ a, a < B * C * S →
      Base.SynetNormalizeLayerForward sqrt src B C S scale eps true .Nchw buf dst a
        = normV1 sqrt src scale (eps 0) C S a)
    ∧ (∀ a, a < B * C * S →
      Base.SynetNormalizeLayerForward sqrt src B C S scale eps false .Nchw buf dst a
        = normV2 sqrt src scale (eps 0) C S a)
    ∧ (∀ a, a < B * S * C →
      Base.SynetNormalizeLayerForward sqrt src B C S scale eps true .Nhwc buf dst a
        = normV3 sqrt src scale (eps 0) C S a)
    ∧ (∀ a, a < B * S * C →
      Base.SynetNormalizeLayerForward sqrt src B C S scale eps false .Nhwc buf dst a
        = normV4 sqrt src scale (eps 0) C a) := by
  refine ⟨?_, ?_, ?_, ?_⟩
  · have key := countLoop_inv B
      (fun _ (s : NPtr F) => Base.normBatchNchwAcross sqrt src C S scale (eps 0) s)
      (fun b s => FilledN (normV1 sqrt src scale (eps 0) C S) dst (b * C * S) s)
      (fun b t _ ht => normBatchNchwAcross_spec sqrt src scale (eps 0) C S dst b t ht)
      ⟨0, 0, dst⟩ (by
        show FilledN _ dst (0 * C * S) _
        rw [Nat.zero_mul, Nat.zero_mul]
        exact FilledN_init _ dst)
    exact key.2.2.1
  · have key := countLoop_inv B
      (fun _ (t : NPtr F × (Nat → F)) => Base.normBatchNchw sqrt src C S scale (eps 0) t)
      (fun b t => FilledN (normV2 sqrt src scale (eps 0) C S) dst (b * C * S) t.1)
      (fun b t _ ht => normBatchNchw_spec sqrt src scale (eps 0) C S dst b t ht)
      (⟨0, 0, dst⟩, match buf with
        | none => fun _ => 0
        | some b => b) (by
        show FilledN _ dst (0 * C * S) _
        rw [Nat.zero_mul, Nat.zero_mul]
        exact FilledN_init _ dst)
    exact key.2.2.1
  · have key := countLoop_inv B
      (fun _ (s : NPtr F) => Base.normBatchNhwcAcross sqrt src C S scale (eps 0) s)
      (fun b s => FilledN (normV3 sqrt src scale (eps 0) C S) dst (b * S * C) s)
      (fun b t _ ht => normBatchNhwcAcross_spec sqrt src scale (eps 0) C S dst b t ht)
      ⟨0, 0, dst⟩ (by
        show FilledN _ dst (0 * S * C) _
        rw [Nat.zero_mul, Nat.zero_mul]
        exact FilledN_init _ dst)
    exact key.2.2.1
  · have key := countLoop_inv B
      (fun _ (s : NPtr F) => rangeLoop S 1 (fun _ (s : NPtr F) =>
        Base.normPositionNhwc sqrt src C scale (eps 0) s) s)
      (fun b s => FilledN (normV4 sqrt src scale (eps 0) C) dst (b * S * C) s)
      (fun b t _ ht => by
        have e : (b + 1) * S * C = (b * S + S) * C := by ring
        show FilledN (normV4 sqrt src scale (eps 0) C) dst ((b + 1) * S * C)
          (rangeLoop S 1 (fun _ (s : NPtr F) =>
            Base.normPositionNhwc sqrt src C scale (eps 0) s) t)
        rw [e]
        apply countLoop_inv S
          (fun _ (s : NPtr F) => Base.normPositionNhwc sqrt src C scale (eps 0) s)
          (fun sp s => FilledN (normV4 sqrt src scale (eps 0) C) dst ((b * S + sp) * C) s)
        · intro sp u _ hu
          exact normPositionNhwc_spec sqrt src scale (eps 0) C dst (b * S + sp) u hu
        · show FilledN _ dst ((b * S + 0) * C) t
          rw [Nat.add_zero]
          exact ht)
      ⟨0, 0, dst⟩ (by
        show FilledN _ dst (0 * S * C) _
        rw [Nat.zero_mul, Nat.zero_mul]
        exact FilledN_init _ dst)
    exact key.2.2.1

theorem index3_lt (n1 n2 n3 i1 i2 i3 : Nat) (h1 : i1 < n1) (h2 : i2 < n2) (h3 : i3 < n3) :
    (i1 * n2 + i2) * n3 + i3 < n1 * n2 * n3 := by
  have a1 : i1 * n2 + i2 + 1 ≤ n1 * n2 := by
    calc i1 * n2 + i2 + 1 ≤ i1 * n2 + n2 := by omega
      _ = (i1 + 1) * n2 := by ring
      _ ≤ n1 * n2 := Nat.mul_le_mul_right _ h1
  calc (i1 * n2 + i2) * n3 + i3 < (i1 * n2 + i2) * n3 + n3 := by omega
    _ = (i1 * n2 + i2 + 1) * n3 := by ring
    _ ≤ n1 * n2 * n3 := Nat.mul_le_mul_right _ a1

/-- A sum over `n * m` consecutive indices, block by block. -/
theorem sum_range_mul_block {F : Type} [Field F] (n m : Nat) (g : Nat → F) :
    ∑ i ∈ Finset.range (n * m), g i
      = ∑ k ∈ Finset.range n, ∑ j ∈ Finset.range m, g (k * m + j) := by
  induction n with
  | zero => simp
  | succ n ih =>
    have e : (n + 1) * m = n * m + m := by ring
    rw [e, Finset.sum_range_add, ih, Finset.sum_range_succ]

theorem Square_eq {F : Type} [Field F] (y : F) : Square y = y ^ 2 := by
  simp only [Square]
  ring

/-- C18. `SynetNormalizeLayerForward` computes, in exact arithmetic over any field with any
square root function (so in particular over the reals),
`dst(b, c, s) = src(b, c, s) * scale[c] / sqrt(eps[0] + sum over G of src^2)` for all
`b < batch`, `c < channels`, `s < spatial`, where `G` is the set of all channels at position `s`
of batch `b` when `acrossSpatial` is false and the set of all channels and positions of batch
`b` when it is true. The tensor `x b c s` is stored at index `(b C + c) S + s` in the NCHW
layout and at `(b S + s) C + c` in the NHWC layout, and the value is the same in both. -/
theorem C18_normalize_layer {F : Type} [Field F] (sqrt : F → F) (x : Nat → Nat → Nat → F)
    (srcN srcH : Nat → F) (B C S : Nat) (scale eps : Nat → F) (buf : Option (Nat → F))
    (dst : Nat → F)
    (hN : ∀ b c s, b < B → c < C → s < S → srcN ((b * C + c) * S + s) = x b c s)
    (hH : ∀ b c s, b < B → c < C → s < S → srcH ((b * S + s) * C + c) = x b c s) :
    ∀ b c s, b < B → c < C → s < S →
      Base.SynetNormalizeLayerForward sqrt srcN B C S scale eps false .Nchw buf dst
          ((b * C + c) * S + s)
        = x b c s * scale c / sqrt (eps 0 + ∑ c' ∈ Finset.range C, x b c' s ^ 2)
      ∧ Base.SynetNormalizeLayerForward sqrt srcN B C S scale eps true .Nchw buf dst
          ((b * C + c) * S + s)
        = x b c s * scale c
            / sqrt (eps 0 + ∑ c' ∈ Finset.range C, ∑ s' ∈ Finset.range S, x b c' s' ^ 2)
      ∧ Base.SynetNormalizeLayerForward sqrt srcH B C S scale eps false .Nhwc buf dst
          ((b * S + s) * C + c)
        = x b c s * scale c / sqrt (eps 0 + ∑ c' ∈ Finset.range C, x b c' s ^ 2)
      ∧ Base.SynetNormalizeLayerForward sqrt srcH B C S scale eps true .Nhwc buf dst
          ((b * S + s) * C + c)
        = x b c s * scale c
            / sqrt (eps 0 + ∑ c' ∈ Finset.range C, ∑ s' ∈ Finset.range S, x b c' s' ^ 2) := by
  intro b c s hb hc hs
  have hf := SynetNormalize_filled sqrt srcN B C S scale eps buf dst
  have hg := SynetNormalize_filled sqrt srcH B C S scale eps buf dst
  have iN := index3_lt B C S b c s hb hc hs
  have iH := index3_lt B S C b s c hb hs hc
  refine ⟨?_, ?_, ?_, ?_⟩
  · rw [hf.2.1 _ iN]
    simp only [normV2]
    rw [row_div _ S s hs, row_div b C c hc, row_mod b C c hc, row_mod _ S s hs,
      hN b c s hb hc hs]
    have e : ∑ c' ∈ Finset.range C, Square (srcN (b * C * S + c' * S + s))
        = ∑ c' ∈ Finset.range C, x b c' s ^ 2 := by
      apply Finset.sum_congr rfl
      intro c' hc'
      have e1 : b * C * S + c' * S + s = (b * C + c') * S + s := by ring
      rw [e1, hN b c' s hb (Finset.mem_range.1 hc') hs, Square_eq]
    rw [e]
    ring
  · rw [hf.1 _ iN]
    simp only [normV1]
    rw [row_div _ S s hs, row_div b C c hc, row_mod b C c hc, hN b c s hb hc hs]
    have e : ∑ i ∈ Finset.range (C * S), Square (srcN (b * C * S + i))
        = ∑ c' ∈ Finset.range C, ∑ s' ∈ Finset.range S, x b c' s' ^ 2 := by
      rw [sum_range_mul_block C S]
      apply Finset.sum_congr rfl
      intro c' hc'
      apply Finset.sum_congr rfl
      intro s' hs'
      have e1 : b * C * S + (c' * S + s') = (b * C + c') * S + s' := by ring
      rw [e1, hN b c' s' hb (Finset.mem_range.1 hc') (Finset.mem_range.1 hs'), Square_eq]
    rw [e]
    ring
  · rw [hg.2.2.2 _ iH]
    simp only [normV4]
    rw [row_div _ C c hc, row_mod _ C c hc, hH b c s hb hc hs]
    have e : ∑ c' ∈ Finset.range C, Square (srcH ((b * S + s) * C + c'))
        = ∑ c' ∈ Finset.range C, x b c' s ^ 2 := by
      apply Finset.sum_congr rfl
      intro c' hc'
      rw [hH b c' s hb (Finset.mem_range.1 hc') hs, Square_eq]
    rw [e]
    ring
  · rw [hg.2.2.1 _ iH]
    simp only [normV3]
    rw [row_div _ C c hc, row_div b S s hs, row_mod _ C c hc, hH b c s hb hc hs]
    have e : ∑ i ∈ Finset.range (C * S), Square (srcH (b * S * C + i))
        = ∑ c' ∈ Finset.range C, ∑ s' ∈ Finset.range S, x b c' s' ^ 2 := by
      rw [Nat.mul_comm C S, sum_range_mul_block S C, Finset.sum_comm]
      apply Finset.sum_congr rfl
      intro c' hc'
      apply Finset.sum_congr rfl
      intro s' hs'
      have e1 : b * S * C + (s' * C + c') = (b * S + s') * C + c' := by ring
      rw [e1, hH b c' s' hb (Finset.mem_range.1 hc') (Finset.mem_range.1 hs'), Square_eq]
    rw [e]
    ring

/-- Witness of C18: the constant tensor 1 of shape 2 x 3 x 4 over the rationals, with the
identity in place of the square root. -/
theorem C18_normalize_layer_witness :
    Base.SynetNormalizeLayerForward (fun y : ℚ => y) (fun _ => 1) 2 3 4 (fun _ => 2)
          (fun _ => 1) false .Nchw none (fun _ => 0) ((1 * 3 + 2) * 4 + 3)
        = (fun _ _ _ => (1 : ℚ)) 1 2 3 * (fun _ => (2 : ℚ)) 2
          / (fun y : ℚ => y) ((fun _ => (1 : ℚ)) 0
            + ∑ c' ∈ Finset.range 3, (fun _ _ _ => (1 : ℚ)) 1 c' 3 ^ 2)
      ∧ Base.SynetNormalizeLayerForward (fun y : ℚ => y) (fun _ => 1) 2 3 4 (fun _ => 2)
          (fun _ => 1) true .Nchw none (fun _ => 0) ((1 * 3 + 2) * 4 + 3)
        = (fun _ _ _ => (1 : ℚ)) 1 2 3 * (fun _ => (2 : ℚ)) 2
          / (fun y : ℚ => y) ((fun _ => (1 : ℚ)) 0
            + ∑ c' ∈ Finset.range 3, ∑ s' ∈ Finset.range 4,
              (fun _ _ _ => (1 : ℚ)) 1 c' s' ^ 2)
      ∧ Base.SynetNormalizeLayerForward (fun y : ℚ => y) (fun _ => 1) 2 3 4 (fun _ => 2)
          (fun _ => 1) false .Nhwc none (fun _ => 0) ((1 * 4 + 3) * 3 + 2)
        = (fun _ _ _ => (1 : ℚ)) 1 2 3 * (fun _ => (2 : ℚ)) 2
          / (fun y : ℚ => y) ((fun _ => (1 : ℚ)) 0
            + ∑ c' ∈ Finset.range 3, (fun _ _ _ => (1 : ℚ)) 1 c' 3 ^ 2)
      ∧ Base.SynetNormalizeLayerForward (fun y : ℚ => y) (fun _ => 1) 2 3 4 (fun _ => 2)
          (fun _ => 1) true .Nhwc none (fun _ => 0) ((1 * 4 + 3) * 3 + 2)
        = (fun _ _ _ => (1 : ℚ)) 1 2 3 * (fun _ => (2 : ℚ)) 2
          / (fun y : ℚ => y) ((fun _ => (1 : ℚ)) 0
            + ∑ c' ∈ Finset.range 3, ∑ s' ∈ Finset.range 4,
              (fun _ _ _ => (1 : ℚ)) 1 c' s' ^ 2) :=
  C18_normalize_layer (fun y : ℚ => y) (fun _ _ _ => 1) (fun _ => 1) (fun _ => 1) 2 3 4
    (fun _ => 2) (fun _ => 1) none (fun _ => 0) (fun _ _ _ _ _ _ => rfl)
    (fun _ _ _ _ _ _ => rfl) 1 2 3 (by omega) (by omega) (by omega)

/-! ## YUV to BGRA: registers and blocks -/

theorem exampleTraits_valid : exampleTraits.Valid := by
  refine ⟨?_, ?_, ?_, ?_, ?_⟩
  · intro x
    show x % 256 < 65536
    omega
  · intro x
    show x % 256 < 65536
    omega
  · intro a b
    show (a + b) % 256 < 256
    omega
  · intro a b c
    show (a + b + c) % 256 < 256
    omega
  · intro a b
    show (a + 2 * b) % 256 < 256
    omega

theorem Fill_refl (val : Nat → Nat) (m : Vec) : Fill (fun _ => False) val m m :=
  fun _ => ⟨fun h => h.elim, fun _ => rfl⟩

theorem Fill_iff (R R2 : Nat → Prop) (val : Nat → Nat) (m0 m : Vec) (h : Fill R val m0 m)
    (hR : ∀ a, R2 a ↔ R a) : Fill R2 val m0 m :=
  fun a => ⟨fun h2 => (h a).1 ((hR a).1 h2), fun h2 => (h a).2 (fun h3 => h2 ((hR a).2 h3))⟩

theorem Fill_congr (R : Nat → Prop) (val val2 : Nat → Nat) (m0 m : Vec) (h : Fill R val m0 m)
    (hv : ∀ a, R a → val a = val2 a) : Fill R val2 m0 m :=
  fun a => ⟨fun h2 => ((h a).1 h2).trans (hv a h2), (h a).2⟩

/-- A second write extends the filled region; where both wrote, the second value counts. -/
theorem Fill_union (R R2 : Nat → Prop) (val : Nat → Nat) (m0 m m2 : Vec)
    (h : Fill R val m0 m) (h2 : Fill R2 val m m2) : Fill (fun a => R a ∨ R2 a) val m0 m2 := by
  intro a
  by_cases hr2 : R2 a
  · exact ⟨fun _ => (h2 a).1 hr2, fun hn => (hn (Or.inr hr2)).elim⟩
  · refine ⟨fun hor => ?_, fun hn => ?_⟩
    · rcases hor with hr | hr
      · exact ((h2 a).2 hr2).trans ((h a).1 hr)
      · exact (hr2 hr).elim
    · exact ((h2 a).2 hr2).trans ((h a).2 (fun hr => hn (Or.inl hr)))

/-- A write to the region `R2` with the values `val2`, which agree with `val` there, turns
the filled region `R` into `R3 = R ∪ R2`. -/
theorem Fill_step (R R2 R3 : Nat → Prop) (val val2 : Nat → Nat) (m0 m m2 : Vec)
    (h : Fill R val m0 m) (h2 : Fill R2 val2 m m2) (hv : ∀ a, R2 a → val2 a = val a)
    (h3 : ∀ a, R3 a ↔ (R a ∨ R2 a)) : Fill R3 val m0 m2 :=
  Fill_iff _ R3 val m0 m2 (Fill_union R R2 val m0 m m2 h (Fill_congr R2 val2 val m m2 h2 hv)) h3

theorem ofU16_even (f : Nat → Nat) (k : Nat) (h : f k < 256) : ofU16 f (2 * k) = f k := by
  simp only [ofU16]
  have h1 : 2 * k / 2 = k := by omega
  have h2 : 2 * k % 2 = 0 := by omega
  rw [h1, h2, pow_zero, Nat.div_one]
  omega

theorem ofU16_odd (f : Nat → Nat) (k : Nat) (h : f k < 256) : ofU16 f (2 * k + 1) = 0 := by
  simp only [ofU16]
  have h1 : (2 * k + 1) / 2 = k := by omega
  have h2 : (2 * k + 1) % 2 = 1 := by omega
  rw [h1, h2, pow_one]
  omega

/-- The bytes of `b16 | (g16 << 8 bits)`: the low bytes of the lanes of `b16` alternate with
the low bytes of the lanes of `g16`. -/
theorem byte_pair (f g : Nat → Nat) (hf : ∀ k, f k < 256) (hg : ∀ k, g k < 256) (k : Nat) :
    _mm_or_si128 (ofU16 f) (_mm_slli_si128 (ofU16 g) 1) (2 * k) = f k
    ∧ _mm_or_si128 (ofU16 f) (_mm_slli_si128 (ofU16 g) 1) (2 * k + 1) = g k := by
  constructor
  · simp only [_mm_or_si128, _mm_slli_si128]
    rw [ofU16_even f k (hf k)]
    by_cases h0 : 2 * k < 1
    · rw [if_pos h0, Nat.or_zero]
    · rw [if_neg h0]
      have e : 2 * k - 1 = 2 * (k - 1) + 1 := by omega
      rw [e, ofU16_odd g (k - 1) (hg _), Nat.or_zero]
  · simp only [_mm_or_si128, _mm_slli_si128]
    have h0 : ¬ 2 * k + 1 < 1 := by omega
    have e : 2 * k + 1 - 1 = 2 * k := by omega
    rw [if_neg h0, e, ofU16_odd f k (hf k), ofU16_even g k (hg k), Nat.zero_or]

/-- The bytes of `r16 | (a16 << 8 bits)` when `a16 = UnpackU8<part>(a)`. -/
theorem byte_pair_alpha (f : Nat → Nat) (hf : ∀ k, f k < 256) (part : Nat) (a : Vec)
    (k : Nat) :
    _mm_or_si128 (ofU16 f) (_mm_slli_si128 (Sse41.UnpackU8 part a) 1) (2 * k) = f k
    ∧ _mm_or_si128 (ofU16 f) (_mm_slli_si128 (Sse41.UnpackU8 part a) 1) (2 * k + 1)
      = a ((if part = 0 then 0 else 8) + k) := by
  constructor
  · simp only [_mm_or_si128, _mm_slli_si128]
    rw [ofU16_even f k (hf k)]
    by_cases h0 : 2 * k < 1
    · rw [if_pos h0, Nat.or_zero]
    · rw [if_neg h0]
      have e : ¬ (2 * k - 1) % 2 = 0 := by omega
      by_cases hp : part = 0
      · simp only [Sse41.UnpackU8, if_pos hp, _mm_unpacklo_epi8, if_neg e, Sse41.K_ZERO,
          Nat.or_zero]
      · simp only [Sse41.UnpackU8, if_neg hp, _mm_unpackhi_epi8, if_neg e, Sse41.K_ZERO,
          Nat.or_zero]
  · simp only [_mm_or_si128, _mm_slli_si128]
    have h0 : ¬ 2 * k + 1 < 1 := by omega
    have e : 2 * k + 1 - 1 = 2 * k := by omega
    have e2 : 2 * k % 2 = 0 := by omega
    have e3 : 2 * k / 2 = k := by omega
    rw [if_neg h0, e, ofU16_odd f k (hf k), Nat.zero_or]
    by_cases hp : part = 0
    · simp only [Sse41.UnpackU8, if_pos hp, _mm_unpacklo_epi8, e2, e3, if_true, Nat.zero_add]
    · simp only [Sse41.UnpackU8, if_neg hp, _mm_unpackhi_epi8, e2, e3, if_true]

/-- The two stores of `_mm_unpacklo_epi16(bg8, ra8)` and `_mm_unpackhi_epi16(bg8, ra8)` write
eight pixels: pixel `k` is the byte pair `k` of `bg8` followed by the byte pair `k` of
`ra8`. -/
theorem store_pixels (bg8 ra8 : Vec) (B G R Al : Nat → Nat)
    (hbg : ∀ k, bg8 (2 * k) = B k ∧ bg8 (2 * k + 1) = G k)
    (hra : ∀ k, ra8 (2 * k) = R k ∧ ra8 (2 * k + 1) = Al k) (m : Vec) (p : Nat) :
    Fill (fun a => p ≤ a ∧ a < p + 32)
      (fun a => sel4 (B ((a - p) / 4)) (G ((a - p) / 4)) (R ((a - p) / 4)) (Al ((a - p) / 4))
        ((a - p) % 4)) m
      (_mm_storeu_si128 (_mm_storeu_si128 m (p + 16 * 0) (_mm_unpacklo_epi16 bg8 ra8))
        (p + 16 * 1) (_mm_unpackhi_epi16 bg8 ra8)) := by
  intro a
  constructor
  · intro ha
    obtain ⟨k, c, hc, rfl⟩ : ∃ k c, c < 4 ∧ a = p + (4 * k + c) :=
      ⟨(a - p) / 4, (a - p) % 4, by omega, by omega⟩
    have hk : k < 8 := by omega
    have e1 : (p + (4 * k + c) - p) / 4 = k := by omega
    have e2 : (p + (4 * k + c) - p) % 4 = c := by omega
    simp only [e1, e2]
    by_cases hlo : k < 4
    · have c1 : ¬ (p + 16 * 1 ≤ p + (4 * k + c) ∧ p + (4 * k + c) < p + 16 * 1 + 16) := by
        omega
      have c0 : p + 16 * 0 ≤ p + (4 * k + c) ∧ p + (4 * k + c) < p + 16 * 0 + 16 := by omega
      have e3 : p + (4 * k + c) - (p + 16 * 0) = 4 * k + c := by omega
      have e4 : (4 * k + c) % 4 = c := by omega
      have e5 : (4 * k + c) / 4 = k := by omega
      simp only [_mm_storeu_si128, if_neg c1, if_pos c0, e3, _mm_unpacklo_epi16, e4, e5]
      interval_cases c
      · simp [sel4, (hbg k).1]
      · simp [sel4, (hbg k).2]
      · simp [sel4, (hra k).1]
      · have e6 : 2 * k + 3 - 2 = 2 * k + 1 := by omega
        simp [sel4, e6, (hra k).2]
    · have c1 : p + 16 * 1 ≤ p + (4 * k + c) ∧ p + (4 * k + c) < p + 16 * 1 + 16 := by omega
      obtain ⟨q, rfl⟩ : ∃ q, k = 4 + q := ⟨k - 4, by omega⟩
      have e3 : p + (4 * (4 + q) + c) - (p + 16 * 1) = 4 * q + c := by omega
      have e4 : (4 * q + c) % 4 = c := by omega
      have e5 : (4 * q + c) / 4 = q := by omega
      simp only [_mm_storeu_si128, if_pos c1, e3, _mm_unpackhi_epi16, e4, e5]
      interval_cases c
      · have e6 : 8 + 2 * q + 0 = 2 * (4 + q) := by omega
        simp only [e6]
        simp [sel4, (hbg (4 + q)).1]
      · have e6 : 8 + 2 * q + 1 = 2 * (4 + q) + 1 := by omega
        simp only [e6]
        simp [sel4, (hbg (4 + q)).2]
      · have e6 : 8 + 2 * q + 2 - 2 = 2 * (4 + q) := by omega
        simp only [e6]
        simp [sel4, (hra (4 + q)).1]
      · have e6 : 8 + 2 * q + 3 - 2 = 2 * (4 + q) + 1 := by omega
        simp only [e6]
        simp [sel4, (hra (4 + q)).2]
  · intro ha
    have c1 : ¬ (p + 16 * 1 ≤ a ∧ a < p + 16 * 1 + 16) := by omega
    have c0 : ¬ (p + 16 * 0 ≤ a ∧ a < p + 16 * 0 + 16) := by omega
    simp only [_mm_storeu_si128, if_neg c1, if_neg c0]

theorem u16_UnpackY (T : YuvTraits) (hT : T.Valid) (part : Nat) (y : Vec) (k : Nat) :
    u16 (Sse41.UnpackY T part y) k = T.unpackY (y (8 * part + k)) := by
  simp only [Sse41.UnpackY]
  rw [u16_ofU16, Nat.mod_eq_of_lt (hT.1 _)]

theorem u16_UnpackUV (T : YuvTraits) (hT : T.Valid) (part : Nat) (uv : Vec) (k : Nat) :
    u16 (Sse41.UnpackUV T part uv) k = T.unpackUV (uv (8 * part + k)) := by
  simp only [Sse41.UnpackUV]
  rw [u16_ofU16, Nat.mod_eq_of_lt (hT.2.1 _)]

/-- Eight pixels with a constant alpha: `YuvToBgra16`. -/
theorem YuvToBgra16_fill (align : Bool) (T : YuvTraits) (hT : T.Valid) (yy uu vv : Vec)
    (alpha : Nat) (ha : alpha < 256) (m : Vec) (p : Nat) :
    Fill (fun a => p ≤ a ∧ a < p + 32)
      (fun a => sel4 (T.blue (u16 yy ((a - p) / 4)) (u16 uu ((a - p) / 4)))
        (T.green (u16 yy ((a - p) / 4)) (u16 uu ((a - p) / 4)) (u16 vv ((a - p) / 4)))
        (T.red (u16 yy ((a - p) / 4)) (u16 vv ((a - p) / 4))) alpha ((a - p) % 4)) m
      (Sse41.YuvToBgra16 align T yy uu vv (_mm_slli_si128 (_mm_set1_epi16 alpha) 1) m p) := by
  simp only [Sse41.YuvToBgra16, Sse41.Store, Sse41.YuvToBlue16, Sse41.YuvToGreen16,
    Sse41.YuvToRed16, _mm_set1_epi16]
  exact store_pixels _ _ (fun k => T.blue (u16 yy k) (u16 uu k))
    (fun k => T.green (u16 yy k) (u16 uu k) (u16 vv k)) (fun k => T.red (u16 yy k) (u16 vv k))
    (fun _ => alpha)
    (fun k => byte_pair _ _ (fun k => hT.2.2.1 _ _) (fun k => hT.2.2.2.1 _ _ _) k)
    (fun k => byte_pair _ (fun _ => alpha) (fun k => hT.2.2.2.2 _ _) (fun _ => ha) k) m p

/-- Eight pixels with the alpha bytes of a register: `YuvaToBgra16`. -/
theorem YuvaToBgra16_fill (T : YuvTraits) (hT : T.Valid) (yy uu vv : Vec) (part : Nat)
    (al : Vec) (m : Vec) (p : Nat) :
    Fill (fun a => p ≤ a ∧ a < p + 32)
      (fun a => sel4 (T.blue (u16 yy ((a - p) / 4)) (u16 uu ((a - p) / 4)))
        (T.green (u16 yy ((a - p) / 4)) (u16 uu ((a - p) / 4)) (u16 vv ((a - p) / 4)))
        (T.red (u16 yy ((a - p) / 4)) (u16 vv ((a - p) / 4)))
        (al ((if part = 0 then 0 else 8) + (a - p) / 4)) ((a - p) % 4)) m
      (Sse41.YuvaToBgra16 T yy uu vv (Sse41.UnpackU8 part al) m p) := by
  simp only [Sse41.YuvaToBgra16, Sse41.YuvToBlue16, Sse41.YuvToGreen16, Sse41.YuvToRed16]
  exact store_pixels _ _ (fun k => T.blue (u16 yy k) (u16 uu k))
    (fun k => T.green (u16 yy k) (u16 uu k) (u16 vv k)) (fun k => T.red (u16 yy k) (u16 vv k))
    (fun k => al ((if part = 0 then 0 else 8) + k))
    (fun k => byte_pair _ _ (fun k => hT.2.2.1 _ _) (fun k => hT.2.2.2.1 _ _ _) k)
    (fun k => byte_pair_alpha _ (fun k => hT.2.2.2.2 _ _) part al k) m p

/-- Sixteen pixels from three registers of samples: `YuvToBgra`. -/
theorem YuvToBgra_fill (align : Bool) (T : YuvTraits) (hT : T.Valid) (y8 u8 v8 : Vec)
    (alpha : Nat) (ha : alpha < 256) (m : Vec) (p : Nat) :
    Fill (fun a => p ≤ a ∧ a < p + 64)
      (fun a => yuvPixel T (y8 ((a - p) / 4)) (u8 ((a - p) / 4)) (v8 ((a - p) / 4)) alpha
        ((a - p) % 4)) m
      (Sse41.YuvToBgra align T y8 u8 v8 (_mm_slli_si128 (_mm_set1_epi16 alpha) 1) m p) := by
  simp only [Sse41.YuvToBgra]
  have h1 := YuvToBgra16_fill align T hT (Sse41.UnpackY T 0 y8) (Sse41.UnpackUV T 0 u8)
    (Sse41.UnpackUV T 0 v8) alpha ha m (p + 16 * 0)
  have h2 := YuvToBgra16_fill align T hT (Sse41.UnpackY T 1 y8) (Sse41.UnpackUV T 1 u8)
    (Sse41.UnpackUV T 1 v8) alpha ha
    (Sse41.YuvToBgra16 align T (Sse41.UnpackY T 0 y8) (Sse41.UnpackUV T 0 u8)
      (Sse41.UnpackUV T 0 v8) (_mm_slli_si128 (_mm_set1_epi16 alpha) 1) m (p + 16 * 0))
    (p + 16 * 2)
  have g1 := Fill_congr _ _
    (fun a => yuvPixel T (y8 ((a - p) / 4)) (u8 ((a - p) / 4)) (v8 ((a - p) / 4)) alpha
      ((a - p) % 4)) _ _ h1
    (fun a har => by
      have e1 : 8 * 0 + (a - (p + 16 * 0)) / 4 = (a - p) / 4 := by omega
      have e2 : (a - (p + 16 * 0)) % 4 = (a - p) % 4 := by omega
      simp only [u16_UnpackY T hT, u16_UnpackUV T hT, yuvPixel, e1, e2])
  refine Fill_step _ _ _ _ _ _ _ _ g1 h2 (fun a har => ?_) (fun a => by omega)
  have e1 : 8 * 1 + (a - (p + 16 * 2)) / 4 = (a - p) / 4 := by omega
  have e2 : (a - (p + 16 * 2)) % 4 = (a - p) % 4 := by omega
  simp only [u16_UnpackY T hT, u16_UnpackUV T hT, yuvPixel, e1, e2]

/-- Sixteen pixels of `Yuv444pToBgraV2`: pixel `k` of the block is converted from the samples
at offset `k` of the three pointers. -/
theorem Yuv444pBlock_fill (align : Bool) (T : YuvTraits) (hT : T.Valid) (y : Vec) (yo : Nat)
    (u : Vec) (uo : Nat) (v : Vec) (vo : Nat) (alpha : Nat) (ha : alpha < 256) (m : Vec)
    (p : Nat) :
    Fill (fun a => p ≤ a ∧ a < p + 64)
      (fun a => yuvPixel T (y (yo + (a - p) / 4)) (u (uo + (a - p) / 4))
        (v (vo + (a - p) / 4)) alpha ((a - p) % 4)) m
      (Sse41.Yuv444pToBgraV2Block align T y yo u uo v vo
        (_mm_slli_si128 (_mm_set1_epi16 alpha) 1) m p) :=
  YuvToBgra_fill align T hT (Sse41.Load align y yo) (Sse41.Load align u uo)
    (Sse41.Load align v vo) alpha ha m p

/-- Thirty-two pixels of `Yuv422pToBgraV2`: pixel `k` of the block is converted from the luma
sample at offset `k` and the chroma bytes `k / 2` of the registers `u_`, `v_`. -/
theorem Yuv422pBlock_fill (align : Bool) (T : YuvTraits) (hT : T.Valid) (y : Vec) (yo : Nat)
    (u_ v_ : Vec) (alpha : Nat) (ha : alpha < 256) (m : Vec) (p : Nat) :
    Fill (fun a => p ≤ a ∧ a < p + 128)
      (fun a => yuvPixel T (y (yo + (a - p) / 4)) (u_ ((a - p) / 4 / 2))
        (v_ ((a - p) / 4 / 2)) alpha ((a - p) % 4)) m
      (Sse41.Yuv422pToBgraV2Block align T y yo u_ v_
        (_mm_slli_si128 (_mm_set1_epi16 alpha) 1) m p) := by
  simp only [Sse41.Yuv422pToBgraV2Block]
  have h1 := YuvToBgra_fill align T hT (Sse41.Load align y (yo + 16 * 0))
    (_mm_unpacklo_epi8 u_ u_) (_mm_unpacklo_epi8 v_ v_) alpha ha m (p + 16 * 0)
  have h2 := YuvToBgra_fill align T hT (Sse41.Load align y (yo + 16 * 1))
    (_mm_unpackhi_epi8 u_ u_) (_mm_unpackhi_epi8 v_ v_) alpha ha
    (Sse41.YuvToBgra align T (Sse41.Load align y (yo + 16 * 0)) (_mm_unpacklo_epi8 u_ u_)
      (_mm_unpacklo_epi8 v_ v_) (_mm_slli_si128 (_mm_set1_epi16 alpha) 1) m (p + 16 * 0))
    (p + 16 * 4)
  have g1 := Fill_congr _ _
    (fun a => yuvPixel T (y (yo + (a - p) / 4)) (u_ ((a - p) / 4 / 2))
      (v_ ((a - p) / 4 / 2)) alpha ((a - p) % 4)) _ _ h1
    (fun a har => by
      have e1 : yo + 16 * 0 + (a - (p + 16 * 0)) / 4 = yo + (a - p) / 4 := by omega
      have e2 : (a - (p + 16 * 0)) % 4 = (a - p) % 4 := by omega
      have e3 : (a - (p + 16 * 0)) / 4 / 2 = (a - p) / 4 / 2 := by omega
      simp only [Sse41.Load, _mm_loadu_si128, _mm_unpacklo_epi8, ite_self, e1, e2, e3])
  refine Fill_step _ _ _ _ _ _ _ _ g1 h2 (fun a har => ?_) (fun a => by omega)
  have e1 : yo + 16 * 1 + (a - (p + 16 * 4)) / 4 = yo + (a - p) / 4 := by omega
  have e2 : (a - (p + 16 * 4)) % 4 = (a - p) % 4 := by omega
  have e3 : 8 + (a - (p + 16 * 4)) / 4 / 2 = (a - p) / 4 / 2 := by omega
  simp only [Sse41.Load, _mm_loadu_si128, _mm_unpackhi_epi8, ite_self, e1, e2, e3]

/-- Sixteen pixels of `Yuva444pToBgraV2`: pixel `k` of the block is converted from the samples
at offset `k`, and its alpha byte is the byte at offset `k` of the alpha pointer. -/
theorem Yuva444pBlock_fill (T : YuvTraits) (hT : T.Valid) (y : Vec) (yo : Nat) (u : Vec)
    (uo : Nat) (v : Vec) (vo : Nat) (al : Vec) (ao : Nat) (m : Vec) (p : Nat) :
    Fill (fun a => p ≤ a ∧ a < p + 64)
      (fun a => yuvPixel T (y (yo + (a - p) / 4)) (u (uo + (a - p) / 4))
        (v (vo + (a - p) / 4)) (al (ao + (a - p) / 4)) ((a - p) % 4)) m
      (Sse41.Yuva444pToBgraV2Block T y yo u uo v vo al ao m p) := by
  simp only [Sse41.Yuva444pToBgraV2Block]
  have h1 := YuvaToBgra16_fill T hT (Sse41.UnpackY T 0 (_mm_loadu_si128 y yo))
    (Sse41.UnpackUV T 0 (_mm_loadu_si128 u uo)) (Sse41.UnpackUV T 0 (_mm_loadu_si128 v vo))
    0 (_mm_loadu_si128 al ao) m (p + 16 * 0)
  have h2 := YuvaToBgra16_fill T hT (Sse41.UnpackY T 1 (_mm_loadu_si128 y yo))
    (Sse41.UnpackUV T 1 (_mm_loadu_si128 u uo)) (Sse41.UnpackUV T 1 (_mm_loadu_si128 v vo))
    1 (_mm_loadu_si128 al ao)
    (Sse41.YuvaToBgra16 T (Sse41.UnpackY T 0 (_mm_loadu_si128 y yo))
      (Sse41.UnpackUV T 0 (_mm_loadu_si128 u uo)) (Sse41.UnpackUV T 0 (_mm_loadu_si128 v vo))
      (Sse41.UnpackU8 0 (_mm_loadu_si128 al ao)) m (p + 16 * 0))
    (p + 16 * 2)
  have g1 := Fill_congr _ _
    (fun a => yuvPixel T (y (yo + (a - p) / 4)) (u (uo + (a - p) / 4))
      (v (vo + (a - p) / 4)) (al (ao + (a - p) / 4)) ((a - p) % 4)) _ _ h1
    (fun a har => by
      have e1 : 8 * 0 + (a - (p + 16 * 0)) / 4 = (a - p) / 4 := by omega
      have e2 : (a - (p + 16 * 0)) % 4 = (a - p) % 4 := by omega
      have e3 : 0 + (a - (p + 16 * 0)) / 4 = (a - p) / 4 := by omega
      simp only [u16_UnpackY T hT, u16_UnpackUV T hT, yuvPixel, _mm_loadu_si128, if_true,
        e1, e2, e3])
  refine Fill_step _ _ _ _ _ _ _ _ g1 h2 (fun a har => ?_) (fun a => by omega)
  have e1 : 8 * 1 + (a - (p + 16 * 2)) / 4 = (a - p) / 4 := by omega
  have e2 : (a - (p + 16 * 2)) % 4 = (a - p) % 4 := by omega
  have e3 : 8 + (a - (p + 16 * 2)) / 4 = (a - p) / 4 := by omega
  have e4 : ¬ (1 : Nat) = 0 := by omega
  simp only [u16_UnpackY T hT, u16_UnpackUV T hT, yuvPixel, _mm_loadu_si128, if_neg e4,
    e1, e2, e3]

/-! ## YUV to BGRA: rows -/

/-- One row of `Yuv444pToBgraV2`: the `4 * width` bytes at the output pointer receive the
pixels converted from the samples at the same column; all other bytes are kept. -/
theorem yuv444pRow_fill (align : Bool) (T : YuvTraits) (hT : T.Valid) (y : Vec)
    (yStride : Nat) (u : Vec) (uStride : Nat) (v : Vec) (vStride : Nat) (W S : Nat)
    (alpha : Nat) (ha : alpha < 256) (hW : 16 ≤ W) (s : YuvPtr) :
    Fill (fun a => s.bgra ≤ a ∧ a < s.bgra + 4 * W)
      (fun a => yuvPixel T (y (s.y + (a - s.bgra) / 4)) (u (s.u + (a - s.bgra) / 4))
        (v (s.v + (a - s.bgra) / 4)) alpha ((a - s.bgra) % 4)) s.mem
      (Sse41.yuv444pRow align T y yStride u uStride v vStride W S
        (_mm_slli_si128 (_mm_set1_epi16 alpha) 1) s).mem := by
  have loop := rangeLoop_inv (AlignLo W Sse41.A) Sse41.A
    (fun colYuv (t : Nat × Vec) =>
      (t.1 + Sse41.QA, Sse41.Yuv444pToBgraV2Block align T y (s.y + colYuv) u (s.u + colYuv) v
        (s.v + colYuv) (_mm_slli_si128 (_mm_set1_epi16 alpha) 1) t.2 (s.bgra + t.1)))
    (fun i t => t.1 = 4 * i ∧ Fill (fun a => s.bgra ≤ a ∧ a < s.bgra + 4 * i)
      (fun a => yuvPixel T (y (s.y + (a - s.bgra) / 4)) (u (s.u + (a - s.bgra) / 4))
        (v (s.v + (a - s.bgra) / 4)) alpha ((a - s.bgra) % 4)) s.mem t.2)
    (by decide) (Dvd.intro_left _ rfl)
    (fun i t _ _ ht => by
      obtain ⟨h1, h2⟩ := ht
      refine ⟨?_, ?_⟩
      · show t.1 + 64 = 4 * (i + 16)
        omega
      · show Fill _ _ s.mem (Sse41.Yuv444pToBgraV2Block align T y (s.y + i) u (s.u + i) v
          (s.v + i) (_mm_slli_si128 (_mm_set1_epi16 alpha) 1) t.2 (s.bgra + t.1))
        rw [h1]
        refine Fill_step _ _ _ _ _ _ _ _ h2
          (Yuv444pBlock_fill align T hT y (s.y + i) u (s.u + i) v (s.v + i) alpha ha t.2
            (s.bgra + 4 * i)) (fun a har => ?_) (fun a => ?_)
        · have e1 : s.y + i + (a - (s.bgra + 4 * i)) / 4 = s.y + (a - s.bgra) / 4 := by omega
          have e2 : s.u + i + (a - (s.bgra + 4 * i)) / 4 = s.u + (a - s.bgra) / 4 := by omega
          have e3 : s.v + i + (a - (s.bgra + 4 * i)) / 4 = s.v + (a - s.bgra) / 4 := by omega
          have e4 : (a - (s.bgra + 4 * i)) % 4 = (a - s.bgra) % 4 := by omega
          simp only [e1, e2, e3, e4]
        · show (s.bgra ≤ a ∧ a < s.bgra + 4 * (i + 16)) ↔ _
          omega)
    (0, s.mem)
    ⟨rfl, Fill_iff _ _ _ _ _ (Fill_refl _ s.mem) (fun a => by
      show (s.bgra ≤ a ∧ a < s.bgra + 4 * 0) ↔ False
      exact ⟨fun h => by omega, fun h => h.elim⟩)⟩
  obtain ⟨_, hfill⟩ := loop
  simp only [Sse41.yuv444pRow]
  by_cases htail : W - AlignLo W Sse41.A ≠ 0
  · rw [if_pos htail]
    refine Fill_step _ _ _ _ _ _ _ _ hfill
      (Yuv444pBlock_fill false T hT y (s.y + (W - Sse41.A)) u (s.u + (W - Sse41.A)) v
        (s.v + (W - Sse41.A)) alpha ha _ (s.bgra + 4 * (W - Sse41.A)))
      (fun a har => ?_) (fun a => ?_)
    · simp only [Sse41.A] at har ⊢
      have e1 : s.y + (W - 16) + (a - (s.bgra + 4 * (W - 16))) / 4 = s.y + (a - s.bgra) / 4 := by
        omega
      have e2 : s.u + (W - 16) + (a - (s.bgra + 4 * (W - 16))) / 4 = s.u + (a - s.bgra) / 4 := by
        omega
      have e3 : s.v + (W - 16) + (a - (s.bgra + 4 * (W - 16))) / 4 = s.v + (a - s.bgra) / 4 := by
        omega
      have e4 : (a - (s.bgra + 4 * (W - 16))) % 4 = (a - s.bgra) % 4 := by omega
      simp only [e1, e2, e3, e4]
    · simp only [Sse41.A, AlignLo] at htail ⊢
      omega
  · rw [if_neg htail]
    refine Fill_iff _ _ _ _ _ hfill (fun a => ?_)
    simp only [Sse41.A, AlignLo] at htail ⊢
    omega

/-- One row of `Yuva444pToBgraV2`: as for `Yuv444pToBgraV2`, with the alpha byte taken from
the alpha plane at the same column. -/
theorem yuva444pRow_fill (T : YuvTraits) (hT : T.Valid) (y : Vec) (yStride : Nat) (u : Vec)
    (uStride : Nat) (v : Vec) (vStride : Nat) (al : Vec) (aStride : Nat) (W S : Nat)
    (hW : 16 ≤ W) (s : YuvaPtr) :
    Fill (fun a => s.bgra ≤ a ∧ a < s.bgra + 4 * W)
      (fun a => yuvPixel T (y (s.y + (a - s.bgra) / 4)) (u (s.u + (a - s.bgra) / 4))
        (v (s.v + (a - s.bgra) / 4)) (al (s.a + (a - s.bgra) / 4)) ((a - s.bgra) % 4)) s.mem
      (Sse41.yuva444pRow T y yStride u uStride v vStride al aStride W S s).mem := by
  have loop := rangeLoop_inv (AlignLo W Sse41.A) Sse41.A
    (fun col (m : Vec) =>
      Sse41.Yuva444pToBgraV2Block T y (s.y + col) u (s.u + col) v (s.v + col) al (s.a + col) m
        (s.bgra + col * 4))
    (fun i m => Fill (fun a => s.bgra ≤ a ∧ a < s.bgra + 4 * i)
      (fun a => yuvPixel T (y (s.y + (a - s.bgra) / 4)) (u (s.u + (a - s.bgra) / 4))
        (v (s.v + (a - s.bgra) / 4)) (al (s.a + (a - s.bgra) / 4)) ((a - s.bgra) % 4))
      s.mem m)
    (by decide) (Dvd.intro_left _ rfl)
    (fun i m _ _ hm => by
      show Fill _ _ s.mem (Sse41.Yuva444pToBgraV2Block T y (s.y + i) u (s.u + i) v (s.v + i)
        al (s.a + i) m (s.bgra + i * 4))
      refine Fill_step _ _ _ _ _ _ _ _ hm
        (Yuva444pBlock_fill T hT y (s.y + i) u (s.u + i) v (s.v + i) al (s.a + i) m
          (s.bgra + i * 4)) (fun a har => ?_) (fun a => ?_)
      · have e1 : s.y + i + (a - (s.bgra + i * 4)) / 4 = s.y + (a - s.bgra) / 4 := by omega
        have e2 : s.u + i + (a - (s.bgra + i * 4)) / 4 = s.u + (a - s.bgra) / 4 := by omega
        have e3 : s.v + i + (a - (s.bgra + i * 4)) / 4 = s.v + (a - s.bgra) / 4 := by omega
        have e4 : (a - (s.bgra + i * 4)) % 4 = (a - s.bgra) % 4 := by omega
        have e5 : s.a + i + (a - (s.bgra + i * 4)) / 4 = s.a + (a - s.bgra) / 4 := by omega
        simp only [e1, e2, e3, e4, e5]
      · show (s.bgra ≤ a ∧ a < s.bgra + 4 * (i + 16)) ↔ _
        omega)
    s.mem
    (Fill_iff _ _ _ _ _ (Fill_refl _ s.mem) (fun a => by
      show (s.bgra ≤ a ∧ a < s.bgra + 4 * 0) ↔ False
      exact ⟨fun h => by omega, fun h => h.elim⟩))
  simp only [Sse41.yuva444pRow]
  by_cases htail : W - AlignLo W Sse41.A ≠ 0
  · rw [if_pos htail]
    refine Fill_step _ _ _ _ _ _ _ _ loop
      (Yuva444pBlock_fill T hT y (s.y + (W - Sse41.A)) u (s.u + (W - Sse41.A)) v
        (s.v + (W - Sse41.A)) al (s.a + (W - Sse41.A)) _ (s.bgra + (W - Sse41.A) * 4))
      (fun a har => ?_) (fun a => ?_)
    · simp only [Sse41.A] at har ⊢
      have e1 : s.y + (W - 16) + (a - (s.bgra + (W - 16) * 4)) / 4 = s.y + (a - s.bgra) / 4 := by
        omega
      have e2 : s.u + (W - 16) + (a - (s.bgra + (W - 16) * 4)) / 4 = s.u + (a - s.bgra) / 4 := by
        omega
      have e3 : s.v + (W - 16) + (a - (s.bgra + (W - 16) * 4)) / 4 = s.v + (a - s.bgra) / 4 := by
        omega
      have e4 : (a - (s.bgra + (W - 16) * 4)) % 4 = (a - s.bgra) % 4 := by omega
      have e5 : s.a + (W - 16) + (a - (s.bgra + (W - 16) * 4)) / 4 = s.a + (a - s.bgra) / 4 := by
        omega
      simp only [e1, e2, e3, e4, e5]
    · simp only [Sse41.A, AlignLo] at htail ⊢
      omega
  · rw [if_neg htail]
    refine Fill_iff _ _ _ _ _ loop (fun a => ?_)
    simp only [Sse41.A, AlignLo] at htail ⊢
    omega

/-- One row of `Yuv422pToBgraV2`: the pixel at column `k` is converted from the luma sample
`k` and the chroma samples `k / 2` of the row. -/
theorem yuv422pRow_fill (align : Bool) (T : YuvTraits) (hT : T.Valid) (y : Vec)
    (yStride : Nat) (u : Vec) (uStride : Nat) (v : Vec) (vStride : Nat) (W S : Nat)
    (alpha : Nat) (ha : alpha < 256) (hW : 32 ≤ W) (hW2 : W % 2 = 0) (s : YuvPtr) :
    Fill (fun a => s.bgra ≤ a ∧ a < s.bgra + 4 * W)
      (fun a => yuvPixel T (y (s.y + (a - s.bgra) / 4)) (u (s.u + (a - s.bgra) / 4 / 2))
        (v (s.v + (a - s.bgra) / 4 / 2)) alpha ((a - s.bgra) % 4)) s.mem
      (Sse41.yuv422pRow align T y yStride u uStride v vStride W S
        (_mm_slli_si128 (_mm_set1_epi16 alpha) 1) s).mem := by
  have loop := rangeLoop_inv (AlignLo W Sse41.DA) Sse41.DA
    (fun colY (t : Nat × Nat × Vec) =>
      (t.1 + Sse41.A, t.2.1 + Sse41.OA,
        Sse41.Yuv422pToBgraV2Block align T y (s.y + colY) (Sse41.Load align u (s.u + t.1))
          (Sse41.Load align v (s.v + t.1)) (_mm_slli_si128 (_mm_set1_epi16 alpha) 1) t.2.2
          (s.bgra + t.2.1)))
    (fun i t => t.1 = i / 2 ∧ t.2.1 = 4 * i ∧ Fill (fun a => s.bgra ≤ a ∧ a < s.bgra + 4 * i)
      (fun a => yuvPixel T (y (s.y + (a - s.bgra) / 4)) (u (s.u + (a - s.bgra) / 4 / 2))
        (v (s.v + (a - s.bgra) / 4 / 2)) alpha ((a - s.bgra) % 4)) s.mem t.2.2)
    (by decide) (Dvd.intro_left _ rfl)
    (fun i t _ hdvd ht => by
      obtain ⟨h1, h2, h3⟩ := ht
      have hd : 32 ∣ i := hdvd
      refine ⟨?_, ?_, ?_⟩
      · show t.1 + 16 = (i + 32) / 2
        omega
      · show t.2.1 + 128 = 4 * (i + 32)
        omega
      · show Fill _ _ s.mem (Sse41.Yuv422pToBgraV2Block align T y (s.y + i)
          (Sse41.Load align u (s.u + t.1)) (Sse41.Load align v (s.v + t.1))
          (_mm_slli_si128 (_mm_set1_epi16 alpha) 1) t.2.2 (s.bgra + t.2.1))
        rw [h1, h2]
        refine Fill_step _ _ _ _ _ _ _ _ h3
          (Yuv422pBlock_fill align T hT y (s.y + i) (Sse41.Load align u (s.u + i / 2))
            (Sse41.Load align v (s.v + i / 2)) alpha ha t.2.2 (s.bgra + 4 * i))
          (fun a har => ?_) (fun a => ?_)
        · have e1 : s.y + i + (a - (s.bgra + 4 * i)) / 4 = s.y + (a - s.bgra) / 4 := by omega
          have e2 : s.u + i / 2 + (a - (s.bgra + 4 * i)) / 4 / 2
              = s.u + (a - s.bgra) / 4 / 2 := by omega
          have e3 : s.v + i / 2 + (a - (s.bgra + 4 * i)) / 4 / 2
              = s.v + (a - s.bgra) / 4 / 2 := by omega
          have e4 : (a - (s.bgra + 4 * i)) % 4 = (a - s.bgra) % 4 := by omega
          simp only [Sse41.Load, _mm_loadu_si128, e1, e2, e3, e4]
        · show (s.bgra ≤ a ∧ a < s.bgra + 4 * (i + 32)) ↔ _
          omega)
    (0, 0, s.mem)
    ⟨rfl, rfl, Fill_iff _ _ _ _ _ (Fill_refl _ s.mem) (fun a => by
      show (s.bgra ≤ a ∧ a < s.bgra + 4 * 0) ↔ False
      exact ⟨fun h => by omega, fun h => h.elim⟩)⟩
  obtain ⟨_, _, hfill⟩ := loop
  simp only [Sse41.yuv422pRow]
  by_cases htail : W - AlignLo W Sse41.DA ≠ 0
  · rw [if_pos htail]
    refine Fill_step _ _ _ _ _ _ _ _ hfill
      (Yuv422pBlock_fill false T hT y (s.y + (W - Sse41.DA))
        (Sse41.Load false u (s.u + (W - Sse41.DA) / 2))
        (Sse41.Load false v (s.v + (W - Sse41.DA) / 2)) alpha ha _
        (s.bgra + 4 * (W - Sse41.DA)))
      (fun a har => ?_) (fun a => ?_)
    · simp only [Sse41.DA] at har ⊢
      have e1 : s.y + (W - 32) + (a - (s.bgra + 4 * (W - 32))) / 4 = s.y + (a - s.bgra) / 4 := by
        omega
      have e2 : s.u + (W - 32) / 2 + (a - (s.bgra + 4 * (W - 32))) / 4 / 2
          = s.u + (a - s.bgra) / 4 / 2 := by omega
      have e3 : s.v + (W - 32) / 2 + (a - (s.bgra + 4 * (W - 32))) / 4 / 2
          = s.v + (a - s.bgra) / 4 / 2 := by omega
      have e4 : (a - (s.bgra + 4 * (W - 32))) % 4 = (a - s.bgra) % 4 := by omega
      simp only [Sse41.Load, _mm_loadu_si128, e1, e2, e3, e4]
    · simp only [Sse41.DA, AlignLo] at htail ⊢
      omega
  · rw [if_neg htail]
    refine Fill_iff _ _ _ _ _ hfill (fun a => ?_)
    simp only [Sse41.DA, AlignLo] at htail ⊢
    omega

/-- Two rows of `Yuv420pToBgraV2`: both rows are converted with the chroma samples `k / 2` of
the one chroma row, the second row from the luma row at `y + yStride` to the output row at
`bgra + bgraStride`. The values are given as a function `val` of the address. -/
theorem yuv420pRows_fill (align : Bool) (T : YuvTraits) (hT : T.Valid) (y : Vec)
    (yStride : Nat) (u : Vec) (uStride : Nat) (v : Vec) (vStride : Nat) (W S : Nat)
    (alpha : Nat) (ha : alpha < 256) (hW : 32 ≤ W) (hW2 : W % 2 = 0) (s : YuvPtr)
    (val : Nat → Nat)
    (hv0 : ∀ a, s.bgra ≤ a → a < s.bgra + 4 * W →
      val a = yuvPixel T (y (s.y + (a - s.bgra) / 4)) (u (s.u + (a - s.bgra) / 4 / 2))
        (v (s.v + (a - s.bgra) / 4 / 2)) alpha ((a - s.bgra) % 4))
    (hv1 : ∀ a, s.bgra + S ≤ a → a < s.bgra + S + 4 * W →
      val a = yuvPixel T (y (s.y + yStride + (a - (s.bgra + S)) / 4))
        (u (s.u + (a - (s.bgra + S)) / 4 / 2)) (v (s.v + (a - (s.bgra + S)) / 4 / 2)) alpha
        ((a - (s.bgra + S)) % 4)) :
    Fill (fun a => (s.bgra ≤ a ∧ a < s.bgra + 4 * W)
        ∨ (s.bgra + S ≤ a ∧ a < s.bgra + S + 4 * W)) val s.mem
      (Sse41.yuv420pRows align T y yStride u uStride v vStride W S
        (_mm_slli_si128 (_mm_set1_epi16 alpha) 1) s).mem := by
  have hbw : AlignLo W Sse41.DA ≤ W := by
    simp only [Sse41.DA, AlignLo]
    omega
  have loop := rangeLoop_inv (AlignLo W Sse41.DA) Sse41.DA
    (fun colY (t : Nat × Nat × Vec) =>
      (t.1 + Sse41.A, t.2.1 + Sse41.OA,
        Sse41.Yuv422pToBgraV2Block align T y (s.y + colY + yStride)
          (Sse41.Load align u (s.u + t.1)) (Sse41.Load align v (s.v + t.1))
          (_mm_slli_si128 (_mm_set1_epi16 alpha) 1)
          (Sse41.Yuv422pToBgraV2Block align T y (s.y + colY) (Sse41.Load align u (s.u + t.1))
            (Sse41.Load align v (s.v + t.1)) (_mm_slli_si128 (_mm_set1_epi16 alpha) 1) t.2.2
            (s.bgra + t.2.1))
          (s.bgra + t.2.1 + S)))
    (fun i t => t.1 = i / 2 ∧ t.2.1 = 4 * i ∧
      Fill (fun a => (s.bgra ≤ a ∧ a < s.bgra + 4 * i)
        ∨ (s.bgra + S ≤ a ∧ a < s.bgra + S + 4 * i)) val s.mem t.2.2)
    (by decide) (Dvd.intro_left _ rfl)
    (fun i t hi hdvd ht => by
      obtain ⟨h1, h2, h3⟩ := ht
      have hd : 32 ∣ i := hdvd
      have hi2 : i + 32 ≤ W := le_trans hi hbw
      refine ⟨?_, ?_, ?_⟩
      · show t.1 + 16 = (i + 32) / 2
        omega
      · show t.2.1 + 128 = 4 * (i + 32)
        omega
      · show Fill _ _ s.mem (Sse41.Yuv422pToBgraV2Block align T y (s.y + i + yStride)
          (Sse41.Load align u (s.u + t.1)) (Sse41.Load align v (s.v + t.1))
          (_mm_slli_si128 (_mm_set1_epi16 alpha) 1)
          (Sse41.Yuv422pToBgraV2Block align T y (s.y + i) (Sse41.Load align u (s.u + t.1))
            (Sse41.Load align v (s.v + t.1)) (_mm_slli_si128 (_mm_set1_epi16 alpha) 1) t.2.2
            (s.bgra + t.2.1))
          (s.bgra + t.2.1 + S))
        rw [h1, h2]
        have g1 : Fill (fun a => (s.bgra ≤ a ∧ a < s.bgra + 4 * (i + 32))
            ∨ (s.bgra + S ≤ a ∧ a < s.bgra + S + 4 * i)) val s.mem
            (Sse41.Yuv422pToBgraV2Block align T y (s.y + i)
              (Sse41.Load align u (s.u + i / 2)) (Sse41.Load align v (s.v + i / 2))
              (_mm_slli_si128 (_mm_set1_epi16 alpha) 1) t.2.2 (s.bgra + 4 * i)) := by
          refine Fill_step _ _ _ _ _ _ _ _ h3
            (Yuv422pBlock_fill align T hT y (s.y + i) (Sse41.Load align u (s.u + i / 2))
              (Sse41.Load align v (s.v + i / 2)) alpha ha t.2.2 (s.bgra + 4 * i))
            (fun a har => ?_) (fun a => by omega)
          rw [hv0 a (by omega) (by omega)]
          have e1 : s.y + i + (a - (s.bgra + 4 * i)) / 4 = s.y + (a - s.bgra) / 4 := by omega
          have e2 : s.u + i / 2 + (a - (s.bgra + 4 * i)) / 4 / 2
              = s.u + (a - s.bgra) / 4 / 2 := by omega
          have e3 : s.v + i / 2 + (a - (s.bgra + 4 * i)) / 4 / 2
              = s.v + (a - s.bgra) / 4 / 2 := by omega
          have e4 : (a - (s.bgra + 4 * i)) % 4 = (a - s.bgra) % 4 := by omega
          simp only [Sse41.Load, _mm_loadu_si128, e1, e2, e3, e4]
        refine Fill_step _ _ _ _ _ _ _ _ g1
          (Yuv422pBlock_fill align T hT y (s.y + i + yStride)
            (Sse41.Load align u (s.u + i / 2)) (Sse41.Load align v (s.v + i / 2)) alpha ha _
            (s.bgra + 4 * i + S))
          (fun a har => ?_) (fun a => ?_)
        · rw [hv1 a (by omega) (by omega)]
          have e1 : s.y + i + yStride + (a - (s.bgra + 4 * i + S)) / 4
              = s.y + yStride + (a - (s.bgra + S)) / 4 := by omega
          have e2 : s.u + i / 2 + (a - (s.bgra + 4 * i + S)) / 4 / 2
              = s.u + (a - (s.bgra + S)) / 4 / 2 := by omega
          have e3 : s.v + i / 2 + (a - (s.bgra + 4 * i + S)) / 4 / 2
              = s.v + (a - (s.bgra + S)) / 4 / 2 := by omega
          have e4 : (a - (s.bgra + 4 * i + S)) % 4 = (a - (s.bgra + S)) % 4 := by omega
          simp only [Sse41.Load, _mm_loadu_si128, e1, e2, e3, e4]
        · show ((s.bgra ≤ a ∧ a < s.bgra + 4 * (i + 32))
            ∨ (s.bgra + S ≤ a ∧ a < s.bgra + S + 4 * (i + 32))) ↔ _
          omega)
    (0, 0, s.mem)
    ⟨rfl, rfl, Fill_iff _ _ _ _ _ (Fill_refl _ s.mem) (fun a => by
      show ((s.bgra ≤ a ∧ a < s.bgra + 4 * 0)
        ∨ (s.bgra + S ≤ a ∧ a < s.bgra + S + 4 * 0)) ↔ False
      exact ⟨fun h => by omega, fun h => h.elim⟩)⟩
  obtain ⟨_, _, hfill⟩ := loop
  simp only [Sse41.yuv420pRows]
  by_cases htail : W - AlignLo W Sse41.DA ≠ 0
  · rw [if_pos htail]
    simp only [Sse41.DA, AlignLo] at htail hfill ⊢
    refine Fill_step _ _ _ _ _ _ _ _
      (Fill_step _ _ (fun a => (s.bgra ≤ a ∧ a < s.bgra + 4 * W)
          ∨ (s.bgra + S ≤ a ∧ a < s.bgra + S + 4 * (W / 32 * 32))) _ _ _ _ _ hfill
        (Yuv422pBlock_fill false T hT y (s.y + (W - 32))
          (Sse41.Load false u (s.u + (W - 32) / 2)) (Sse41.Load false v (s.v + (W - 32) / 2))
          alpha ha _ (s.bgra + 4 * (W - 32)))
        (fun a har => ?_) (fun a => by omega))
      (Yuv422pBlock_fill false T hT y (s.y + (W - 32) + yStride)
        (Sse41.Load false u (s.u + (W - 32) / 2)) (Sse41.Load false v (s.v + (W - 32) / 2))
        alpha ha _ (s.bgra + 4 * (W - 32) + S))
      (fun a har => ?_) (fun a => by omega)
    · rw [hv0 a (by omega) (by omega)]
      have e1 : s.y + (W - 32) + (a - (s.bgra + 4 * (W - 32))) / 4
          = s.y + (a - s.bgra) / 4 := by omega
      have e2 : s.u + (W - 32) / 2 + (a - (s.bgra + 4 * (W - 32))) / 4 / 2
          = s.u + (a - s.bgra) / 4 / 2 := by omega
      have e3 : s.v + (W - 32) / 2 + (a - (s.bgra + 4 * (W - 32))) / 4 / 2
          = s.v + (a - s.bgra) / 4 / 2 := by omega
      have e4 : (a - (s.bgra + 4 * (W - 32))) % 4 = (a - s.bgra) % 4 := by omega
      simp only [Sse41.Load, _mm_loadu_si128, e1, e2, e3, e4]
    rw [hv1 a (by omega) (by omega)]
    have e1 : s.y + (W - 32) + yStride + (a - (s.bgra + 4 * (W - 32) + S)) / 4
        = s.y + yStride + (a - (s.bgra + S)) / 4 := by omega
    have e2 : s.u + (W - 32) / 2 + (a - (s.bgra + 4 * (W - 32) + S)) / 4 / 2
        = s.u + (a - (s.bgra + S)) / 4 / 2 := by omega
    have e3 : s.v + (W - 32) / 2 + (a - (s.bgra + 4 * (W - 32) + S)) / 4 / 2
        = s.v + (a - (s.bgra + S)) / 4 / 2 := by omega
    have e4 : (a - (s.bgra + 4 * (W - 32) + S)) % 4 = (a - (s.bgra + S)) % 4 := by omega
    simp only [Sse41.Load, _mm_loadu_si128, e1, e2, e3, e4]
  · rw [if_neg htail]
    refine Fill_iff _ _ _ _ _ hfill (fun a => ?_)
    simp only [Sse41.DA, AlignLo] at htail ⊢
    omega

/-! ## YUV to BGRA: images -/

theorem addr_mod (S r a : Nat) (h : a / S = r) : a - r * S = a % S := by
  have e := Nat.div_add_mod a S
  rw [h, Nat.mul_comm] at e
  omega

/-- The bytes of output row `r` are the addresses with quotient `r` and a remainder below the
row size, when the rows do not overlap. -/
theorem addr_row (S W r a : Nat) (hS : 4 * W ≤ S) (hW : 0 < W) :
    (r * S ≤ a ∧ a < r * S + 4 * W) ↔ (a / S = r ∧ a % S < 4 * W) := by
  constructor
  · intro h
    obtain ⟨t, rfl⟩ : ∃ t, a = r * S + t := ⟨a - r * S, by omega⟩
    have ht : t < S := by omega
    rw [row_div r S t ht, row_mod r S t ht]
    exact ⟨rfl, by omega⟩
  · intro h
    have e := Nat.div_add_mod a S
    rw [h.1, Nat.mul_comm] at e
    omega

/-- A row pass seen from the image: the row region and its values in terms of the quotient
and remainder of the address. -/
theorem row_to_image (S W r : Nat) (hS : 4 * W ≤ S) (hW : 0 < W) (rowval val : Nat → Nat)
    (m m2 : Vec) (h : Fill (fun a => r * S ≤ a ∧ a < r * S + 4 * W) rowval m m2)
    (hv : ∀ a, a / S = r → a % S < 4 * W → rowval a = val a) :
    Fill (fun a => a / S = r ∧ a % S < 4 * W) val m m2 :=
  Fill_iff _ _ _ _ _
    (Fill_congr _ _ val _ _ h (fun a ha =>
      hv a ((addr_row S W r a hS hW).1 ha).1 ((addr_row S W r a hS hW).1 ha).2))
    (fun a => (addr_row S W r a hS hW).symm)

/-- The image after one more row. -/
theorem image_step (S W r : Nat) (val : Nat → Nat) (m0 m m2 : Vec)
    (h : Fill (fun a => a / S < r ∧ a % S < 4 * W) val m0 m)
    (h2 : Fill (fun a => a / S = r ∧ a % S < 4 * W) val m m2) :
    Fill (fun a => a / S < r + 1 ∧ a % S < 4 * W) val m0 m2 :=
  Fill_step _ _ _ _ _ _ _ _ h h2 (fun _ _ => rfl) (fun a => by omega)

theorem image_init (S W : Nat) (val : Nat → Nat) (m : Vec) :
    Fill (fun a => a / S < 0 ∧ a % S < 4 * W) val m m :=
  Fill_iff _ _ _ _ _ (Fill_refl val m) (fun a => ⟨fun h => Nat.not_lt_zero _ h.1, fun h => h.elim⟩)

/-- The output of `Yuv444pToBgraV2<align, T>`: rows `0 .. height - 1` hold the converted
pixels and every other byte is kept, when the output rows do not overlap. -/
theorem Yuv444pToBgraV2T_fill (align : Bool) (T : YuvTraits) (hT : T.Valid) (y : Vec)
    (yStride : Nat) (u : Vec) (uStride : Nat) (v : Vec) (vStride : Nat) (W H : Nat)
    (bgra : Vec) (S : Nat) (alpha : Nat) (ha : alpha < 256) (hW : 16 ≤ W) (hS : 4 * W ≤ S) :
    Fill (fun a => a / S < H ∧ a % S < 4 * W)
      (fun a => yuvPixel T (y (a / S * yStride + a % S / 4)) (u (a / S * uStride + a % S / 4))
        (v (a / S * vStride + a % S / 4)) alpha (a % S % 4)) bgra
      (Sse41.Yuv444pToBgraV2T align T y yStride u uStride v vStride W H bgra S alpha) := by
  have key := countLoop_inv H
    (fun _ (s : YuvPtr) => Sse41.yuv444pRow align T y yStride u uStride v vStride W S
      (_mm_slli_si128 (_mm_set1_epi16 alpha) 1) s)
    (fun r s => s.y = r * yStride ∧ s.u = r * uStride ∧ s.v = r * vStride ∧ s.bgra = r * S
      ∧ Fill (fun a => a / S < r ∧ a % S < 4 * W)
        (fun a => yuvPixel T (y (a / S * yStride + a % S / 4))
          (u (a / S * uStride + a % S / 4)) (v (a / S * vStride + a % S / 4)) alpha
          (a % S % 4)) bgra s.mem)
    (fun r s _ hs => by
      obtain ⟨hy, hu, hv, hb, hf⟩ := hs
      have hrow := yuv444pRow_fill align T hT y yStride u uStride v vStride W S alpha ha hW s
      rw [hy, hu, hv, hb] at hrow
      refine ⟨?_, ?_, ?_, ?_, ?_⟩
      · show s.y + yStride = (r + 1) * yStride
        rw [hy, Nat.succ_mul]
      · show s.u + uStride = (r + 1) * uStride
        rw [hu, Nat.succ_mul]
      · show s.v + vStride = (r + 1) * vStride
        rw [hv, Nat.succ_mul]
      · show s.bgra + S = (r + 1) * S
        rw [hb, Nat.succ_mul]
      · refine image_step S W r _ bgra s.mem _ hf
          (row_to_image S W r hS (by omega) _ _ _ _ hrow (fun a h1 _ => ?_))
        simp only [addr_mod S r a h1, h1])
    ⟨0, 0, 0, 0, bgra⟩
    ⟨by simp, by simp, by simp, by simp, image_init S W _ bgra⟩
  exact key.2.2.2.2

/-- The output of `Yuv422pToBgraV2<align, T>`. -/
theorem Yuv422pToBgraV2T_fill (align : Bool) (T : YuvTraits) (hT : T.Valid) (y : Vec)
    (yStride : Nat) (u : Vec) (uStride : Nat) (v : Vec) (vStride : Nat) (W H : Nat)
    (bgra : Vec) (S : Nat) (alpha : Nat) (ha : alpha < 256) (hW : 32 ≤ W) (hW2 : W % 2 = 0)
    (hS : 4 * W ≤ S) :
    Fill (fun a => a / S < H ∧ a % S < 4 * W)
      (fun a => yuvPixel T (y (a / S * yStride + a % S / 4))
        (u (a / S * uStride + a % S / 4 / 2)) (v (a / S * vStride + a % S / 4 / 2)) alpha
        (a % S % 4)) bgra
      (Sse41.Yuv422pToBgraV2T align T y yStride u uStride v vStride W H bgra S alpha) := by
  have key := countLoop_inv H
    (fun _ (s : YuvPtr) => Sse41.yuv422pRow align T y yStride u uStride v vStride W S
      (_mm_slli_si128 (_mm_set1_epi16 alpha) 1) s)
    (fun r s => s.y = r * yStride ∧ s.u = r * uStride ∧ s.v = r * vStride ∧ s.bgra = r * S
      ∧ Fill (fun a => a / S < r ∧ a % S < 4 * W)
        (fun a => yuvPixel T (y (a / S * yStride + a % S / 4))
          (u (a / S * uStride + a % S / 4 / 2)) (v (a / S * vStride + a % S / 4 / 2)) alpha
          (a % S % 4)) bgra s.mem)
    (fun r s _ hs => by
      obtain ⟨hy, hu, hv, hb, hf⟩ := hs
      have hrow := yuv422pRow_fill align T hT y yStride u uStride v vStride W S alpha ha hW
        hW2 s
      rw [hy, hu, hv, hb] at hrow
      refine ⟨?_, ?_, ?_, ?_, ?_⟩
      · show s.y + yStride = (r + 1) * yStride
        rw [hy, Nat.succ_mul]
      · show s.u + uStride = (r + 1) * uStride
        rw [hu, Nat.succ_mul]
      · show s.v + vStride = (r + 1) * vStride
        rw [hv, Nat.succ_mul]
      · show s.bgra + S = (r + 1) * S
        rw [hb, Nat.succ_mul]
      · refine image_step S W r _ bgra s.mem _ hf
          (row_to_image S W r hS (by omega) _ _ _ _ hrow (fun a h1 _ => ?_))
        simp only [addr_mod S r a h1, h1])
    ⟨0, 0, 0, 0, bgra⟩
    ⟨by simp, by simp, by simp, by simp, image_init S W _ bgra⟩
  exact key.2.2.2.2

/-- The output of `Yuva444pToBgraV2<T>`. -/
theorem Yuva444pToBgraV2T_fill (T : YuvTraits) (hT : T.Valid) (y : Vec) (yStride : Nat)
    (u : Vec) (uStride : Nat) (v : Vec) (vStride : Nat) (al : Vec) (aStride : Nat)
    (W H : Nat) (bgra : Vec) (S : Nat) (hW : 16 ≤ W) (hS : 4 * W ≤ S) :
    Fill (fun a => a / S < H ∧ a % S < 4 * W)
      (fun a => yuvPixel T (y (a / S * yStride + a % S / 4)) (u (a / S * uStride + a % S / 4))
        (v (a / S * vStride + a % S / 4)) (al (a / S * aStride + a % S / 4)) (a % S % 4)) bgra
      (Sse41.Yuva444pToBgraV2T T y yStride u uStride v vStride al aStride W H bgra S) := by
  have key := countLoop_inv H
    (fun _ (s : YuvaPtr) => Sse41.yuva444pRow T y yStride u uStride v vStride al aStride W S s)
    (fun r s => s.y = r * yStride ∧ s.u = r * uStride ∧ s.v = r * vStride
      ∧ s.a = r * aStride ∧ s.bgra = r * S
      ∧ Fill (fun a => a / S < r ∧ a % S < 4 * W)
        (fun a => yuvPixel T (y (a / S * yStride + a % S / 4))
          (u (a / S * uStride + a % S / 4)) (v (a / S * vStride + a % S / 4))
          (al (a / S * aStride + a % S / 4)) (a % S % 4)) bgra s.mem)
    (fun r s _ hs => by
      obtain ⟨hy, hu, hv, hal, hb, hf⟩ := hs
      have hrow := yuva444pRow_fill T hT y yStride u uStride v vStride al aStride W S hW s
      rw [hy, hu, hv, hal, hb] at hrow
      refine ⟨?_, ?_, ?_, ?_, ?_, ?_⟩
      · show s.y + yStride = (r + 1) * yStride
        rw [hy, Nat.succ_mul]
      · show s.u + uStride = (r + 1) * uStride
        rw [hu, Nat.succ_mul]
      · show s.v + vStride = (r + 1) * vStride
        rw [hv, Nat.succ_mul]
      · show s.a + aStride = (r + 1) * aStride
        rw [hal, Nat.succ_mul]
      · show s.bgra + S = (r + 1) * S
        rw [hb, Nat.succ_mul]
      · refine image_step S W r _ bgra s.mem _ hf
          (row_to_image S W r hS (by omega) _ _ _ _ hrow (fun a h1 _ => ?_))
        simp only [addr_mod S r a h1, h1])
    ⟨0, 0, 0, 0, 0, bgra⟩
    ⟨by simp, by simp, by simp, by simp, by simp, image_init S W _ bgra⟩
  exact key.2.2.2.2.2

/-- The output of `Yuv420pToBgraV2<align, T>`: output row `r` uses chroma row `r / 2`. -/
theorem Yuv420pToBgraV2T_fill (align : Bool) (T : YuvTraits) (hT : T.Valid) (y : Vec)
    (yStride : Nat) (u : Vec) (uStride : Nat) (v : Vec) (vStride : Nat) (W H : Nat)
    (bgra : Vec) (S : Nat) (alpha : Nat) (ha : alpha < 256) (hW : 32 ≤ W) (hW2 : W % 2 = 0)
    (hH2 : H % 2 = 0) (hS : 4 * W ≤ S) :
    Fill (fun a => a / S < H ∧ a % S < 4 * W)
      (fun a => yuvPixel T (y (a / S * yStride + a % S / 4))
        (u (a / S / 2 * uStride + a % S / 4 / 2)) (v (a / S / 2 * vStride + a % S / 4 / 2))
        alpha (a % S % 4)) bgra
      (Sse41.Yuv420pToBgraV2T align T y yStride u uStride v vStride W H bgra S alpha) := by
  have key := rangeLoop_inv H 2
    (fun _ (s : YuvPtr) => Sse41.yuv420pRows align T y yStride u uStride v vStride W S
      (_mm_slli_si128 (_mm_set1_epi16 alpha) 1) s)
    (fun r s => s.y = r * yStride ∧ s.u = r / 2 * uStride ∧ s.v = r / 2 * vStride
      ∧ s.bgra = r * S
      ∧ Fill (fun a => a / S < r ∧ a % S < 4 * W)
        (fun a => yuvPixel T (y (a / S * yStride + a % S / 4))
          (u (a / S / 2 * uStride + a % S / 4 / 2))
          (v (a / S / 2 * vStride + a % S / 4 / 2)) alpha (a % S % 4)) bgra s.mem)
    (by decide) (Nat.dvd_of_mod_eq_zero hH2)
    (fun r s _ hr hs => by
      obtain ⟨hy, hu, hv, hb, hf⟩ := hs
      have hr2 : (r + 2) / 2 = r / 2 + 1 := by omega
      have hr1 : (r + 1) / 2 = r / 2 := by omega
      have hS1 : (r + 1) * S = r * S + S := Nat.succ_mul r S
      have hrows := yuv420pRows_fill align T hT y yStride u uStride v vStride W S alpha ha hW
        hW2 s
        (fun a => yuvPixel T (y (a / S * yStride + a % S / 4))
          (u (a / S / 2 * uStride + a % S / 4 / 2))
          (v (a / S / 2 * vStride + a % S / 4 / 2)) alpha (a % S % 4))
        (fun a h1 h2 => by
          rw [hb] at h1 h2
          have hq := (addr_row S W r a hS (by omega)).1 ⟨h1, h2⟩
          simp only [hy, hu, hv, hb, addr_mod S r a hq.1, hq.1])
        (fun a h1 h2 => by
          rw [hb, ← hS1] at h1 h2
          have hq := (addr_row S W (r + 1) a hS (by omega)).1 ⟨h1, h2⟩
          have e : r * yStride + yStride = (r + 1) * yStride := (Nat.succ_mul r yStride).symm
          simp only [hy, hu, hv, hb, ← hS1, e, addr_mod S (r + 1) a hq.1, hq.1, hr1])
      rw [hb, ← hS1] at hrows
      refine ⟨?_, ?_, ?_, ?_, ?_⟩
      · show s.y + 2 * yStride = (r + 2) * yStride
        rw [hy]
        ring
      · show s.u + uStride = (r + 2) / 2 * uStride
        rw [hu, hr2, Nat.succ_mul]
      · show s.v + vStride = (r + 2) / 2 * vStride
        rw [hv, hr2, Nat.succ_mul]
      · show s.bgra + 2 * S = (r + 2) * S
        rw [hb]
        ring
      · refine Fill_step _ _ _ _ _ _ _ _ hf hrows (fun _ _ => rfl) (fun a => ?_)
        rw [addr_row S W r a hS (by omega), addr_row S W (r + 1) a hS (by omega)]
        omega)
    ⟨0, 0, 0, 0, bgra⟩
    ⟨by simp, by simp, by simp, by simp, image_init S W _ bgra⟩
  exact key.2.2.2.2

/-! ## YUV to BGRA: the exported conversions -/

theorem Yuv444pToBgraV2_eq (aligned : Bool) (traits : SimdYuvType → YuvTraits) (y : Vec)
    (yStride : Nat) (u : Vec) (uStride : Nat) (v : Vec) (vStride : Nat) (width height : Nat)
    (bgra : Vec) (bgraStride : Nat) (alpha : Nat) (yuvType : SimdYuvType)
    (hy : yuvType ≠ .Unknown) :
    Sse41.Yuv444pToBgraV2 aligned traits y yStride u uStride v vStride width height bgra
        bgraStride alpha yuvType
      = Sse41.Yuv444pToBgraV2T aligned (traits yuvType) y yStride u uStride v vStride width
        height bgra bgraStride alpha := by
  cases aligned <;> cases yuvType <;> first | rfl | exact absurd rfl hy

theorem Yuv422pToBgraV2_eq (aligned : Bool) (traits : SimdYuvType → YuvTraits) (y : Vec)
    (yStride : Nat) (u : Vec) (uStride : Nat) (v : Vec) (vStride : Nat) (width height : Nat)
    (bgra : Vec) (bgraStride : Nat) (alpha : Nat) (yuvType : SimdYuvType)
    (hy : yuvType ≠ .Unknown) :
    Sse41.Yuv422pToBgraV2 aligned traits y yStride u uStride v vStride width height bgra
        bgraStride alpha yuvType
      = Sse41.Yuv422pToBgraV2T aligned (traits yuvType) y yStride u uStride v vStride width
        height bgra bgraStride alpha := by
  cases aligned <;> cases yuvType <;> first | rfl | exact absurd rfl hy

theorem Yuv420pToBgraV2_eq (aligned : Bool) (traits : SimdYuvType → YuvTraits) (y : Vec)
    (yStride : Nat) (u : Vec) (uStride : Nat) (v : Vec) (vStride : Nat) (width height : Nat)
    (bgra : Vec) (bgraStride : Nat) (alpha : Nat) (yuvType : SimdYuvType)
    (hy : yuvType ≠ .Unknown) :
    Sse41.Yuv420pToBgraV2 aligned traits y yStride u uStride v vStride width height bgra
        bgraStride alpha yuvType
      = Sse41.Yuv420pToBgraV2T aligned (traits yuvType) y yStride u uStride v vStride width
        height bgra bgraStride alpha := by
  cases aligned <;> cases yuvType <;> first | rfl | exact absurd rfl hy

theorem Yuva444pToBgraV2_eq (traits : SimdYuvType → YuvTraits) (y : Vec) (yStride : Nat)
    (u : Vec) (uStride : Nat) (v : Vec) (vStride : Nat) (al : Vec) (aStride : Nat)
    (width height : Nat) (bgra : Vec) (bgraStride : Nat) (yuvType : SimdYuvType)
    (hy : yuvType ≠ .Unknown) :
    Sse41.Yuva444pToBgraV2 traits y yStride u uStride v vStride al aStride width height bgra
        bgraStride yuvType
      = Sse41.Yuva444pToBgraV2T (traits yuvType) y yStride u uStride v vStride al aStride width
        height bgra bgraStride := by
  cases yuvType <;> first | rfl | exact absurd rfl hy

/-- Byte `c` of the pixel at `(row, col)` of a filled image. -/
theorem Fill_pixel (S W H : Nat) (val : Nat → Nat) (m0 m : Vec)
    (h : Fill (fun a => a / S < H ∧ a % S < 4 * W) val m0 m) (hS : 4 * W ≤ S)
    (row col c : Nat) (hr : row < H) (hc : col < W) (hc4 : c < 4) :
    m (row * S + 4 * col + c) = val (row * S + (4 * col + c))
    ∧ (row * S + (4 * col + c)) / S = row ∧ (row * S + (4 * col + c)) % S = 4 * col + c := by
  have ht : 4 * col + c < S := by omega
  have e1 := row_div row S (4 * col + c) ht
  have e2 := row_mod row S (4 * col + c) ht
  refine ⟨?_, e1, e2⟩
  rw [Nat.add_assoc]
  exact (h _).1 ⟨by rw [e1]; exact hr, by rw [e2]; omega⟩

theorem sel4_0 (b g r al : Nat) : sel4 b g r al 0 = b := rfl

theorem sel4_1 (b g r al : Nat) : sel4 b g r al 1 = g := rfl

theorem sel4_2 (b g r al : Nat) : sel4 b g r al 2 = r := rfl

theorem sel4_3 (b g r al : Nat) : sel4 b g r al 3 = al := rfl

/-- The four bytes of the pixel at `(row, col)` of a filled image whose values are
`px row col c`. -/
theorem Fill_bgra (S W H : Nat) (px : Nat → Nat → Nat → Nat) (m0 m : Vec)
    (h : Fill (fun a => a / S < H ∧ a % S < 4 * W)
      (fun a => px (a / S) (a % S / 4) (a % S % 4)) m0 m) (hS : 4 * W ≤ S)
    (row col : Nat) (hr : row < H) (hc : col < W) :
    m (row * S + 4 * col) = px row col 0 ∧ m (row * S + 4 * col + 1) = px row col 1
    ∧ m (row * S + 4 * col + 2) = px row col 2 ∧ m (row * S + 4 * col + 3) = px row col 3 := by
  have key : ∀ c, c < 4 → m (row * S + 4 * col + c) = px row col c := by
    intro c hc4
    obtain ⟨k1, k2, k3⟩ := Fill_pixel S W H _ m0 m h hS row col c hr hc hc4
    have e1 : (4 * col + c) / 4 = col := by omega
    have e2 : (4 * col + c) % 4 = c := by omega
    rw [k1]
    simp only [k2, k3, e1, e2]
  exact ⟨key 0 (by omega), key 1 (by omega), key 2 (by omega), key 3 (by omega)⟩

/-- The value a block of `Yuv444pToBgraV2` starting at column `col1` writes for the pixel at
column `col` depends on `col` only. -/
theorem block444_value (align : Bool) (T : YuvTraits) (hT : T.Valid) (y : Vec) (yo : Nat)
    (u : Vec) (uo : Nat) (v : Vec) (vo : Nat) (alpha : Nat) (ha : alpha < 256) (m : Vec)
    (p col1 col c : Nat) (h1 : col1 ≤ col) (h2 : col < col1 + 16) (hc : c < 4) :
    Sse41.Yuv444pToBgraV2Block align T y (yo + col1) u (uo + col1) v (vo + col1)
        (_mm_slli_si128 (_mm_set1_epi16 alpha) 1) m (p + 4 * col1) (p + 4 * col + c)
      = yuvPixel T (y (yo + col)) (u (uo + col)) (v (vo + col)) alpha c := by
  have h := (Yuv444pBlock_fill align T hT y (yo + col1) u (uo + col1) v (vo + col1) alpha ha m
    (p + 4 * col1) (p + 4 * col + c)).1 (by omega)
  have e1 : yo + col1 + (p + 4 * col + c - (p + 4 * col1)) / 4 = yo + col := by omega
  have e2 : uo + col1 + (p + 4 * col + c - (p + 4 * col1)) / 4 = uo + col := by omega
  have e3 : vo + col1 + (p + 4 * col + c - (p + 4 * col1)) / 4 = vo + col := by omega
  have e4 : (p + 4 * col + c - (p + 4 * col1)) % 4 = c := by omega
  rw [h]
  simp only [e1, e2, e3, e4]

/-- C13: for every width of at least 16 (a multiple of 16 or not), every `row < height` and
`col < width`, `Yuv444pToBgraV2` leaves at `bgra[row * bgraStride + 4 * col .. + 3]` the
bytes B, G, R converted with the traits of `yuvType` from the one sample triple
`y[row][col]`, `u[row][col]`, `v[row][col]`, followed by the alpha argument. The output rows
are taken not to overlap (`4 * width <= bgraStride`). Further, two blocks of one row that
cover the same column (a block of the body loop and the block at `width - 16`) write the same
bytes for it. -/
theorem C13_yuv444p_per_pixel (aligned : Bool) (traits : SimdYuvType → YuvTraits) (y : Vec)
    (yStride : Nat) (u : Vec) (uStride : Nat) (v : Vec) (vStride : Nat) (width height : Nat)
    (bgra : Vec) (bgraStride : Nat) (alpha : Nat) (yuvType : SimdYuvType)
    (hw : 16 ≤ width) (hs : 4 * width ≤ bgraStride) (ha : alpha < 256)
    (hy : yuvType ≠ .Unknown) (hT : (traits yuvType).Valid) :
    (∀ row col, row < height → col < width →
      Sse41.Yuv444pToBgraV2 aligned traits y yStride u uStride v vStride width height bgra
          bgraStride alpha yuvType (row * bgraStride + 4 * col)
        = (traits yuvType).blue ((traits yuvType).unpackY (y (row * yStride + col)))
            ((traits yuvType).unpackUV (u (row * uStride + col)))
      ∧ Sse41.Yuv444pToBgraV2 aligned traits y yStride u uStride v vStride width height bgra
          bgraStride alpha yuvType (row * bgraStride + 4 * col + 1)
        = (traits yuvType).green ((traits yuvType).unpackY (y (row * yStride + col)))
            ((traits yuvType).unpackUV (u (row * uStride + col)))
            ((traits yuvType).unpackUV (v (row * vStride + col)))
      ∧ Sse41.Yuv444pToBgraV2 aligned traits y yStride u uStride v vStride width height bgra
          bgraStride alpha yuvType (row * bgraStride + 4 * col + 2)
        = (traits yuvType).red ((traits yuvType).unpackY (y (row * yStride + col)))
            ((traits yuvType).unpackUV (v (row * vStride + col)))
      ∧ Sse41.Yuv444pToBgraV2 aligned traits y yStride u uStride v vStride width height bgra
          bgraStride alpha yuvType (row * bgraStride + 4 * col + 3) = alpha)
    ∧ (∀ (align1 align2 : Bool) (m1 m2 : Vec) (yo uo vo p col1 col2 col c : Nat),
      col1 ≤ col → col < col1 + 16 → col2 ≤ col → col < col2 + 16 → c < 4 →
      Sse41.Yuv444pToBgraV2Block align1 (traits yuvType) y (yo + col1) u (uo + col1) v
          (vo + col1) (_mm_slli_si128 (_mm_set1_epi16 alpha) 1) m1 (p + 4 * col1)
          (p + 4 * col + c)
        = Sse41.Yuv444pToBgraV2Block align2 (traits yuvType) y (yo + col2) u (uo + col2) v
          (vo + col2) (_mm_slli_si128 (_mm_set1_epi16 alpha) 1) m2 (p + 4 * col2)
          (p + 4 * col + c)) := by
  refine ⟨fun row col hr hc => ?_, ?_⟩
  · rw [Yuv444pToBgraV2_eq aligned traits y yStride u uStride v vStride width height bgra
      bgraStride alpha yuvType hy]
    exact Fill_bgra bgraStride width height
      (fun r k c => yuvPixel (traits yuvType) (y (r * yStride + k)) (u (r * uStride + k))
        (v (r * vStride + k)) alpha c) bgra _
      (Yuv444pToBgraV2T_fill aligned (traits yuvType) hT y yStride u uStride v vStride width
        height bgra bgraStride alpha ha hw hs) hs row col hr hc
  · intro align1 align2 m1 m2 yo uo vo p col1 col2 col c h1 h2 h3 h4 hc
    rw [block444_value align1 (traits yuvType) hT y yo u uo v vo alpha ha m1 p col1 col c h1 h2
        hc,
      block444_value align2 (traits yuvType) hT y yo u uo v vo alpha ha m2 p col2 col c h3 h4
        hc]

/-- Witness of C13: an image of width 20 and height 2 with the example traits; the pixel at
row 1, column 18 lies in the tail block only, the pixel at column 5 in both blocks. -/
theorem C13_yuv444p_per_pixel_witness :
    Sse41.Yuv444pToBgraV2 false (fun _ => exampleTraits) (fun i => i % 256) 20
        (fun i => 2 * i % 256) 20 (fun i => 3 * i % 256) 20 20 2 (fun _ => 0) 80 255 .Bt601
        (1 * 80 + 4 * 18) = (38 + 76) % 256
    ∧ Sse41.Yuv444pToBgraV2 false (fun _ => exampleTraits) (fun i => i % 256) 20
        (fun i => 2 * i % 256) 20 (fun i => 3 * i % 256) 20 20 2 (fun _ => 0) 80 255 .Bt601
        (1 * 80 + 4 * 18 + 3) = 255 := by
  have h := (C13_yuv444p_per_pixel false (fun _ => exampleTraits) (fun i => i % 256) 20
    (fun i => 2 * i % 256) 20 (fun i => 3 * i % 256) 20 20 2 (fun _ => 0) 80 255 .Bt601
    (by decide) (by decide) (by decide) (by decide) exampleTraits_valid).1 1 18 (by decide)
    (by decide)
  exact ⟨h.1, h.2.2.2⟩

/-- C14: for an even width of at least 32, `Yuv422pToBgraV2` converts the output pixel
`(row, col)` from `y[row][col]` with the chroma samples `u[row][col / 2]`, `v[row][col / 2]`;
and when the height is even too, `Yuv420pToBgraV2` converts it from `y[row][col]` with
`u[row / 2][col / 2]`, `v[row / 2][col / 2]`. This holds for every `col < width`, the columns
of the tail block at `width - 32` included. The output rows are taken not to overlap
(`4 * width <= bgraStride`). -/
theorem C14_chroma_replication (aligned : Bool) (traits : SimdYuvType → YuvTraits) (y : Vec)
    (yStride : Nat) (u : Vec) (uStride : Nat) (v : Vec) (vStride : Nat) (width height : Nat)
    (bgra : Vec) (bgraStride : Nat) (alpha : Nat) (yuvType : SimdYuvType)
    (hw : 32 ≤ width) (hw2 : width % 2 = 0) (hs : 4 * width ≤ bgraStride) (ha : alpha < 256)
    (hy : yuvType ≠ .Unknown) (hT : (traits yuvType).Valid) :
    (∀ row col, row < height → col < width →
      Sse41.Yuv422pToBgraV2 aligned traits y yStride u uStride v vStride width height bgra
          bgraStride alpha yuvType (row * bgraStride + 4 * col)
        = (traits yuvType).blue ((traits yuvType).unpackY (y (row * yStride + col)))
            ((traits yuvType).unpackUV (u (row * uStride + col / 2)))
      ∧ Sse41.Yuv422pToBgraV2 aligned traits y yStride u uStride v vStride width height bgra
          bgraStride alpha yuvType (row * bgraStride + 4 * col + 1)
        = (traits yuvType).green ((traits yuvType).unpackY (y (row * yStride + col)))
            ((traits yuvType).unpackUV (u (row * uStride + col / 2)))
            ((traits yuvType).unpackUV (v (row * vStride + col / 2)))
      ∧ Sse41.Yuv422pToBgraV2 aligned traits y yStride u uStride v vStride width height bgra
          bgraStride alpha yuvType (row * bgraStride + 4 * col + 2)
        = (traits yuvType).red ((traits yuvType).unpackY (y (row * yStride + col)))
            ((traits yuvType).unpackUV (v (row * vStride + col / 2)))
      ∧ Sse41.Yuv422pToBgraV2 aligned traits y yStride u uStride v vStride width height bgra
          bgraStride alpha yuvType (row * bgraStride + 4 * col + 3) = alpha)
    ∧ (height % 2 = 0 → ∀ row col, row < height → col < width →
      Sse41.Yuv420pToBgraV2 aligned traits y yStride u uStride v vStride width height bgra
          bgraStride alpha yuvType (row * bgraStride + 4 * col)
        = (traits yuvType).blue ((traits yuvType).unpackY (y (row * yStride + col)))
            ((traits yuvType).unpackUV (u (row / 2 * uStride + col / 2)))
      ∧ Sse41.Yuv420pToBgraV2 aligned traits y yStride u uStride v vStride width height bgra
          bgraStride alpha yuvType (row * bgraStride + 4 * col + 1)
        = (traits yuvType).green ((traits yuvType).unpackY (y (row * yStride + col)))
            ((traits yuvType).unpackUV (u (row / 2 * uStride + col / 2)))
            ((traits yuvType).unpackUV (v (row / 2 * vStride + col / 2)))
      ∧ Sse41.Yuv420pToBgraV2 aligned traits y yStride u uStride v vStride width height bgra
          bgraStride alpha yuvType (row * bgraStride + 4 * col + 2)
        = (traits yuvType).red ((traits yuvType).unpackY (y (row * yStride + col)))
            ((traits yuvType).unpackUV (v (row / 2 * vStride + col / 2)))
      ∧ Sse41.Yuv420pToBgraV2 aligned traits y yStride u uStride v vStride width height bgra
          bgraStride alpha yuvType (row * bgraStride + 4 * col + 3) = alpha) := by
  refine ⟨fun row col hr hc => ?_, fun hh2 row col hr hc => ?_⟩
  · rw [Yuv422pToBgraV2_eq aligned traits y yStride u uStride v vStride width height bgra
      bgraStride alpha yuvType hy]
    exact Fill_bgra bgraStride width height
      (fun r k c => yuvPixel (traits yuvType) (y (r * yStride + k)) (u (r * uStride + k / 2))
        (v (r * vStride + k / 2)) alpha c) bgra _
      (Yuv422pToBgraV2T_fill aligned (traits yuvType) hT y yStride u uStride v vStride width
        height bgra bgraStride alpha ha hw hw2 hs) hs row col hr hc
  · rw [Yuv420pToBgraV2_eq aligned traits y yStride u uStride v vStride width height bgra
      bgraStride alpha yuvType hy]
    exact Fill_bgra bgraStride width height
      (fun r k c => yuvPixel (traits yuvType) (y (r * yStride + k))
        (u (r / 2 * uStride + k / 2)) (v (r / 2 * vStride + k / 2)) alpha c) bgra _
      (Yuv420pToBgraV2T_fill aligned (traits yuvType) hT y yStride u uStride v vStride width
        height bgra bgraStride alpha ha hw hw2 hh2 hs) hs row col hr hc

/-- Witness of C14: an image of width 34 and height 2 with the example traits; the pixel at
row 1, column 33 lies in the tail block, its chroma samples are those of column 16, in row 1
of the 4:2:2 planes and in row 0 of the 4:2:0 planes. -/
theorem C14_chroma_replication_witness :
    Sse41.Yuv422pToBgraV2 false (fun _ => exampleTraits) (fun i => i % 256) 34
        (fun i => 2 * i % 256) 17 (fun i => 3 * i % 256) 17 34 2 (fun _ => 0) 136 255 .Bt709
        (1 * 136 + 4 * 33) = (67 + 66) % 256
    ∧ Sse41.Yuv420pToBgraV2 false (fun _ => exampleTraits) (fun i => i % 256) 34
        (fun i => 2 * i % 256) 17 (fun i => 3 * i % 256) 17 34 2 (fun _ => 0) 136 255 .Bt709
        (1 * 136 + 4 * 33) = (67 + 32) % 256 := by
  have h := C14_chroma_replication false (fun _ => exampleTraits) (fun i => i % 256) 34
    (fun i => 2 * i % 256) 17 (fun i => 3 * i % 256) 17 34 2 (fun _ => 0) 136 255 .Bt709
    (by decide) (by decide) (by decide) (by decide) (by decide) exampleTraits_valid
  exact ⟨(h.1 1 33 (by decide) (by decide)).1, (h.2 (by decide) 1 33 (by decide) (by decide)).1⟩

/-- C15: for every width of at least 16, every `row < height` and `col < width`,
`Yuva444pToBgraV2` leaves at `bgra[row * bgraStride + 4 * col + 3]` the byte
`a[row * aStride + col]` of the alpha plane, and at the bytes 0, 1, 2 of the pixel the B, G, R
conversion of `y[row][col]`, `u[row][col]`, `v[row][col]`. The output rows are taken not to
overlap (`4 * width <= bgraStride`). -/
theorem C15_alpha_plane_pass_through (traits : SimdYuvType → YuvTraits) (y : Vec)
    (yStride : Nat) (u : Vec) (uStride : Nat) (v : Vec) (vStride : Nat) (a : Vec)
    (aStride : Nat) (width height : Nat) (bgra : Vec) (bgraStride : Nat)
    (yuvType : SimdYuvType) (hw : 16 ≤ width) (hs : 4 * width ≤ bgraStride)
    (hy : yuvType ≠ .Unknown) (hT : (traits yuvType).Valid)
    (row col : Nat) (hr : row < height) (hc : col < width) :
    Sse41.Yuva444pToBgraV2 traits y yStride u uStride v vStride a aStride width height bgra
        bgraStride yuvType (row * bgraStride + 4 * col + 3) = a (row * aStride + col)
    ∧ Sse41.Yuva444pToBgraV2 traits y yStride u uStride v vStride a aStride width height bgra
        bgraStride yuvType (row * bgraStride + 4 * col)
      = (traits yuvType).blue ((traits yuvType).unpackY (y (row * yStride + col)))
          ((traits yuvType).unpackUV (u (row * uStride + col)))
    ∧ Sse41.Yuva444pToBgraV2 traits y yStride u uStride v vStride a aStride width height bgra
        bgraStride yuvType (row * bgraStride + 4 * col + 1)
      = (traits yuvType).green ((traits yuvType).unpackY (y (row * yStride + col)))
          ((traits yuvType).unpackUV (u (row * uStride + col)))
          ((traits yuvType).unpackUV (v (row * vStride + col)))
    ∧ Sse41.Yuva444pToBgraV2 traits y yStride u uStride v vStride a aStride width height bgra
        bgraStride yuvType (row * bgraStride + 4 * col + 2)
      = (traits yuvType).red ((traits yuvType).unpackY (y (row * yStride + col)))
          ((traits yuvType).unpackUV (v (row * vStride + col))) := by
  rw [Yuva444pToBgraV2_eq traits y yStride u uStride v vStride a aStride width height bgra
    bgraStride yuvType hy]
  have h := Fill_bgra bgraStride width height
    (fun r k c => yuvPixel (traits yuvType) (y (r * yStride + k)) (u (r * uStride + k))
      (v (r * vStride + k)) (a (r * aStride + k)) c) bgra _
    (Yuva444pToBgraV2T_fill (traits yuvType) hT y yStride u uStride v vStride a aStride width
      height bgra bgraStride hw hs) hs row col hr hc
  exact ⟨h.2.2.2, h.1, h.2.1, h.2.2.1⟩

/-- Witness of C15: an image of width 20 and height 2 with the example traits; the pixel at
row 1, column 18 receives the alpha byte `a[1 * 20 + 18]`. -/
theorem C15_alpha_plane_pass_through_witness :
    Sse41.Yuva444pToBgraV2 (fun _ => exampleTraits) (fun i => i % 256) 20
        (fun i => 2 * i % 256) 20 (fun i => 3 * i % 256) 20 (fun i => 5 * i % 256) 20 20 2
        (fun _ => 0) 80 .Bt2020 (1 * 80 + 4 * 18 + 3) = 190
    ∧ Sse41.Yuva444pToBgraV2 (fun _ => exampleTraits) (fun i => i % 256) 20
        (fun i => 2 * i % 256) 20 (fun i => 3 * i % 256) 20 (fun i => 5 * i % 256) 20 20 2
        (fun _ => 0) 80 .Bt2020 (1 * 80 + 4 * 18) = 114 := by
  have h := C15_alpha_plane_pass_through (fun _ => exampleTraits) (fun i => i % 256) 20
    (fun i => 2 * i % 256) 20 (fun i => 3 * i % 256) 20 (fun i => 5 * i % 256) 20 20 2
    (fun _ => 0) 80 .Bt2020 (by decide) (by decide) (by decide) exampleTraits_valid 1 18
    (by decide) (by decide)
  exact ⟨h.1, h.2.1⟩

/-! ## Code width, over-read bytes and symmetry of the distance -/

/-- A code in `[0, 2^bits)` with `bits <= 8` is the rounded value itself: the conversion does
not reach the integer indefinite value. -/
theorem code_eq_rne (src : FVec) (scale min : ℚ) (i : Nat) (h0 : 0 ≤ code src scale min i) :
    code src scale min i = roundNearestEven ((src i - min) * scale) := by
  simp only [code, cvtps_lane] at h0 ⊢
  split_ifs at h0 ⊢ with h
  · rfl
  · omega

/-- The byte after the last bit of a code is masked off. -/
theorem mask_high_byte (x y y' sh bits : Nat) (h4 : 4 ≤ bits) (h : sh + bits ≤ 8) :
    (x + 256 * y) / 2 ^ sh % 2 ^ bits = (x + 256 * y') / 2 ^ sh % 2 ^ bits := by
  have hb : bits ≤ 8 := by omega
  have hs : sh ≤ 4 := by omega
  interval_cases bits <;> interval_cases sh <;> omega

/-- The codes of a packed stream of `n` groups depend on its first `n * bits` bytes only: the
second byte a code is read from either holds part of it and lies among them, or is the byte
after its last bit and is masked off. -/
theorem codeAt_congr (bits : Nat) (hb4 : 4 ≤ bits) (hb8 : bits ≤ 8) (m m' : Vec) (n : Nat)
    (h : ∀ k, k < n * bits → m k = m' k) (i : Nat) (hi : i < 8 * n) :
    codeAt bits m i = codeAt bits m' i := by
  have hb : bits = 4 ∨ bits = 5 ∨ bits = 6 ∨ bits = 7 ∨ bits = 8 := by omega
  have hlo : i * bits / 8 < n * bits := by
    rcases hb with hb | hb | hb | hb | hb <;> subst hb <;> omega
  have key : i * bits % 8 + bits ≤ 8 ∨ i * bits / 8 + 1 < n * bits := by
    rcases hb with hb | hb | hb | hb | hb <;> subst hb <;> omega
  simp only [codeAt]
  rw [h _ hlo]
  rcases key with k | k
  · exact mask_high_byte _ _ _ _ _ hb4 k
  · rw [h _ k]

/-- C24. Over-read bytes do not influence results. For every `bits` in 4..7 (and 8, where
nothing is over-read) and `size` a multiple of 8: when two packed inputs agree on their first
`size * bits / 8` bytes, `Decode32f<bits>` writes the same output for both, and
`Correlation<bits>` returns the same sum when each of its two inputs is replaced by one that
agrees with it on those bytes; the bytes after them, which the 16-byte and 8-byte loads also
read, do not matter. -/
theorem C24_over_read_bytes_do_not_matter (bits : Nat) (hb4 : 4 ≤ bits) (hb8 : bits ≤ 8)
    (size : Nat) (hsz : size % 8 = 0) (a a' b b' : Vec) (ha : IsBytes a) (ha' : IsBytes a')
    (hb : IsBytes b) (hb' : IsBytes b')
    (haa : ∀ k, k < size * bits / 8 → a k = a' k)
    (hbb : ∀ k, k < size * bits / 8 → b k = b' k) :
    (∀ (scale shift : ℚ) (dst : FVec),
      Avx2.Decode32fN bits a scale shift size dst = Avx2.Decode32fN bits a' scale shift size dst)
    ∧ Avx2.Correlation bits a b size = Avx2.Correlation bits a' b' size := by
  obtain ⟨n, rfl⟩ : ∃ n, size = 8 * n := ⟨size / 8, by omega⟩
  have e : 8 * n * bits / 8 = n * bits := by
    rw [Nat.mul_assoc, Nat.mul_div_cancel_left _ (by omega)]
  rw [e] at haa hbb
  have ca := codeAt_congr bits hb4 hb8 a a' n haa
  have cb := codeAt_congr bits hb4 hb8 b b' n hbb
  constructor
  · intro scale shift dst
    have h1 := Decode32fN_spec bits hb4 hb8 a ha scale shift (8 * n) dst hsz
    have h2 := Decode32fN_spec bits hb4 hb8 a' ha' scale shift (8 * n) dst hsz
    funext k
    by_cases hk : k < 8 * n
    · rw [h1.1 k hk, h2.1 k hk, ca k hk]
    · rw [h1.2 k (by omega), h2.2 k (by omega)]
  · rw [Correlation_mod bits hb4 hb8 a b ha hb (8 * n) hsz,
      Correlation_mod bits hb4 hb8 a' b' ha' hb' (8 * n) hsz]
    have hd : dot bits a b (8 * n) = dot bits a' b' (8 * n) := by
      simp only [dot]
      apply Finset.sum_congr rfl
      intro k hk
      rw [ca k (Finset.mem_range.1 hk), cb k (Finset.mem_range.1 hk)]
    rw [hd]

/-- Witness of C24: eight 5-bit codes (5 bytes); the inputs differ from byte 5 on. -/
theorem C24_over_read_bytes_do_not_matter_witness :
    Avx2.Decode32fN 5 (fun k => if k < 5 then 171 else 0) 2 1 8 (fun _ => 0)
        = Avx2.Decode32fN 5 (fun k => if k < 5 then 171 else 255) 2 1 8 (fun _ => 0)
    ∧ Avx2.Correlation 5 (fun k => if k < 5 then 171 else 0) (fun k => if k < 5 then 90 else 0) 8
        = Avx2.Correlation 5 (fun k => if k < 5 then 171 else 255)
          (fun k => if k < 5 then 90 else 77) 8 := by
  have h := C24_over_read_bytes_do_not_matter 5 (by omega) (by omega) 8 (by omega)
    (fun k => if k < 5 then 171 else 0) (fun k => if k < 5 then 171 else 255)
    (fun k => if k < 5 then 90 else 0) (fun k => if k < 5 then 90 else 77)
    (fun k => by show (if k < 5 then 171 else 0) < 256; split_ifs <;> omega)
    (fun k => by show (if k < 5 then 171 else 255) < 256; split_ifs <;> omega)
    (fun k => by show (if k < 5 then 90 else 0) < 256; split_ifs <;> omega)
    (fun k => by show (if k < 5 then 90 else 77) < 256; split_ifs <;> omega)
    (fun k hk => by
      have hk5 : k < 5 := hk
      simp only [hk5, if_true])
    (fun k hk => by
      have hk5 : k < 5 := hk
      simp only [hk5, if_true])
  exact ⟨h.1 2 1 (fun _ => 0), h.2⟩

theorem dot_comm (bits : Nat) (a b : Vec) (n : Nat) : dot bits a b n = dot bits b a n := by
  simp only [dot]
  apply Finset.sum_congr rfl
  intro k _
  exact Nat.mul_comm _ _

/-- C25. Symmetry of the distance. For every `bits` in 4..8, `size` a multiple of 8 and every
two descriptors `a`, `b`: `CosineDistance<bits>(a, b, size)` and
`CosineDistance<bits>(b, a, size)` store the same value, in exact arithmetic: the correlation
is symmetric in its two code arrays and the decoding formula is symmetric under the swap of
the two headers. -/
theorem C25_distance_symmetric (bits : Nat) (hb4 : 4 ≤ bits) (hb8 : bits ≤ 8)
    (f32 : Nat → ℚ) (a b : Vec) (ha : IsBytes a) (hb : IsBytes b) (size : Nat)
    (hsz : size % 8 = 0) (distance : FVec) (p : Nat) :
    Avx2.CosineDistance bits f32 a b size distance p
        = Avx2.CosineDistance bits f32 b a size distance p
    ∧ Avx2.Correlation bits (ptrAdd a 16) (ptrAdd b 16) size
        = Avx2.Correlation bits (ptrAdd b 16) (ptrAdd a 16) size := by
  have hc : Avx2.Correlation bits (ptrAdd a 16) (ptrAdd b 16) size
      = Avx2.Correlation bits (ptrAdd b 16) (ptrAdd a 16) size := by
    rw [Correlation_mod bits hb4 hb8 _ _ (IsBytes_ptrAdd a ha 16) (IsBytes_ptrAdd b hb 16)
        size hsz,
      Correlation_mod bits hb4 hb8 _ _ (IsBytes_ptrAdd b hb 16) (IsBytes_ptrAdd a ha 16)
        size hsz, dot_comm]
  refine ⟨?_, hc⟩
  funext k
  simp only [Avx2.CosineDistance, Base.DecodeCosineDistance, hc]
  by_cases hk : k = p + 0
  · rw [if_pos hk, if_pos hk]
    congr 2
    ring
  · rw [if_neg hk, if_neg hk]

/-- Witness of C25: two descriptors of eight 6-bit codes over constant bytes, with a header
decoding that maps every pattern to 1. -/
theorem C25_distance_symmetric_witness :
    Avx2.CosineDistance 6 (fun _ => 1) (fun _ => 7) (fun _ => 200) 8 (fun _ => 0) 0
      = Avx2.CosineDistance 6 (fun _ => 1) (fun _ => 200) (fun _ => 7) 8 (fun _ => 0) 0 :=
  (C25_distance_symmetric 6 (by omega) (by omega) (fun _ => 1) (fun _ => 7) (fun _ => 200)
    (fun _ => by show (7 : Nat) < 256; omega) (fun _ => by show (200 : Nat) < 256; omega) 8
    (by omega) (fun _ => 0) 0).1

/-! ## YUV to BGRA: the bytes that are not written -/

theorem Frame_refl (R : Nat → Prop) (m : Vec) : Frame R m m := fun _ _ => rfl

theorem Frame_trans (R R2 R3 : Nat → Prop) (m0 m m2 : Vec) (h : Frame R m0 m)
    (h2 : Frame R2 m m2) (h13 : ∀ a, R a → R3 a) (h23 : ∀ a, R2 a → R3 a) : Frame R3 m0 m2 :=
  fun a ha => (h2 a (fun r => ha (h23 a r))).trans (h a (fun r => ha (h13 a r)))

theorem Frame_mono (R R3 : Nat → Prop) (m0 m : Vec) (h : Frame R m0 m)
    (h13 : ∀ a, R a → R3 a) : Frame R3 m0 m :=
  fun a ha => h a (fun r => ha (h13 a r))

theorem YuvToBgra16_frame (align : Bool) (T : YuvTraits) (yy uu vv a_0 : Vec) (m : Vec)
    (p : Nat) :
    Frame (fun a => p ≤ a ∧ a < p + 32) m (Sse41.YuvToBgra16 align T yy uu vv a_0 m p) := by
  intro a ha
  have c1 : ¬ (p + 16 * 1 ≤ a ∧ a < p + 16 * 1 + 16) := by omega
  have c0 : ¬ (p + 16 * 0 ≤ a ∧ a < p + 16 * 0 + 16) := by omega
  simp only [Sse41.YuvToBgra16, Sse41.Store, _mm_storeu_si128, if_neg c1, if_neg c0]

theorem YuvToBgra_frame (align : Bool) (T : YuvTraits) (y8 u8 v8 a_0 : Vec) (m : Vec) (p : Nat) :
    Frame (fun a => p ≤ a ∧ a < p + 64) m (Sse41.YuvToBgra align T y8 u8 v8 a_0 m p) := by
  simp only [Sse41.YuvToBgra]
  exact Frame_trans _ _ _ _ _ _ (YuvToBgra16_frame align T _ _ _ a_0 m (p + 16 * 0))
    (YuvToBgra16_frame align T _ _ _ a_0 _ (p + 16 * 2)) (fun a h => by omega)
    (fun a h => by omega)

theorem Yuv444pBlock_frame (align : Bool) (T : YuvTraits) (y : Vec) (yo : Nat) (u : Vec)
    (uo : Nat) (v : Vec) (vo : Nat) (a_0 : Vec) (m : Vec) (p : Nat) :
    Frame (fun a => p ≤ a ∧ a < p + 64) m
      (Sse41.Yuv444pToBgraV2Block align T y yo u uo v vo a_0 m p) :=
  YuvToBgra_frame align T _ _ _ a_0 m p

theorem Yuv422pBlock_frame (align : Bool) (T : YuvTraits) (y : Vec) (yo : Nat) (u_ v_ a_0 : Vec)
    (m : Vec) (p : Nat) :
    Frame (fun a => p ≤ a ∧ a < p + 128) m
      (Sse41.Yuv422pToBgraV2Block align T y yo u_ v_ a_0 m p) := by
  simp only [Sse41.Yuv422pToBgraV2Block]
  exact Frame_trans _ _ _ _ _ _ (YuvToBgra_frame align T _ _ _ a_0 m (p + 16 * 0))
    (YuvToBgra_frame align T _ _ _ a_0 _ (p + 16 * 4)) (fun a h => by omega)
    (fun a h => by omega)

/-- One row of `Yuv444pToBgraV2` writes inside the `4 * width` bytes at the output pointer
only, the overlapping tail block included. -/
theorem yuv444pRow_frame (align : Bool) (T : YuvTraits) (y : Vec) (yStride : Nat) (u : Vec)
    (uStride : Nat) (v : Vec) (vStride : Nat) (W S : Nat) (a_0 : Vec) (hW : 16 ≤ W)
    (s : YuvPtr) :
    Frame (fun a => s.bgra ≤ a ∧ a < s.bgra + 4 * W) s.mem
      (Sse41.yuv444pRow align T y yStride u uStride v vStride W S a_0 s).mem := by
  have hbw : AlignLo W Sse41.A ≤ W := by
    simp only [Sse41.A, AlignLo]
    omega
  have loop := rangeLoop_inv (AlignLo W Sse41.A) Sse41.A
    (fun colYuv (t : Nat × Vec) =>
      (t.1 + Sse41.QA, Sse41.Yuv444pToBgraV2Block align T y (s.y + colYuv) u (s.u + colYuv) v
        (s.v + colYuv) a_0 t.2 (s.bgra + t.1)))
    (fun i t => t.1 = 4 * i ∧ Frame (fun a => s.bgra ≤ a ∧ a < s.bgra + 4 * W) s.mem t.2)
    (by decide) (Dvd.intro_left _ rfl)
    (fun i t hi _ ht => by
      obtain ⟨h1, h2⟩ := ht
      have hi2 : i + 16 ≤ W := le_trans hi hbw
      refine ⟨?_, ?_⟩
      · show t.1 + 64 = 4 * (i + 16)
        omega
      · show Frame _ s.mem (Sse41.Yuv444pToBgraV2Block align T y (s.y + i) u (s.u + i) v
          (s.v + i) a_0 t.2 (s.bgra + t.1))
        rw [h1]
        exact Frame_trans _ _ _ _ _ _ h2 (Yuv444pBlock_frame align T y _ u _ v _ a_0 t.2 _)
          (fun a h => h) (fun a h => by omega))
    (0, s.mem) ⟨rfl, Frame_refl _ _⟩
  obtain ⟨_, hframe⟩ := loop
  simp only [Sse41.yuv444pRow]
  by_cases htail : W - AlignLo W Sse41.A ≠ 0
  · rw [if_pos htail]
    refine Frame_trans _ _ _ _ _ _ hframe
      (Yuv444pBlock_frame false T y _ u _ v _ a_0 _ (s.bgra + 4 * (W - Sse41.A)))
      (fun a h => h) (fun a h => ?_)
    simp only [Sse41.A] at h
    omega
  · rw [if_neg htail]
    exact hframe

/-- One row of `Yuv422pToBgraV2` writes inside the `4 * width` bytes at the output pointer
only. -/
theorem yuv422pRow_frame (align : Bool) (T : YuvTraits) (y : Vec) (yStride : Nat) (u : Vec)
    (uStride : Nat) (v : Vec) (vStride : Nat) (W S : Nat) (a_0 : Vec) (hW : 32 ≤ W)
    (s : YuvPtr) :
    Frame (fun a => s.bgra ≤ a ∧ a < s.bgra + 4 * W) s.mem
      (Sse41.yuv422pRow align T y yStride u uStride v vStride W S a_0 s).mem := by
  have hbw : AlignLo W Sse41.DA ≤ W := by
    simp only [Sse41.DA, AlignLo]
    omega
  have loop := rangeLoop_inv (AlignLo W Sse41.DA) Sse41.DA
    (fun colY (t : Nat × Nat × Vec) =>
      (t.1 + Sse41.A, t.2.1 + Sse41.OA,
        Sse41.Yuv422pToBgraV2Block align T y (s.y + colY) (Sse41.Load align u (s.u + t.1))
          (Sse41.Load align v (s.v + t.1)) a_0 t.2.2 (s.bgra + t.2.1)))
    (fun i t => t.2.1 = 4 * i ∧ Frame (fun a => s.bgra ≤ a ∧ a < s.bgra + 4 * W) s.mem t.2.2)
    (by decide) (Dvd.intro_left _ rfl)
    (fun i t hi _ ht => by
      obtain ⟨h1, h2⟩ := ht
      have hi2 : i + 32 ≤ W := le_trans hi hbw
      refine ⟨?_, ?_⟩
      · show t.2.1 + 128 = 4 * (i + 32)
        omega
      · show Frame _ s.mem (Sse41.Yuv422pToBgraV2Block align T y (s.y + i)
          (Sse41.Load align u (s.u + t.1)) (Sse41.Load align v (s.v + t.1)) a_0 t.2.2
          (s.bgra + t.2.1))
        rw [h1]
        exact Frame_trans _ _ _ _ _ _ h2 (Yuv422pBlock_frame align T y _ _ _ a_0 t.2.2 _)
          (fun a h => h) (fun a h => by omega))
    (0, 0, s.mem) ⟨rfl, Frame_refl _ _⟩
  obtain ⟨_, hframe⟩ := loop
  simp only [Sse41.yuv422pRow]
  by_cases htail : W - AlignLo W Sse41.DA ≠ 0
  · rw [if_pos htail]
    refine Frame_trans _ _ _ _ _ _ hframe
      (Yuv422pBlock_frame false T y _ _ _ a_0 _ (s.bgra + 4 * (W - Sse41.DA)))
      (fun a h => h) (fun a h => ?_)
    simp only [Sse41.DA] at h
    omega
  · rw [if_neg htail]
    exact hframe

/-- Two rows of `Yuv420pToBgraV2` write inside the `4 * width` bytes at the output pointer and
at the output pointer plus `bgraStride` only. -/
theorem yuv420pRows_frame (align : Bool) (T : YuvTraits) (y : Vec) (yStride : Nat) (u : Vec)
    (uStride : Nat) (v : Vec) (vStride : Nat) (W S : Nat) (a_0 : Vec) (hW : 32 ≤ W)
    (s : YuvPtr) :
    Frame (fun a => (s.bgra ≤ a ∧ a < s.bgra + 4 * W)
        ∨ (s.bgra + S ≤ a ∧ a < s.bgra + S + 4 * W)) s.mem
      (Sse41.yuv420pRows align T y yStride u uStride v vStride W S a_0 s).mem := by
  have hbw : AlignLo W Sse41.DA ≤ W := by
    simp only [Sse41.DA, AlignLo]
    omega
  have loop := rangeLoop_inv (AlignLo W Sse41.DA) Sse41.DA
    (fun colY (t : Nat × Nat × Vec) =>
      (t.1 + Sse41.A, t.2.1 + Sse41.OA,
        Sse41.Yuv422pToBgraV2Block align T y (s.y + colY + yStride)
          (Sse41.Load align u (s.u + t.1)) (Sse41.Load align v (s.v + t.1)) a_0
          (Sse41.Yuv422pToBgraV2Block align T y (s.y + colY) (Sse41.Load align u (s.u + t.1))
            (Sse41.Load align v (s.v + t.1)) a_0 t.2.2 (s.bgra + t.2.1))
          (s.bgra + t.2.1 + S)))
    (fun i t => t.2.1 = 4 * i ∧ Frame (fun a => (s.bgra ≤ a ∧ a < s.bgra + 4 * W)
        ∨ (s.bgra + S ≤ a ∧ a < s.bgra + S + 4 * W)) s.mem t.2.2)
    (by decide) (Dvd.intro_left _ rfl)
    (fun i t hi _ ht => by
      obtain ⟨h1, h2⟩ := ht
      have hi2 : i + 32 ≤ W := le_trans hi hbw
      refine ⟨?_, ?_⟩
      · show t.2.1 + 128 = 4 * (i + 32)
        omega
      · show Frame _ s.mem (Sse41.Yuv422pToBgraV2Block align T y (s.y + i + yStride)
          (Sse41.Load align u (s.u + t.1)) (Sse41.Load align v (s.v + t.1)) a_0
          (Sse41.Yuv422pToBgraV2Block align T y (s.y + i) (Sse41.Load align u (s.u + t.1))
            (Sse41.Load align v (s.v + t.1)) a_0 t.2.2 (s.bgra + t.2.1))
          (s.bgra + t.2.1 + S))
        rw [h1]
        exact Frame_trans _ _ _ _ _ _
          (Frame_trans _ _ _ _ _ _ h2 (Yuv422pBlock_frame align T y _ _ _ a_0 t.2.2 _)
            (fun a h => h) (fun a h => by omega))
          (Yuv422pBlock_frame align T y _ _ _ a_0 _ _) (fun a h => h) (fun a h => by omega))
    (0, 0, s.mem) ⟨rfl, Frame_refl _ _⟩
  obtain ⟨_, hframe⟩ := loop
  simp only [Sse41.yuv420pRows]
  by_cases htail : W - AlignLo W Sse41.DA ≠ 0
  · rw [if_pos htail]
    refine Frame_trans _ _ _ _ _ _
      (Frame_trans _ _ _ _ _ _ hframe
        (Yuv422pBlock_frame false T y _ _ _ a_0 _ (s.bgra + 4 * (W - Sse41.DA)))
        (fun a h => h) (fun a h => ?_))
      (Yuv422pBlock_frame false T y _ _ _ a_0 _ (s.bgra + 4 * (W - Sse41.DA) + S))
      (fun a h => h) (fun a h => ?_)
    · simp only [Sse41.DA] at h
      omega
    · simp only [Sse41.DA] at h
      omega
  · rw [if_neg htail]
    exact hframe

theorem Yuv444pToBgraV2T_frame (align : Bool) (T : YuvTraits) (y : Vec) (yStride : Nat)
    (u : Vec) (uStride : Nat) (v : Vec) (vStride : Nat) (W H : Nat) (bgra : Vec) (S : Nat)
    (alpha : Nat) (hW : 16 ≤ W) :
    Frame (InRows S W H) bgra
      (Sse41.Yuv444pToBgraV2T align T y yStride u uStride v vStride W H bgra S alpha) := by
  have key := countLoop_inv H
    (fun _ (s : YuvPtr) => Sse41.yuv444pRow align T y yStride u uStride v vStride W S
      (_mm_slli_si128 (_mm_set1_epi16 alpha) 1) s)
    (fun r s => s.bgra = r * S ∧ Frame (InRows S W r) bgra s.mem)
    (fun r s _ hs => by
      obtain ⟨hb, hf⟩ := hs
      have hrow := yuv444pRow_frame align T y yStride u uStride v vStride W S
        (_mm_slli_si128 (_mm_set1_epi16 alpha) 1) hW s
      rw [hb] at hrow
      refine ⟨?_, ?_⟩
      · show s.bgra + S = (r + 1) * S
        rw [hb, Nat.succ_mul]
      · exact Frame_trans _ _ _ _ _ _ hf hrow
          (fun a h => by
            obtain ⟨k, hk, h1, h2⟩ := h
            exact ⟨k, by omega, h1, h2⟩)
          (fun a h => ⟨r, by omega, h.1, h.2⟩))
    ⟨0, 0, 0, 0, bgra⟩ ⟨by simp, Frame_refl _ _⟩
  exact key.2

theorem Yuv422pToBgraV2T_frame (align : Bool) (T : YuvTraits) (y : Vec) (yStride : Nat)
    (u : Vec) (uStride : Nat) (v : Vec) (vStride : Nat) (W H : Nat) (bgra : Vec) (S : Nat)
    (alpha : Nat) (hW : 32 ≤ W) :
    Frame (InRows S W H) bgra
      (Sse41.Yuv422pToBgraV2T align T y yStride u uStride v vStride W H bgra S alpha) := by
  have key := countLoop_inv H
    (fun _ (s : YuvPtr) => Sse41.yuv422pRow align T y yStride u uStride v vStride W S
      (_mm_slli_si128 (_mm_set1_epi16 alpha) 1) s)
    (fun r s => s.bgra = r * S ∧ Frame (InRows S W r) bgra s.mem)
    (fun r s _ hs => by
      obtain ⟨hb, hf⟩ := hs
      have hrow := yuv422pRow_frame align T y yStride u uStride v vStride W S
        (_mm_slli_si128 (_mm_set1_epi16 alpha) 1) hW s
      rw [hb] at hrow
      refine ⟨?_, ?_⟩
      · show s.bgra + S = (r + 1) * S
        rw [hb, Nat.succ_mul]
      · exact Frame_trans _ _ _ _ _ _ hf hrow
          (fun a h => by
            obtain ⟨k, hk, h1, h2⟩ := h
            exact ⟨k, by omega, h1, h2⟩)
          (fun a h => ⟨r, by omega, h.1, h.2⟩))
    ⟨0, 0, 0, 0, bgra⟩ ⟨by simp, Frame_refl _ _⟩
  exact key.2

theorem Yuv420pToBgraV2T_frame (align : Bool) (T : YuvTraits) (y : Vec) (yStride : Nat)
    (u : Vec) (uStride : Nat) (v : Vec) (vStride : Nat) (W H : Nat) (bgra : Vec) (S : Nat)
    (alpha : Nat) (hW : 32 ≤ W) (hH2 : H % 2 = 0) :
    Frame (InRows S W H) bgra
      (Sse41.Yuv420pToBgraV2T align T y yStride u uStride v vStride W H bgra S alpha) := by
  have key := rangeLoop_inv H 2
    (fun _ (s : YuvPtr) => Sse41.yuv420pRows align T y yStride u uStride v vStride W S
      (_mm_slli_si128 (_mm_set1_epi16 alpha) 1) s)
    (fun r s => s.bgra = r * S ∧ Frame (InRows S W r) bgra s.mem)
    (by decide) (Nat.dvd_of_mod_eq_zero hH2)
    (fun r s _ _ hs => by
      obtain ⟨hb, hf⟩ := hs
      have hS1 : (r + 1) * S = r * S + S := Nat.succ_mul r S
      have hrows := yuv420pRows_frame align T y yStride u uStride v vStride W S
        (_mm_slli_si128 (_mm_set1_epi16 alpha) 1) hW s
      rw [hb, ← hS1] at hrows
      refine ⟨?_, ?_⟩
      · show s.bgra + 2 * S = (r + 2) * S
        rw [hb]
        ring
      · exact Frame_trans _ _ _ _ _ _ hf hrows
          (fun a h => by
            obtain ⟨k, hk, h1, h2⟩ := h
            exact ⟨k, by omega, h1, h2⟩)
          (fun a h => by
            rcases h with h | h
            · exact ⟨r, by omega, h.1, h.2⟩
            · exact ⟨r + 1, by omega, h.1, h.2⟩))
    ⟨0, 0, 0, 0, bgra⟩ ⟨by simp, Frame_refl _ _⟩
  exact key.2

/-- A byte of the padding of a row lies in no row. -/
theorem padding_not_in_rows (S W H row off : Nat) (h1 : 4 * W ≤ off) (h2 : off < S) :
    ¬ InRows S W H (row * S + off) := by
  rintro ⟨k, _, k1, k2⟩
  rcases Nat.lt_trichotomy k row with h | h | h
  · have e : (k + 1) * S ≤ row * S := Nat.mul_le_mul_right S h
    rw [Nat.succ_mul] at e
    omega
  · subst h
    omega
  · have e : (row + 1) * S ≤ k * S := Nat.mul_le_mul_right S h
    rw [Nat.succ_mul] at e
    omega

theorem Yuv444pToBgraV2_frame (aligned : Bool) (traits : SimdYuvType → YuvTraits) (y : Vec)
    (yStride : Nat) (u : Vec) (uStride : Nat) (v : Vec) (vStride : Nat) (W H : Nat)
    (bgra : Vec) (S : Nat) (alpha : Nat) (yuvType : SimdYuvType) (hW : 16 ≤ W) :
    Frame (InRows S W H) bgra
      (Sse41.Yuv444pToBgraV2 aligned traits y yStride u uStride v vStride W H bgra S alpha
        yuvType) := by
  cases aligned <;> cases yuvType <;>
    first
    | exact Yuv444pToBgraV2T_frame _ _ y yStride u uStride v vStride W H bgra S alpha hW
    | exact Frame_refl _ _

theorem Yuv422pToBgraV2_frame (aligned : Bool) (traits : SimdYuvType → YuvTraits) (y : Vec)
    (yStride : Nat) (u : Vec) (uStride : Nat) (v : Vec) (vStride : Nat) (W H : Nat)
    (bgra : Vec) (S : Nat) (alpha : Nat) (yuvType : SimdYuvType) (hW : 32 ≤ W) :
    Frame (InRows S W H) bgra
      (Sse41.Yuv422pToBgraV2 aligned traits y yStride u uStride v vStride W H bgra S alpha
        yuvType) := by
  cases aligned <;> cases yuvType <;>
    first
    | exact Yuv422pToBgraV2T_frame _ _ y yStride u uStride v vStride W H bgra S alpha hW
    | exact Frame_refl _ _

theorem Yuv420pToBgraV2_frame (aligned : Bool) (traits : SimdYuvType → YuvTraits) (y : Vec)
    (yStride : Nat) (u : Vec) (uStride : Nat) (v : Vec) (vStride : Nat) (W H : Nat)
    (bgra : Vec) (S : Nat) (alpha : Nat) (yuvType : SimdYuvType) (hW : 32 ≤ W)
    (hH2 : H % 2 = 0) :
    Frame (InRows S W H) bgra
      (Sse41.Yuv420pToBgraV2 aligned traits y yStride u uStride v vStride W H bgra S alpha
        yuvType) := by
  cases aligned <;> cases yuvType <;>
    first
    | exact Yuv420pToBgraV2T_frame _ _ y yStride u uStride v vStride W H bgra S alpha hW hH2
    | exact Frame_refl _ _

/-- C27. Row padding is preserved. `Yuv444pToBgraV2` (width >= 16), `Yuv422pToBgraV2` and
`Yuv420pToBgraV2` (width >= 32, and an even height for the latter) write only the bytes at the
offsets `[0, 4 * width)` of the output rows `row < height`: every byte `a` that lies in none of
the ranges `[row * bgraStride, row * bgraStride + 4 * width)` keeps its value, whatever the
stride, the alignment path and `yuvType` are, and also after the overlapping tail block. In
particular, the bytes at the offsets `4 * width <= off < bgraStride` of every row keep their
value. -/
theorem C27_row_padding_preserved (aligned : Bool) (traits : SimdYuvType → YuvTraits)
    (y : Vec) (yStride : Nat) (u : Vec) (uStride : Nat) (v : Vec) (vStride : Nat)
    (width height : Nat) (bgra : Vec) (bgraStride : Nat) (alpha : Nat)
    (yuvType : SimdYuvType) :
    (16 ≤ width →
      (∀ a, (∀ row, row < height →
          ¬ (row * bgraStride ≤ a ∧ a < row * bgraStride + 4 * width)) →
        Sse41.Yuv444pToBgraV2 aligned traits y yStride u uStride v vStride width height bgra
          bgraStride alpha yuvType a = bgra a)
      ∧ ∀ row off, 4 * width ≤ off → off < bgraStride →
        Sse41.Yuv444pToBgraV2 aligned traits y yStride u uStride v vStride width height bgra
          bgraStride alpha yuvType (row * bgraStride + off) = bgra (row * bgraStride + off))
    ∧ (32 ≤ width →
      (∀ a, (∀ row, row < height →
          ¬ (row * bgraStride ≤ a ∧ a < row * bgraStride + 4 * width)) →
        Sse41.Yuv422pToBgraV2 aligned traits y yStride u uStride v vStride width height bgra
          bgraStride alpha yuvType a = bgra a)
      ∧ ∀ row off, 4 * width ≤ off → off < bgraStride →
        Sse41.Yuv422pToBgraV2 aligned traits y yStride u uStride v vStride width height bgra
          bgraStride alpha yuvType (row * bgraStride + off) = bgra (row * bgraStride + off))
    ∧ (32 ≤ width → height % 2 = 0 →
      (∀ a, (∀ row, row < height →
          ¬ (row * bgraStride ≤ a ∧ a < row * bgraStride + 4 * width)) →
        Sse41.Yuv420pToBgraV2 aligned traits y yStride u uStride v vStride width height bgra
          bgraStride alpha yuvType a = bgra a)
      ∧ ∀ row off, 4 * width ≤ off → off < bgraStride →
        Sse41.Yuv420pToBgraV2 aligned traits y yStride u uStride v vStride width height bgra
          bgraStride alpha yuvType (row * bgraStride + off)
            = bgra (row * bgraStride + off)) := by
  have hin : ∀ a, (∀ row, row < height →
      ¬ (row * bgraStride ≤ a ∧ a < row * bgraStride + 4 * width)) →
      ¬ InRows bgraStride width height a :=
    fun a h ⟨k, hk, h1, h2⟩ => h k hk ⟨h1, h2⟩
  refine ⟨fun hw => ⟨fun a ha => ?_, fun row off h1 h2 => ?_⟩,
    fun hw => ⟨fun a ha => ?_, fun row off h1 h2 => ?_⟩,
    fun hw hh => ⟨fun a ha => ?_, fun row off h1 h2 => ?_⟩⟩
  · exact Yuv444pToBgraV2_frame aligned traits y yStride u uStride v vStride width height bgra
      bgraStride alpha yuvType hw a (hin a ha)
  · exact Yuv444pToBgraV2_frame aligned traits y yStride u uStride v vStride width height bgra
      bgraStride alpha yuvType hw _ (padding_not_in_rows bgraStride width height row off h1 h2)
  · exact Yuv422pToBgraV2_frame aligned traits y yStride u uStride v vStride width height bgra
      bgraStride alpha yuvType hw a (hin a ha)
  · exact Yuv422pToBgraV2_frame aligned traits y yStride u uStride v vStride width height bgra
      bgraStride alpha yuvType hw _ (padding_not_in_rows bgraStride width height row off h1 h2)
  · exact Yuv420pToBgraV2_frame aligned traits y yStride u uStride v vStride width height bgra
      bgraStride alpha yuvType hw hh a (hin a ha)
  · exact Yuv420pToBgraV2_frame aligned traits y yStride u uStride v vStride width height bgra
      bgraStride alpha yuvType hw hh _
      (padding_not_in_rows bgraStride width height row off h1 h2)

/-! ## The scratch buffer of the normalize layer -/

/-- The NCHW layer per spatial position: every float of the destination, for every scratch
buffer. -/
theorem SynetNormalize_nchw_all {F : Type} [Field F] (sqrt : F → F) (src : Nat → F)
    (B C S : Nat) (scale eps : Nat → F) (buf : Option (Nat → F)) (dst : Nat → F) (a : Nat) :
    Base.SynetNormalizeLayerForward sqrt src B C S scale eps false .Nchw buf dst a
      = if a < B * C * S then normV2 sqrt src scale (eps 0) C S a else dst a := by
  have key := countLoop_inv B
    (fun _ (t : NPtr F × (Nat → F)) => Base.normBatchNchw sqrt src C S scale (eps 0) t)
    (fun b t => FilledN (normV2 sqrt src scale (eps 0) C S) dst (b * C * S) t.1)
    (fun b t _ ht => normBatchNchw_spec sqrt src scale (eps 0) C S dst b t ht)
    (⟨0, 0, dst⟩, match buf with
      | none => fun _ => 0
      | some b => b) (by
      show FilledN _ dst (0 * C * S) _
      rw [Nat.zero_mul, Nat.zero_mul]
      exact FilledN_init _ dst)
  by_cases ha : a < B * C * S
  · rw [if_pos ha]
    exact key.2.2.1 a ha
  · rw [if_neg ha]
    exact key.2.2.2 a (by omega)

/-- C28. Scratch-buffer independence. In `SynetNormalizeLayerForward` with the NCHW format and
`acrossSpatial` false the output `dst` is the same for every two choices of `buf`, each either
`NULL` (internal scratch) or a caller-supplied buffer with any initial contents. In every
other branch (NCHW across spatial, NHWC in both modes, and an unknown format) `buf` is not
read, the output being the same for every two choices of `buf`, and not written, the caller's
buffer having on return the contents it had on entry. -/
theorem C28_scratch_buffer_independence {F : Type} [Field F] (sqrt : F → F) (src : Nat → F)
    (batch channels spatial : Nat) (scale eps : Nat → F) (dst : Nat → F) :
    (∀ buf1 buf2 : Option (Nat → F),
      Base.SynetNormalizeLayerForward sqrt src batch channels spatial scale eps false .Nchw
          buf1 dst
        = Base.SynetNormalizeLayerForward sqrt src batch channels spatial scale eps false .Nchw
          buf2 dst)
    ∧ (∀ (acrossSpatial : Bool) (format : SimdTensorFormatType),
      ¬ (acrossSpatial = false ∧ format = .Nchw) → ∀ buf1 buf2 : Option (Nat → F),
        Base.SynetNormalizeLayerForward sqrt src batch channels spatial scale eps acrossSpatial
            format buf1 dst
          = Base.SynetNormalizeLayerForward sqrt src batch channels spatial scale eps
            acrossSpatial format buf2 dst
        ∧ (Base.SynetNormalizeLayerForwardBuf sqrt src batch channels spatial scale eps
            acrossSpatial format buf1 dst).2 = buf1)
    ∧ (∀ (acrossSpatial : Bool) (format : SimdTensorFormatType) (buf : Option (Nat → F)),
      (Base.SynetNormalizeLayerForwardBuf sqrt src batch channels spatial scale eps
          acrossSpatial format buf dst).1
        = Base.SynetNormalizeLayerForward sqrt src batch channels spatial scale eps
          acrossSpatial format buf dst) := by
  refine ⟨fun buf1 buf2 => ?_, fun acrossSpatial format hne buf1 buf2 => ?_,
    fun acrossSpatial format buf => ?_⟩
  · funext a
    rw [SynetNormalize_nchw_all, SynetNormalize_nchw_all]
  · cases acrossSpatial <;> cases format
    · exact absurd ⟨rfl, rfl⟩ hne
    · exact ⟨rfl, rfl⟩
    · exact ⟨rfl, rfl⟩
    · exact ⟨rfl, rfl⟩
    · exact ⟨rfl, rfl⟩
    · exact ⟨rfl, rfl⟩
  · cases acrossSpatial <;> cases format <;> rfl

/-! ## The vector quantise-and-store -/

theorem u32_lt_of_bytes (v : Vec) (hv : IsBytes v) (k : Nat) : u32 v k < 4294967296 := by
  have h0 := hv (4 * k)
  have h1 := hv (4 * k + 1)
  have h2 := hv (4 * k + 2)
  have h3 := hv (4 * k + 3)
  simp only [u32]
  omega

theorem ofS32_lt (z : Int) : ofS32 z < 4294967296 := by
  simp only [ofS32]
  omega

theorem toS32_ofS32 (z : Int) (h : FitsInt32 z) : toS32 (ofS32 z) = z := by
  obtain ⟨h0, h1⟩ := h
  simp only [toS32, ofS32]
  split_ifs <;> omega

theorem toS32_add_lane (x y : Nat) (hx : x < 4294967296) (hy : y < 4294967296)
    (h : FitsInt32 (toS32 x + toS32 y)) :
    toS32 ((x + y) % 4294967296) = toS32 x + toS32 y := by
  obtain ⟨h0, h1⟩ := h
  simp only [toS32] at h0 h1 ⊢
  split_ifs at h0 h1 ⊢ <;> omega

/-- The signed-16 saturating pack followed by the unsigned-8 saturating pack is the clamp to
`[0, 255]`. -/
theorem clamp_packs (x : Int) :
    ((satU8 (toS16 (ofS16 (satS16 x))) : Nat) : Int) = RestrictRangeInt x 0 255 := by
  simp only [satU8, toS16, ofS16, satS16, RestrictRangeInt]
  rcases le_total x 255 with h | h
  · rw [min_eq_right h]
    rcases le_total 0 x with h0 | h0
    · rw [max_eq_right h0]
      split_ifs <;> omega
    · rw [max_eq_left h0]
      split_ifs <;> omega
  · rw [min_eq_left h, max_eq_right (by norm_num)]
    split_ifs <;> omega

/-- One lane of `add_epi32(cvtps_epi32(mul_ps(cvtepi32_ps(add_epi32(sum, bias)), norm)), zero)`
given as a function of the lanes: the scalar value `NearByInt(float(sum + bias) * norm) + zero`
when nothing overflows. -/
theorem quant_lane (s b z : Nat) (n : ℚ) (hs : s < 4294967296) (hb : b < 4294967296)
    (hz : z < 4294967296) (h : NoOverflow (toS32 s) (toS32 b) n (toS32 z)) :
    toS32 ((ofS32 (cvtps_lane ((toS32 ((s + b) % 4294967296) : ℚ) * n)) % 4294967296 + z)
        % 4294967296)
      = Base.NearByInt (((toS32 s + toS32 b : Int) : ℚ) * n) + toS32 z := by
  obtain ⟨h1, h2, h3⟩ := h
  rw [toS32_add_lane s b hs hb h1]
  have e : cvtps_lane (((toS32 s + toS32 b : Int) : ℚ) * n)
      = roundNearestEven (((toS32 s + toS32 b : Int) : ℚ) * n) := by
    simp only [cvtps_lane]
    exact if_pos h2
  rw [e, Nat.mod_eq_of_lt (ofS32_lt _)]
  have e2 := toS32_ofS32 _ h2
  rw [toS32_add_lane _ z (ofS32_lt _) hz (by rw [e2]; exact h3), e2]
  rfl

theorem quant_lane128 (sum bias zero : Vec) (norm : FVec) (hs : IsBytes sum)
    (hb : IsBytes bias) (hz : IsBytes zero) (k : Nat)
    (h : NoOverflow (s32 sum k) (s32 bias k) (norm k) (s32 zero k)) :
    toS32 (u32 (_mm_add_epi32 (_mm_cvtps_epi32 (_mm_mul_ps
        (_mm_cvtepi32_ps (_mm_add_epi32 sum bias)) norm)) zero) k)
      = Base.NearByInt (((s32 sum k + s32 bias k : Int) : ℚ) * norm k) + s32 zero k := by
  simp only [_mm_add_epi32, _mm_cvtps_epi32, _mm_mul_ps, _mm_cvtepi32_ps, u32_ofU32]
  have e : (u32 sum k + u32 bias k) % 4294967296 % 4294967296
      = (u32 sum k + u32 bias k) % 4294967296 := Nat.mod_mod _ _
  have e2 : ∀ x : Nat, x % 4294967296 % 4294967296 = x % 4294967296 := fun x => Nat.mod_mod _ _
  rw [e, e2]
  exact quant_lane _ _ _ _ (u32_lt_of_bytes sum hs k) (u32_lt_of_bytes bias hb k)
    (u32_lt_of_bytes zero hz k) h

theorem quant_lane256 (sum bias zero : Vec) (norm : FVec) (hs : IsBytes sum)
    (hb : IsBytes bias) (hz : IsBytes zero) (k : Nat)
    (h : NoOverflow (s32 sum k) (s32 bias k) (norm k) (s32 zero k)) :
    toS32 (u32 (_mm256_add_epi32 (_mm256_cvtps_epi32 (_mm256_mul_ps
        (_mm256_cvtepi32_ps (_mm256_add_epi32 sum bias)) norm)) zero) k)
      = Base.NearByInt (((s32 sum k + s32 bias k : Int) : ℚ) * norm k) + s32 zero k := by
  simp only [_mm256_add_epi32, _mm256_cvtps_epi32, _mm256_mul_ps, _mm256_cvtepi32_ps,
    u32_ofU32]
  have e : (u32 sum k + u32 bias k) % 4294967296 % 4294967296
      = (u32 sum k + u32 bias k) % 4294967296 := Nat.mod_mod _ _
  have e2 : ∀ x : Nat, x % 4294967296 % 4294967296 = x % 4294967296 := fun x => Nat.mod_mod _ _
  rw [e, e2]
  exact quant_lane _ _ _ _ (u32_lt_of_bytes sum hs k) (u32_lt_of_bytes bias hb k)
    (u32_lt_of_bytes zero hz k) h

theorem ofS16_lt (z : Int) : ofS16 z < 65536 := by
  simp only [ofS16]
  omega

/-- Byte `j` of `packus_epi16(packs_epi32(a, b), 0)`: the clamp of lane `j` of `a` (`j < 4`) or
of lane `j - 4` of `b` (`4 <= j < 8`). -/
theorem packus_packs_byte (a b : Vec) (j : Nat) (hj : j < 8) :
    ((_mm_packus_epi16 (_mm_packs_epi32 a b) Sse41.K_ZERO j : Nat) : Int)
      = RestrictRangeInt (if j < 4 then toS32 (u32 a j) else toS32 (u32 b (j - 4))) 0 255 := by
  simp only [_mm_packus_epi16, if_pos hj, _mm_packs_epi32, u16_ofU16]
  by_cases h4 : j < 4
  · simp only [if_pos h4]
    rw [Nat.mod_eq_of_lt (ofS16_lt _)]
    exact clamp_packs _
  · simp only [if_neg h4]
    rw [Nat.mod_eq_of_lt (ofS16_lt _)]
    exact clamp_packs _

/-- Byte `j` of `PackI16ToU8(PackI32ToI16(a, b), 0)`, `j < 16`. -/
theorem PackI_byte (a b : Vec) (j : Nat) (hj : j < 16) :
    ((_mm256_castsi256_si128 (PackI16ToU8 (PackI32ToI16 a b) Avx2.K_ZERO) j : Nat) : Int)
      = RestrictRangeInt (if j < 8 then toS32 (u32 a j) else toS32 (u32 b (j - 8))) 0 255 := by
  simp only [_mm256_castsi256_si128, PackI16ToU8, if_pos hj, PackI32ToI16, u16_ofU16]
  by_cases h8 : j < 8
  · simp only [if_pos h8]
    rw [Nat.mod_eq_of_lt (ofS16_lt _)]
    exact clamp_packs _
  · simp only [if_neg h8]
    rw [Nat.mod_eq_of_lt (ofS16_lt _)]
    exact clamp_packs _

/-- The little-endian byte `k` of the low 32 bits of a byte register is its byte `k`. -/
theorem cvtsi128_byte (v : Vec) (hv : IsBytes v) (k : Nat) (hk : k < 4) :
    _mm_cvtsi128_si32 v / 256 ^ k % 256 = v k := by
  have h0 := hv 0
  have h1 := hv 1
  have h2 := hv 2
  have h3 := hv 3
  simp only [_mm_cvtsi128_si32, u32, Nat.mul_zero, Nat.zero_add]
  interval_cases k <;> omega

/-- The bytes the Sse41 `Save<index>` stores. -/
theorem Sse41_Save_byte (index : Nat) (m : Vec) (dst : Nat) (sum : Vec) (bias : Nat → Vec)
    (norm : Nat → FVec) (zero : Vec) (a : Nat) :
    Sse41.QuntizedTerm8iLast8u.Save index m dst sum bias norm zero a
      = if dst + 4 * index ≤ a ∧ a < dst + 4 * index + 4 then
          _mm_packus_epi16 (_mm_packs_epi32 (_mm_add_epi32 (_mm_cvtps_epi32 (_mm_mul_ps
            (_mm_cvtepi32_ps (_mm_add_epi32 sum (bias index))) (norm index))) zero)
            Sse41.K_ZERO) Sse41.K_ZERO (a - (dst + 4 * index))
        else m a := by
  simp only [Sse41.QuntizedTerm8iLast8u.Save, store_u32]
  by_cases h : dst + 4 * index ≤ a ∧ a < dst + 4 * index + 4
  · rw [if_pos h, if_pos h]
    exact cvtsi128_byte _ (packus_epi16_lt _ _) _ (by omega)
  · rw [if_neg h, if_neg h]

/-- A copy loop `for (i < n) dst[p + i] = f(i)`. -/
theorem copyLoop_spec (n p : Nat) (f : Nat → Nat) (m : Vec) (a : Nat) :
    rangeLoop n 1 (fun i (m : Vec) => store_u8 m (p + i) (f i)) m a
      = if p ≤ a ∧ a < p + n then f (a - p) % 256 else m a := by
  have key := countLoop_inv n (fun i (m : Vec) => store_u8 m (p + i) (f i))
    (fun i t => ∀ a, t a = if p ≤ a ∧ a < p + i then f (a - p) % 256 else m a)
    (fun i t _ ht a => by
      show store_u8 t (p + i) (f i) a = _
      simp only [store_u8]
      by_cases e : a = p + i
      · have c : p ≤ a ∧ a < p + (i + 1) := by omega
        have e2 : a - p = i := by omega
        rw [if_pos e, if_pos c, e2]
      · rw [if_neg e, ht a]
        by_cases c : p ≤ a ∧ a < p + i
        · rw [if_pos c, if_pos (by omega)]
        · rw [if_neg c, if_neg (by omega)])
    m (fun a => by rw [if_neg (by omega)])
  exact key a

theorem NoOverflow_one (S B Z : Int) (h1 : FitsInt32 (S + B)) (h2 : FitsInt32 (S + B + Z)) :
    NoOverflow S B 1 Z := by
  refine ⟨h1, ?_, ?_⟩
  · rw [mul_one, roundNearestEven_intCast]
    exact h1
  · rw [mul_one, roundNearestEven_intCast]
    exact h2

theorem s32_ofU32 (f : Nat → Nat) (k : Nat) (h : f k < 2147483648) :
    s32 (ofU32 f) k = (f k : Int) := by
  simp only [s32, u32_ofU32]
  rw [Nat.mod_eq_of_lt (by omega), toS32_small _ h]

/-- C22. The vector quantise-and-store equals the scalar formula lane by lane. For the Sse41
and the Avx2 `QuntizedTerm8i<Term8iLast8u>::Save` (the one-register `Save<index>`, four and
eight bytes, and the two-register `Save`, eight and sixteen bytes): every stored byte `k` is
`QuantizeSumLinear(sum_k, bias[index]_k, norm[index]_k, zero_k, 0, 255)`, provided that lane
does not overflow 32-bit integers: `sum_k + bias_k`, the rounded product (the `int` the scalar
code adds `zero` to) and the rounded product plus `zero_k` fit `int32_t`. The signed-16 and
unsigned-8 saturating packs together act as the clamp to `[0, 255]`. Float arithmetic is
exact. -/
theorem C22_vector_store_equals_scalar (index : Nat) (m : Vec) (dst : Nat)
    (sum sum0 sum1 : Vec) (bias : Nat → Vec) (norm : Nat → FVec) (zero : Vec)
    (hs : IsBytes sum) (hs0 : IsBytes sum0) (hs1 : IsBytes sum1) (hb : ∀ i, IsBytes (bias i))
    (hz : IsBytes zero) :
    (∀ k, k < 4 → NoOverflow (s32 sum k) (s32 (bias index) k) (norm index k) (s32 zero k) →
      ((Sse41.QuntizedTerm8iLast8u.Save index m dst sum bias norm zero
          (dst + 4 * index + k) : Nat) : Int)
        = Base.QuantizeSumLinear (s32 sum k) (s32 (bias index) k) (norm index k) (s32 zero k)
            0 255)
    ∧ (∀ k, k < 8 → NoOverflow (s32 sum k) (s32 (bias index) k) (norm index k) (s32 zero k) →
      ((Avx2.QuntizedTerm8iLast8u.Save index m dst sum bias norm zero
          (dst + index * 8 + k) : Nat) : Int)
        = Base.QuantizeSumLinear (s32 sum k) (s32 (bias index) k) (norm index k) (s32 zero k)
            0 255)
    ∧ (∀ k, k < 4 →
      (NoOverflow (s32 sum0 k) (s32 (bias 0) k) (norm 0 k) (s32 zero k) →
        ((Sse41.QuntizedTerm8iLast8u.Save2 m dst sum0 sum1 bias norm zero (dst + k) : Nat)
            : Int)
          = Base.QuantizeSumLinear (s32 sum0 k) (s32 (bias 0) k) (norm 0 k) (s32 zero k) 0 255)
      ∧ (NoOverflow (s32 sum1 k) (s32 (bias 1) k) (norm 1 k) (s32 zero k) →
        ((Sse41.QuntizedTerm8iLast8u.Save2 m dst sum0 sum1 bias norm zero
            (dst + 4 + k) : Nat) : Int)
          = Base.QuantizeSumLinear (s32 sum1 k) (s32 (bias 1) k) (norm 1 k) (s32 zero k)
              0 255))
    ∧ (∀ k, k < 8 →
      (NoOverflow (s32 sum0 k) (s32 (bias 0) k) (norm 0 k) (s32 zero k) →
        ((Avx2.QuntizedTerm8iLast8u.Save2 m dst sum0 sum1 bias norm zero (dst + k) : Nat)
            : Int)
          = Base.QuantizeSumLinear (s32 sum0 k) (s32 (bias 0) k) (norm 0 k) (s32 zero k) 0 255)
      ∧ (NoOverflow (s32 sum1 k) (s32 (bias 1) k) (norm 1 k) (s32 zero k) →
        ((Avx2.QuntizedTerm8iLast8u.Save2 m dst sum0 sum1 bias norm zero
            (dst + 8 + k) : Nat) : Int)
          = Base.QuantizeSumLinear (s32 sum1 k) (s32 (bias 1) k) (norm 1 k) (s32 zero k)
              0 255)) := by
  refine ⟨fun k hk h => ?_, fun k hk h => ?_, fun k hk => ⟨fun h => ?_, fun h => ?_⟩,
    fun k hk => ⟨fun h => ?_, fun h => ?_⟩⟩
  · have c : dst + 4 * index ≤ dst + 4 * index + k ∧ dst + 4 * index + k < dst + 4 * index + 4 :=
      by omega
    have e : dst + 4 * index + k - (dst + 4 * index) = k := by omega
    rw [Sse41_Save_byte, if_pos c, e, packus_packs_byte _ _ k (by omega), if_pos hk,
      quant_lane128 sum (bias index) zero (norm index) hs (hb index) hz k h]
    rfl
  · have c : dst + index * 8 ≤ dst + index * 8 + k ∧ dst + index * 8 + k < dst + index * 8 + 8 :=
      by omega
    have e : dst + index * 8 + k - (dst + index * 8) = k := by omega
    simp only [Avx2.QuntizedTerm8iLast8u.Save, Avx2.F, _mm_storel_epi64, if_pos c, e]
    rw [PackI_byte _ _ k (by omega), if_pos hk,
      quant_lane256 sum (bias index) zero (norm index) hs (hb index) hz k h]
    rfl
  · have c : dst ≤ dst + k ∧ dst + k < dst + 8 := by omega
    have e : dst + k - dst = k := by omega
    simp only [Sse41.QuntizedTerm8iLast8u.Save2, _mm_storel_epi64, if_pos c, e]
    rw [packus_packs_byte _ _ k (by omega), if_pos hk,
      quant_lane128 sum0 (bias 0) zero (norm 0) hs0 (hb 0) hz k h]
    rfl
  · have c : dst ≤ dst + 4 + k ∧ dst + 4 + k < dst + 8 := by omega
    have e : dst + 4 + k - dst = 4 + k := by omega
    have e2 : 4 + k - 4 = k := by omega
    simp only [Sse41.QuntizedTerm8iLast8u.Save2, _mm_storel_epi64, if_pos c, e]
    rw [packus_packs_byte _ _ (4 + k) (by omega), if_neg (by omega), e2,
      quant_lane128 sum1 (bias 1) zero (norm 1) hs1 (hb 1) hz k h]
    rfl
  · have c : dst ≤ dst + k ∧ dst + k < dst + 16 := by omega
    have e : dst + k - dst = k := by omega
    simp only [Avx2.QuntizedTerm8iLast8u.Save2, _mm_storeu_si128, if_pos c, e]
    rw [PackI_byte _ _ k (by omega), if_pos hk,
      quant_lane256 sum0 (bias 0) zero (norm 0) hs0 (hb 0) hz k h]
    rfl
  · have c : dst ≤ dst + 8 + k ∧ dst + 8 + k < dst + 16 := by omega
    have e : dst + 8 + k - dst = 8 + k := by omega
    have e2 : 8 + k - 8 = k := by omega
    simp only [Avx2.QuntizedTerm8iLast8u.Save2, _mm_storeu_si128, if_pos c, e]
    rw [PackI_byte _ _ (8 + k) (by omega), if_neg (by omega), e2,
      quant_lane256 sum1 (bias 1) zero (norm 1) hs1 (hb 1) hz k h]
    rfl

/-- Witness of C22: lane 2 of the Sse41 `Save<1>` for the sums `100 k`, the bias 24, the norm 1
and the zero point 3. -/
theorem C22_vector_store_equals_scalar_witness :
    ((Sse41.QuntizedTerm8iLast8u.Save 1 (fun _ => 0) 0 (ofU32 (fun k => 100 * k))
        (fun _ => ofU32 (fun _ => 24)) (fun _ _ => 1) (ofU32 (fun _ => 3))
        (0 + 4 * 1 + 2) : Nat) : Int)
      = Base.QuantizeSumLinear (s32 (ofU32 (fun k => 100 * k)) 2)
          (s32 (ofU32 (fun _ => 24)) 2) 1 (s32 (ofU32 (fun _ => 3)) 2) 0 255 :=
  (C22_vector_store_equals_scalar 1 (fun _ => 0) 0 (ofU32 (fun k => 100 * k))
    (ofU32 (fun _ => 0)) (ofU32 (fun _ => 0)) (fun _ => ofU32 (fun _ => 24)) (fun _ _ => 1)
    (ofU32 (fun _ => 3)) (ofU32_lt _) (ofU32_lt _) (ofU32_lt _) (fun _ => ofU32_lt _)
    (ofU32_lt _)).1 2 (by omega)
    (by
      rw [s32_ofU32 (fun k => 100 * k) 2 (by decide), s32_ofU32 (fun _ => 24) 2 (by decide),
        s32_ofU32 (fun _ => 3) 2 (by decide)]
      exact NoOverflow_one _ _ _ (by unfold FitsInt32; omega)
        (by unfold FitsInt32; omega))

/-- C23. The tail store writes exactly `tail` outputs. For the Sse41 and the Avx2
`QuntizedTerm8i<Term8iLast8u>::Save<index>` with a tail count `tail <= F` (`F` is 4 and 8): the
bytes `dst[index * F + i]`, `i < tail`, receive the bytes the full store `Save<index>` writes
there (the first `tail` quantised lanes), and every other byte of `dst` keeps its value,
whatever the local array `tmp` held before. -/
theorem C23_tail_store_writes_tail_outputs (index : Nat) (m : Vec) (dst : Nat) (sum : Vec)
    (bias : Nat → Vec) (norm : Nat → FVec) (zero : Vec) (tail : Nat) (tmp : Vec) :
    (tail ≤ Sse41.F →
      (∀ i, i < tail →
        Sse41.QuntizedTerm8iLast8u.SaveTail index m dst sum bias norm zero tail tmp
            (dst + index * Sse41.F + i)
          = Sse41.QuntizedTerm8iLast8u.Save index m dst sum bias norm zero
            (dst + index * Sse41.F + i))
      ∧ (∀ a, ¬ (dst + index * Sse41.F ≤ a ∧ a < dst + index * Sse41.F + tail) →
        Sse41.QuntizedTerm8iLast8u.SaveTail index m dst sum bias norm zero tail tmp a = m a))
    ∧ (tail ≤ Avx2.F →
      (∀ i, i < tail →
        Avx2.QuntizedTerm8iLast8u.SaveTail index m dst sum bias norm zero tail tmp
            (dst + index * Avx2.F + i)
          = Avx2.QuntizedTerm8iLast8u.Save index m dst sum bias norm zero
            (dst + index * Avx2.F + i))
      ∧ (∀ a, ¬ (dst + index * Avx2.F ≤ a ∧ a < dst + index * Avx2.F + tail) →
        Avx2.QuntizedTerm8iLast8u.SaveTail index m dst sum bias norm zero tail tmp a = m a)) := by
  refine ⟨fun ht => ⟨fun i hi => ?_, fun a ha => ?_⟩, fun ht => ⟨fun i hi => ?_, fun a ha => ?_⟩⟩
  · simp only [Sse41.F] at ht ⊢
    have c : dst + index * 4 ≤ dst + index * 4 + i ∧ dst + index * 4 + i < dst + index * 4 + tail :=
      by omega
    have e : dst + index * 4 + i - (dst + index * 4) = i := by omega
    have c1 : 0 + 4 * index ≤ index * 4 + i ∧ index * 4 + i < 0 + 4 * index + 4 := by omega
    have c2 : dst + 4 * index ≤ dst + index * 4 + i ∧ dst + index * 4 + i < dst + 4 * index + 4 :=
      by omega
    have e1 : index * 4 + i - (0 + 4 * index) = i := by omega
    have e2 : dst + index * 4 + i - (dst + 4 * index) = i := by omega
    simp only [Sse41.QuntizedTerm8iLast8u.SaveTail, Sse41.F]
    rw [copyLoop_spec tail (dst + index * 4)
      (fun i => Sse41.QuntizedTerm8iLast8u.Save index tmp 0 sum bias norm zero (index * 4 + i)),
      if_pos c, e, Sse41_Save_byte, Sse41_Save_byte, if_pos c1, if_pos c2, e1, e2]
    exact Nat.mod_eq_of_lt (packus_epi16_lt _ _ _)
  · simp only [Sse41.F] at ha ⊢
    simp only [Sse41.QuntizedTerm8iLast8u.SaveTail, Sse41.F]
    rw [copyLoop_spec tail (dst + index * 4)
      (fun i => Sse41.QuntizedTerm8iLast8u.Save index tmp 0 sum bias norm zero (index * 4 + i)),
      if_neg ha]
  · simp only [Avx2.F] at ht ⊢
    have c : dst + index * 8 ≤ dst + index * 8 + i ∧ dst + index * 8 + i < dst + index * 8 + tail :=
      by omega
    have e : dst + index * 8 + i - (dst + index * 8) = i := by omega
    have c1 : 0 + index * 8 ≤ index * 8 + i ∧ index * 8 + i < 0 + index * 8 + 8 := by omega
    have c2 : dst + index * 8 ≤ dst + index * 8 + i ∧ dst + index * 8 + i < dst + index * 8 + 8 :=
      by omega
    have e1 : index * 8 + i - (0 + index * 8) = i := by omega
    simp only [Avx2.QuntizedTerm8iLast8u.SaveTail, Avx2.F]
    rw [copyLoop_spec tail (dst + index * 8)
      (fun i => Avx2.QuntizedTerm8iLast8u.Save index tmp 0 sum bias norm zero (index * 8 + i)),
      if_pos c, e]
    simp only [Avx2.QuntizedTerm8iLast8u.Save, Avx2.F, _mm_storel_epi64, if_pos c1, if_pos c2,
      e1, e]
    exact Nat.mod_eq_of_lt (PackI16ToU8_lt _ _ _)
  · simp only [Avx2.F] at ha ⊢
    simp only [Avx2.QuntizedTerm8iLast8u.SaveTail, Avx2.F]
    rw [copyLoop_spec tail (dst + index * 8)
      (fun i => Avx2.QuntizedTerm8iLast8u.Save index tmp 0 sum bias norm zero (index * 8 + i)),
      if_neg ha]

/-! ## `MinMax32f` -/

theorem MinVal32f_le {E : Type} [LinearOrder E] (a : Nat → E) (l : Nat) (hl : l < 8) :
    Avx2.MinVal32f a ≤ a l := by
  simp only [Avx2.MinVal32f]
  interval_cases l <;> simp [min_le_iff]

theorem le_MaxVal32f {E : Type} [LinearOrder E] (a : Nat → E) (l : Nat) (hl : l < 8) :
    a l ≤ Avx2.MaxVal32f a := by
  simp only [Avx2.MaxVal32f]
  interval_cases l <;> simp [le_max_iff]

theorem min_pick {E : Type} [LinearOrder E] (P : E → Prop) (x y : E) (hx : P x) (hy : P y) :
    P (min x y) := by
  rcases min_choice x y with h | h <;> rw [h] <;> assumption

theorem max_pick {E : Type} [LinearOrder E] (P : E → Prop) (x y : E) (hx : P x) (hy : P y) :
    P (max x y) := by
  rcases max_choice x y with h | h <;> rw [h] <;> assumption

theorem MinVal32f_mem {E : Type} [LinearOrder E] (a : Nat → E) :
    ∃ l, l < 8 ∧ Avx2.MinVal32f a = a l := by
  simp only [Avx2.MinVal32f]
  have pk := min_pick (fun x => ∃ l, l < 8 ∧ x = a l)
  exact pk _ _
    (pk _ _ (pk _ _ ⟨0, by omega, rfl⟩ ⟨1, by omega, rfl⟩)
      (pk _ _ ⟨2, by omega, rfl⟩ ⟨3, by omega, rfl⟩))
    (pk _ _ (pk _ _ ⟨4, by omega, rfl⟩ ⟨5, by omega, rfl⟩)
      (pk _ _ ⟨6, by omega, rfl⟩ ⟨7, by omega, rfl⟩))

theorem MaxVal32f_mem {E : Type} [LinearOrder E] (a : Nat → E) :
    ∃ l, l < 8 ∧ Avx2.MaxVal32f a = a l := by
  simp only [Avx2.MaxVal32f]
  have pk := max_pick (fun x => ∃ l, l < 8 ∧ x = a l)
  exact pk _ _
    (pk _ _ (pk _ _ ⟨0, by omega, rfl⟩ ⟨1, by omega, rfl⟩)
      (pk _ _ ⟨2, by omega, rfl⟩ ⟨3, by omega, rfl⟩))
    (pk _ _ (pk _ _ ⟨4, by omega, rfl⟩ ⟨5, by omega, rfl⟩)
      (pk _ _ ⟨6, by omega, rfl⟩ ⟨7, by omega, rfl⟩))

theorem MinMax32f_inv {E : Type} [LinearOrder E] (hi lo : E) (src : Nat → E) (size : Nat)
    (hsz : size % 8 = 0) :
    MinMaxInv hi lo src size
      (rangeLoop size 8 (fun i (t : (Nat → E) × (Nat → E)) =>
        (OrdLane._mm256_min_ps (OrdLane._mm256_loadu_ps src i) t.1,
          OrdLane._mm256_max_ps (OrdLane._mm256_loadu_ps src i) t.2))
        (OrdLane._mm256_set1_ps hi, OrdLane._mm256_set1_ps lo)) := by
  apply rangeLoop_inv size 8 _ (MinMaxInv hi lo src) (by omega) (Nat.dvd_of_mod_eq_zero hsz)
  · intro i t _ hdvd ht
    obtain ⟨h1, h2, h3⟩ := ht
    refine ⟨fun j hj => ?_, fun l hl => ?_, fun l hl => ?_⟩
    · show min (src (i + j % 8)) (t.1 (j % 8)) ≤ src j
        ∧ src j ≤ max (src (i + j % 8)) (t.2 (j % 8))
      by_cases hji : j < i
      · exact ⟨le_trans (min_le_right _ _) (h1 j hji).1,
          le_trans (h1 j hji).2 (le_max_right _ _)⟩
      · have e : i + j % 8 = j := by omega
        rw [e]
        exact ⟨min_le_left _ _, le_max_left _ _⟩
    · show min (src (i + l)) (t.1 l) ≤ hi ∧ lo ≤ max (src (i + l)) (t.2 l)
      exact ⟨le_trans (min_le_right _ _) (h2 l hl).1, le_trans (h2 l hl).2 (le_max_right _ _)⟩
    · show (min (src (i + l)) (t.1 l) = hi ∨ ∃ j, j < i + 8 ∧ src j = min (src (i + l)) (t.1 l))
        ∧ (max (src (i + l)) (t.2 l) = lo
          ∨ ∃ j, j < i + 8 ∧ src j = max (src (i + l)) (t.2 l))
      constructor
      · rcases min_choice (src (i + l)) (t.1 l) with h | h
        · rw [h]
          exact Or.inr ⟨i + l, by omega, rfl⟩
        · rw [h]
          rcases (h3 l hl).1 with h' | ⟨j, hj, h'⟩
          · exact Or.inl h'
          · exact Or.inr ⟨j, by omega, h'⟩
      · rcases max_choice (src (i + l)) (t.2 l) with h | h
        · rw [h]
          exact Or.inr ⟨i + l, by omega, rfl⟩
        · rw [h]
          rcases (h3 l hl).2 with h' | ⟨j, hj, h'⟩
          · exact Or.inl h'
          · exact Or.inr ⟨j, by omega, h'⟩
  · exact ⟨fun j hj => absurd hj (Nat.not_lt_zero j), fun l _ => ⟨le_refl _, le_refl _⟩,
      fun l _ => ⟨Or.inl rfl, Or.inl rfl⟩⟩

/-- The results of `MinMax32f` are bounds of the source, below `FLT_MAX` and above `-FLT_MAX`,
and each is one of the source values or the initial value of its accumulator. -/
theorem MinMax32f_spec {E : Type} [LinearOrder E] (hi lo : E) (src : Nat → E) (size : Nat)
    (hsz : size % 8 = 0) :
    (∀ i, i < size → (Avx2.MinMax32f hi lo src size).1 ≤ src i
      ∧ src i ≤ (Avx2.MinMax32f hi lo src size).2)
    ∧ ((Avx2.MinMax32f hi lo src size).1 ≤ hi ∧ lo ≤ (Avx2.MinMax32f hi lo src size).2)
    ∧ ((Avx2.MinMax32f hi lo src size).1 = hi
      ∨ ∃ j, j < size ∧ src j = (Avx2.MinMax32f hi lo src size).1)
    ∧ ((Avx2.MinMax32f hi lo src size).2 = lo
      ∨ ∃ j, j < size ∧ src j = (Avx2.MinMax32f hi lo src size).2) := by
  obtain ⟨h1, h2, h3⟩ := MinMax32f_inv hi lo src size hsz
  simp only [Avx2.MinMax32f]
  refine ⟨fun i hi' => ⟨le_trans (MinVal32f_le _ (i % 8) (by omega)) (h1 i hi').1,
    le_trans (h1 i hi').2 (le_MaxVal32f _ (i % 8) (by omega))⟩,
    ⟨le_trans (MinVal32f_le _ 0 (by omega)) (h2 0 (by omega)).1,
      le_trans (h2 0 (by omega)).2 (le_MaxVal32f _ 0 (by omega))⟩, ?_, ?_⟩
  · obtain ⟨l, hl, e⟩ := MinVal32f_mem
      (rangeLoop size 8 (fun i (t : (Nat → E) × (Nat → E)) =>
        (OrdLane._mm256_min_ps (OrdLane._mm256_loadu_ps src i) t.1,
          OrdLane._mm256_max_ps (OrdLane._mm256_loadu_ps src i) t.2))
        (OrdLane._mm256_set1_ps hi, OrdLane._mm256_set1_ps lo)).1
    rw [e]
    exact (h3 l hl).1
  · obtain ⟨l, hl, e⟩ := MaxVal32f_mem
      (rangeLoop size 8 (fun i (t : (Nat → E) × (Nat → E)) =>
        (OrdLane._mm256_min_ps (OrdLane._mm256_loadu_ps src i) t.1,
          OrdLane._mm256_max_ps (OrdLane._mm256_loadu_ps src i) t.2))
        (OrdLane._mm256_set1_ps hi, OrdLane._mm256_set1_ps lo)).2
    rw [e]
    exact (h3 l hl).2

/-- C26 (counterexample). Over the floats with infinity (`WithTop ℚ`), the source of eight
elements `+inf` has no NaN, but `MinMax32f` returns `min = FLT_MAX`: the accumulator starts at
`FLT_MAX` and `min_ps(+inf, FLT_MAX) = FLT_MAX`. So `min` is not an element of the source,
whose smallest element is `+inf`. In the same way (over `WithBot ℚ`) eight elements `-inf`
give `max = -FLT_MAX`, which is not an element of the source. -/
theorem C26_counterexample_all_infinite :
    ((Avx2.MinMax32f ((FLT_MAX : ℚ) : WithTop ℚ) (((-FLT_MAX : ℚ)) : WithTop ℚ) (fun _ => ⊤) 8).1
        = ((FLT_MAX : ℚ) : WithTop ℚ)
      ∧ ∀ i, (fun _ : Nat => (⊤ : WithTop ℚ)) i
        ≠ (Avx2.MinMax32f ((FLT_MAX : ℚ) : WithTop ℚ) (((-FLT_MAX : ℚ)) : WithTop ℚ)
          (fun _ => ⊤) 8).1)
    ∧ ((Avx2.MinMax32f ((FLT_MAX : ℚ) : WithBot ℚ) (((-FLT_MAX : ℚ)) : WithBot ℚ)
          (fun _ => ⊥) 8).2 = (((-FLT_MAX : ℚ)) : WithBot ℚ)
      ∧ ∀ i, (fun _ : Nat => (⊥ : WithBot ℚ)) i
        ≠ (Avx2.MinMax32f ((FLT_MAX : ℚ) : WithBot ℚ) (((-FLT_MAX : ℚ)) : WithBot ℚ)
          (fun _ => ⊥) 8).2) := by
  constructor
  · have h := MinMax32f_spec ((FLT_MAX : ℚ) : WithTop ℚ) (((-FLT_MAX : ℚ)) : WithTop ℚ)
      (fun _ => ⊤) 8 (by omega)
    have e : (Avx2.MinMax32f ((FLT_MAX : ℚ) : WithTop ℚ) (((-FLT_MAX : ℚ)) : WithTop ℚ)
        (fun _ => ⊤) 8).1 = ((FLT_MAX : ℚ) : WithTop ℚ) := by
      rcases h.2.2.1 with h1 | ⟨j, _, h1⟩
      · exact h1
      · have h2 := h.2.1.1
        rw [← h1] at h2
        exact absurd (top_le_iff.1 h2) (WithTop.coe_ne_top)
    refine ⟨e, fun i => ?_⟩
    rw [e]
    exact (WithTop.coe_ne_top).symm
  · have h := MinMax32f_spec ((FLT_MAX : ℚ) : WithBot ℚ) (((-FLT_MAX : ℚ)) : WithBot ℚ)
      (fun _ => ⊥) 8 (by omega)
    have e : (Avx2.MinMax32f ((FLT_MAX : ℚ) : WithBot ℚ) (((-FLT_MAX : ℚ)) : WithBot ℚ)
        (fun _ => ⊥) 8).2 = (((-FLT_MAX : ℚ)) : WithBot ℚ) := by
      rcases h.2.2.2 with h1 | ⟨j, _, h1⟩
      · exact h1
      · have h2 := h.2.1.2
        rw [← h1] at h2
        exact absurd (le_bot_iff.1 h2) (WithBot.coe_ne_bot)
    refine ⟨e, fun i => ?_⟩
    rw [e]
    exact (WithBot.coe_ne_bot).symm

/-- C26 (amended). `MinMax32f(src, size, min, max)` for every `size` that is a multiple of 8
and every source without NaN (values of a linear order, infinities allowed): on return
`min <= src[i] <= max` for all `i < size`; `min` is attained by an element as soon as one
element is at most `FLT_MAX` (is not `+inf`), and `max` as soon as one element is at least
`-FLT_MAX` (is not `-inf`); so both are attained for a positive size and elements in
`[-FLT_MAX, FLT_MAX]`. If every element is at least `FLT_MAX` (all are `+inf`, or the size
is 0), `min` is `FLT_MAX`, and if every element is at most `-FLT_MAX` (all are `-inf`), `max`
is `-FLT_MAX`, for every size. -/
theorem C26_min_max (E : Type) [LinearOrder E] (fltMax negFltMax : E) (src : Nat → E)
    (size : Nat) (hsz : size % 8 = 0) :
    (∀ i, i < size → (Avx2.MinMax32f fltMax negFltMax src size).1 ≤ src i
      ∧ src i ≤ (Avx2.MinMax32f fltMax negFltMax src size).2)
    ∧ ((∃ i, i < size ∧ src i ≤ fltMax) →
      ∃ i, i < size ∧ src i = (Avx2.MinMax32f fltMax negFltMax src size).1)
    ∧ ((∃ i, i < size ∧ negFltMax ≤ src i) →
      ∃ i, i < size ∧ src i = (Avx2.MinMax32f fltMax negFltMax src size).2)
    ∧ (0 < size → (∀ i, i < size → negFltMax ≤ src i ∧ src i ≤ fltMax) →
      (∃ i, i < size ∧ src i = (Avx2.MinMax32f fltMax negFltMax src size).1)
        ∧ ∃ i, i < size ∧ src i = (Avx2.MinMax32f fltMax negFltMax src size).2)
    ∧ ((∀ i, i < size → fltMax ≤ src i) →
      (Avx2.MinMax32f fltMax negFltMax src size).1 = fltMax)
    ∧ ((∀ i, i < size → src i ≤ negFltMax) →
      (Avx2.MinMax32f fltMax negFltMax src size).2 = negFltMax) := by
  obtain ⟨h1, h2, h3, h4⟩ := MinMax32f_spec fltMax negFltMax src size hsz
  have a1 : (∃ i, i < size ∧ src i ≤ fltMax) →
      ∃ i, i < size ∧ src i = (Avx2.MinMax32f fltMax negFltMax src size).1 := by
    rintro ⟨i, hi, hle⟩
    rcases h3 with e | h
    · refine ⟨i, hi, le_antisymm ?_ (h1 i hi).1⟩
      rw [e]
      exact hle
    · exact h
  have a2 : (∃ i, i < size ∧ negFltMax ≤ src i) →
      ∃ i, i < size ∧ src i = (Avx2.MinMax32f fltMax negFltMax src size).2 := by
    rintro ⟨i, hi, hle⟩
    rcases h4 with e | h
    · refine ⟨i, hi, le_antisymm (h1 i hi).2 ?_⟩
      rw [e]
      exact hle
    · exact h
  refine ⟨h1, a1, a2, fun hpos hfin => ⟨a1 ⟨0, hpos, (hfin 0 hpos).2⟩,
    a2 ⟨0, hpos, (hfin 0 hpos).1⟩⟩, fun hall => ?_, fun hall => ?_⟩
  · rcases h3 with e | ⟨j, hj, e⟩
    · exact e
    · refine le_antisymm h2.1 ?_
      rw [← e]
      exact hall j hj
  · rcases h4 with e | ⟨j, hj, e⟩
    · exact e
    · refine le_antisymm ?_ h2.2
      rw [← e]
      exact hall j hj

/-- Witness of C26: sixteen rationals `(i - 5)^2`; the minimum 0 and the maximum 100 are
attained. -/
theorem C26_min_max_witness :
    (∀ i, i < 16 →
      (Avx2.MinMax32f FLT_MAX (-FLT_MAX) (fun i => ((i : ℚ) - 5) ^ 2) 16).1
          ≤ (fun i : Nat => ((i : ℚ) - 5) ^ 2) i
        ∧ (fun i : Nat => ((i : ℚ) - 5) ^ 2) i
          ≤ (Avx2.MinMax32f FLT_MAX (-FLT_MAX) (fun i => ((i : ℚ) - 5) ^ 2) 16).2)
    ∧ ∃ i, i < 16 ∧ (fun i : Nat => ((i : ℚ) - 5) ^ 2) i
        = (Avx2.MinMax32f FLT_MAX (-FLT_MAX) (fun i => ((i : ℚ) - 5) ^ 2) 16).1 := by
  have h := C26_min_max ℚ FLT_MAX (-FLT_MAX) (fun i => ((i : ℚ) - 5) ^ 2) 16 (by omega)
  exact ⟨h.1, h.2.1 ⟨5, by omega, by norm_num [FLT_MAX]⟩⟩

/-! ## The exponent built by the vector error function -/

theorem le_rne_of_lt (x : ℚ) (n : Int) (h : (n : ℚ) - 1 / 2 < x) :
    n ≤ roundNearestEven x := by
  have hf : n - 1 ≤ ⌊x⌋ := by
    apply Int.le_floor.2
    push_cast
    linarith
  have h1 : ((⌊x⌋ : Int) : ℚ) ≤ x := Int.floor_le x
  simp only [roundNearestEven]
  rcases lt_or_eq_of_le hf with h2 | h2
  · split_ifs <;> omega
  · have e : ((⌊x⌋ : Int) : ℚ) = (n : ℚ) - 1 := by
      rw [← h2]
      push_cast
      ring
    have c1 : ¬ (x - ((⌊x⌋ : Int) : ℚ) < 1 / 2) := by
      rw [e]
      linarith
    have c2 : 1 / 2 < x - ((⌊x⌋ : Int) : ℚ) := by
      rw [e]
      linarith
    rw [if_neg c1, if_pos c2]
    omega

/-- For an argument in `[0, 9]` the integer part of `-1.44269504 a^2 - 0.5` lies in
`[-117, 0]`. -/
theorem ipart_range (a : ℚ) (h0 : 0 ≤ a) (h9 : a ≤ 9) :
    -117 ≤ roundNearestEven (-1.44269504 * (a * a) - 0.5)
      ∧ roundNearestEven (-1.44269504 * (a * a) - 0.5) ≤ 0 := by
  have hsq : a * a ≤ 81 := by nlinarith
  have hsq0 : 0 ≤ a * a := mul_nonneg h0 h0
  constructor
  · apply le_rne_of_lt
    norm_num
    linarith
  · apply rne_le
    norm_num
    linarith

/-- The pattern `(ipart + 127) << 23` for `ipart` in `[-117, 0]`. -/
theorem exponent_pattern (r : Int) (h0 : -117 ≤ r) (h1 : r ≤ 0) :
    ((ofS32 r % 4294967296 + ofS32 127 % 4294967296) % 4294967296 % 4294967296 * 2 ^ 23
        % 4294967296 % 4294967296 : Nat) = (r + 127).toNat * 8388608 := by
  simp only [ofS32]
  norm_num
  omega

/-- The lane facts shared by the Sse41 and the Avx2 variant, from the lane value of
`ipart`. -/
theorem exponent_lane (a : ℚ) (h0 : 0 ≤ a) (h9 : a ≤ 9) (ip bits : Nat)
    (hip : ip = ofS32 (cvtps_lane (-1.44269504 * (a * a) - 0.5)) % 4294967296)
    (hbits : bits = (ip + ofS32 127 % 4294967296) % 4294967296 % 4294967296 * 2 ^ 23
      % 4294967296 % 4294967296) :
    toS32 ip = roundNearestEven (-1.44269504 * (a * a) - 0.5)
      ∧ -117 ≤ toS32 ip ∧ toS32 ip ≤ 0
      ∧ (bits : Int) = (toS32 ip + 127) * 8388608
      ∧ (bits / 8388608 % 256 : Nat) = toS32 ip + 127
      ∧ 10 ≤ bits / 8388608 % 256 ∧ bits / 8388608 % 256 ≤ 127
      ∧ PositiveNormalPowerOfTwo bits := by
  obtain ⟨r0, r1⟩ := ipart_range a h0 h9
  have hc : cvtps_lane (-1.44269504 * (a * a) - 0.5)
      = roundNearestEven (-1.44269504 * (a * a) - 0.5) := by
    simp only [cvtps_lane]
    exact if_pos ⟨by omega, by omega⟩
  rw [hc] at hip
  have hb := exponent_pattern _ r0 r1
  rw [← hip, ← hbits] at hb
  have hs : toS32 ip = roundNearestEven (-1.44269504 * (a * a) - 0.5) := by
    rw [hip, Nat.mod_eq_of_lt (ofS32_lt _)]
    exact toS32_ofS32 _ ⟨by omega, by omega⟩
  rw [hs]
  refine ⟨rfl, r0, r1, ?_, ?_, ?_, ?_, ?_⟩
  · rw [hb]
    push_cast
    rw [Int.toNat_of_nonneg (by omega)]
  · rw [hb]
    omega
  · rw [hb]
    omega
  · rw [hb]
    omega
  · rw [hb]
    simp only [PositiveNormalPowerOfTwo]
    omega

theorem ErfArg_range (x : ℚ) : 0 ≤ min |x| 9 ∧ min |x| 9 ≤ 9 :=
  ⟨le_min (abs_nonneg x) (by norm_num), min_le_right _ _⟩

/-- C29. Valid exponent construction in the SIMD `Erf` (Sse41 and Avx2). `Erf` hands to
`ExpNegSqr` the argument `a = min(|x|, 9)`, which lies in `[0, 9]`; for it, every lane of the
integer part `ipart = round(-1.44269504 a^2 - 0.5)` lies in `[-117, 0]`, and the pattern
`(ipart + 127) << 23` that `ExpNegSqr` reinterprets as a float has the sign bit 0, the
exponent field `ipart + 127` in `[10, 127]` and a zero mantissa: it is the pattern of a
positive normal power of two, never one with a negative, zero or overflowing exponent field.
Float arithmetic is exact. -/
theorem C29_valid_exponent_construction (f32 : Nat → ℚ) (x : FVec) (k : Nat) :
    (0 ≤ Sse41.ErfArg x k ∧ Sse41.ErfArg x k ≤ 9
      ∧ s32 (Sse41.Detail.ExpNegSqrIpart (Sse41.ErfArg x)) k
          = roundNearestEven (-1.44269504 * (Sse41.ErfArg x k * Sse41.ErfArg x k) - 0.5)
      ∧ -117 ≤ s32 (Sse41.Detail.ExpNegSqrIpart (Sse41.ErfArg x)) k
      ∧ s32 (Sse41.Detail.ExpNegSqrIpart (Sse41.ErfArg x)) k ≤ 0
      ∧ (u32 (Sse41.Detail.ExpNegSqrExpBits (Sse41.ErfArg x)) k : Int)
          = (s32 (Sse41.Detail.ExpNegSqrIpart (Sse41.ErfArg x)) k + 127) * 8388608
      ∧ (u32 (Sse41.Detail.ExpNegSqrExpBits (Sse41.ErfArg x)) k / 8388608 % 256 : Nat)
          = s32 (Sse41.Detail.ExpNegSqrIpart (Sse41.ErfArg x)) k + 127
      ∧ 10 ≤ u32 (Sse41.Detail.ExpNegSqrExpBits (Sse41.ErfArg x)) k / 8388608 % 256
      ∧ u32 (Sse41.Detail.ExpNegSqrExpBits (Sse41.ErfArg x)) k / 8388608 % 256 ≤ 127
      ∧ PositiveNormalPowerOfTwo (u32 (Sse41.Detail.ExpNegSqrExpBits (Sse41.ErfArg x)) k))
    ∧ (0 ≤ Avx2.ErfArg x k ∧ Avx2.ErfArg x k ≤ 9
      ∧ s32 (Avx2.Detail.ExpNegSqrIpart (Avx2.ErfArg x)) k
          = roundNearestEven (-1.44269504 * (Avx2.ErfArg x k * Avx2.ErfArg x k) - 0.5)
      ∧ -117 ≤ s32 (Avx2.Detail.ExpNegSqrIpart (Avx2.ErfArg x)) k
      ∧ s32 (Avx2.Detail.ExpNegSqrIpart (Avx2.ErfArg x)) k ≤ 0
      ∧ (u32 (Avx2.Detail.ExpNegSqrExpBits (Avx2.ErfArg x)) k : Int)
          = (s32 (Avx2.Detail.ExpNegSqrIpart (Avx2.ErfArg x)) k + 127) * 8388608
      ∧ (u32 (Avx2.Detail.ExpNegSqrExpBits (Avx2.ErfArg x)) k / 8388608 % 256 : Nat)
          = s32 (Avx2.Detail.ExpNegSqrIpart (Avx2.ErfArg x)) k + 127
      ∧ 10 ≤ u32 (Avx2.Detail.ExpNegSqrExpBits (Avx2.ErfArg x)) k / 8388608 % 256
      ∧ u32 (Avx2.Detail.ExpNegSqrExpBits (Avx2.ErfArg x)) k / 8388608 % 256 ≤ 127
      ∧ PositiveNormalPowerOfTwo (u32 (Avx2.Detail.ExpNegSqrExpBits (Avx2.ErfArg x)) k))
    ∧ (∀ a : FVec,
      Sse41.Detail.ExpNegSqr f32 a k
          = f32 (u32 (Sse41.Detail.ExpNegSqrExpBits a) k)
            * Sse41.Detail.Poly5 (_mm_sub_ps
                (_mm_mul_ps (_mm_set1_ps (-1.44269504)) (_mm_mul_ps a a))
                (_mm_cvtepi32_ps (Sse41.Detail.ExpNegSqrIpart a)))
              9.9999994e-1 6.9315308e-1 2.4015361e-1 5.5826318e-2 8.9893397e-3 1.8775767e-3 k
      ∧ Avx2.Detail.ExpNegSqr f32 a k
          = f32 (u32 (Avx2.Detail.ExpNegSqrExpBits a) k)
            * Avx2.Detail.Poly5 (_mm256_sub_ps
                (_mm256_mul_ps (_mm256_set1_ps (-1.44269504)) (_mm256_mul_ps a a))
                (_mm256_cvtepi32_ps (Avx2.Detail.ExpNegSqrIpart a)))
              9.9999994e-1 6.9315308e-1 2.4015361e-1 5.5826318e-2 8.9893397e-3 1.8775767e-3 k)
    ∧ Sse41.Erf f32 x
        = copySign x (_mm_sub_ps (_mm_set1_ps 1.0) (_mm_mul_ps (_mm_mul_ps
            (Sse41.Detail.Poly4 (_mm_div_ps (_mm_set1_ps 1.0) (_mm_add_ps
                (_mm_mul_ps (_mm_set1_ps 0.3275911) (Sse41.ErfArg x)) (_mm_set1_ps 1.0)))
              0.254829592 (-0.284496736) 1.421413741 (-1.453152027) 1.061405429)
            (_mm_div_ps (_mm_set1_ps 1.0) (_mm_add_ps
              (_mm_mul_ps (_mm_set1_ps 0.3275911) (Sse41.ErfArg x)) (_mm_set1_ps 1.0))))
          (Sse41.Detail.ExpNegSqr f32 (Sse41.ErfArg x))))
    ∧ Avx2.Erf f32 x
        = copySign x (_mm256_fnmadd_ps (_mm256_mul_ps
            (Avx2.Detail.Poly4 (_mm256_div_ps (_mm256_set1_ps 1.0) (_mm256_fmadd_ps
                (_mm256_set1_ps 0.3275911) (Avx2.ErfArg x) (_mm256_set1_ps 1.0)))
              0.254829592 (-0.284496736) 1.421413741 (-1.453152027) 1.061405429)
            (_mm256_div_ps (_mm256_set1_ps 1.0) (_mm256_fmadd_ps
              (_mm256_set1_ps 0.3275911) (Avx2.ErfArg x) (_mm256_set1_ps 1.0))))
          (Avx2.Detail.ExpNegSqr f32 (Avx2.ErfArg x)) (_mm256_set1_ps 1.0)) := by
  obtain ⟨a0, a9⟩ := ErfArg_range (x k)
  refine ⟨?_, ?_, fun a => ⟨rfl, rfl⟩, rfl, rfl⟩
  · have h := exponent_lane (min |x k| 9) a0 a9
      (u32 (Sse41.Detail.ExpNegSqrIpart (Sse41.ErfArg x)) k)
      (u32 (Sse41.Detail.ExpNegSqrExpBits (Sse41.ErfArg x)) k)
      (by
        simp only [Sse41.Detail.ExpNegSqrIpart, Sse41.ErfArg, _mm_cvtps_epi32, u32_ofU32,
          _mm_sub_ps, _mm_mul_ps, _mm_set1_ps, _mm_min_ps, clearSign])
      (by
        simp only [Sse41.Detail.ExpNegSqrExpBits, _mm_slli_epi32, _mm_add_epi32,
          _mm_set1_epi32, u32_ofU32])
    exact ⟨a0, a9, h⟩
  · have h := exponent_lane (min |x k| 9) a0 a9
      (u32 (Avx2.Detail.ExpNegSqrIpart (Avx2.ErfArg x)) k)
      (u32 (Avx2.Detail.ExpNegSqrExpBits (Avx2.ErfArg x)) k)
      (by
        simp only [Avx2.Detail.ExpNegSqrIpart, Avx2.ErfArg, _mm256_cvtps_epi32, u32_ofU32,
          _mm256_sub_ps, _mm256_mul_ps, _mm256_set1_ps, _mm256_min_ps, clearSign])
      (by
        simp only [Avx2.Detail.ExpNegSqrExpBits, _mm256_slli_epi32, _mm256_add_epi32,
          _mm256_set1_epi32, u32_ofU32])
    exact ⟨a0, a9, h⟩

/-! ## Binary32 rounding -/

theorem log2_eq (r : ℚ) (e : ℤ) (h1 : (2 : ℚ) ^ e ≤ r) (h2 : r < (2 : ℚ) ^ (e + 1)) :
    Int.log 2 r = e := by
  have hr : 0 < r := lt_of_lt_of_le (zpow_pos (by norm_num) e) h1
  have a : e ≤ Int.log 2 r :=
    (Int.zpow_le_iff_le_log (by norm_num) hr).1 (by exact_mod_cast h1)
  have b : Int.log 2 r < e + 1 :=
    (Int.lt_zpow_iff_log_lt (by norm_num) hr).1 (by exact_mod_cast h2)
  omega

/-- The rounding of a value whose nearest binary32 number is below `2^128` in magnitude is
that number. -/
theorem round_eq_fin (x : ℚ) (h1 : -2 ^ 128 < F32.nearest x) (h2 : F32.nearest x < 2 ^ 128) :
    F32.round x = F32.fin (F32.nearest x) := by
  unfold F32.round
  rw [if_neg (not_le.2 h2), if_neg (not_le.2 h1)]

/-- The spacing at `x` for `2^L <= |x| < 2^(L + 1)` in the normal range. -/
theorem ulp_eq (x : ℚ) (L : ℤ) (hL : -126 ≤ L) (h1 : (2 : ℚ) ^ L ≤ |x|)
    (h2 : |x| < (2 : ℚ) ^ (L + 1)) : F32.ulp x = 2 ^ (L - 23) := by
  have hx : x ≠ 0 := by
    intro h0
    rw [h0, abs_zero] at h1
    exact absurd h1 (not_le.2 (zpow_pos (by norm_num) L))
  unfold F32.ulp
  rw [if_neg hx, log2_eq _ L h1 h2, max_eq_left hL]

theorem nearest_eq (x : ℚ) (L : ℤ) (hL : -126 ≤ L) (h1 : (2 : ℚ) ^ L ≤ |x|)
    (h2 : |x| < (2 : ℚ) ^ (L + 1)) :
    F32.nearest x = (roundNearestEven (x / 2 ^ (L - 23)) : ℚ) * 2 ^ (L - 23) := by
  unfold F32.nearest
  rw [ulp_eq x L hL h1 h2]

/-- The spacing below `2^(k + 1)` is at most `2^(k - 23)`. -/
theorem ulp_le_of_lt (x : ℚ) (k : ℤ) (hk : -126 ≤ k) (h : |x| < (2 : ℚ) ^ (k + 1)) :
    F32.ulp x ≤ 2 ^ (k - 23) := by
  unfold F32.ulp
  apply zpow_le_zpow_right₀ (by norm_num)
  split_ifs with hx
  · omega
  · have h0 : 0 < |x| := abs_pos.2 hx
    have hlog : Int.log 2 |x| < k + 1 :=
      (Int.lt_zpow_iff_log_lt (b := 2) (by norm_num) h0).1 (by exact_mod_cast h)
    have : max (Int.log 2 |x|) (-126) ≤ k := max_le (by omega) hk
    omega

/-- An integer below `2^24` in magnitude is a binary32 number: its conversion is exact. -/
theorem ofInt_exact (z : Int) (h : |z| < 16777216) : F32.ofInt z = F32.fin (z : ℚ) := by
  have hz : |(z : ℚ)| < (2 : ℚ) ^ ((23 : ℤ) + 1) := by
    have : ((|z| : Int) : ℚ) < 16777216 := by exact_mod_cast h
    rw [Int.cast_abs] at this
    norm_num
    exact this
  have hk : ∃ k : ℕ, F32.ulp (z : ℚ) = ((2 : ℚ) ^ k)⁻¹ := by
    have hu := ulp_le_of_lt (z : ℚ) 23 (by omega) hz
    unfold F32.ulp at hu ⊢
    have hm : (if (z : ℚ) = 0 then -126 else max (Int.log 2 |(z : ℚ)|) (-126)) ≤ 23 := by
      have := (zpow_le_zpow_iff_right₀ (by norm_num : (1 : ℚ) < 2)).1 hu
      omega
    refine ⟨(23 - (if (z : ℚ) = 0 then -126 else max (Int.log 2 |(z : ℚ)|) (-126))).toNat, ?_⟩
    rw [← zpow_natCast, ← zpow_neg, Int.toNat_of_nonneg (by omega)]
    congr 1
    omega
  obtain ⟨k, hk⟩ := hk
  have hn : F32.nearest (z : ℚ) = (z : ℚ) := by
    unfold F32.nearest
    rw [hk, div_inv_eq_mul]
    have e : (z : ℚ) * 2 ^ k = ((z * 2 ^ k : Int) : ℚ) := by push_cast; ring
    rw [e, roundNearestEven_intCast]
    push_cast
    field_simp
  have hb := abs_lt.1 hz
  unfold F32.ofInt
  rw [round_eq_fin _ (by rw [hn]; norm_num at hb ⊢; linarith [hb.1])
    (by rw [hn]; norm_num at hb ⊢; linarith [hb.2]), hn]

/-! ## The scalar linear quantiser over binary32 -/

/-- The rounding of `x` with `2^L <= |x| < 2^(L + 1)` in the normal range, evaluated. -/
theorem round_eval (x : ℚ) (L r : ℤ) (y : ℚ) (hL : -126 ≤ L) (h1 : (2 : ℚ) ^ L ≤ |x|)
    (h2 : |x| < (2 : ℚ) ^ (L + 1)) (hr : roundNearestEven (x / 2 ^ (L - 23)) = r)
    (hy : (r : ℚ) * 2 ^ (L - 23) = y) (hlo : -2 ^ 128 < y) (hhi : y < 2 ^ 128) :
    F32.round x = F32.fin y := by
  have e : F32.nearest x = y := by rw [nearest_eq x L hL h1 h2, hr, hy]
  rw [round_eq_fin x (by rw [e]; exact hlo) (by rw [e]; exact hhi), e]

theorem wrapInt_of_fits (z : Int) (h : FitsInt32 z) : Ieee.wrapInt z = z :=
  toS32_ofS32 z h

theorem cvtps_lane_of_fits (x : ℚ) (h : FitsInt32 (roundNearestEven x)) :
    cvtps_lane x = roundNearestEven x := by
  simp only [cvtps_lane]
  exact if_pos h

theorem mul_fin (x y : ℚ) : F32.mul (F32.fin x) (F32.fin y) = F32.round (x * y) := rfl

theorem cvtps_fin (x : ℚ) : F32.cvtps (F32.fin x) = cvtps_lane x := rfl

theorem Ieee_QuantizeSumLinear_eq (sum bias : Int) (norm : F32) (zero min max : Int) :
    Ieee.Base.QuantizeSumLinear sum bias norm zero min max
      = RestrictRangeInt (Ieee.wrapInt (F32.cvtps
          (F32.mul (F32.ofInt (Ieee.wrapInt (sum + bias))) norm) + zero)) min max := rfl

/-- The binary32 quantiser agrees with the exact one when no `int` overflows and the two float
operations are exact. -/
theorem QuantizeSumLinear_of_exact (sum bias : Int) (n : ℚ) (zero min max : Int)
    (ho : NoOverflow sum bias n zero)
    (h1 : F32.round ((sum + bias : Int) : ℚ) = F32.fin ((sum + bias : Int) : ℚ))
    (h2 : F32.round (((sum + bias : Int) : ℚ) * n) = F32.fin (((sum + bias : Int) : ℚ) * n)) :
    Ieee.Base.QuantizeSumLinear sum bias (F32.fin n) zero min max
      = Base.QuantizeSumLinear sum bias n zero min max := by
  obtain ⟨f1, f2, f3⟩ := ho
  rw [Ieee_QuantizeSumLinear_eq, wrapInt_of_fits _ f1]
  unfold F32.ofInt
  rw [h1, mul_fin, h2, cvtps_fin, cvtps_lane_of_fits _ f2, wrapInt_of_fits _ f3]
  rfl

/-- C16 (counterexample). Two inputs on which `QuantizeSumLinear` does not return
`clamp(nearbyint((sum + bias) * norm) + zero, min, max)`. With `sum = 3`, `bias = 0` and the
binary32 number `norm = 13981014 * 2^-24` the exact product `2.5 + 2^-23` rounds to the float
`2.5`, whose nearest even integer is 2, so the result is 2 and not `nearbyint(2.5 + 2^-23) = 3`.
With `sum = 2^30`, `bias = 0`, `norm = 4` the product `2^32` does not fit `int`; its conversion
gives `0x80000000`, so the result is 0 and not 255. -/
theorem C16_counterexample_rounding_and_overflow :
    (F32.round (13981014 / 16777216) = F32.fin (13981014 / 16777216)
      ∧ Ieee.Base.QuantizeSumLinear 3 0 (F32.fin (13981014 / 16777216)) 0 0 255 = 2
      ∧ Max.max (0 : Int) (Min.min 255
          (roundNearestEven ((((3 : Int) + 0 : Int) : ℚ) * (13981014 / 16777216)) + 0)) = 3)
    ∧ (Ieee.Base.QuantizeSumLinear 1073741824 0 (F32.fin 4) 0 0 255 = 0
      ∧ Max.max (0 : Int) (Min.min 255
          (roundNearestEven ((((1073741824 : Int) + 0 : Int) : ℚ) * 4) + 0)) = 255) := by
  refine ⟨⟨?_, ?_, ?_⟩, ?_, ?_⟩
  · exact round_eval _ (-1) 13981014 _ (by norm_num) (by norm_num [abs_of_pos])
      (by norm_num [abs_of_pos]) (by norm_num [roundNearestEven]) (by norm_num) (by norm_num)
      (by norm_num)
  · have e1 : Ieee.wrapInt (3 + 0) = 3 := by
      rw [add_zero]
      exact wrapInt_of_fits 3 ⟨by norm_num, by norm_num⟩
    have e2 : F32.ofInt 3 = F32.fin 3 := by
      have := ofInt_exact 3 (by norm_num)
      simpa using this
    have e3 : F32.round (3 * (13981014 / 16777216)) = F32.fin (5 / 2) :=
      round_eval _ 1 10485760 _ (by norm_num) (by norm_num [abs_of_pos])
        (by norm_num [abs_of_pos]) (by norm_num [roundNearestEven]) (by norm_num) (by norm_num)
        (by norm_num)
    have e4 : cvtps_lane (5 / 2) = 2 := by norm_num [cvtps_lane, roundNearestEven]
    have e5 : Ieee.wrapInt (2 + 0) = 2 := by
      rw [add_zero]
      exact wrapInt_of_fits 2 ⟨by norm_num, by norm_num⟩
    rw [Ieee_QuantizeSumLinear_eq, e1, e2, mul_fin, e3, cvtps_fin, e4, e5]
    norm_num [RestrictRangeInt]
  · norm_num [roundNearestEven]
  · have e1 : Ieee.wrapInt (1073741824 + 0) = 1073741824 := by
      rw [add_zero]
      exact wrapInt_of_fits 1073741824 ⟨by norm_num, by norm_num⟩
    have e2 : F32.ofInt 1073741824 = F32.fin 1073741824 := by
      unfold F32.ofInt
      exact round_eval _ 30 8388608 _ (by norm_num) (by norm_num [abs_of_pos])
        (by norm_num [abs_of_pos]) (by norm_num [roundNearestEven]) (by norm_num) (by norm_num)
        (by norm_num)
    have e3 : F32.round (1073741824 * 4) = F32.fin 4294967296 :=
      round_eval _ 32 8388608 _ (by norm_num) (by norm_num [abs_of_pos])
        (by norm_num [abs_of_pos]) (by norm_num [roundNearestEven]) (by norm_num) (by norm_num)
        (by norm_num)
    have e4 : cvtps_lane 4294967296 = -2147483648 := by
      norm_num [cvtps_lane, roundNearestEven]
    have e5 : Ieee.wrapInt (-2147483648 + 0) = -2147483648 := by
      rw [add_zero]
      exact wrapInt_of_fits (-2147483648) ⟨by norm_num, by norm_num⟩
    rw [Ieee_QuantizeSumLinear_eq, e1, e2, mul_fin, e3, cvtps_fin, e4, e5]
    norm_num [RestrictRangeInt]
  · norm_num [roundNearestEven]

/-- C16 (amended). The scalar `QuantizeSumLinear(sum, bias, norm, zero, min, max)` returns
`clamp(w(cvt(fl(fl(w(sum + bias)) * norm)) + zero), min, max)`, where `w` wraps an `int` sum to
32 bits, `fl` rounds to binary32, `cvt` rounds to the nearest integer with ties to even (and
gives `0x80000000` outside `int`) and `clamp(x, min, max) = max(min, min(max, x))`. For every
input with `min <= max` the result lies in `[min, max]`. When no `int` overflows and the
conversion `float(sum + bias)` and the product with `norm` are exact, the result is
`clamp(nearbyint((sum + bias) * norm) + zero, min, max)` of exact arithmetic; so it is for
`sum = 100`, `bias = 28`, `norm = 1/2`, `zero = 3`, where the result is 67. -/
theorem C16_quantize_sum_linear_scalar (sum bias : Int) (norm : F32) (zero min max : Int) :
    Ieee.Base.QuantizeSumLinear sum bias norm zero min max
        = Max.max min (Min.min max (Ieee.wrapInt (F32.cvtps
            (F32.mul (F32.round ((Ieee.wrapInt (sum + bias) : Int) : ℚ)) norm) + zero)))
    ∧ (min ≤ max → min ≤ Ieee.Base.QuantizeSumLinear sum bias norm zero min max
        ∧ Ieee.Base.QuantizeSumLinear sum bias norm zero min max ≤ max)
    ∧ (∀ n : ℚ, norm = F32.fin n → NoOverflow sum bias n zero →
        F32.round ((sum + bias : Int) : ℚ) = F32.fin ((sum + bias : Int) : ℚ) →
        F32.round (((sum + bias : Int) : ℚ) * n) = F32.fin (((sum + bias : Int) : ℚ) * n) →
        Ieee.Base.QuantizeSumLinear sum bias norm zero min max
          = Max.max min (Min.min max
              (roundNearestEven (((sum + bias : Int) : ℚ) * n) + zero)))
    ∧ Ieee.Base.QuantizeSumLinear 100 28 (F32.fin (1 / 2)) 3 0 255 = 67 := by
  refine ⟨rfl, fun h => RestrictRangeInt_mem _ min max h, ?_, ?_⟩
  · intro n hn ho h1 h2
    rw [hn, QuantizeSumLinear_of_exact sum bias n zero min max ho h1 h2]
    rfl
  · have ho : NoOverflow 100 28 (1 / 2) 3 := by
      have e : roundNearestEven ((((100 : Int) + 28 : Int) : ℚ) * (1 / 2)) = 64 := by
        norm_num [roundNearestEven]
      simp only [NoOverflow, FitsInt32, e]
      norm_num
    have h1 : F32.round ((((100 : Int) + 28 : Int) : ℚ)) = F32.fin ((((100 : Int) + 28 : Int) : ℚ)) :=
      ofInt_exact (100 + 28) (by norm_num)
    have h2 : F32.round ((((100 : Int) + 28 : Int) : ℚ) * (1 / 2))
        = F32.fin ((((100 : Int) + 28 : Int) : ℚ) * (1 / 2)) := by
      have := ofInt_exact 64 (by norm_num)
      unfold F32.ofInt at this
      norm_num at this ⊢
      exact this
    rw [QuantizeSumLinear_of_exact 100 28 (1 / 2) 3 0 255 ho h1 h2]
    norm_num [Base.QuantizeSumLinear, Base.NearByInt, RestrictRangeInt, roundNearestEven]

/-! ## The distance decoders over binary32 -/

theorem cvtps_fits (v : F32) : FitsInt32 (F32.cvtps v) := by
  cases v with
  | fin x =>
    simp only [F32.cvtps, cvtps_lane, FitsInt32]
    split_ifs with h
    · exact h
    · constructor <;> norm_num
  | pinf => simp only [F32.cvtps, FitsInt32]; constructor <;> norm_num
  | ninf => simp only [F32.cvtps, FitsInt32]; constructor <;> norm_num
  | nan => simp only [F32.cvtps, FitsInt32]; constructor <;> norm_num

theorem code_codeSrc (src : F32Vec) (scale min : F32) (i : Nat) :
    code (Ieee.codeSrc src scale min) 1 0 i = Ieee.code src scale min i := by
  simp only [code, Ieee.codeSrc, sub_zero, mul_one]
  rw [cvtps_lane_of_fits _ (by rw [roundNearestEven_intCast]; exact cvtps_fits _),
    roundNearestEven_intCast]

theorem rne_codeSrc (src : F32Vec) (scale min : F32) (i : Nat) :
    roundNearestEven ((Ieee.codeSrc src scale min i - 0) * 1) = Ieee.code src scale min i := by
  simp only [Ieee.codeSrc, sub_zero, mul_one]
  exact roundNearestEven_intCast _

/-- Lane `k` of the value of the quantiser is the code of element `p + k`. -/
theorem u32_Ieee_Encode32f (src : F32Vec) (p : Nat) (scale min : F32) (sum sqsum : Vec)
    (k : Nat) :
    u32 (Ieee.Avx2.Encode32f (Ieee._mm256_loadu_ps src p) (Ieee._mm256_set1_ps scale)
      (Ieee._mm256_set1_ps min) sum sqsum).1 k = ofS32 (Ieee.code src scale min (p + k)) := by
  simp only [Ieee.Avx2.Encode32f, Ieee._mm256_cvtps_epi32, u32_ofU32, Ieee._mm256_mul_ps,
    Ieee._mm256_sub_ps, Ieee._mm256_loadu_ps, Ieee._mm256_set1_ps, Ieee.code, ofS32]
  omega

/-- The quantiser over binary32 is the exact quantiser of the codes. -/
theorem Ieee_Encode32f_eq (src : F32Vec) (p : Nat) (scale min : F32) (sum sqsum : Vec) :
    Ieee.Avx2.Encode32f (Ieee._mm256_loadu_ps src p) (Ieee._mm256_set1_ps scale)
        (Ieee._mm256_set1_ps min) sum sqsum
      = Avx2.Encode32f (_mm256_loadu_ps (Ieee.codeSrc src scale min) p) (_mm256_set1_ps 1)
        (_mm256_set1_ps 0) sum sqsum := by
  have e : Ieee._mm256_cvtps_epi32 (Ieee._mm256_mul_ps (Ieee._mm256_sub_ps
        (Ieee._mm256_loadu_ps src p) (Ieee._mm256_set1_ps min)) (Ieee._mm256_set1_ps scale))
      = _mm256_cvtps_epi32 (_mm256_mul_ps (_mm256_sub_ps
        (_mm256_loadu_ps (Ieee.codeSrc src scale min) p) (_mm256_set1_ps 0))
        (_mm256_set1_ps 1)) := by
    simp only [Ieee._mm256_cvtps_epi32, _mm256_cvtps_epi32, Ieee._mm256_mul_ps, _mm256_mul_ps,
      Ieee._mm256_sub_ps, _mm256_sub_ps, Ieee._mm256_loadu_ps, _mm256_loadu_ps,
      Ieee._mm256_set1_ps, _mm256_set1_ps]
    have h : (fun i => ofS32 (F32.cvtps (F32.mul (F32.sub (src (p + i)) min) scale)))
        = fun i => ofS32 (cvtps_lane ((Ieee.codeSrc src scale min (p + i) - 0) * 1)) := by
      funext i
      have h := code_codeSrc src scale min (p + i)
      simp only [code, Ieee.code] at h
      rw [h]
    rw [h]
  simp only [Ieee.Avx2.Encode32f, Avx2.Encode32f, e]

theorem Ieee_encLoop_eq (xF : F32Vec → Nat → F32Vec → F32Vec → Vec → Vec → Vec × Vec × Vec)
    (x : FVec → Nat → FVec → FVec → Vec → Vec → Vec × Vec × Vec)
    (store : Vec → Nat → Vec → Vec) (n bytes bound : Nat) (src : F32Vec) (scale min : F32)
    (h : ∀ p sum sqsum, xF src p (Ieee._mm256_set1_ps scale) (Ieee._mm256_set1_ps min) sum sqsum
      = x (Ieee.codeSrc src scale min) p (_mm256_set1_ps 1) (_mm256_set1_ps 0) sum sqsum)
    (fuel : Nat) (s : EncState) :
    Ieee.encLoop xF store n bytes bound src (Ieee._mm256_set1_ps scale)
        (Ieee._mm256_set1_ps min) fuel s
      = encLoop x store n bytes bound (Ieee.codeSrc src scale min) (_mm256_set1_ps 1)
        (_mm256_set1_ps 0) fuel s := by
  simp only [Ieee.encLoop, encLoop, h]

theorem Ieee_4x8_eq (src : F32Vec) (scale min : F32) (p : Nat) (sum sqsum : Vec) :
    Ieee.Avx2.Encode32f4x8 src p (Ieee._mm256_set1_ps scale) (Ieee._mm256_set1_ps min) sum sqsum
      = Avx2.Encode32f4x8 (Ieee.codeSrc src scale min) p (_mm256_set1_ps 1) (_mm256_set1_ps 0)
        sum sqsum := by
  simp only [Ieee.Avx2.Encode32f4x8, Avx2.Encode32f4x8, Ieee_Encode32f_eq]

theorem Ieee_4x32_eq (src : F32Vec) (scale min : F32) (p : Nat) (sum sqsum : Vec) :
    Ieee.Avx2.Encode32f4x32 src p (Ieee._mm256_set1_ps scale) (Ieee._mm256_set1_ps min) sum
        sqsum
      = Avx2.Encode32f4x32 (Ieee.codeSrc src scale min) p (_mm256_set1_ps 1)
        (_mm256_set1_ps 0) sum sqsum := by
  simp only [Ieee.Avx2.Encode32f4x32, Avx2.Encode32f4x32, Ieee_Encode32f_eq]

theorem Ieee_5x1_eq (src : F32Vec) (scale min : F32) (p : Nat) (sum sqsum : Vec) :
    Ieee.Avx2.Encode32f5x1 src p (Ieee._mm256_set1_ps scale) (Ieee._mm256_set1_ps min) sum sqsum
      = Avx2.Encode32f5x1 (Ieee.codeSrc src scale min) p (_mm256_set1_ps 1) (_mm256_set1_ps 0)
        sum sqsum := by
  simp only [Ieee.Avx2.Encode32f5x1, Avx2.Encode32f5x1, Ieee_Encode32f_eq]

theorem Ieee_5x2_eq (src : F32Vec) (scale min : F32) (p : Nat) (sum sqsum : Vec) :
    Ieee.Avx2.Encode32f5x2 src p (Ieee._mm256_set1_ps scale) (Ieee._mm256_set1_ps min) sum sqsum
      = Avx2.Encode32f5x2 (Ieee.codeSrc src scale min) p (_mm256_set1_ps 1) (_mm256_set1_ps 0)
        sum sqsum := by
  simp only [Ieee.Avx2.Encode32f5x2, Avx2.Encode32f5x2, Ieee_Encode32f_eq]

theorem Ieee_6x1_eq (src : F32Vec) (scale min : F32) (p : Nat) (sum sqsum : Vec) :
    Ieee.Avx2.Encode32f6x1 src p (Ieee._mm256_set1_ps scale) (Ieee._mm256_set1_ps min) sum sqsum
      = Avx2.Encode32f6x1 (Ieee.codeSrc src scale min) p (_mm256_set1_ps 1) (_mm256_set1_ps 0)
        sum sqsum := by
  simp only [Ieee.Avx2.Encode32f6x1, Avx2.Encode32f6x1, Ieee_Encode32f_eq]

theorem Ieee_6x2_eq (src : F32Vec) (scale min : F32) (p : Nat) (sum sqsum : Vec) :
    Ieee.Avx2.Encode32f6x2 src p (Ieee._mm256_set1_ps scale) (Ieee._mm256_set1_ps min) sum sqsum
      = Avx2.Encode32f6x2 (Ieee.codeSrc src scale min) p (_mm256_set1_ps 1) (_mm256_set1_ps 0)
        sum sqsum := by
  simp only [Ieee.Avx2.Encode32f6x2, Avx2.Encode32f6x2, Ieee_Encode32f_eq]

theorem Ieee_7x1_eq (src : F32Vec) (scale min : F32) (p : Nat) (sum sqsum : Vec) :
    Ieee.Avx2.Encode32f7x1 src p (Ieee._mm256_set1_ps scale) (Ieee._mm256_set1_ps min) sum sqsum
      = Avx2.Encode32f7x1 (Ieee.codeSrc src scale min) p (_mm256_set1_ps 1) (_mm256_set1_ps 0)
        sum sqsum := by
  simp only [Ieee.Avx2.Encode32f7x1, Avx2.Encode32f7x1, Ieee_Encode32f_eq]

theorem Ieee_7x2_eq (src : F32Vec) (scale min : F32) (p : Nat) (sum sqsum : Vec) :
    Ieee.Avx2.Encode32f7x2 src p (Ieee._mm256_set1_ps scale) (Ieee._mm256_set1_ps min) sum sqsum
      = Avx2.Encode32f7x2 (Ieee.codeSrc src scale min) p (_mm256_set1_ps 1) (_mm256_set1_ps 0)
        sum sqsum := by
  simp only [Ieee.Avx2.Encode32f7x2, Avx2.Encode32f7x2, Ieee_Encode32f_eq]

theorem Ieee_8x8_eq (src : F32Vec) (scale min : F32) (p : Nat) (sum sqsum : Vec) :
    Ieee.Avx2.Encode32f8x8 src p (Ieee._mm256_set1_ps scale) (Ieee._mm256_set1_ps min) sum sqsum
      = Avx2.Encode32f8x8 (Ieee.codeSrc src scale min) p (_mm256_set1_ps 1) (_mm256_set1_ps 0)
        sum sqsum := by
  simp only [Ieee.Avx2.Encode32f8x8, Avx2.Encode32f8x8, Ieee_Encode32f_eq]

theorem Ieee_8x32_eq (src : F32Vec) (scale min : F32) (p : Nat) (sum sqsum : Vec) :
    Ieee.Avx2.Encode32f8x32 src p (Ieee._mm256_set1_ps scale) (Ieee._mm256_set1_ps min) sum
        sqsum
      = Avx2.Encode32f8x32 (Ieee.codeSrc src scale min) p (_mm256_set1_ps 1)
        (_mm256_set1_ps 0) sum sqsum := by
  simp only [Ieee.Avx2.Encode32f8x32, Avx2.Encode32f8x32, Ieee_Encode32f_eq]

/-- An encoder over binary32 is the exact encoder applied to the codes, with scale 1 and
minimum 0: the two differ in the quantiser only. -/
theorem Ieee_Encode32fN_eq (bits : Nat) (src : F32Vec) (scale min : F32) (size : Nat)
    (dst : Vec) :
    Ieee.Avx2.Encode32fN bits src scale min size dst
      = Avx2.Encode32fN bits (Ieee.codeSrc src scale min) 1 0 size dst := by
  unfold Ieee.Avx2.Encode32fN Avx2.Encode32fN
  split
  · simp only [Ieee.Avx2.Encode32f4, Avx2.Encode32f4]
    rw [Ieee_encLoop_eq _ Avx2.Encode32f4x32 _ _ _ _ src scale min (Ieee_4x32_eq src scale min),
      Ieee_encLoop_eq _ Avx2.Encode32f4x8 _ _ _ _ src scale min (Ieee_4x8_eq src scale min)]
  · simp only [Ieee.Avx2.Encode32f5, Avx2.Encode32f5]
    rw [Ieee_encLoop_eq _ Avx2.Encode32f5x2 _ _ _ _ src scale min (Ieee_5x2_eq src scale min),
      Ieee_encLoop_eq _ Avx2.Encode32f5x1 _ _ _ _ src scale min (Ieee_5x1_eq src scale min),
      Ieee_encLoop_eq _ Avx2.Encode32f5x1 _ _ _ _ src scale min (Ieee_5x1_eq src scale min)]
  · simp only [Ieee.Avx2.Encode32f6, Avx2.Encode32f6]
    rw [Ieee_encLoop_eq _ Avx2.Encode32f6x2 _ _ _ _ src scale min (Ieee_6x2_eq src scale min),
      Ieee_encLoop_eq _ Avx2.Encode32f6x1 _ _ _ _ src scale min (Ieee_6x1_eq src scale min),
      Ieee_encLoop_eq _ Avx2.Encode32f6x1 _ _ _ _ src scale min (Ieee_6x1_eq src scale min)]
  · simp only [Ieee.Avx2.Encode32f7, Avx2.Encode32f7]
    rw [Ieee_encLoop_eq _ Avx2.Encode32f7x2 _ _ _ _ src scale min (Ieee_7x2_eq src scale min),
      Ieee_encLoop_eq _ Avx2.Encode32f7x1 _ _ _ _ src scale min (Ieee_7x1_eq src scale min),
      Ieee_encLoop_eq _ Avx2.Encode32f7x1 _ _ _ _ src scale min (Ieee_7x1_eq src scale min)]
  · simp only [Ieee.Avx2.Encode32f8, Avx2.Encode32f8]
    rw [Ieee_encLoop_eq _ Avx2.Encode32f8x32 _ _ _ _ src scale min (Ieee_8x32_eq src scale min),
      Ieee_encLoop_eq _ Avx2.Encode32f8x8 _ _ _ _ src scale min (Ieee_8x8_eq src scale min)]
  · rfl

theorem sub_fin (x y : ℚ) : F32.sub (F32.fin x) (F32.fin y) = F32.round (x + -y) := rfl

theorem round_exact_int (z : ℤ) (h : |z| < 16777216) (x : ℚ) (hx : x = (z : ℚ)) :
    F32.round x = F32.fin x := by
  subst hx
  exact ofInt_exact z h

/-- The code over binary32 is the code of exact arithmetic when the float difference and the
float product are exact. -/
theorem Ieee_code_exact (src : F32Vec) (scale min : F32) (i : Nat) (x m s : ℚ)
    (hx : src i = F32.fin x) (hm : min = F32.fin m) (hs : scale = F32.fin s)
    (h1 : F32.round (x - m) = F32.fin (x - m))
    (h2 : F32.round ((x - m) * s) = F32.fin ((x - m) * s)) :
    Ieee.code src scale min i = cvtps_lane ((x - m) * s) := by
  unfold Ieee.code
  rw [hx, hm, hs, sub_fin, ← sub_eq_add_neg, h1, mul_fin, h2, cvtps_fin]

/-- Quantisation and statistics over binary32: the codes stored and summed are the codes the
quantiser computes in float arithmetic. -/
theorem Ieee_encode_statistics (bits : Nat) (hb4 : 4 ≤ bits) (hb8 : bits ≤ 8)
    (src : F32Vec) (scale min : F32) (size : Nat) (dst : Vec)
    (hsz : size % 8 = 0) (hpos : 0 < size) (hsize : size ≤ 32768) (hd : IsBytes dst)
    (hc : ∀ i, i < size → 0 ≤ Ieee.code src scale min i
      ∧ Ieee.code src scale min i ≤ 2 ^ bits - 1) :
    (∀ i, i < size →
      ((codeAt bits (Ieee.Avx2.Encode32fN bits src scale min size dst).2.2 i : Nat) : Int)
        = Ieee.code src scale min i)
    ∧ (Ieee.Avx2.Encode32fN bits src scale min size dst).1
        = ∑ i ∈ Finset.range size, Ieee.code src scale min i
    ∧ (Ieee.Avx2.Encode32fN bits src scale min size dst).2.1
        = ∑ i ∈ Finset.range size, Ieee.code src scale min i ^ 2 := by
  rw [Ieee_Encode32fN_eq]
  have h := encode_statistics bits hb4 hb8 (Ieee.codeSrc src scale min) 1 0 size dst hsz hpos
    hsize hd (fun i hi => by rw [rne_codeSrc]; exact hc i hi)
  simp only [rne_codeSrc] at h
  exact h

/-- C6 (counterexample). Eight elements `src_i = 5 + 2^-21` with `min = 0` and
`scale = 1/2 - 2^-25` (binary32 numbers): the exact product `2.5 + 3 * 2^-25 - 2^-46` rounds
to the float `2.5`, which `cvtps` rounds to the even integer 2. So `Encode32f<4>` stores the
codes 2 and returns `sum = 16`, whereas `round-to-nearest-even((src_i - min) * scale) = 3`
for every element, with sum 24. -/
theorem C6_counterexample_float_rounding :
    F32.round (10485761 / 2097152) = F32.fin (10485761 / 2097152)
    ∧ F32.round (16777215 / 33554432) = F32.fin (16777215 / 33554432)
    ∧ roundNearestEven (((10485761 : ℚ) / 2097152 - 0) * (16777215 / 33554432)) = 3
    ∧ (∀ i, i < 8 →
      codeAt 4 (Ieee.Avx2.Encode32fN 4 (fun _ => F32.fin (10485761 / 2097152))
        (F32.fin (16777215 / 33554432)) (F32.fin 0) 8 (fun _ => 0)).2.2 i = 2)
    ∧ (Ieee.Avx2.Encode32fN 4 (fun _ => F32.fin (10485761 / 2097152))
        (F32.fin (16777215 / 33554432)) (F32.fin 0) 8 (fun _ => 0)).1 = 16
    ∧ ∑ _i ∈ Finset.range 8,
        roundNearestEven (((10485761 : ℚ) / 2097152 - 0) * (16777215 / 33554432)) = 24 := by
  have r1 : F32.round (10485761 / 2097152) = F32.fin (10485761 / 2097152) :=
    round_eval _ 2 10485761 _ (by norm_num) (by norm_num [abs_of_pos])
      (by norm_num [abs_of_pos]) (by norm_num [roundNearestEven]) (by norm_num) (by norm_num)
      (by norm_num)
  have r2 : F32.round (16777215 / 33554432) = F32.fin (16777215 / 33554432) :=
    round_eval _ (-2) 16777215 _ (by norm_num) (by norm_num [abs_of_pos])
      (by norm_num [abs_of_pos]) (by norm_num [roundNearestEven]) (by norm_num) (by norm_num)
      (by norm_num)
  have r3 : roundNearestEven (((10485761 : ℚ) / 2097152 - 0) * (16777215 / 33554432)) = 3 := by
    norm_num [roundNearestEven]
  have s1 : F32.round (10485761 / 2097152 + -0) = F32.fin (10485761 / 2097152) :=
    round_eval _ 2 10485761 _ (by norm_num) (by norm_num [abs_of_pos])
      (by norm_num [abs_of_pos]) (by norm_num [roundNearestEven]) (by norm_num) (by norm_num)
      (by norm_num)
  have s2 : F32.round (10485761 / 2097152 * (16777215 / 33554432)) = F32.fin (5 / 2) :=
    round_eval _ 1 10485760 _ (by norm_num) (by norm_num [abs_of_pos])
      (by norm_num [abs_of_pos]) (by norm_num [roundNearestEven]) (by norm_num) (by norm_num)
      (by norm_num)
  have s3 : cvtps_lane (5 / 2) = 2 := by norm_num [cvtps_lane, roundNearestEven]
  have hcode : ∀ i, Ieee.code (fun _ => F32.fin (10485761 / 2097152))
      (F32.fin (16777215 / 33554432)) (F32.fin 0) i = 2 := by
    intro i
    unfold Ieee.code
    rw [sub_fin, s1, mul_fin, s2, cvtps_fin, s3]
  obtain ⟨h1, h2, _⟩ := Ieee_encode_statistics 4 (by omega) (by omega)
    (fun _ => F32.fin (10485761 / 2097152)) (F32.fin (16777215 / 33554432)) (F32.fin 0) 8
    (fun _ => 0) (by omega) (by omega) (by omega) (IsBytes_const 0 (by omega))
    (fun i _ => by rw [hcode i]; norm_num)
  refine ⟨r1, r2, r3, fun i hi => ?_, ?_, ?_⟩
  · have := h1 i hi
    rw [hcode i] at this
    exact_mod_cast this
  · rw [h2]
    simp only [hcode]
    simp
  · rw [r3]
    simp

/-- C6 (amended). Quantisation and exact statistics. Lane `k` of the value of the quantiser
`Encode32f` at `src + p` is the code `cvtps(fl(fl(src[p + k] - min) * scale))`, where `fl`
rounds the exact difference and the exact product to binary32 and `cvtps` rounds to the nearest
integer, ties to even. For every code width `bits` in 4..8 and every positive multiple of 8
`size <= 32768`: when every code lies in `[0, 2^bits - 1]`, `Encode32f<bits>` stores the code
of element `i` in field `i` of the stream and returns `sum` equal to the sum of the codes and
`sqsum` equal to the sum of their squares over all `size` elements. A code in that range is
`round-to-nearest-even((src_i - min) * scale)` when the float difference and the float product
are exact. -/
theorem C6_quantise_exact_statistics (bits : Nat) (hb4 : 4 ≤ bits) (hb8 : bits ≤ 8)
    (src : F32Vec) (scale min : F32) (size : Nat) (dst : Vec)
    (hsz : size % 8 = 0) (hpos : 0 < size) (hsize : size ≤ 32768) (hd : IsBytes dst)
    (hc : ∀ i, i < size → 0 ≤ F32.cvtps (F32.mul (F32.sub (src i) min) scale)
      ∧ F32.cvtps (F32.mul (F32.sub (src i) min) scale) ≤ 2 ^ bits - 1) :
    (∀ p k (sum sqsum : Vec),
      u32 (Ieee.Avx2.Encode32f (Ieee._mm256_loadu_ps src p) (Ieee._mm256_set1_ps scale)
        (Ieee._mm256_set1_ps min) sum sqsum).1 k
        = ofS32 (F32.cvtps (F32.mul (F32.sub (src (p + k)) min) scale)))
    ∧ (∀ i, i < size →
      ((codeAt bits (Ieee.Avx2.Encode32fN bits src scale min size dst).2.2 i : Nat) : Int)
        = F32.cvtps (F32.mul (F32.sub (src i) min) scale))
    ∧ (Ieee.Avx2.Encode32fN bits src scale min size dst).1
        = ∑ i ∈ Finset.range size, F32.cvtps (F32.mul (F32.sub (src i) min) scale)
    ∧ (Ieee.Avx2.Encode32fN bits src scale min size dst).2.1
        = ∑ i ∈ Finset.range size, F32.cvtps (F32.mul (F32.sub (src i) min) scale) ^ 2
    ∧ (∀ i (x m s : ℚ), i < size → src i = F32.fin x → min = F32.fin m → scale = F32.fin s →
      F32.round (x - m) = F32.fin (x - m) →
      F32.round ((x - m) * s) = F32.fin ((x - m) * s) →
      F32.cvtps (F32.mul (F32.sub (src i) min) scale) = roundNearestEven ((x - m) * s)) := by
  obtain ⟨h1, h2, h3⟩ := Ieee_encode_statistics bits hb4 hb8 src scale min size dst hsz hpos
    hsize hd hc
  refine ⟨fun p k sum sqsum => u32_Ieee_Encode32f src p scale min sum sqsum k, h1, h2, h3, ?_⟩
  intro i x m s hi hx hm hs e1 e2
  have e := Ieee_code_exact src scale min i x m s hx hm hs e1 e2
  have c0 := (hc i hi).1
  unfold Ieee.code at e c0
  rw [e] at c0 ⊢
  simp only [cvtps_lane] at c0 ⊢
  split_ifs at c0 ⊢ with h
  · rfl
  · omega

/-- Witness of C6: sixteen elements 9 with scale 1 and minimum 0; every 4-bit code is 9. -/
theorem C6_quantise_exact_statistics_witness :
    (Ieee.Avx2.Encode32fN 4 (fun _ => F32.fin 9) (F32.fin 1) (F32.fin 0) 16 (fun _ => 0)).1
        = ∑ i ∈ Finset.range 16,
          F32.cvtps (F32.mul (F32.sub ((fun _ => F32.fin 9 : F32Vec) i) (F32.fin 0)) (F32.fin 1))
    ∧ (Ieee.Avx2.Encode32fN 4 (fun _ => F32.fin 9) (F32.fin 1) (F32.fin 0) 16 (fun _ => 0)).2.1
        = ∑ i ∈ Finset.range 16,
          F32.cvtps (F32.mul (F32.sub ((fun _ => F32.fin 9 : F32Vec) i) (F32.fin 0)) (F32.fin 1))
            ^ 2 := by
  have hcode : ∀ i, Ieee.code (fun _ => F32.fin 9) (F32.fin 1) (F32.fin 0) i = 9 := by
    intro i
    have e := Ieee_code_exact (fun _ => F32.fin 9) (F32.fin 1) (F32.fin 0) i 9 0 1 rfl rfl rfl
      (round_exact_int 9 (by norm_num) _ (by norm_num))
      (round_exact_int 9 (by norm_num) _ (by norm_num))
    rw [e]
    norm_num [cvtps_lane, roundNearestEven]
  have h := C6_quantise_exact_statistics 4 (by omega) (by omega) (fun _ => F32.fin 9)
    (F32.fin 1) (F32.fin 0) 16 (fun _ => 0) (by omega) (by omega) (by omega)
    (IsBytes_const 0 (by omega)) (fun i _ => by
      have e := hcode i
      unfold Ieee.code at e
      rw [e]
      norm_num)
  exact ⟨h.2.2.1, h.2.2.2.1⟩

/-- A lane of `_mm256_cvtepi32_ps(_mm256_cvtepu16_epi32(v))` is the 16-bit lane of `v`: the
conversion of an integer below `2^24` is exact. -/
theorem Ieee_cvt_u16_lane (v : Vec) (k : Nat) (h : u16 v k < 65536) :
    Ieee._mm256_cvtepi32_ps (_mm256_cvtepu16_epi32 v) k = F32.fin (u16 v k : ℚ) := by
  simp only [Ieee._mm256_cvtepi32_ps, _mm256_cvtepu16_epi32, u32_ofU32]
  have e : u16 v k % 4294967296 = u16 v k := by omega
  rw [e, toS32_small _ (by omega)]
  have := ofInt_exact (u16 v k : ℤ) (by rw [abs_of_nonneg (by omega)]; omega)
  rw [this]
  norm_cast

/-- A lane of `_mm256_cvtepi32_ps(_mm256_cvtepu8_epi32(v))` is the byte of `v`. -/
theorem Ieee_cvt_u8_lane (v : Vec) (k : Nat) (h : v k < 256) :
    Ieee._mm256_cvtepi32_ps (_mm256_cvtepu8_epi32 v) k = F32.fin (v k : ℚ) := by
  simp only [Ieee._mm256_cvtepi32_ps, _mm256_cvtepu8_epi32, u32_ofU32]
  have e : v k % 4294967296 = v k := by omega
  rw [e, toS32_small _ (by omega)]
  have := ofInt_exact (v k : ℤ) (by rw [abs_of_nonneg (by omega)]; omega)
  rw [this]
  norm_cast

theorem Ieee_decLoop16_spec (bits : Nat) (SHFL MULLO : Vec) (sh step : Nat)
    (hU : ∀ m, IsBytes m → ∀ p k, k < 16 →
      u16 (Avx2.Unpack16 SHFL MULLO sh m p) k = codeAt bits (ptrAdd m p) k)
    (hstep : step = 2 * bits)
    (m : Vec) (hm : IsBytes m) (scale shift : F32) (dst0 : F32Vec) (bound fuel : Nat)
    (s : Ieee.DecState) (hle : s.i ≤ bound) (hdiv : 16 ∣ bound - s.i)
    (hfuel : bound ≤ s.i + fuel * 16) (hinv : IeeeDecInv bits m scale shift dst0 s) :
    IeeeDecInv bits m scale shift dst0
        (Ieee.Avx2.decLoop16 SHFL MULLO sh step bound m (Ieee._mm256_set1_ps scale)
          (Ieee._mm256_set1_ps shift) fuel s)
      ∧ (Ieee.Avx2.decLoop16 SHFL MULLO sh step bound m (Ieee._mm256_set1_ps scale)
          (Ieee._mm256_set1_ps shift) fuel s).i = bound := by
  unfold Ieee.Avx2.decLoop16
  apply forLoop_inv (fun t : Ieee.DecState => t.i) _ bound 16 _ (fun t => rfl) _ fuel s hle hdiv
    hfuel hinv
  intro t ht _ _
  obtain ⟨i8, hsrc, hdst, hlo, hhi⟩ := ht
  have hb : ∀ j, Avx2.Unpack16 SHFL MULLO sh m t.src j < 256 := fun j =>
    srli256_epi16_lt _ _ j
  have hlane : ∀ k, k < 16 → (u16 (Avx2.Unpack16 SHFL MULLO sh m t.src) k)
      = codeAt bits m (t.i + k) := by
    intro k hk
    rw [hU m hm t.src k hk, hsrc, codeAt_shift bits m t.i k i8]
  refine ⟨?_, ?_, ?_, ?_, ?_⟩
  · show (t.i + 16) % 8 = 0
    omega
  · show t.src + step = (t.i + 16) / 8 * bits
    have e : (t.i + 16) / 8 = t.i / 8 + 2 := by omega
    rw [e, Nat.add_mul, hsrc, hstep]
  · show t.dst + 16 = t.i + 16
    omega
  · intro a ha
    have ha' : a < t.i + 16 := ha
    show Ieee._mm256_storeu_ps (Ieee._mm256_storeu_ps t.out (t.dst + 0) _) (t.dst + 8) _ a = _
    simp only [Ieee._mm256_storeu_ps, Ieee._mm256_fmadd_ps, Ieee._mm256_set1_ps, Nat.add_zero, hdst]
    by_cases h1 : t.i + 8 ≤ a ∧ a < t.i + 8 + 8
    · simp only [h1, and_self, if_true]
      rw [Ieee_cvt_u16_lane _ _ (by rw [u16_extract_1]; exact u16_lt_of_bytes _ hb _),
        u16_extract_1, hlane _ (by omega)]
      have e : t.i + (8 + (a - (t.i + 8))) = a := by omega
      rw [e]
    · simp only [h1, if_false]
      by_cases h0 : t.i ≤ a ∧ a < t.i + 8
      · simp only [h0, and_self, if_true]
        rw [Ieee_cvt_u16_lane _ _ (by rw [u16_extract_0]; exact u16_lt_of_bytes _ hb _),
          u16_extract_0, hlane _ (by omega)]
        have e : t.i + (a - t.i) = a := by omega
        rw [e]
      · simp only [h0, if_false]
        exact hlo a (by omega)
  · intro a ha
    have ha' : t.i + 16 ≤ a := ha
    show Ieee._mm256_storeu_ps (Ieee._mm256_storeu_ps t.out (t.dst + 0) _) (t.dst + 8) _ a = _
    simp only [Ieee._mm256_storeu_ps, Nat.add_zero, hdst]
    have h1 : ¬ (t.i + 8 ≤ a ∧ a < t.i + 8 + 8) := by omega
    have h0 : ¬ (t.i ≤ a ∧ a < t.i + 8) := by omega
    simp only [h1, h0, if_false]
    exact hhi a (by omega)

theorem Ieee_decLoop8_spec (bits : Nat) (SHFL0 MULLO : Vec) (sh step : Nat)
    (hU : ∀ m, IsBytes m → ∀ p k, k < 8 →
      u16 (Avx2.Unpack8 SHFL0 MULLO sh m p) k = codeAt bits (ptrAdd m p) k)
    (hstep : step = bits)
    (m : Vec) (hm : IsBytes m) (scale shift : F32) (dst0 : F32Vec) (bound fuel : Nat)
    (s : Ieee.DecState) (hle : s.i ≤ bound) (hdiv : 8 ∣ bound - s.i)
    (hfuel : bound ≤ s.i + fuel * 8) (hinv : IeeeDecInv bits m scale shift dst0 s) :
    IeeeDecInv bits m scale shift dst0
        (Ieee.Avx2.decLoop8 SHFL0 MULLO sh step bound m (Ieee._mm256_set1_ps scale)
          (Ieee._mm256_set1_ps shift) fuel s)
      ∧ (Ieee.Avx2.decLoop8 SHFL0 MULLO sh step bound m (Ieee._mm256_set1_ps scale)
          (Ieee._mm256_set1_ps shift) fuel s).i = bound := by
  unfold Ieee.Avx2.decLoop8
  apply forLoop_inv (fun t : Ieee.DecState => t.i) _ bound 8 _ (fun t => rfl) _ fuel s hle hdiv
    hfuel hinv
  intro t ht _ _
  obtain ⟨i8, hsrc, hdst, hlo, hhi⟩ := ht
  have hb : ∀ j, Avx2.Unpack8 SHFL0 MULLO sh m t.src j < 256 := fun j =>
    srli_epi16_lt _ _ j
  have hlane : ∀ k, k < 8 → (u16 (Avx2.Unpack8 SHFL0 MULLO sh m t.src) k)
      = codeAt bits m (t.i + k) := by
    intro k hk
    rw [hU m hm t.src k hk, hsrc, codeAt_shift bits m t.i k i8]
  refine ⟨?_, ?_, ?_, ?_, ?_⟩
  · show (t.i + 8) % 8 = 0
    omega
  · show t.src + step = (t.i + 8) / 8 * bits
    have e : (t.i + 8) / 8 = t.i / 8 + 1 := by omega
    rw [e, Nat.add_mul, hsrc, hstep, Nat.one_mul]
  · show t.dst + 8 = t.i + 8
    omega
  · intro a ha
    have ha' : a < t.i + 8 := ha
    show Ieee._mm256_storeu_ps t.out (t.dst + 0) _ a = _
    simp only [Ieee._mm256_storeu_ps, Ieee._mm256_fmadd_ps, Ieee._mm256_set1_ps, Nat.add_zero, hdst]
    by_cases h0 : t.i ≤ a ∧ a < t.i + 8
    · simp only [h0, and_self, if_true]
      rw [Ieee_cvt_u16_lane _ _ (u16_lt_of_bytes _ hb _), hlane _ (by omega)]
      have e : t.i + (a - t.i) = a := by omega
      rw [e]
    · simp only [h0, if_false]
      exact hlo a (by omega)
  · intro a ha
    have ha' : t.i + 8 ≤ a := ha
    show Ieee._mm256_storeu_ps t.out (t.dst + 0) _ a = _
    simp only [Ieee._mm256_storeu_ps, Nat.add_zero, hdst]
    have h0 : ¬ (t.i ≤ a ∧ a < t.i + 8) := by omega
    simp only [h0, if_false]
    exact hhi a (by omega)

theorem IeeeDecInv_init (bits : Nat) (m : Vec) (scale shift : F32) (dst : F32Vec) :
    IeeeDecInv bits m scale shift dst ⟨0, 0, 0, dst⟩ := by
  refine ⟨rfl, by simp, rfl, ?_, ?_⟩
  · intro a ha
    exact absurd ha (Nat.not_lt_zero _)
  · intro a _
    rfl

theorem Ieee_decode4567_spec (bits : Nat) (SHFL MULLO SHFL0 MULLO0 : Vec) (sh : Nat)
    (hU16 : ∀ m, IsBytes m → ∀ p k, k < 16 →
      u16 (Avx2.Unpack16 SHFL MULLO sh m p) k = codeAt bits (ptrAdd m p) k)
    (hU8 : ∀ m, IsBytes m → ∀ p k, k < 8 →
      u16 (Avx2.Unpack8 SHFL0 MULLO0 sh m p) k = codeAt bits (ptrAdd m p) k)
    (m : Vec) (hm : IsBytes m) (scale shift : F32) (size : Nat) (dst : F32Vec)
    (hsz : size % 8 = 0) :
    IeeeDecodeSpec bits m scale shift size dst
      (Ieee.Avx2.decLoop8 SHFL0 MULLO0 sh bits size m (Ieee._mm256_set1_ps scale) (Ieee._mm256_set1_ps shift)
        size
        (Ieee.Avx2.decLoop16 SHFL MULLO sh (2 * bits) (AlignLo size 16) m (Ieee._mm256_set1_ps scale)
          (Ieee._mm256_set1_ps shift) size ⟨0, 0, 0, dst⟩)).out := by
  have hA : AlignLo size 16 = size / 16 * 16 := rfl
  obtain ⟨i1, e1⟩ := Ieee_decLoop16_spec bits SHFL MULLO sh (2 * bits) hU16 rfl m hm scale shift dst
    (AlignLo size 16) size ⟨0, 0, 0, dst⟩ (Nat.zero_le _)
    ⟨size / 16, by rw [hA]; show size / 16 * 16 - 0 = _; omega⟩
    (by rw [hA]; show _ ≤ 0 + size * 16; omega) (IeeeDecInv_init bits m scale shift dst)
  obtain ⟨i2, e2⟩ := Ieee_decLoop8_spec bits SHFL0 MULLO0 sh bits hU8 rfl m hm scale shift dst
    size size _ (by rw [e1, hA]; omega) ⟨(size - size / 16 * 16) / 8, by rw [e1, hA]; omega⟩
    (by rw [e1, hA]; omega) i1
  obtain ⟨_, _, _, hlo, hhi⟩ := i2
  rw [e2] at hlo hhi
  exact ⟨hlo, hhi⟩

theorem Ieee_Decode32f4_spec (m : Vec) (hm : IsBytes m) (scale shift : F32) (size : Nat) (dst : F32Vec)
    (hsz : size % 8 = 0) :
    IeeeDecodeSpec 4 m scale shift size dst (Ieee.Avx2.Decode32f4 m scale shift size dst) :=
  Ieee_decode4567_spec 4 _ _ _ _ 12 unpack16_lanes_4 unpack8_lanes_4 m hm scale shift size dst hsz

theorem Ieee_Decode32f5_spec (m : Vec) (hm : IsBytes m) (scale shift : F32) (size : Nat) (dst : F32Vec)
    (hsz : size % 8 = 0) :
    IeeeDecodeSpec 5 m scale shift size dst (Ieee.Avx2.Decode32f5 m scale shift size dst) :=
  Ieee_decode4567_spec 5 _ _ _ _ 11 unpack16_lanes_5 unpack8_lanes_5 m hm scale shift size dst hsz

theorem Ieee_Decode32f6_spec (m : Vec) (hm : IsBytes m) (scale shift : F32) (size : Nat) (dst : F32Vec)
    (hsz : size % 8 = 0) :
    IeeeDecodeSpec 6 m scale shift size dst (Ieee.Avx2.Decode32f6 m scale shift size dst) :=
  Ieee_decode4567_spec 6 _ _ _ _ 10 unpack16_lanes_6 unpack8_lanes_6 m hm scale shift size dst hsz

theorem Ieee_Decode32f7_spec (m : Vec) (hm : IsBytes m) (scale shift : F32) (size : Nat) (dst : F32Vec)
    (hsz : size % 8 = 0) :
    IeeeDecodeSpec 7 m scale shift size dst (Ieee.Avx2.Decode32f7 m scale shift size dst) :=
  Ieee_decode4567_spec 7 _ _ _ _ 9 unpack16_lanes_7 unpack8_lanes_7 m hm scale shift size dst hsz

theorem Ieee_Decode32f8_spec (m : Vec) (hm : IsBytes m) (scale shift : F32) (size : Nat) (dst : F32Vec)
    (hsz : size % 8 = 0) :
    IeeeDecodeSpec 8 m scale shift size dst (Ieee.Avx2.Decode32f8 m scale shift size dst) := by
  have hA : AlignLo size 16 = size / 16 * 16 := rfl
  unfold Ieee.Avx2.Decode32f8
  simp only []
  obtain ⟨i1, e1⟩ := forLoop_inv (fun t : Ieee.DecState => t.i) (IeeeDecInv 8 m scale shift dst)
    (AlignLo size 16) 16
    (fun s : Ieee.DecState =>
      (⟨s.i + 16, s.src + 16, s.dst + 16,
        Ieee._mm256_storeu_ps (Ieee._mm256_storeu_ps s.out (s.dst + 0) (Ieee._mm256_fmadd_ps
          (Ieee._mm256_cvtepi32_ps (_mm256_cvtepu8_epi32 (_mm_loadu_si128 m s.src)))
          (Ieee._mm256_set1_ps scale) (Ieee._mm256_set1_ps shift))) (s.dst + F) (Ieee._mm256_fmadd_ps
          (Ieee._mm256_cvtepi32_ps (_mm256_cvtepu8_epi32 (_mm_srli_si128 (_mm_loadu_si128 m s.src) 8)))
          (Ieee._mm256_set1_ps scale) (Ieee._mm256_set1_ps shift))⟩ : Ieee.DecState))
    (fun t => rfl)
    (by
      intro t ht _ _
      obtain ⟨i8, hsrc, hdst, hlo, hhi⟩ := ht
      have hsrc' : t.src = t.i := by omega
      refine ⟨?_, ?_, ?_, ?_, ?_⟩
      · show (t.i + 16) % 8 = 0
        omega
      · show t.src + 16 = (t.i + 16) / 8 * 8
        omega
      · show t.dst + 16 = t.i + 16
        omega
      · intro a ha
        have ha' : a < t.i + 16 := ha
        show Ieee._mm256_storeu_ps (Ieee._mm256_storeu_ps t.out (t.dst + 0) _) (t.dst + F) _ a = _
        simp only [Ieee._mm256_storeu_ps, Ieee._mm256_fmadd_ps, Ieee._mm256_set1_ps, Nat.add_zero, hdst, F,
          hsrc']
        rw [codeAt_8 m hm a]
        by_cases h1 : t.i + 8 ≤ a ∧ a < t.i + 8 + 8
        · simp only [h1, and_self, if_true]
          have hlt : a - (t.i + 8) + 8 < 16 := by omega
          have e : t.i + (a - (t.i + 8) + 8) = a := by omega
          rw [Ieee_cvt_u8_lane _ _ (by
            simp only [_mm_srli_si128, hlt, if_true, _mm_loadu_si128]
            exact hm _)]
          simp only [_mm_srli_si128, hlt, if_true, _mm_loadu_si128, e]
        · simp only [h1, if_false]
          by_cases h0 : t.i ≤ a ∧ a < t.i + 8
          · simp only [h0, and_self, if_true]
            have e : t.i + (a - t.i) = a := by omega
            rw [Ieee_cvt_u8_lane _ _ (by simp only [_mm_loadu_si128]; exact hm _)]
            simp only [_mm_loadu_si128, e]
          · simp only [h0, if_false]
            rw [hlo a (by omega), codeAt_8 m hm a]
      · intro a ha
        have ha' : t.i + 16 ≤ a := ha
        show Ieee._mm256_storeu_ps (Ieee._mm256_storeu_ps t.out (t.dst + 0) _) (t.dst + F) _ a = _
        simp only [Ieee._mm256_storeu_ps, Nat.add_zero, hdst, F]
        have h1 : ¬ (t.i + 8 ≤ a ∧ a < t.i + 8 + 8) := by omega
        have h0 : ¬ (t.i ≤ a ∧ a < t.i + 8) := by omega
        simp only [h1, h0, if_false]
        exact hhi a (by omega))
    size ⟨0, 0, 0, dst⟩ (Nat.zero_le _)
    ⟨size / 16, by rw [hA]; show size / 16 * 16 - 0 = _; omega⟩
    (by rw [hA]; show _ ≤ 0 + size * 16; omega) (IeeeDecInv_init 8 m scale shift dst)
  obtain ⟨i2, e2⟩ := forLoop_inv (fun t : Ieee.DecState => t.i) (IeeeDecInv 8 m scale shift dst)
    size 8
    (fun s : Ieee.DecState =>
      (⟨s.i + 8, s.src + 8, s.dst + 8,
        Ieee._mm256_storeu_ps s.out s.dst (Ieee._mm256_fmadd_ps
          (Ieee._mm256_cvtepi32_ps (_mm256_cvtepu8_epi32 (_mm_loadl_epi64 m s.src)))
          (Ieee._mm256_set1_ps scale) (Ieee._mm256_set1_ps shift))⟩ : Ieee.DecState))
    (fun t => rfl)
    (by
      intro t ht _ _
      obtain ⟨i8, hsrc, hdst, hlo, hhi⟩ := ht
      have hsrc' : t.src = t.i := by omega
      refine ⟨?_, ?_, ?_, ?_, ?_⟩
      · show (t.i + 8) % 8 = 0
        omega
      · show t.src + 8 = (t.i + 8) / 8 * 8
        omega
      · show t.dst + 8 = t.i + 8
        omega
      · intro a ha
        have ha' : a < t.i + 8 := ha
        show Ieee._mm256_storeu_ps t.out t.dst _ a = _
        simp only [Ieee._mm256_storeu_ps, Ieee._mm256_fmadd_ps, Ieee._mm256_set1_ps, hdst, hsrc']
        rw [codeAt_8 m hm a]
        by_cases h0 : t.i ≤ a ∧ a < t.i + 8
        · simp only [h0, and_self, if_true]
          have hlt : a - t.i < 8 := by omega
          have e : t.i + (a - t.i) = a := by omega
          rw [Ieee_cvt_u8_lane _ _ (by
            simp only [_mm_loadl_epi64, hlt, if_true]
            exact hm _)]
          simp only [_mm_loadl_epi64, hlt, if_true, e]
        · simp only [h0, if_false]
          rw [hlo a (by omega), codeAt_8 m hm a]
      · intro a ha
        have ha' : t.i + 8 ≤ a := ha
        show Ieee._mm256_storeu_ps t.out t.dst _ a = _
        simp only [Ieee._mm256_storeu_ps, hdst]
        have h0 : ¬ (t.i ≤ a ∧ a < t.i + 8) := by omega
        simp only [h0, if_false]
        exact hhi a (by omega))
    size _ (by show Ieee.DecState.i (forLoop _ _ _ _) ≤ _; rw [e1, hA]; omega)
    ⟨(size - size / 16 * 16) / 8, by
      show _ - Ieee.DecState.i (forLoop _ _ _ _) = _
      rw [e1, hA]
      omega⟩
    (by show _ ≤ Ieee.DecState.i (forLoop _ _ _ _) + _; rw [e1, hA]; omega) i1
  obtain ⟨_, _, _, hlo, hhi⟩ := i2
  have e2' : (forLoop size (fun t : Ieee.DecState => decide (t.i < size)) _ _).i = size := e2
  rw [e2'] at hlo hhi
  exact ⟨hlo, hhi⟩

theorem Ieee_Decode32fN_spec (bits : Nat) (hb4 : 4 ≤ bits) (hb8 : bits ≤ 8)
    (m : Vec) (hm : IsBytes m) (scale shift : F32) (size : Nat) (dst : F32Vec)
    (hsz : size % 8 = 0) :
    IeeeDecodeSpec bits m scale shift size dst
      (Ieee.Avx2.Decode32fN bits m scale shift size dst) := by
  obtain h | h | h | h | h : bits = 4 ∨ bits = 5 ∨ bits = 6 ∨ bits = 7 ∨ bits = 8 := by omega
  · subst h
    exact Ieee_Decode32f4_spec m hm scale shift size dst hsz
  · subst h
    exact Ieee_Decode32f5_spec m hm scale shift size dst hsz
  · subst h
    exact Ieee_Decode32f6_spec m hm scale shift size dst hsz
  · subst h
    exact Ieee_Decode32f7_spec m hm scale shift size dst hsz
  · subst h
    exact Ieee_Decode32f8_spec m hm scale shift size dst hsz

theorem fma_fin (x y z : ℚ) :
    F32.fma (F32.fin x) (F32.fin y) (F32.fin z) = F32.round (x * y + z) := rfl

/-- C7 (counterexample). `Decode32f<8>` of eight codes 3 with the binary32 number
`scale = 13421773 * 2^-27` (the float `0.1f`) and `shift = 0`: every code is 3 and
`c_i * scale + shift = 40265319 * 2^-27`, which is not a binary32 number; the fused
multiply-add stores its rounding `5033165 * 2^-24`, a different value. -/
theorem C7_counterexample_rounded_store :
    F32.round (13421773 / 134217728) = F32.fin (13421773 / 134217728)
    ∧ (∀ i, i < 8 → ((codeAt 8 (fun _ => 3) i : Nat) : ℚ) * (13421773 / 134217728) + 0
        = 40265319 / 134217728)
    ∧ (∀ i, i < 8 →
      Ieee.Avx2.Decode32fN 8 (fun _ => 3) (F32.fin (13421773 / 134217728)) (F32.fin 0) 8
        (fun _ => F32.fin 0) i = F32.fin (5033165 / 16777216))
    ∧ (5033165 / 16777216 : ℚ) ≠ 40265319 / 134217728 := by
  have hb : IsBytes (fun _ => 3) := IsBytes_const 3 (by omega)
  have hc : ∀ i, codeAt 8 (fun _ => 3) i = 3 := fun i => codeAt_8 _ hb i
  have r1 : F32.round (13421773 / 134217728) = F32.fin (13421773 / 134217728) :=
    round_eval _ (-4) 13421773 _ (by norm_num) (by norm_num [abs_of_pos])
      (by norm_num [abs_of_pos]) (by norm_num [roundNearestEven]) (by norm_num) (by norm_num)
      (by norm_num)
  have r2 : F32.round (((3 : Nat) : ℚ) * (13421773 / 134217728) + 0)
      = F32.fin (5033165 / 16777216) :=
    round_eval _ (-2) 10066330 _ (by norm_num) (by norm_num [abs_of_pos])
      (by norm_num [abs_of_pos]) (by norm_num [roundNearestEven]) (by norm_num) (by norm_num)
      (by norm_num)
  refine ⟨r1, fun i _ => ?_, fun i hi => ?_, by norm_num⟩
  · rw [hc i]
    norm_num
  · rw [(Ieee_Decode32fN_spec 8 (by omega) (by omega) (fun _ => 3) hb _ _ 8 _ (by omega)).1 i hi,
      hc i, fma_fin, r2]

/-- C7 (amended). Affine decode. For every code width `bits` in 4..8 and every `size` that is a
multiple of 8, `Decode32f<bits>(src, scale, shift, size, dst)` stores `fma(c_i, scale, shift)`
at `dst[i]` for every `i < size`, where `c_i` is the `i`-th `bits`-wide code of the packed
stream `src` and `fma` is the fused multiply-add of binary32, and leaves every float at an
index `>= size` as it was: exactly `size` floats are written. For finite `scale` and `shift`
the stored value is the exact `c_i * scale + shift` rounded once to binary32; it is
`c_i * scale + shift` itself when that is a binary32 number. -/
theorem C7_affine_decode (bits : Nat) (hb4 : 4 ≤ bits) (hb8 : bits ≤ 8)
    (src : Vec) (hsrc : IsBytes src) (scale shift : F32) (size : Nat) (dst : F32Vec)
    (hsz : size % 8 = 0) :
    (∀ i, i < size → Ieee.Avx2.Decode32fN bits src scale shift size dst i
      = F32.fma (F32.fin (codeAt bits src i : ℚ)) scale shift)
    ∧ (∀ i, size ≤ i → Ieee.Avx2.Decode32fN bits src scale shift size dst i = dst i)
    ∧ (∀ i (s t : ℚ), i < size → scale = F32.fin s → shift = F32.fin t →
      Ieee.Avx2.Decode32fN bits src scale shift size dst i
          = F32.round ((codeAt bits src i : ℚ) * s + t)
        ∧ (F32.round ((codeAt bits src i : ℚ) * s + t)
            = F32.fin ((codeAt bits src i : ℚ) * s + t) →
          Ieee.Avx2.Decode32fN bits src scale shift size dst i
            = F32.fin ((codeAt bits src i : ℚ) * s + t))) := by
  obtain ⟨h1, h2⟩ := Ieee_Decode32fN_spec bits hb4 hb8 src hsrc scale shift size dst hsz
  refine ⟨h1, h2, fun i s t hi hs ht => ?_⟩
  have e : Ieee.Avx2.Decode32fN bits src scale shift size dst i
      = F32.round ((codeAt bits src i : ℚ) * s + t) := by
    rw [h1 i hi, hs, ht, fma_fin]
  exact ⟨e, fun h => by rw [e, h]⟩

/-- Witness of C7: 24 six-bit codes read from a buffer of bytes `0x5A`, with scale 2 and
shift 1. -/
theorem C7_affine_decode_witness :
    (∀ i, i < 24 →
      Ieee.Avx2.Decode32fN 6 (fun _ => 90) (F32.fin 2) (F32.fin 1) 24 (fun _ => F32.fin 0) i
        = F32.fma (F32.fin (codeAt 6 (fun _ => 90) i : ℚ)) (F32.fin 2) (F32.fin 1))
    ∧ (∀ i, 24 ≤ i →
      Ieee.Avx2.Decode32fN 6 (fun _ => 90) (F32.fin 2) (F32.fin 1) 24 (fun _ => F32.fin 0) i
        = (fun _ => F32.fin 0) i) := by
  have h := C7_affine_decode 6 (by omega) (by omega) (fun _ => 90) (IsBytes_const 90 (by omega))
    (F32.fin 2) (F32.fin 1) 24 (fun _ => F32.fin 0) (by omega)
  exact ⟨h.1, h.2.1⟩

end Simd
